import Mathlib

/-!
# Migration engine of `cmd/migrate` (v4 → v5)

A shallow embedding of the configuration rewriter (`cmd/migrate/access_policy.go`) and of the
state rewriter (`cmd/migrate/state.go`), followed by theorems about them.

Go strings are embedded as `List Char` (the decoded runes of a valid UTF-8 string); offsets into
a string are byte offsets, computed from the UTF-8 width of every rune.
-/

namespace Migrate

/-! ## The regular expressions of `access_policy.go`

The Go `regexp` package gives leftmost-first semantics: among the matches that start at the
leftmost possible offset it returns the one a backtracking matcher finds first, every `*` and `+`
being greedy.  The four expressions of the rewriter only use literal characters, the classes
`\s`, `[^\]]`, `[^"]`, greedy `*` and `+` over a class, and one capturing group, so the embedding
is a backtracking matcher for exactly that fragment. -/

/-- A set of characters as written in a pattern. -/
inductive CharClass where
  /-- A literal character. -/
  | lit (c : Char)
  /-- The class `\s`, which in Go syntax is `[\t\n\f\r ]`. -/
  | space
  /-- A negated one-character class such as `[^"]`; it also matches a newline. -/
  | notChar (c : Char)
  deriving DecidableEq, Repr

/-- Membership of a character in a class. -/
def CharClass.test : CharClass → Char → Bool
  | .lit c, x => x == c
  | .space, x => x == ' ' || x == '\t' || x == '\n' || x == '\x0c' || x == '\r'
  | .notChar c, x => x != c

/-- One item of a pattern. -/
inductive Atom where
  /-- Exactly one character of the class. -/
  | one (cc : CharClass)
  /-- Greedy `*` over the class. -/
  | star (cc : CharClass)
  /-- Greedy `+` over the class. -/
  | plus (cc : CharClass)
  /-- The opening parenthesis of the capturing group. -/
  | capOpen
  /-- The closing parenthesis of the capturing group. -/
  | capClose
  deriving DecidableEq, Repr

/-- A pattern is the sequence of its items. -/
abbrev Regex := List Atom

/-- The result of a successful match: the text of group 1 and the input left after the match. -/
structure Match where
  /-- Text captured by group 1 (empty when the pattern has no group). -/
  cap : List Char
  /-- Input that follows the end of the match. -/
  rest : List Char
  deriving DecidableEq, Repr

/-- Greedy repetition: consume as many characters of the class as possible, then give back one
character at a time until the continuation `k` succeeds. -/
def starGreedy (cc : CharClass) (k : List Char → Option Match) : List Char → Option Match
  | [] => k []
  | c :: cs =>
    if cc.test c then
      match starGreedy cc k cs with
      | some m => some m
      | none => k (c :: cs)
    else k (c :: cs)

/-- Match a pattern at the start of the input.  `o` is the input as it stood at the opening
parenthesis of the group, `cap` the text captured so far. -/
def matchAtoms : Regex → List Char → List Char → List Char → Option Match
  | [], _, cap, s => some ⟨cap, s⟩
  | .one cc :: r, o, cap, s =>
    match s with
    | [] => none
    | c :: cs => if cc.test c then matchAtoms r o cap cs else none
  | .star cc :: r, o, cap, s => starGreedy cc (matchAtoms r o cap) s
  | .plus cc :: r, o, cap, s =>
    match s with
    | [] => none
    | c :: cs => if cc.test c then starGreedy cc (matchAtoms r o cap) cs else none
  | .capOpen :: r, _, cap, s => matchAtoms r s cap s
  | .capClose :: r, o, _, s => matchAtoms r o (o.take (o.length - s.length)) s

/-- Leftmost match: try every start offset in turn, `pos` being the byte offset of the current
one. -/
def findFrom (re : Regex) : List Char → Nat → Option (Nat × Match)
  | [], pos => (matchAtoms re [] [] []).map fun m => (pos, m)
  | c :: cs, pos =>
    match matchAtoms re [] [] (c :: cs) with
    | some m => some (pos, m)
    | none => findFrom re cs (pos + c.utf8Size)

/-- The method `Regexp.MatchString`. -/
def matchString (re : Regex) (s : List Char) : Bool :=
  (findFrom re s 0).isSome

/-- The method `Regexp.FindStringIndex`, reduced to `loc[0]`, the start of the leftmost match. -/
def findStringIndex (re : Regex) (s : List Char) : Option Nat :=
  (findFrom re s 0).map fun r => r.1

/-- The method `Regexp.FindStringSubmatch`, reduced to `matches[1]`, the text of group 1 of the
leftmost match. -/
def findStringSubmatch (re : Regex) (s : List Char) : Option (List Char) :=
  (findFrom re s 0).map fun r => r.2.cap

/-- Successive non-overlapping matches, each search starting where the previous match ended. -/
def findAllFuel (re : Regex) : Nat → List Char → List (List Char)
  | 0, _ => []
  | fuel + 1, s =>
    match findFrom re s 0 with
    | none => []
    | some r => r.2.cap :: findAllFuel re fuel r.2.rest

/-- The method `Regexp.FindAllStringSubmatch(s, -1)`, reduced to the group-1 text of every match.
It is used with a pattern whose matches are never empty, so every match consumes input and
`s.length + 1` rounds are enough. -/
def findAllStringSubmatch (re : Regex) (s : List Char) : List (List Char) :=
  findAllFuel re (s.length + 1) s

/-- The literal characters of a name, as pattern items. -/
def lits (s : List Char) : Regex :=
  s.map fun c => Atom.one (.lit c)

/-- The pattern `\s*attr\s*=\s*true`. -/
def boolPattern (attr : List Char) : Regex :=
  [.star .space] ++ lits attr ++ [.star .space, .one (.lit '='), .star .space] ++
    lits "true".toList

/-- The pattern `\s*attr\s*=\s*\[\s*([^\]]+)\s*\]`. -/
def listPattern (attr : List Char) : Regex :=
  [.star .space] ++ lits attr ++
    [.star .space, .one (.lit '='), .star .space, .one (.lit '['), .star .space,
     .capOpen, .plus (.notChar ']'), .capClose, .star .space, .one (.lit ']')]

/-- The pattern `\s*attr\s*=\s*"([^"]+)"`. -/
def singlePattern (attr : List Char) : Regex :=
  [.star .space] ++ lits attr ++
    [.star .space, .one (.lit '='), .star .space, .one (.lit '"'),
     .capOpen, .plus (.notChar '"'), .capClose, .one (.lit '"')]

/-- The pattern `"([^"]+)"`. -/
def valuePattern : Regex :=
  [.one (.lit '"'), .capOpen, .plus (.notChar '"'), .capClose, .one (.lit '"')]

/-! ## `transformConditionString` -/

/-- The map `listAttrs`: list-valued sub-attribute ↦ nested key. -/
def listAttrs : List (List Char × List Char) :=
  [("email".toList, "email".toList),
   ("email_domain".toList, "domain".toList),
   ("email_list".toList, "id".toList),
   ("ip".toList, "ip".toList),
   ("ip_list".toList, "id".toList),
   ("service_token".toList, "token_id".toList),
   ("group".toList, "id".toList),
   ("geo".toList, "country_code".toList),
   ("login_method".toList, "id".toList),
   ("device_posture".toList, "integration_uid".toList)]

/-- The slice `allPossibleAttrs`, in the order of the source. -/
def allPossibleAttrs : List (List Char) :=
  ["email".toList, "email_domain".toList, "ip".toList, "everyone".toList,
   "any_valid_service_token".toList, "geo".toList, "certificate".toList, "email_list".toList,
   "ip_list".toList, "service_token".toList, "group".toList, "login_method".toList,
   "device_posture".toList, "common_name".toList, "auth_method".toList]

/-- The test `attr == "everyone" || attr == "certificate" || attr == "any_valid_service_token"`. -/
def isBoolAttr (attr : List Char) : Bool :=
  attr == "everyone".toList || attr == "certificate".toList ||
    attr == "any_valid_service_token".toList

/-- The test `attr == "common_name" || attr == "auth_method"`. -/
def isStringAttr (attr : List Char) : Bool :=
  attr == "common_name".toList || attr == "auth_method".toList

/-- The lookup `listAttrs[attr]`. -/
def nestedKeyOf (attr : List Char) : Option (List Char) :=
  (listAttrs.find? fun kv => kv.1 == attr).map fun kv => kv.2

/-- One entry of `attrPositions`. -/
structure AttrPosition where
  /-- Sub-attribute name. -/
  name : List Char
  /-- Byte offset of the leftmost match of its pattern. -/
  pos : Nat
  deriving DecidableEq, Repr

/-- Body of the first loop: the pattern chosen for `attr` and the start of its leftmost match in
`content`, if it matches.  For a list-valued name the list pattern is tried first and the
single-value pattern only when the list pattern does not match. -/
def attrPositionOf (content : List Char) (attr : List Char) : Option AttrPosition :=
  let pattern : Option Regex :=
    if isBoolAttr attr then some (boolPattern attr)
    else if (nestedKeyOf attr).isSome then
      if matchString (listPattern attr) content then some (listPattern attr)
      else some (singlePattern attr)
    else if isStringAttr attr then some (singlePattern attr)
    else none
  match pattern with
  | none => none
  | some p => (findStringIndex p content).map fun i => ⟨attr, i⟩

/-- The first loop, over a name table `attrs`. -/
def findAttrPositions (attrs : List (List Char)) (content : List Char) : List AttrPosition :=
  attrs.filterMap (attrPositionOf content)

/-- Insert an entry before the first entry with a strictly larger offset. -/
def insertByPos (a : AttrPosition) : List AttrPosition → List AttrPosition
  | [] => [a]
  | b :: l => if a.pos < b.pos then a :: b :: l else b :: insertByPos a l

/-- The call `sort.Slice(attrPositions, less)` with `less` comparing offsets.  The entries found
for distinct names have distinct offsets, so every sorting algorithm gives the same order. -/
def sortByPos : List AttrPosition → List AttrPosition
  | [] => []
  | a :: l => insertByPos a (sortByPos l)

/-- The call `fmt.Sprintf("    { %s = { %s = \"%s\" } }", attr, nestedKey, value)`. -/
def conditionLine (attr nestedKey value : List Char) : List Char :=
  "    \x7b ".toList ++ attr ++ " = \x7b ".toList ++ nestedKey ++ " = \"".toList ++ value ++
    "\" \x7d \x7d".toList

/-- Body of the second loop: the condition objects appended for one sub-attribute. -/
def emitAttr (content : List Char) (attr : List Char) : List (List Char) :=
  if isBoolAttr attr then
    if matchString (boolPattern attr) content then
      ["    \x7b ".toList ++ attr ++ " = \x7b\x7d \x7d".toList]
    else []
  else
    match nestedKeyOf attr with
    | some nestedKey =>
      (match findStringSubmatch (listPattern attr) content with
        | some valueString =>
          (findAllStringSubmatch valuePattern valueString).map (conditionLine attr nestedKey)
        | none => []) ++
      (match findStringSubmatch (singlePattern attr) content with
        | some value => [conditionLine attr nestedKey value]
        | none => [])
    | none =>
      if isStringAttr attr then
        match findStringSubmatch (singlePattern attr) content with
        | some value => if value ≠ [] then [conditionLine attr attr value] else []
        | none => []
      else []

/-- The slice `conditionObjects` after the second loop, for a name table `attrs`. -/
def conditionObjectsWith (attrs : List (List Char)) (content : List Char) : List (List Char) :=
  (sortByPos (findAttrPositions attrs content)).flatMap fun p => emitAttr content p.name

/-- The call `strings.Join(elems, sep)`. -/
def joinWith (sep : List Char) : List (List Char) → List Char
  | [] => []
  | [x] => x
  | x :: y :: l => x ++ sep ++ joinWith sep (y :: l)

/-- The function `transformConditionString`, for a name table `attrs`. -/
def transformConditionStringWith (attrs : List (List Char)) (content : List Char) : List Char :=
  if !content.contains '\x7b' then content
  else
    let conditionObjects := conditionObjectsWith attrs content
    if conditionObjects.length = 0 then content
    else "[\n".toList ++ joinWith ",\n".toList conditionObjects ++ "\n  ]".toList

/-- The function `transformConditionString`. -/
def transformConditionString (content : List Char) : List Char :=
  transformConditionStringWith allPossibleAttrs content

/-- A lexical token of the configuration document: its type and its bytes. -/
structure Token where
  /-- True for the type `hclsyntax.TokenEOF`. -/
  isEOF : Bool
  /-- The field `Bytes`. -/
  bytes : List Char
  deriving DecidableEq, Repr

/-- The function `transformConditionListTokens`: `none` is the Go `nil`, which makes the caller
keep the attribute as it is. -/
def transformConditionListTokens (tokens : List Token) : Option (List Token) :=
  let originalContent := tokens.flatMap fun t => t.bytes
  let transformedContent := transformConditionString originalContent
  if originalContent = transformedContent then none
  else some [⟨true, transformedContent⟩]

/-! ## JSON values and the document accessor

The state rewriter reads and edits the state document through `gjson.Get`, `sjson.Set` and
`sjson.Delete`.  The embedding works on the parsed tree. -/

/-- A JSON value; also a Go `interface{}` obtained with `Result.Value()`.  An object is the
sequence of its members; a Go map is an object whose member order carries no meaning.  A number
is the rational it denotes: the numbers of a text are any rationals, those of a Go value are
float64 values (`float64` and `stored` give the Go value read from a text). -/
inductive JSON where
  | null
  | bool (b : Bool)
  | num (q : ℚ)
  | str (s : String)
  | arr (xs : List JSON)
  | obj (kvs : List (String × JSON))

/-- The index expression `m[key]` on a Go map, and member lookup in a JSON object. -/
def lookupKey (key : String) : List (String × JSON) → Option JSON
  | [] => none
  | (k, v) :: kvs => if k = key then some v else lookupKey key kvs

/-- Remove a member from an object: the statement `delete(m, key)` on a Go map, and what
`sjson.Delete` does to the member that `gjson` finds, the first of that name. -/
def eraseKey (key : String) : List (String × JSON) → List (String × JSON)
  | [] => []
  | (k, v) :: kvs => if k = key then kvs else (k, v) :: eraseKey key kvs

/-- Replace the value of an existing member by `f` of it. -/
def updateKey (key : String) (f : JSON → Option JSON) :
    List (String × JSON) → Option (List (String × JSON))
  | [] => some []
  | (k, v) :: kvs =>
    if k = key then (f v).map fun w => (k, w) :: kvs
    else (updateKey key f kvs).map fun r => (k, v) :: r

/-- Replace the element of an array at an index by `f` of it. -/
def updateAt (f : JSON → Option JSON) : Nat → List JSON → Option (List JSON)
  | _, [] => some []
  | 0, x :: xs => (f x).map fun w => w :: xs
  | i + 1, x :: xs => (updateAt f i xs).map fun r => x :: r

/-- A path part read as an array index: decimal digits only (no digit at all reads as 0). -/
def parseIndex (part : String) : Option Nat :=
  part.data.foldl
    (fun acc c => acc.bind fun n =>
      if '0' ≤ c ∧ c ≤ '9' then some (n * 10 + (c.toNat - '0'.toNat)) else none)
    (some 0)

/-- The value `sjson` builds for a path that does not exist yet: an object for a key, an array
padded with `null` for an index. -/
def createPath : List String → JSON → JSON
  | [], v => v
  | k :: ks, v =>
    match parseIndex k with
    | some i => .arr (List.replicate i .null ++ [createPath ks v])
    | none => .obj [(k, createPath ks v)]

/-- The call `gjson.Get(json, path)` on the parsed tree; `none` is a result that does not
exist.  A path is the list of its dot-separated parts. -/
def getPath : List String → JSON → Option JSON
  | [], j => some j
  | k :: ks, .obj kvs => (lookupKey k kvs).bind (getPath ks)
  | k :: ks, .arr xs => (parseIndex k).bind fun i => xs[i]?.bind (getPath ks)
  | _ :: _, _ => none

/-- The call `sjson.Set(json, path, value)` on the parsed tree; `none` is an error.  An existing
member or element is replaced in place, a missing one is appended, a value that is neither an
object nor an array gives way to a new container. -/
def setPath : List String → JSON → JSON → Option JSON
  | [], v, _ => some v
  | k :: ks, v, .obj kvs =>
    match lookupKey k kvs with
    | some _ => (updateKey k (setPath ks v) kvs).map .obj
    | none => some (.obj (kvs ++ [(k, createPath ks v)]))
  | k :: ks, v, .arr xs =>
    match parseIndex k with
    | some i =>
      if i < xs.length then (updateAt (setPath ks v) i xs).map .arr
      else some (.arr (xs ++ List.replicate (i - xs.length) .null ++ [createPath ks v]))
    | none => none
  | k :: ks, v, _ => some (createPath (k :: ks) v)

/-- The call `sjson.Delete(json, path)` on the parsed tree, for a path of member names and array
indices; a path that does not exist leaves the document unchanged. -/
def deletePath : List String → JSON → JSON
  | [], j => j
  | [k], .obj kvs => .obj (eraseKey k kvs)
  | [k], .arr xs =>
    match parseIndex k with
    | some i => .arr (xs.eraseIdx i)
    | none => .arr xs
  | k :: k2 :: ks, .obj kvs =>
    match updateKey k (fun c => some (deletePath (k2 :: ks) c)) kvs with
    | some r => .obj r
    | none => .obj kvs
  | k :: k2 :: ks, .arr xs =>
    match parseIndex k with
    | some i =>
      (match updateAt (fun c => some (deletePath (k2 :: ks) c)) i xs with
        | some r => .arr r
        | none => .arr xs)
    | none => .arr xs
  | _ :: _, j => j

/-- A state document while it is rewritten.  `none` is the empty string that
`json, _ = sjson.Set(...)` leaves in `json` when the call fails. -/
abbrev Doc := Option JSON

/-- The call `gjson.Get` on a document. -/
def Doc.get (d : Doc) (path : List String) : Option JSON :=
  d.bind (getPath path)

/-- The statement `json, _ = sjson.Set(json, path, value)`, for `v` the tree that is written: a
string, or a Go value, whose numbers are float64 values already.  A value read from the text
with `Result.Value()` is written with `Doc.setValue`, which first reads its numbers as
float64. -/
def Doc.set (d : Doc) (path : List String) (v : JSON) : Doc :=
  match d with
  | some j => setPath path v j
  | none => some (createPath path v)

/-- The statement `json, _ = sjson.Delete(json, path)`. -/
def Doc.delete (d : Doc) (path : List String) : Doc :=
  d.map (deletePath path)

/-! ## `transformConditionObject` -/

/-- The inner loops of the list-valued cases: one object `{attr: {nested: s}}` for every element
of the list that is a string; other elements are skipped. -/
def expandList (attr nested : String) : JSON → List JSON
  | .arr xs => xs.filterMap fun x =>
      match x with
      | .str s => some (.obj [(attr, .obj [(nested, .str s)])])
      | _ => none
  | _ => []

/-- The statement `if s, ok := m[key].(string); ok { obj[key] = s }` of the identity-provider
cases. -/
def copyString (key : String) (m : List (String × JSON)) : List (String × JSON) :=
  match lookupKey key m with
  | some (.str s) => [(key, .str s)]
  | _ => []

/-- The statement that turns the list field `field` of an identity-provider block into the
scalar member `target`: only element 0 of the list is read. -/
def copyFirst (field target : String) (m : List (String × JSON)) : List (String × JSON) :=
  match lookupKey field m with
  | some (.arr (.str s :: _)) => [(target, .str s)]
  | _ => []

/-- The identity-provider cases share one shape: the value must be a non-empty list whose
element 0 is an object; `build` makes the members of the emitted object from it. -/
def expandProvider (typeKey : String)
    (build : List (String × JSON) → List (String × JSON)) : JSON → List JSON
  | .arr (.obj firstItem :: _) => [.obj [(typeKey, .obj (build firstItem))]]
  | _ => []

/-- Body of the `switch attrName` statement of `transformConditionObject`: the objects appended
for one attribute of the condition.  The members of an emitted identity-provider object are
listed in the order of the assignments of the source. -/
def transformAttr (attrName : String) (value : JSON) : List JSON :=
  match attrName with
  | "everyone" | "certificate" | "any_valid_service_token" =>
    (match value with
      | .bool true => [.obj [(attrName, .obj [])]]
      | _ => [])
  | "email" => expandList "email" "email" value
  | "email_domain" => expandList "email_domain" "domain" value
  | "email_list" => expandList "email_list" "id" value
  | "ip" => expandList "ip" "ip" value
  | "ip_list" => expandList "ip_list" "id" value
  | "service_token" => expandList "service_token" "token_id" value
  | "group" => expandList "group" "id" value
  | "geo" => expandList "geo" "country_code" value
  | "login_method" => expandList "login_method" "id" value
  | "device_posture" => expandList "device_posture" "integration_uid" value
  | "common_name" =>
    (match value with
      | .str s => [.obj [("common_name", .obj [("common_name", .str s)])]]
      | _ => [])
  | "auth_method" =>
    (match value with
      | .str s => [.obj [("auth_method", .obj [("auth_method", .str s)])]]
      | _ => [])
  | "github" =>
    expandProvider "github_organization"
      (fun m => copyString "name" m ++ copyString "identity_provider_id" m ++
        copyFirst "teams" "team" m) value
  | "azure" =>
    expandProvider "azure_ad"
      (fun m => copyString "identity_provider_id" m ++ copyFirst "id" "id" m) value
  | "gsuite" =>
    expandProvider "gsuite"
      (fun m => copyString "identity_provider_id" m ++ copyFirst "email" "email" m) value
  | "okta" =>
    expandProvider "okta"
      (fun m => copyString "identity_provider_id" m ++ copyFirst "name" "name" m) value
  | "saml" | "external_evaluation" | "auth_context" =>
    (match value with
      | .obj objVal => [.obj [(attrName, .obj objVal)]]
      | _ => [])
  | _ => []

/-- The function `transformConditionObject`.  The argument is the condition map as the sequence
of entries that `range condition` yields; Go fixes no iteration order, so every ordering of the
entries of a map is a possible argument. -/
def transformConditionObject (condition : List (String × JSON)) : List JSON :=
  condition.flatMap fun kv => transformAttr kv.1 kv.2

/-! ## `transformZeroTrustAccessPolicyStateJSON` -/

/-- The assignment `m[key] = v` on a Go map. -/
def assignKey (key : String) (v : JSON) (m : List (String × JSON)) : List (String × JSON) :=
  match lookupKey key m with
  | some _ => (updateKey key (fun _ => some v) m).getD m
  | none => m ++ [(key, v)]

/-- The type assertion `x.Value().(map[string]interface{})`; `none` is the run-time panic of an
assertion that fails. -/
def assertObject : JSON → Option (List (String × JSON))
  | .obj kvs => some kvs
  | _ => none

/-- A loop that appends `f x` for every element in turn and panics (`none`) at the first element
on which `f` panics. -/
def mapOrPanic {α β : Type} (f : α → Option β) : List α → Option (List β)
  | [] => some []
  | x :: xs => (f x).bind fun y => (mapOrPanic f xs).map fun ys => y :: ys

/-- Body of the loop over `approvalGroup.Array()`, on the Go value of a group: every number
that `gjson` yields is a `float64`, so the branch `.(float64)` is taken and `approvals_needed`
is stored back as the Go value holds it.  The reading of the text as float64, which comes
before this loop, is `stored`; `migrateApprovalGroup64` applies it. -/
def convertApprovalGroup (group : JSON) : Option JSON :=
  (assertObject group).map fun groupObj =>
    match lookupKey "approvals_needed" groupObj with
    | some (.num q) => .obj (assignKey "approvals_needed" (.num q) groupObj)
    | _ => .obj groupObj

/-- Step 1 of `transformZeroTrustAccessPolicyStateJSON`. -/
def migrateApprovalGroup (attrPath : List String) (json : Doc) : Option Doc :=
  match json.get (attrPath ++ ["approval_group"]) with
  | some (.arr groups) =>
    (if groups.length > 0 then
      (mapOrPanic convertApprovalGroup groups).map fun approvalGroups =>
        json.set (attrPath ++ ["approval_groups"]) (.arr approvalGroups)
    else some json).map fun j => j.delete (attrPath ++ ["approval_group"])
  | _ => some json

/-- Body of the loop over `conditionAttrs`, for one attribute name.  `iter` is the order in which
the Go run time iterates a condition map. -/
def migrateConditionAttr (iter : List (String × JSON) → List (String × JSON))
    (attrPath : List String) (json : Doc) (attrName : String) : Option Doc :=
  match json.get (attrPath ++ [attrName]) with
  | some (.arr conditions) =>
    (mapOrPanic (fun c => (assertObject c).map fun m => transformConditionObject (iter m))
        conditions).map
      fun parts =>
        let transformedConditions := parts.flatten
        if transformedConditions.length > 0 then
          json.set (attrPath ++ [attrName]) (.arr transformedConditions)
        else json
  | _ => some json

/-- Step 3: the deletion of the attributes without a v5 equivalent. -/
def deleteUnsupported (attrPath : List String) (json : Doc) : Doc :=
  ["zone_id", "application_id", "precedence", "connection_rules"].foldl
    (fun j attr => j.delete (attrPath ++ [attr])) json

/-- Step 4: the default `session_duration`, set when the key does not exist. -/
def defaultSessionDuration (attrPath : List String) (json : Doc) : Doc :=
  match json.get (attrPath ++ ["session_duration"]) with
  | none => json.set (attrPath ++ ["session_duration"]) (.str "24h")
  | some _ => json

/-- The function `transformZeroTrustAccessPolicyStateJSON`.  The outer `none` is a run-time
panic; `iter` is the iteration order of condition maps. -/
def transformZeroTrustAccessPolicyStateJSON (iter : List (String × JSON) → List (String × JSON))
    (json : Doc) (instancePath : List String) : Option Doc :=
  let attrPath := instancePath ++ ["attributes"]
  (migrateApprovalGroup attrPath json).bind fun j1 =>
    (["include", "exclude", "require"].foldlM (migrateConditionAttr iter attrPath) j1).map
      fun j2 => defaultSessionDuration attrPath (deleteUnsupported attrPath j2)

/-! ## Input texts: grouped blocks of the v4 shape

These definitions are not part of the program: they describe the attribute texts on which the
configuration rewriter is specified, and the condition objects expected for them. -/

/-- A sub-attribute as it is written inside a grouped block of the v4 shape. -/
inductive Entry where
  /-- A boolean flag: `name = true` or `name = false`. -/
  | flag (name : List Char) (value : Bool)
  /-- A list of quoted values: `name = ["v1", ..., "vN"]`. -/
  | list (name : List Char) (values : List (List Char))
  /-- A single quoted value: `name = "v"`. -/
  | single (name : List Char) (value : List Char)

/-- The name of a sub-attribute. -/
def Entry.name : Entry → List Char
  | .flag n _ => n
  | .list n _ => n
  | .single n _ => n

/-- A quoted value. -/
def quote (v : List Char) : List Char := '"' :: (v ++ ['"'])

/-- The text right of the equals sign. -/
def Entry.rhs : Entry → List Char
  | .flag _ true => "true".toList
  | .flag _ false => "false".toList
  | .list _ vs => '[' :: (joinWith ", ".toList (vs.map quote) ++ [']'])
  | .single _ v => quote v

/-- The text of a sub-attribute: `name = rhs`. -/
def Entry.render (e : Entry) : List Char :=
  e.name ++ (' ' :: '=' :: ' ' :: e.rhs)

/-- The attribute text made of one grouped block `[{ e1, ..., en }]`. -/
def blockText (es : List Entry) : List Char :=
  "[\x7b ".toList ++ joinWith ", ".toList (es.map Entry.render) ++ " \x7d]".toList

/-- The nested key of the objects emitted for a name: the entry of `listAttrs`, or the name
itself for `common_name` and `auth_method`. -/
def keyOf (name : List Char) : List Char :=
  (nestedKeyOf name).getD name

/-- The condition objects a sub-attribute stands for. -/
def Entry.objects : Entry → List (List Char)
  | .flag n true => ["    \x7b ".toList ++ n ++ " = \x7b\x7d \x7d".toList]
  | .flag _ false => []
  | .list n vs => vs.map (conditionLine n (keyOf n))
  | .single n v => [conditionLine n (keyOf n) v]

/-- A value the positional scan reads back as written: not empty and free of `"`, `]`, `=`. -/
def GoodValue (v : List Char) : Prop :=
  v ≠ [] ∧ '"' ∉ v ∧ ']' ∉ v ∧ '=' ∉ v

/-- A sub-attribute with a known name, written in a shape that its name admits. -/
def Entry.WF : Entry → Prop
  | .flag n _ => isBoolAttr n = true
  | .list n vs => (nestedKeyOf n).isSome = true ∧ vs ≠ [] ∧ ∀ v ∈ vs, GoodValue v
  | .single n v => ((nestedKeyOf n).isSome = true ∨ isStringAttr n = true) ∧ GoodValue v

/-- A grouped block of distinct known sub-attributes, each written once. -/
def BlockWF (es : List Entry) : Prop :=
  es ≠ [] ∧ (∀ e ∈ es, e.WF) ∧ (es.map Entry.name).Nodup

/-- The length of a string in bytes. -/
def byteLen (s : List Char) : Nat := (s.map Char.utf8Size).sum

/-- The common shape `\s*attr\s*=\s*` followed by `tl` of the three patterns built on a name. -/
def attrPattern (attr : List Char) (tl : Regex) : Regex :=
  .star .space :: (lits attr ++ .star .space :: .one (.lit '=') :: .star .space :: tl)

/-- All characters are white space. -/
def AllSpace (w : List Char) : Prop := ∀ c ∈ w, CharClass.space.test c = true

/-- Entries after the first one, each with its separator. -/
def sepChunks (es : List Entry) : List Char :=
  es.flatMap fun e => ',' :: ' ' :: e.render

/-- Text of the block before the space that leads an entry, `es1` being the entries before. -/
def before : List Entry → List Char
  | [] => "[\x7b".toList
  | e0 :: es1 => "[\x7b ".toList ++ e0.render ++ sepChunks es1 ++ [',']

/-- Text of the block after an entry, `es2` being the entries after it. -/
def sfx (es2 : List Entry) : List Char :=
  sepChunks es2 ++ " \x7d]".toList

/-- The characters of the known names: lower-case letters and the underscore. -/
def nameChar (c : Char) : Bool :=
  ('a' ≤ c && c ≤ 'z') || c == '_'

/-- The three shapes in which the positional scan reads a sub-attribute. -/
inductive Kind where
  /-- Read by `boolPattern`. -/
  | bool
  /-- Read by `listPattern`. -/
  | list
  /-- Read by `singlePattern`. -/
  | single
  deriving DecidableEq, Repr

/-- The part of a pattern after `\s*attr\s*=\s*`. -/
def tailOf : Kind → Regex
  | .bool => lits "true".toList
  | .list =>
    [.one (.lit '['), .star .space, .capOpen, .plus (.notChar ']'), .capClose, .star .space,
     .one (.lit ']')]
  | .single => [.one (.lit '"'), .capOpen, .plus (.notChar '"'), .capClose, .one (.lit '"')]

/-- The shape in which an entry is read; a flag written `false` is read by no pattern. -/
def Entry.kind : Entry → Option Kind
  | .flag _ true => some .bool
  | .flag _ false => none
  | .list _ _ => some .list
  | .single _ _ => some .single

/-- The text group 1 captures on an entry (empty for a flag, whose pattern has no group). -/
def Entry.captured : Entry → List Char
  | .flag _ _ => []
  | .list _ vs => joinWith ", ".toList (vs.map quote)
  | .single _ v => v

/-- The entries of a block that the positional scan finds, each with the byte offset of the
space that leads it, in the order of the block; `done` holds the entries already passed. -/
def entryPositions (done : List Entry) : List Entry → List AttrPosition
  | [] => []
  | e :: rest =>
    (if e.kind.isSome then [⟨e.name, byteLen (before done)⟩] else []) ++
      entryPositions (done ++ [e]) rest

/-! ## Tables read off the `switch` of `transformConditionObject` -/

/-- The list-valued cases of the `switch`, each with the nested key its objects are built
with. -/
def stateListAttrs : List (String × String) :=
  [("email", "email"), ("email_domain", "domain"), ("email_list", "id"), ("ip", "ip"),
   ("ip_list", "id"), ("service_token", "token_id"), ("group", "id"), ("geo", "country_code"),
   ("login_method", "id"), ("device_posture", "integration_uid")]

/-- The names of the first case of the `switch`: the boolean flags. -/
def stateFlagNames : List String :=
  ["everyone", "certificate", "any_valid_service_token"]

/-- The number of elements of a list that are JSON strings. -/
def countStrings : List JSON → Nat
  | [] => 0
  | .str _ :: xs => countStrings xs + 1
  | _ :: xs => countStrings xs

/-- The case labels of the `switch` of `transformConditionObject`: the attribute names the
function knows. -/
def stateKnownKeys : List String :=
  ["everyone", "certificate", "any_valid_service_token", "email", "email_domain", "email_list",
   "ip", "ip_list", "service_token", "group", "geo", "login_method", "device_posture",
   "common_name", "auth_method", "github", "azure", "gsuite", "okta", "saml",
   "external_evaluation", "auth_context", "common_names"]

/-- The document `d` holds, at path `P`, the object with the members `kvs`. -/
def Focus (P : List String) (d : Doc) (kvs : List (String × JSON)) : Prop :=
  ∃ j, d = some j ∧ getPath P j = some (.obj kvs)

/-- The document `d'` is the document `d` with the tree `x` at path `P` replaced by `y`. -/
def Puts (P : List String) (d d' : Doc) (x y : JSON) : Prop :=
  ∃ j, d = some j ∧ getPath P j = some x ∧ d' = setPath P y j

/-! ## Load balancer and load balancer pool state

The definitions of this section are on the tree as `gjson` reads it, in which every number is
a float64 value already: there `Result.Value()` followed by the serialisation of `sjson.Set`
gives back the tree it was read from (the order of the members of an object and the spelling of
a number are not part of the tree).  The section on numbers as `gjson` reads them has the same
rewriters on the tree of the text, whose numbers are any rationals. -/

/-- The decimal digit `d`. -/
def digitChar (d : Nat) : Char := Char.ofNat (48 + d)

/-- The decimal digits of `n`, most significant first; `fuel` bounds the number of digits. -/
def formatIndexFuel : Nat → Nat → List Char
  | 0, n => [digitChar (n % 10)]
  | fuel + 1, n =>
    if n < 10 then [digitChar n] else formatIndexFuel fuel (n / 10) ++ [digitChar (n % 10)]

/-- The path part `fmt.Sprintf("%d", idx.Int())` of an array index. -/
def formatIndex (n : Nat) : String := String.mk (formatIndexFuel n n)

/-- Steps 1 and 2 of `transformLoadBalancerPoolStateJSON`, for the attribute `attr`: an empty
array is deleted, any other array gives way to its element 0. -/
def unwrapSingleton (attrPath : List String) (attr : String) (json : Doc) : Doc :=
  match json.get (attrPath ++ [attr]) with
  | some (.arr []) => json.delete (attrPath ++ [attr])
  | some (.arr (first :: _)) => json.set (attrPath ++ [attr]) first
  | _ => json

/-- The tests `h.Get("header").String() == "Host"` and `values.Exists()` on a header `h`: the
value of `values` when both pass. -/
def hostValues (h : JSON) : Option JSON :=
  match getPath ["header"] h with
  | some (.str s) => if s = "Host" then getPath ["values"] h else none
  | _ => none

/-- Body of the `ForEach` loop of step 3 of `transformLoadBalancerPoolStateJSON`: `origin` is
element `idx` of the array read before the loop, `json` the document being rewritten. -/
def rewriteOriginHeader (attrPath : List String) (json : Doc) (idx : Nat) (origin : JSON) : Doc :=
  let originPath := attrPath ++ ["origins", formatIndex idx]
  match getPath ["header"] origin with
  | some (.arr []) => json.delete (originPath ++ ["header"])
  | some (.arr (firstHeader :: _)) =>
    (match hostValues firstHeader with
      | some values => json.set (originPath ++ ["header"]) (.obj [("host", values)])
      | none => json)
  | some (.obj header) =>
    (match lookupKey "host" header with
      | some _ => json
      | none =>
        match hostValues (.obj header) with
        | some values => json.set (originPath ++ ["header"]) (.obj [("host", values)])
        | none => json)
  | _ => json

/-- The `ForEach` loop of step 3 over the elements of `origins`, from index `idx` on. -/
def forEachOrigin (attrPath : List String) : Nat → List JSON → Doc → Doc
  | _, [], json => json
  | idx, origin :: rest, json =>
    forEachOrigin attrPath (idx + 1) rest (rewriteOriginHeader attrPath json idx origin)

/-- The function `transformLoadBalancerPoolStateJSON`. -/
def transformLoadBalancerPoolStateJSON (json : Doc) (instancePath : List String) : Doc :=
  let attrPath := instancePath ++ ["attributes"]
  let json1 := unwrapSingleton attrPath "load_shedding" json
  let json2 := unwrapSingleton attrPath "origin_steering" json1
  match json2.get (attrPath ++ ["origins"]) with
  | some (.arr origins) => forEachOrigin attrPath 0 origins json2
  | _ => json2

/-- The renaming steps of `transformLoadBalancerStateJSON`. -/
def renameAttr (attrPath : List String) (old new : String) (json : Doc) : Doc :=
  match json.get (attrPath ++ [old]) with
  | some v => (json.set (attrPath ++ [new]) v).delete (attrPath ++ [old])
  | none => json

/-- Body of the loop over `singleObjectAttrs`. -/
def deleteEmptyArray (attrPath : List String) (json : Doc) (attr : String) : Doc :=
  match json.get (attrPath ++ [attr]) with
  | some (.arr []) => json.delete (attrPath ++ [attr])
  | _ => json

/-- Body of the loop over `mapAttrs`. -/
def emptyArrayToMap (attrPath : List String) (json : Doc) (attr : String) : Doc :=
  match json.get (attrPath ++ [attr]) with
  | some (.arr []) => json.set (attrPath ++ [attr]) (.obj [])
  | _ => json

/-- The function `transformLoadBalancerStateJSON`. -/
def transformLoadBalancerStateJSON (json : Doc) (instancePath : List String) : Doc :=
  let attrPath := instancePath ++ ["attributes"]
  let json1 := renameAttr attrPath "fallback_pool_id" "fallback_pool" json
  let json2 := renameAttr attrPath "default_pool_ids" "default_pools" json1
  let json3 := ["adaptive_routing", "location_strategy", "random_steering",
    "session_affinity_attributes"].foldl (deleteEmptyArray attrPath) json2
  ["country_pools", "pop_pools", "region_pools"].foldl (emptyArrayToMap attrPath) json3

/-- The renaming steps of `transformLoadBalancerState`, on the Go map `attributes`. -/
def renameKey (old new : String) (attributes : List (String × JSON)) : List (String × JSON) :=
  match lookupKey old attributes with
  | some v => eraseKey old (assignKey new v attributes)
  | none => attributes

/-- Body of the loop over `singleObjectAttributes` of `transformLoadBalancerState`. -/
def deleteEmptySlice (attributes : List (String × JSON)) (attr : String) :
    List (String × JSON) :=
  match lookupKey attr attributes with
  | some (.arr []) => eraseKey attr attributes
  | _ => attributes

/-- Body of the loop over `mapAttributes` of `transformLoadBalancerState`. -/
def emptySliceToMap (attributes : List (String × JSON)) (attr : String) :
    List (String × JSON) :=
  match lookupKey attr attributes with
  | some (.arr []) => assignKey attr (.obj []) attributes
  | _ => attributes

/-- The function `transformLoadBalancerState`, which rewrites the Go map `attributes` in place:
the result is the map after the call.  A Go map is an object whose member names are distinct. -/
def transformLoadBalancerState (attributes : List (String × JSON)) : List (String × JSON) :=
  let a1 := renameKey "fallback_pool_id" "fallback_pool" attributes
  let a2 := renameKey "default_pool_ids" "default_pools" a1
  let a3 := ["adaptive_routing", "location_strategy", "random_steering",
    "session_affinity_attributes"].foldl deleteEmptySlice a2
  ["country_pools", "pop_pools", "region_pools"].foldl emptySliceToMap a3

/-- What the body of the `ForEach` loop of `transformLoadBalancerPoolStateJSON` does to the
element of `origins` it visits. -/
def rewrittenOrigin (origin : JSON) : JSON :=
  match origin with
  | .obj om =>
    (match lookupKey "header" om with
      | some (.arr []) => .obj (eraseKey "header" om)
      | some (.arr (firstHeader :: _)) =>
        (match hostValues firstHeader with
          | some values => .obj (assignKey "header" (.obj [("host", values)]) om)
          | none => origin)
      | some (.obj header) =>
        (match lookupKey "host" header with
          | some _ => origin
          | none =>
            match hostValues (.obj header) with
            | some values => .obj (assignKey "header" (.obj [("host", values)]) om)
            | none => origin)
      | _ => origin)
  | _ => origin

/-- What steps 1 and 2 of `transformLoadBalancerPoolStateJSON` do to the attributes object, for
the attribute `attr`. -/
def unwrappedSingleton (attr : String) (kvs : List (String × JSON)) : List (String × JSON) :=
  match lookupKey attr kvs with
  | some (.arr []) => eraseKey attr kvs
  | some (.arr (first :: _)) => assignKey attr first kvs
  | _ => kvs

/-! ## Example state documents -/

/-- The path of the first instance of the first resource of a state document. -/
def firstInstance : List String := ["resources", "0", "instances", "0"]

/-- The attributes of a v4 load balancer: two names to rename, an empty single-object attribute
and an empty map attribute. -/
def loadBalancerAttributes : List (String × JSON) :=
  [("name", .str "lb.example.com"), ("fallback_pool_id", .str "pool-1"),
   ("default_pool_ids", .arr [.str "pool-1", .str "pool-2"]), ("adaptive_routing", .arr []),
   ("country_pools", .arr []), ("region_pools", .arr [.obj [("region", .str "WNAM")]])]

/-- A state document with one v4 load balancer. -/
def loadBalancerState : Doc :=
  some (.obj [("version", .num 4), ("resources", .arr [.obj [
    ("type", .str "cloudflare_load_balancer"),
    ("instances", .arr [.obj [("attributes", .obj loadBalancerAttributes)]])]])])

/-- An origin of a v4 pool whose `header` is the empty array. -/
def originAttributes : List (String × JSON) :=
  [("name", .str "origin-1"), ("address", .str "192.0.2.1"), ("header", .arr [])]

/-- The attributes of a v4 pool: empty `load_shedding` and `origin_steering`, two origins. -/
def poolAttributes : List (String × JSON) :=
  [("name", .str "pool-1"), ("load_shedding", .arr []), ("origin_steering", .arr []),
   ("origins", .arr [.obj [("name", .str "origin-0")], .obj originAttributes])]

/-- A state document with one v4 load balancer pool. -/
def poolState : Doc :=
  some (.obj [("version", .num 4), ("resources", .arr [.obj [
    ("type", .str "cloudflare_load_balancer_pool"),
    ("instances", .arr [.obj [("attributes", .obj poolAttributes)]])]])])

/-- A state document with one v4 tiered cache resource of two instances, the first with
`cache_type = "smart"`, the second with `cache_type = "generic"`. -/
def tieredCacheDocument : JSON :=
  .obj [("version", .num 4), ("resources", .arr [.obj [
    ("type", .str "cloudflare_tiered_cache"),
    ("instances", .arr [
      .obj [("schema_version", .num 0),
        ("attributes", .obj [("cache_type", .str "smart"), ("zone_id", .str "z1")])],
      .obj [("schema_version", .num 0),
        ("attributes", .obj [("cache_type", .str "generic"), ("zone_id", .str "z2")])]])]])]

/-- The document `tieredCacheDocument` as the rewriters take it. -/
def tieredCacheState : Doc := some tieredCacheDocument

/-- The attributes of a v4 access policy: an approval group, condition rules, two attributes
without a v5 equivalent, and no `session_duration`. -/
def policyAttributes : List (String × JSON) :=
  [("name", .str "policy"), ("zone_id", .str "z1"), ("precedence", .num 1),
   ("approval_group", .arr [.obj [("approvals_needed", .num 2),
     ("email_addresses", .arr [.str "a@example.com"])]]),
   ("include", .arr [.obj [("email", .arr [.str "a@example.com", .str "b@example.com"])]])]

/-- The tree of a state document with one v4 access policy. -/
def policyDocument : JSON :=
  .obj [("version", .num 4), ("resources", .arr [.obj [
    ("type", .str "cloudflare_zero_trust_access_policy"),
    ("instances", .arr [.obj [("schema_version", .num 0),
      ("attributes", .obj policyAttributes)]])]])]

/-- A state document with one v4 access policy. -/
def policyState : Doc := some policyDocument

/-- A state document with one pool whose `load_shedding` holds an array in an array. -/
def nestedPoolState : JSON :=
  .obj [("resources", .arr [.obj [
    ("type", .str "cloudflare_load_balancer_pool"),
    ("instances", .arr [.obj [("attributes", .obj [
      ("load_shedding", .arr [.arr [.obj [("default_percent", .num 50)]]])])]])]])]

/-- A state document with one v4 pool: an identity schema version to remove, an empty
`load_shedding`, and an origin with a v4 `Host` header. -/
def poolDocument : JSON :=
  .obj [("version", .num 4), ("resources", .arr [.obj [
    ("type", .str "cloudflare_load_balancer_pool"),
    ("instances", .arr [.obj [("schema_version", .num 0), ("identity_schema_version", .num 1),
      ("attributes", .obj [("name", .str "pool-1"), ("load_shedding", .arr []),
        ("origins", .arr [.obj [("name", .str "origin-0"),
          ("header", .arr [.obj [("header", .str "Host"),
            ("values", .arr [.str "example.com"])]])]])])]])]])]

/-- A v4 `Host` header element: the header name and the list of its values. -/
def hostHeader : List (String × JSON) :=
  [("header", .str "Host"), ("values", .arr [.str "example.com"])]

/-- An origin of a v4 pool whose `header` is a one-element array with a `Host` header. -/
def hostOrigin : List (String × JSON) :=
  [("name", .str "origin-0"), ("address", .str "192.0.2.1"), ("header", .arr [.obj hostHeader])]

/-- The attributes of a v4 pool with one-element `load_shedding` and `origin_steering` and an
origin with a `Host` header. -/
def steeredPoolAttributes : List (String × JSON) :=
  [("name", .str "pool-2"), ("load_shedding", .arr [.obj [("default_percent", .num 50)]]),
   ("origin_steering", .arr [.obj [("policy", .str "random")]]),
   ("origins", .arr [.obj hostOrigin])]

/-- A state document with one v4 pool that holds `steeredPoolAttributes`. -/
def steeredPoolState : Doc :=
  some (.obj [("version", .num 4), ("resources", .arr [.obj [
    ("type", .str "cloudflare_load_balancer_pool"),
    ("instances", .arr [.obj [("attributes", .obj steeredPoolAttributes)]])]])])

/-- The attributes of a pool with an origin whose `Host` header holds a string, not a list, in
`values`. -/
def scalarHostAttributes : List (String × JSON) :=
  [("origins", .arr [.obj [("name", .str "origin-0"),
    ("header", .arr [.obj [("header", .str "Host"), ("values", .str "example.com")]])]])]

/-- A state document with one pool that holds `scalarHostAttributes`. -/
def scalarHostState : Doc :=
  some (.obj [("resources", .arr [.obj [
    ("type", .str "cloudflare_load_balancer_pool"),
    ("instances", .arr [.obj [("attributes", .obj scalarHostAttributes)]])]])])

/-- The attributes of a pool whose `load_shedding` holds a number in an array and whose origin
has a `Host` header with a string in `values`. -/
def irregularPoolAttributes : List (String × JSON) :=
  [("load_shedding", .arr [.num 50]),
   ("origins", .arr [.obj [("name", .str "origin-0"),
     ("header", .arr [.obj [("header", .str "Host"), ("values", .str "example.com")]])]])]

/-- A state document with one pool that holds `irregularPoolAttributes`. -/
def irregularPoolState : Doc :=
  some (.obj [("resources", .arr [.obj [
    ("type", .str "cloudflare_load_balancer_pool"),
    ("instances", .arr [.obj [("attributes", .obj irregularPoolAttributes)]])]])])

/-- A state document with one access policy whose `include` is `[1]`. -/
def numberIncludeState : Doc :=
  some (.obj [("resources", .arr [.obj [
    ("type", .str "cloudflare_zero_trust_access_policy"),
    ("instances", .arr [.obj [("attributes", .obj [("include", .arr [.num 1])])]])]])])

/-- A state document with one access policy whose `approval_group` is `[null]`. -/
def nullApprovalState : Doc :=
  some (.obj [("resources", .arr [.obj [
    ("type", .str "cloudflare_zero_trust_access_policy"),
    ("instances", .arr [.obj [("attributes", .obj [("approval_group", .arr [.null])])]])]])])

/-! ## Tiered cache state and the dispatcher `transformStateJSON` -/

/-- The function `transformTieredCacheStateJSON`.  `cacheType.String()` is one of the three
names of the `switch` only when the value is that JSON string. -/
def transformTieredCacheStateJSON (json : Doc) (instancePath resourcePath : List String) : Doc :=
  let attrPath := instancePath ++ ["attributes"]
  match json.get (attrPath ++ ["cache_type"]) with
  | some (.str cacheType) =>
    if cacheType = "generic" then
      (((json.set (resourcePath ++ ["type"]) (.str "cloudflare_argo_tiered_caching")).delete
        (attrPath ++ ["cache_type"])).set (attrPath ++ ["value"]) (.str "on"))
    else if cacheType = "smart" then
      ((json.delete (attrPath ++ ["cache_type"])).set (attrPath ++ ["value"]) (.str "on"))
    else if cacheType = "off" then
      ((json.delete (attrPath ++ ["cache_type"])).set (attrPath ++ ["value"]) (.str "off"))
    else json
  | _ => json

/-- The statements of `transformTieredCacheStateJSON` that rewrite the attributes: all of them
but the assignment of the resource type. -/
def rewriteCacheType (json : Doc) (instancePath : List String) : Doc :=
  let attrPath := instancePath ++ ["attributes"]
  match json.get (attrPath ++ ["cache_type"]) with
  | some (.str cacheType) =>
    if cacheType = "generic" then
      ((json.delete (attrPath ++ ["cache_type"])).set (attrPath ++ ["value"]) (.str "on"))
    else if cacheType = "smart" then
      ((json.delete (attrPath ++ ["cache_type"])).set (attrPath ++ ["value"]) (.str "on"))
    else if cacheType = "off" then
      ((json.delete (attrPath ++ ["cache_type"])).set (attrPath ++ ["value"]) (.str "off"))
    else json
  | _ => json

/-- The method `Result.ForEach` on the elements of an array: `body` gets the document being
rewritten, the index and the element. -/
def forEach (body : Doc → Nat → JSON → Doc) : Nat → List JSON → Doc → Doc
  | _, [], result => result
  | idx, value :: rest, result => forEach body (idx + 1) rest (body result idx value)

/-- The `switch resourceType` statement of `transformStateJSON`, for the instance at `path` of
the resource at `resourcePath`.  `resourceType` is the result `resource.Get("type")`, whose
`String()` is one of the names of the `switch` only when it is that JSON string. -/
def instanceStep (resourceType : Option JSON) (resourcePath path : List String)
    (result : Doc) : Doc :=
  match resourceType with
  | some (.str t) =>
    if t = "cloudflare_load_balancer_pool" then
      (transformLoadBalancerPoolStateJSON result path).delete (path ++ ["identity_schema_version"])
    else if t = "cloudflare_load_balancer" then transformLoadBalancerStateJSON result path
    else if t = "cloudflare_tiered_cache" then
      transformTieredCacheStateJSON result path resourcePath
    else result
  | _ => result

/-- Body of the loop over `resources`, for the resource at `resourcePath`: the loop over its
`instances`.  An `instances` value that is not an array has no instance to rewrite (a state
document holds a list there; a JSON object is outside this model). -/
def resourceBody (resourcePath : List String) (result : Doc) (resource : JSON) : Doc :=
  match getPath ["instances"] resource with
  | some (.arr instances) =>
    forEach (fun result iidx _ =>
        instanceStep (getPath ["type"] resource) resourcePath
          (resourcePath ++ ["instances", formatIndex iidx]) result)
      0 instances result
  | _ => result

/-- The function `transformStateJSON` on the tree of a state document; the result is the tree of
the bytes returned (the final pretty-printing does not change it).  A `resources` value that is
not an array has no resource to rewrite (a JSON object there is outside this model). -/
def transformStateJSON (data : JSON) : Doc :=
  match getPath ["resources"] data with
  | some (.arr resources) =>
    forEach (fun result ridx resource =>
        resourceBody ["resources", formatIndex ridx] result resource)
      0 resources (some data)
  | _ => some data

/-- A document whose `resources` and whose resources' `instances` are lists when present: no
JSON object stands in their place. -/
def listShaped (data : JSON) : Bool :=
  match getPath ["resources"] data with
  | some (.arr resources) =>
    resources.all fun resource =>
      match getPath ["instances"] resource with
      | some (.obj _) => false
      | _ => true
  | some (.obj _) => false
  | _ => true

/-! ## The map version of the pool rewriter -/

/-- Steps 1 and 2 of `transformLoadBalancerPoolState`, for the attribute `attr`: element 0 takes
the place of the array only when it is a map. -/
def unwrapSingletonMap (attr : String) (attributes : List (String × JSON)) :
    List (String × JSON) :=
  match lookupKey attr attributes with
  | some (.arr []) => eraseKey attr attributes
  | some (.arr (.obj firstElem :: _)) => assignKey attr (.obj firstElem) attributes
  | _ => attributes

/-- The tests of `transformLoadBalancerPoolState` on a header map: `header` is the string
`"Host"` and `values` is a `[]interface{}`. -/
def hostValuesMap (header : List (String × JSON)) : Option JSON :=
  match lookupKey "header" header with
  | some (.str headerName) =>
    if headerName = "Host" then
      (match lookupKey "values" header with
        | some (.arr values) => some (.arr values)
        | _ => none)
    else none
  | _ => none

/-- Body of the loop over `originsArray` of `transformLoadBalancerPoolState`: the element after
the turn. -/
def rewriteOriginMap (origin : JSON) : JSON :=
  match origin with
  | .obj originMap =>
    (match lookupKey "header" originMap with
      | some (.arr []) => .obj (eraseKey "header" originMap)
      | some (.arr (.obj firstHeader :: _)) =>
        (match hostValuesMap firstHeader with
          | some values => .obj (assignKey "header" (.obj [("host", values)]) originMap)
          | none => origin)
      | some (.obj headerObj) =>
        (match lookupKey "host" headerObj with
          | some _ => origin
          | none =>
            match hostValuesMap headerObj with
            | some values => .obj (assignKey "header" (.obj [("host", values)]) originMap)
            | none => origin)
      | _ => origin)
  | _ => origin

/-- The function `transformLoadBalancerPoolState`, which rewrites the Go map `attributes` and
the origin maps it holds in place: the result is the map after the call. -/
def transformLoadBalancerPoolState (attributes : List (String × JSON)) :
    List (String × JSON) :=
  let a1 := unwrapSingletonMap "load_shedding" attributes
  let a2 := unwrapSingletonMap "origin_steering" a1
  match lookupKey "origins" a2 with
  | some (.arr originsArray) => assignKey "origins" (.arr (originsArray.map rewriteOriginMap)) a2
  | _ => a2

/-! ## What the rewriters leave: the state document after `transformStateJSON` -/

/-- The attributes object of a pool after `transformLoadBalancerPoolStateJSON`. -/
def poolAttrs (kvs : List (String × JSON)) : List (String × JSON) :=
  let u := unwrappedSingleton "origin_steering" (unwrappedSingleton "load_shedding" kvs)
  match lookupKey "origins" u with
  | some (.arr origins) => assignKey "origins" (.arr (origins.map rewrittenOrigin)) u
  | _ => u

/-- The attributes object of a tiered cache after `transformTieredCacheStateJSON`. -/
def tieredAttrs (kvs : List (String × JSON)) : List (String × JSON) :=
  match lookupKey "cache_type" kvs with
  | some (.str cacheType) =>
    if cacheType = "generic" then assignKey "value" (.str "on") (eraseKey "cache_type" kvs)
    else if cacheType = "smart" then assignKey "value" (.str "on") (eraseKey "cache_type" kvs)
    else if cacheType = "off" then assignKey "value" (.str "off") (eraseKey "cache_type" kvs)
    else kvs
  | _ => kvs

/-- An instance whose attributes object, when it has one, is rewritten by `f`. -/
def withAttributes (f : List (String × JSON) → List (String × JSON)) (inst : JSON) : JSON :=
  match inst with
  | .obj ikvs =>
    (match lookupKey "attributes" ikvs with
      | some (.obj kvs) => .obj (assignKey "attributes" (.obj (f kvs)) ikvs)
      | _ => inst)
  | _ => inst

/-- An instance of a pool after its turn of `transformStateJSON`. -/
def poolInstance (inst : JSON) : JSON :=
  deletePath ["identity_schema_version"] (withAttributes poolAttrs inst)

/-- A resource with the elements of its `instances` array replaced. -/
def withInstances (instances : List JSON) (resource : JSON) : JSON :=
  match resource with
  | .obj rkvs => .obj (assignKey "instances" (.arr instances) rkvs)
  | _ => resource

/-- A resource with the type of the relabelled tiered cache. -/
def relabelled (resource : JSON) : JSON :=
  match resource with
  | .obj rkvs => .obj (assignKey "type" (.str "cloudflare_argo_tiered_caching") rkvs)
  | _ => resource

/-- An instance whose attributes hold `cache_type = "generic"`. -/
def isGenericInstance (inst : JSON) : Bool :=
  match getPath ["attributes", "cache_type"] inst with
  | some (.str cacheType) => decide (cacheType = "generic")
  | _ => false

/-- A resource after its turn of `transformStateJSON`. -/
def resourceAfter (resource : JSON) : JSON :=
  match getPath ["instances"] resource with
  | some (.arr instances) =>
    (match getPath ["type"] resource with
      | some (.str t) =>
        if t = "cloudflare_load_balancer_pool" then
          withInstances (instances.map poolInstance) resource
        else if t = "cloudflare_load_balancer" then
          withInstances (instances.map (withAttributes transformLoadBalancerState)) resource
        else if t = "cloudflare_tiered_cache" then
          withInstances (instances.map (withAttributes tieredAttrs))
            (if instances.any isGenericInstance then relabelled resource else resource)
        else resource
      | _ => resource)
  | _ => resource

/-- A state document after `transformStateJSON`. -/
def stateAfter (data : JSON) : JSON :=
  match data with
  | .obj top =>
    (match lookupKey "resources" top with
      | some (.arr resources) => .obj (assignKey "resources" (.arr (resources.map resourceAfter)) top)
      | _ => data)
  | _ => data

/-! ## State documents on which a second run changes nothing -/

/-- The member names of an object are distinct. -/
def distinctNames (kvs : List (String × JSON)) : Bool :=
  decide (kvs.map Prod.fst).Nodup

/-- The attribute `attr`, when it is an array, does not hold an array as element 0. -/
def unwrapsOnce (attr : String) (kvs : List (String × JSON)) : Bool :=
  match lookupKey attr kvs with
  | some (.arr (.arr _ :: _)) => false
  | _ => true

/-- An origin that is an object has distinct member names. -/
def regularOrigin (origin : JSON) : Bool :=
  match origin with
  | .obj om => distinctNames om
  | _ => true

/-- An attributes object with distinct member names, whose `load_shedding` and `origin_steering`
do not hold an array in an array, and whose origins are regular. -/
def regularAttrs (kvs : List (String × JSON)) : Bool :=
  distinctNames kvs && unwrapsOnce "load_shedding" kvs && unwrapsOnce "origin_steering" kvs &&
    (match lookupKey "origins" kvs with
      | some (.arr origins) => origins.all regularOrigin
      | _ => true)

/-- An instance that is an object has distinct member names and regular attributes. -/
def regularInstance (inst : JSON) : Bool :=
  match inst with
  | .obj ikvs =>
    distinctNames ikvs &&
      (match lookupKey "attributes" ikvs with
        | some (.obj kvs) => regularAttrs kvs
        | _ => true)
  | _ => true

/-- The instances of a resource are regular. -/
def regularResource (resource : JSON) : Bool :=
  match getPath ["instances"] resource with
  | some (.arr instances) => instances.all regularInstance
  | _ => true

/-- A state document as Terraform writes it: `resources` and `instances` are lists, member names
are distinct, and a block attribute of a pool holds objects, not arrays. -/
def regularState (data : JSON) : Bool :=
  listShaped data &&
    (match getPath ["resources"] data with
      | some (.arr resources) => resources.all regularResource
      | _ => true)

/-! ## The state file and its bytes

`transformStateJSON` takes the bytes of the file and hands them, unparsed, to `gjson`, `sjson`
and `pretty`.  What these calls give on a text is a parameter here; how they act on the tree of
a JSON text is the subject of the definitions above. -/

/-- What the library calls of `transformStateJSON` give on a text, whatever the text is. -/
structure TextLibrary where
  /-- The test `gjson.Get(jsonStr, "resources").Exists()`. -/
  resourcesExist : List Char → Bool
  /-- The text `result` after the two `ForEach` loops. -/
  rewriteResources : List Char → List Char
  /-- The call `pretty.PrettyOptions`. -/
  prettyOptions : List Char → List Char

/-- The function `transformStateJSON` on the bytes of a file: the bytes it returns and its
error, `none` being `nil`. -/
def transformStateJSONBytes (lib : TextLibrary) (data : List Char) :
    List Char × Option String :=
  if !lib.resourcesExist data then (data, none)
  else (lib.prettyOptions (lib.rewriteResources data), none)

/-- The function `transformStateFile`.  `read` is the result of `os.ReadFile`, `write` the error
of `os.WriteFile` on the bytes it is given (`none` being `nil`).  The result is the error
returned and the bytes handed to `os.WriteFile`, if it was called. -/
def transformStateFile (lib : TextLibrary) (read : Except String (List Char))
    (write : List Char → Option String) : Option String × Option (List Char) :=
  match read with
  | .error err => (some ("failed to read state file: " ++ err), none)
  | .ok data =>
    match transformStateJSONBytes lib data with
    | (_, some err) => (some ("failed to transform state: " ++ err), none)
    | (transformed, none) =>
      match write transformed with
      | some err => (some ("failed to write state file: " ++ err), some transformed)
      | none => (none, some transformed)

/-! ## The configuration block of an access policy -/

/-- An item of the body of an `hclwrite.Block`: an attribute, with its name, the tokens of its
expression and the comments attached to it, or anything else (a nested block, a comment, a
blank line) with its tokens. -/
inductive BodyItem where
  /-- An attribute `name = expr`. -/
  | attr (name : String) (expr : List Token) (comments : List Token)
  /-- An item that is not an attribute. -/
  | other (tokens : List Token)
  deriving DecidableEq, Repr

/-- The calls `Body().GetAttribute(name)` and `attr.Expr().BuildTokens(nil)`: the tokens of the
expression of the attribute `name`; `none` is the Go `nil` for an attribute that does not
exist. -/
def getAttribute (name : String) : List BodyItem → Option (List Token)
  | [] => none
  | .attr n expr _ :: rest => if n = name then some expr else getAttribute name rest
  | .other _ :: rest => getAttribute name rest

/-- The call `Body().SetAttributeRaw(name, tokens)`: the expression of the attribute `name` is
replaced where it stands; an attribute that does not exist is appended. -/
def setAttributeRaw (name : String) (tokens : List Token) : List BodyItem → List BodyItem
  | [] => [.attr name tokens []]
  | .attr n expr comments :: rest =>
    if n = name then .attr n tokens comments :: rest
    else .attr n expr comments :: setAttributeRaw name tokens rest
  | .other ts :: rest => .other ts :: setAttributeRaw name tokens rest

/-- Body of the loop of `transformAccessPolicyBlock`, for the attribute name `attrName`. -/
def transformConditionAttribute (body : List BodyItem) (attrName : String) : List BodyItem :=
  match getAttribute attrName body with
  | none => body
  | some tokens =>
    match transformConditionListTokens tokens with
    | some transformedTokens => setAttributeRaw attrName transformedTokens body
    | none => body

/-- The function `transformAccessPolicyBlock`, which rewrites the body of the block in place:
the result is the body after the call. -/
def transformAccessPolicyBlock (body : List BodyItem) : List BodyItem :=
  ["include", "exclude", "require"].foldl transformConditionAttribute body

/-- Two items are the same but for the expression of an attribute named in `names`. -/
def SameButExpr (names : List String) (x y : BodyItem) : Prop :=
  x = y ∨ ∃ n e e' c, n ∈ names ∧ x = .attr n e c ∧ y = .attr n e' c

/-- The body of a policy block: a comment, the name, an `include` with one grouped block, an
`exclude` that holds only a flag written `false`, and a nested block. -/
def policyBody : List BodyItem :=
  [.other [⟨false, "# managed by terraform\n".toList⟩],
   .attr "name" [⟨false, "\"policy\"".toList⟩] [],
   .attr "include" [⟨false, "[\x7b".toList⟩, ⟨false, " email = [\"a@x.com\"] \x7d]".toList⟩]
     [⟨false, "# who may enter\n".toList⟩],
   .attr "exclude" [⟨false, "[\x7b everyone = false \x7d]".toList⟩] [],
   .other [⟨false, "lifecycle \x7b \x7d\n".toList⟩]]

/-! ## Numbers as `gjson` reads them

A number of the document reaches a rewriter through `Result.Value()` as a Go `float64`, and
`sjson.Set` writes that float64 back.  The rewriters above are stated on the tree as `gjson`
reads it, where every number is already the float64 read; on such a tree a value is written
back as it was read.  The definitions of this section are the same rewriters on the tree of the
text itself: a value that comes from `Value()` is written with `Doc.setValue`, which rounds its
numbers to float64. -/

/-- The natural number nearest to `n / d`, ties to the even one. -/
def roundHalfEven (n d : Nat) : Nat :=
  let q := n / d
  let r := n % d
  if 2 * r < d then q else if d < 2 * r then q + 1 else if q % 2 = 0 then q else q + 1

/-- The number of binary digits of `n`; `fuel` bounds them. -/
def bitLength : Nat → Nat → Nat
  | 0, _ => 0
  | fuel + 1, n => if n = 0 then 0 else bitLength fuel (n / 2) + 1

/-- The binary exponent of the positive rational `n / d`: the greatest `e` with
`2 ^ e ≤ n / d`. -/
def binaryExponent (n d : Nat) : Int :=
  let e0 : Int := (bitLength n n : Int) - (bitLength d d : Int)
  if (if 0 ≤ e0 then 2 ^ e0.toNat * d ≤ n else d ≤ n * 2 ^ (-e0).toNat) then e0 else e0 - 1

/-- The call `strconv.ParseFloat(s, 64)` on the text of the number `q`, as a rational: the
float64 nearest to `q`, ties to the even mantissa, with 53 binary digits from the exponent
`-1022` up; `none` is an infinity, for a number whose rounding reaches `2 ^ 1024`. -/
def float64 (q : ℚ) : Option ℚ :=
  if q.num = 0 then some 0 else
  let n := q.num.natAbs
  let d := q.den
  let s : Int := max (binaryExponent n d) (-1022) - 52
  let m :=
    if 0 ≤ s then roundHalfEven n (d * 2 ^ s.toNat) else roundHalfEven (n * 2 ^ (-s).toNat) d
  if 1024 < (bitLength m m : Int) + s then none
  else if 0 ≤ s then some ((q.num.sign * (m * 2 ^ s.toNat : Nat) : Int) : ℚ)
  else some (mkRat (q.num.sign * (m : Int)) (2 ^ (-s).toNat))

mutual
/-- The tree that `sjson.Set(json, path, x.Value())` writes for the tree `x`: every number is
the float64 that `gjson` reads for it.  The members of an object stay in the order of the text:
Go writes the members of a map sorted by name, and one member for a name that the text
repeats, which the tree does not follow; an object is read as the mapping of its names.  `none`
stands for a value that holds a number outside the range of float64: `json.Marshal` fails on
it, and for a bare number the text `+Inf` is written, which is no JSON value. -/
def stored : JSON → Option JSON
  | .num q => (float64 q).map JSON.num
  | .arr xs => (storedList xs).map JSON.arr
  | .obj kvs => (storedMembers kvs).map JSON.obj
  | .null => some .null
  | .bool b => some (.bool b)
  | .str s => some (.str s)
/-- The elements of an array as they are written: see `stored`. -/
def storedList : List JSON → Option (List JSON)
  | [] => some []
  | x :: xs => (stored x).bind fun y => (storedList xs).map fun ys => y :: ys
/-- The members of an object as they are written: see `stored`. -/
def storedMembers : List (String × JSON) → Option (List (String × JSON))
  | [] => some []
  | (k, v) :: kvs => (stored v).bind fun w => (storedMembers kvs).map fun ws => (k, w) :: ws
end

/-- The statement `json, _ = sjson.Set(json, path, x)` for a Go value `x` that comes from
`Result.Value()`: the numbers of `x` are written as float64.  When `x` holds a number outside
the range of float64 the call fails and the document is the empty string (for a bare number
the text written is no JSON document; `none` stands for it too). -/
def Doc.setValue (d : Doc) (path : List String) (x : JSON) : Doc :=
  match stored x with
  | some v => d.set path v
  | none => none

/-- Steps 1 and 2 of `transformLoadBalancerPoolStateJSON` on the tree of the text: element 0
is written through `Value()`. -/
def unwrapSingleton64 (attrPath : List String) (attr : String) (json : Doc) : Doc :=
  match json.get (attrPath ++ [attr]) with
  | some (.arr []) => json.delete (attrPath ++ [attr])
  | some (.arr (first :: _)) => json.setValue (attrPath ++ [attr]) first
  | _ => json

/-- Body of the `ForEach` loop of step 3 of `transformLoadBalancerPoolStateJSON` on the tree of
the text: the map `{"host": values.Value()}` is written through `json.Marshal`. -/
def rewriteOriginHeader64 (attrPath : List String) (json : Doc) (idx : Nat) (origin : JSON) :
    Doc :=
  let originPath := attrPath ++ ["origins", formatIndex idx]
  match getPath ["header"] origin with
  | some (.arr []) => json.delete (originPath ++ ["header"])
  | some (.arr (firstHeader :: _)) =>
    (match hostValues firstHeader with
      | some values => json.setValue (originPath ++ ["header"]) (.obj [("host", values)])
      | none => json)
  | some (.obj header) =>
    (match lookupKey "host" header with
      | some _ => json
      | none =>
        match hostValues (.obj header) with
        | some values => json.setValue (originPath ++ ["header"]) (.obj [("host", values)])
        | none => json)
  | _ => json

/-- The `ForEach` loop of step 3 on the tree of the text. -/
def forEachOrigin64 (attrPath : List String) : Nat → List JSON → Doc → Doc
  | _, [], json => json
  | idx, origin :: rest, json =>
    forEachOrigin64 attrPath (idx + 1) rest (rewriteOriginHeader64 attrPath json idx origin)

/-- The function `transformLoadBalancerPoolStateJSON` on the tree of the text. -/
def transformLoadBalancerPoolStateJSON64 (json : Doc) (instancePath : List String) : Doc :=
  let attrPath := instancePath ++ ["attributes"]
  let json1 := unwrapSingleton64 attrPath "load_shedding" json
  let json2 := unwrapSingleton64 attrPath "origin_steering" json1
  match json2.get (attrPath ++ ["origins"]) with
  | some (.arr origins) => forEachOrigin64 attrPath 0 origins json2
  | _ => json2

/-- The renaming steps of `transformLoadBalancerStateJSON` on the tree of the text: the value
is written through `Value()`. -/
def renameAttr64 (attrPath : List String) (old new : String) (json : Doc) : Doc :=
  match json.get (attrPath ++ [old]) with
  | some v => (json.setValue (attrPath ++ [new]) v).delete (attrPath ++ [old])
  | none => json

/-- The function `transformLoadBalancerStateJSON` on the tree of the text. -/
def transformLoadBalancerStateJSON64 (json : Doc) (instancePath : List String) : Doc :=
  let attrPath := instancePath ++ ["attributes"]
  let json1 := renameAttr64 attrPath "fallback_pool_id" "fallback_pool" json
  let json2 := renameAttr64 attrPath "default_pool_ids" "default_pools" json1
  let json3 := ["adaptive_routing", "location_strategy", "random_steering",
    "session_affinity_attributes"].foldl (deleteEmptyArray attrPath) json2
  ["country_pools", "pop_pools", "region_pools"].foldl (emptyArrayToMap attrPath) json3

/-- Step 1 of `transformZeroTrustAccessPolicyStateJSON` on the tree of the text: the groups are
Go maps made by `Value()`, whose numbers, `approvals_needed` among them, are float64, and
`approvalGroups` is written through `json.Marshal`. -/
def migrateApprovalGroup64 (attrPath : List String) (json : Doc) : Option Doc :=
  match json.get (attrPath ++ ["approval_group"]) with
  | some (.arr groups) =>
    (if groups.length > 0 then
      (mapOrPanic convertApprovalGroup groups).map fun approvalGroups =>
        json.setValue (attrPath ++ ["approval_groups"]) (.arr approvalGroups)
    else some json).map fun j => j.delete (attrPath ++ ["approval_group"])
  | _ => some json

/-- Body of the loop over `conditionAttrs` on the tree of the text: the condition objects are
made from Go maps read by `Value()` and written through `json.Marshal`. -/
def migrateConditionAttr64 (iter : List (String × JSON) → List (String × JSON))
    (attrPath : List String) (json : Doc) (attrName : String) : Option Doc :=
  match json.get (attrPath ++ [attrName]) with
  | some (.arr conditions) =>
    (mapOrPanic (fun c => (assertObject c).map fun m => transformConditionObject (iter m))
        conditions).map
      fun parts =>
        let transformedConditions := parts.flatten
        if transformedConditions.length > 0 then
          json.setValue (attrPath ++ [attrName]) (.arr transformedConditions)
        else json
  | _ => some json

/-- The function `transformZeroTrustAccessPolicyStateJSON` on the tree of the text.  The outer
`none` is a run-time panic; `iter` is the iteration order of condition maps. -/
def transformZeroTrustAccessPolicyStateJSON64
    (iter : List (String × JSON) → List (String × JSON))
    (json : Doc) (instancePath : List String) : Option Doc :=
  let attrPath := instancePath ++ ["attributes"]
  (migrateApprovalGroup64 attrPath json).bind fun j1 =>
    (["include", "exclude", "require"].foldlM (migrateConditionAttr64 iter attrPath) j1).map
      fun j2 => defaultSessionDuration attrPath (deleteUnsupported attrPath j2)

/-- A state document with one load balancer whose `fallback_pool_id` is the number
`9007199254740993`, which is `2 ^ 53 + 1`. -/
def largeNumberLoadBalancer : Doc :=
  some (.obj [("resources", .arr [.obj [
    ("type", .str "cloudflare_load_balancer"),
    ("instances", .arr [.obj [("attributes",
      .obj [("fallback_pool_id", .num 9007199254740993)])]])]])])

/-- A state document with one pool whose `load_shedding` holds one object with the number
`9007199254740993`. -/
def largeNumberPool : Doc :=
  some (.obj [("resources", .arr [.obj [
    ("type", .str "cloudflare_load_balancer_pool"),
    ("instances", .arr [.obj [("attributes",
      .obj [("load_shedding", .arr [.obj [("default_percent", .num 9007199254740993)]])])]])]])])

/-- A state document with one access policy whose approval group needs `9007199254740993`
approvals. -/
def largeNumberPolicy : Doc :=
  some (.obj [("resources", .arr [.obj [
    ("type", .str "cloudflare_zero_trust_access_policy"),
    ("instances", .arr [.obj [("attributes",
      .obj [("approval_group", .arr [.obj [("approvals_needed", .num 9007199254740993),
        ("email_addresses", .arr [.str "a@example.com"])]])])]])]])])

/-! ## The matcher -/

theorem starGreedy_some {cc : CharClass} {k : List Char → Option Match} {s : List Char}
    {m : Match} (h : starGreedy cc k s = some m) :
    ∃ w t, s = w ++ t ∧ (∀ c ∈ w, cc.test c = true) ∧ k t = some m := by
  induction s with
  | nil => exact ⟨[], [], rfl, by simp, by simpa [starGreedy] using h⟩
  | cons c cs ih =>
    unfold starGreedy at h
    split at h
    · rename_i hc
      split at h
      · rename_i m' hm
        cases h
        obtain ⟨w, t, rfl, hw, hk⟩ := ih hm
        refine ⟨c :: w, t, rfl, ?_, hk⟩
        intro x hx
        rcases List.mem_cons.1 hx with rfl | hx
        · exact hc
        · exact hw x hx
      · exact ⟨[], c :: cs, rfl, by simp, h⟩
    · exact ⟨[], c :: cs, rfl, by simp, h⟩

theorem starGreedy_max {cc : CharClass} {k : List Char → Option Match} {m : Match}
    (w : List Char) {t : List Char} (hw : ∀ c ∈ w, cc.test c = true)
    (h : starGreedy cc k t = some m) : starGreedy cc k (w ++ t) = some m := by
  induction w with
  | nil => simpa using h
  | cons c w ih =>
    have h1 : cc.test c = true := hw c (List.mem_cons_self _ _)
    have h2 := ih fun x hx => hw x (List.mem_cons_of_mem _ hx)
    simp [starGreedy, h1, h2]

theorem starGreedy_stop {cc : CharClass} {k : List Char → Option Match} (c : Char)
    (cs : List Char) (h : cc.test c = false) : starGreedy cc k (c :: cs) = k (c :: cs) := by
  simp [starGreedy, h]

theorem matchAtoms_lits (X : List Char) (r : Regex) (o cap t : List Char) :
    matchAtoms (lits X ++ r) o cap (X ++ t) = matchAtoms r o cap t := by
  induction X with
  | nil => rfl
  | cons c X ih => simpa [lits, matchAtoms, CharClass.test] using ih

theorem matchAtoms_lits_some {X : List Char} {r : Regex} {o cap s : List Char} {m : Match}
    (h : matchAtoms (lits X ++ r) o cap s = some m) :
    ∃ t, s = X ++ t ∧ matchAtoms r o cap t = some m := by
  induction X generalizing s with
  | nil => exact ⟨s, rfl, h⟩
  | cons c X ih =>
    cases s with
    | nil => simp [lits, matchAtoms] at h
    | cons d ds =>
      simp only [lits, List.map_cons, List.cons_append, matchAtoms] at h
      split at h
      · rename_i hd
        have hd' : d = c := by simpa [CharClass.test] using hd
        obtain ⟨t, rfl, ht⟩ := ih h
        exact ⟨t, by simp [hd'], ht⟩
      · cases h

theorem attrPattern_sound {X : List Char} {tl : Regex} {s : List Char} {m : Match}
    (h : matchAtoms (attrPattern X tl) [] [] s = some m) :
    ∃ w1 w2 w3 t, s = w1 ++ (X ++ (w2 ++ '=' :: (w3 ++ t))) ∧ AllSpace w1 ∧ AllSpace w2 ∧
      AllSpace w3 ∧ matchAtoms tl [] [] t = some m := by
  simp only [attrPattern, matchAtoms] at h
  obtain ⟨w1, t1, rfl, hw1, h1⟩ := starGreedy_some h
  obtain ⟨t2, rfl, h2⟩ := matchAtoms_lits_some h1
  simp only [matchAtoms] at h2
  obtain ⟨w2, t3, rfl, hw2, h3⟩ := starGreedy_some h2
  cases t3 with
  | nil => simp [matchAtoms] at h3
  | cons d ds =>
    simp only [matchAtoms] at h3
    split at h3
    · rename_i hd
      have hd' : d = '=' := by simpa [CharClass.test] using hd
      obtain ⟨w3, t, rfl, hw3, h4⟩ := starGreedy_some h3
      exact ⟨w1, w2, w3, t, by simp [hd'], hw1, hw2, hw3, h4⟩
    · cases h3

theorem findFrom_some {re : Regex} {s : List Char} {pos i : Nat} {m : Match}
    (h : findFrom re s pos = some (i, m)) :
    ∃ pre t, s = pre ++ t ∧ i = pos + byteLen pre ∧ matchAtoms re [] [] t = some m ∧
      ∀ p1 u, pre = p1 ++ u → u ≠ [] → matchAtoms re [] [] (u ++ t) = none := by
  induction s generalizing pos with
  | nil =>
    simp only [findFrom, Option.map_eq_some'] at h
    obtain ⟨m', hm, he⟩ := h
    cases he
    refine ⟨[], [], rfl, by simp [byteLen], hm, ?_⟩
    intro p1 u hu hne
    have : u = [] := by
      have := congrArg List.length hu
      simp at this
      exact List.length_eq_zero.1 (by omega)
    exact absurd this hne
  | cons c cs ih =>
    unfold findFrom at h
    split at h
    · rename_i m' hm
      cases h
      refine ⟨[], c :: cs, rfl, by simp [byteLen], hm, ?_⟩
      intro p1 u hu hne
      have : u = [] := by
        have := congrArg List.length hu
        simp at this
        exact List.length_eq_zero.1 (by omega)
      exact absurd this hne
    · rename_i hm
      obtain ⟨pre, t, hs, hi, ht, hearly⟩ := ih h
      refine ⟨c :: pre, t, by simp [hs], by simp [hi, byteLen]; omega, ht, ?_⟩
      intro p1 u hu hne
      cases p1 with
      | nil =>
        simp only [List.nil_append] at hu
        subst hu
        simpa [hs] using hm
      | cons d p1 =>
        simp only [List.cons_append, List.cons.injEq] at hu
        exact hearly p1 u hu.2 hne

theorem findFrom_append {re : Regex} (pre : List Char) {t : List Char} (pos : Nat) {m : Match}
    (ht : matchAtoms re [] [] t = some m)
    (hearly : ∀ p1 u, pre = p1 ++ u → u ≠ [] → matchAtoms re [] [] (u ++ t) = none) :
    findFrom re (pre ++ t) pos = some (pos + byteLen pre, m) := by
  induction pre generalizing pos with
  | nil =>
    cases t with
    | nil => simp [findFrom, ht, byteLen]
    | cons c cs => simp [findFrom, ht, byteLen]
  | cons c pre ih =>
    have h0 : matchAtoms re [] [] (c :: pre ++ t) = none := hearly [] (c :: pre) rfl (by simp)
    have h1 := ih (pos + c.utf8Size) fun p1 u hu hne => hearly (c :: p1) u (by simp [hu]) hne
    simp only [List.cons_append] at h0 ⊢
    simp [findFrom, h0, h1, byteLen]
    omega

theorem findFrom_none {re : Regex} {s : List Char} (pos : Nat)
    (h : ∀ p t, s = p ++ t → matchAtoms re [] [] t = none) : findFrom re s pos = none := by
  induction s generalizing pos with
  | nil => simp [findFrom, h [] [] rfl]
  | cons c cs ih =>
    have h0 := h [] (c :: cs) rfl
    have h1 := ih (pos + c.utf8Size) fun p t hpt => h (c :: p) t (by simp [hpt])
    simp [findFrom, h0, h1]

theorem joinWith_cons (sep x : List Char) (l : List (List Char)) :
    joinWith sep (x :: l) = x ++ l.flatMap (fun y => sep ++ y) := by
  induction l generalizing x with
  | nil => simp [joinWith]
  | cons y l ih => simp [joinWith, ih]

theorem blockText_cons (e0 : Entry) (es : List Entry) :
    blockText (e0 :: es) = "[\x7b ".toList ++ (e0.render ++ sfx es) := by
  simp [blockText, joinWith_cons, sfx, sepChunks, List.flatMap_map]

theorem blockText_split (es1 : List Entry) (e : Entry) (es2 : List Entry) :
    blockText (es1 ++ e :: es2) = before es1 ++ ' ' :: (e.render ++ sfx es2) := by
  cases es1 with
  | nil => simp [blockText_cons, before]
  | cons e0 es1 =>
    simp [blockText_cons, before, sfx, sepChunks, List.flatMap_append]

/-! ## Occurrences of `=` in the text of a grouped block -/

theorem split_skip {c : Char} {R S A B : List Char} (hR : c ∉ R)
    (h : R ++ S = A ++ c :: B) : ∃ A', A = R ++ A' ∧ S = A' ++ c :: B := by
  rcases List.append_eq_append_iff.1 h with ⟨a', h1, h2⟩ | ⟨c', h1, h2⟩
  · exact ⟨a', h1, h2⟩
  · cases c' with
    | nil => exact ⟨[], by simp_all, by simp_all⟩
    | cons x c'' =>
      simp only [List.cons_append, List.cons.injEq] at h2
      rw [h1, ← h2.1] at hR
      simp at hR

theorem split_at_first {c : Char} {P Q A B : List Char} (hP : c ∉ P)
    (h : P ++ c :: Q = A ++ c :: B) :
    (A = P ∧ B = Q) ∨ ∃ A', A = P ++ c :: A' ∧ Q = A' ++ c :: B := by
  obtain ⟨A', h1, h2⟩ := split_skip hP h
  cases A' with
  | nil =>
    left
    simp only [List.nil_append, List.cons.injEq, true_and] at h2
    exact ⟨by simp [h1], h2.symm⟩
  | cons x A'' =>
    right
    simp only [List.cons_append, List.cons.injEq] at h2
    exact ⟨A'', by rw [h1, ← h2.1], h2.2⟩

theorem mem_joinWith {c : Char} {sep : List Char} {l : List (List Char)}
    (h : c ∈ joinWith sep l) : c ∈ sep ∨ ∃ x ∈ l, c ∈ x := by
  cases l with
  | nil => simp [joinWith] at h
  | cons x l =>
    rw [joinWith_cons] at h
    simp only [List.mem_append, List.mem_flatMap] at h
    rcases h with h | ⟨y, hy, h | h⟩
    · exact Or.inr ⟨x, by simp, h⟩
    · exact Or.inl h
    · exact Or.inr ⟨y, by simp [hy], h⟩

theorem nameChar_table : ∀ X ∈ allPossibleAttrs, X ≠ [] ∧ ∀ c ∈ X, nameChar c = true := by
  decide

theorem wf_name_mem {e : Entry} (h : e.WF) : e.name ∈ allPossibleAttrs := by
  cases e with
  | flag n b =>
    simp only [Entry.WF, isBoolAttr, Bool.or_eq_true, beq_iff_eq] at h
    simp only [Entry.name]
    rcases h with (rfl | rfl) | rfl <;> decide
  | list n vs =>
    have h1 := h.1
    simp only [nestedKeyOf, listAttrs, Option.isSome_map', List.find?_isSome, List.mem_cons,
      List.mem_singleton, List.not_mem_nil, or_false, beq_iff_eq, exists_eq_or_imp,
      exists_eq_left] at h1
    simp only [Entry.name]
    rcases h1 with h1 | h1 | h1 | h1 | h1 | h1 | h1 | h1 | h1 | h1 <;> subst h1 <;> decide
  | single n v =>
    simp only [Entry.name]
    rcases h.1 with h1 | h1
    · simp only [nestedKeyOf, listAttrs, Option.isSome_map', List.find?_isSome, List.mem_cons,
        List.mem_singleton, List.not_mem_nil, or_false, beq_iff_eq, exists_eq_or_imp,
        exists_eq_left] at h1
      rcases h1 with h1 | h1 | h1 | h1 | h1 | h1 | h1 | h1 | h1 | h1 <;> subst h1 <;> decide
    · simp only [isStringAttr, Bool.or_eq_true, beq_iff_eq] at h1
      rcases h1 with rfl | rfl <;> decide

theorem nameChar_ne {c d : Char} (hc : nameChar c = true) (hd : nameChar d = false) : c ≠ d := by
  rintro rfl
  simp [hc] at hd

theorem wf_name_chars {e : Entry} (h : e.WF) : e.name ≠ [] ∧ ∀ c ∈ e.name, nameChar c = true :=
  nameChar_table _ (wf_name_mem h)

theorem wf_name_noeq {e : Entry} (h : e.WF) : '=' ∉ e.name := fun hm =>
  absurd ((wf_name_chars h).2 _ hm) (by decide)

theorem wf_rhs_noeq {e : Entry} (h : e.WF) : '=' ∉ e.rhs := by
  cases e with
  | flag n b => cases b <;> simp only [Entry.rhs] <;> decide
  | list n vs =>
    intro hm
    simp only [Entry.rhs, List.mem_cons, List.mem_append, List.mem_singleton] at hm
    rcases hm with hm | hm | hm
    · exact absurd hm (by decide)
    · rcases mem_joinWith hm with hm | ⟨x, hx, hm⟩
      · exact absurd hm (by decide)
      · obtain ⟨v, hv, rfl⟩ := List.mem_map.1 hx
        simp only [quote, List.mem_cons, List.mem_append, List.mem_singleton] at hm
        rcases hm with hm | hm | hm
        · exact absurd hm (by decide)
        · exact (h.2.2 v hv).2.2.2 hm
        · rcases hm with hm | hm
          · exact absurd hm (by decide)
          · simp at hm
    · rcases hm with hm | hm
      · exact absurd hm (by decide)
      · simp at hm
  | single n v =>
    intro hm
    simp only [Entry.rhs, quote, List.mem_cons, List.mem_append, List.mem_singleton] at hm
    rcases hm with hm | hm | hm
    · exact absurd hm (by decide)
    · exact h.2.2.2.2 hm
    · rcases hm with hm | hm
      · exact absurd hm (by decide)
      · simp at hm

theorem sfx_occurrence (es2 : List Entry) (hwf : ∀ e ∈ es2, e.WF) (P A B : List Char)
    (hP : '=' ∉ P) (h : P ++ sfx es2 = A ++ '=' :: B) :
    ∃ es1 e es3, es2 = es1 ++ e :: es3 ∧
      A = P ++ (sepChunks es1 ++ ',' :: ' ' :: (e.name ++ [' '])) ∧
      B = ' ' :: (e.rhs ++ sfx es3) := by
  induction es2 generalizing P A with
  | nil =>
    exfalso
    have : '=' ∈ P ++ sfx [] := by rw [h]; simp
    simp only [sfx, sepChunks, List.flatMap_nil, List.nil_append, List.mem_append] at this
    rcases this with h1 | h1
    · exact hP h1
    · exact absurd h1 (by decide)
  | cons e es ih =>
    have hwe := hwf e (List.mem_cons_self _ _)
    have hP1 : '=' ∉ P ++ ',' :: ' ' :: (e.name ++ [' ']) := by
      simp only [List.mem_append, List.mem_cons, List.mem_singleton, not_or]
      exact ⟨hP, by decide, by decide, wf_name_noeq hwe, by decide, by simp⟩
    have h' : (P ++ ',' :: ' ' :: (e.name ++ [' '])) ++ '=' :: ((' ' :: e.rhs) ++ sfx es) =
        A ++ '=' :: B := by
      rw [← h]
      simp [sfx, sepChunks, Entry.render]
    rcases split_at_first hP1 h' with ⟨hA, hB⟩ | ⟨A', hA, hQ⟩
    · exact ⟨[], e, es, rfl, by simp [hA, sepChunks], by simp [hB]⟩
    · have hR : '=' ∉ ' ' :: e.rhs := by
        simp only [List.mem_cons, not_or]
        exact ⟨by decide, wf_rhs_noeq hwe⟩
      obtain ⟨es1, e', es3, hes, hA', hB'⟩ :=
        ih (fun x hx => hwf x (List.mem_cons_of_mem _ hx)) (' ' :: e.rhs) A' hR hQ
      refine ⟨e :: es1, e', es3, by simp [hes], ?_, hB'⟩
      rw [hA, hA']
      simp [sepChunks, Entry.render]

theorem block_occurrence (es : List Entry) (hne : es ≠ []) (hwf : ∀ e ∈ es, e.WF)
    (A B : List Char) (h : blockText es = A ++ '=' :: B) :
    ∃ es1 e es2, es = es1 ++ e :: es2 ∧ A = before es1 ++ ' ' :: (e.name ++ [' ']) ∧
      B = ' ' :: (e.rhs ++ sfx es2) := by
  cases es with
  | nil => exact absurd rfl hne
  | cons e0 es =>
    have hw0 := hwf e0 (List.mem_cons_self _ _)
    have hP1 : '=' ∉ "[\x7b ".toList ++ (e0.name ++ [' ']) := by
      simp only [List.mem_append, List.mem_singleton, not_or]
      exact ⟨by decide, wf_name_noeq hw0, by decide⟩
    have h' : ("[\x7b ".toList ++ (e0.name ++ [' '])) ++ '=' :: ((' ' :: e0.rhs) ++ sfx es) =
        A ++ '=' :: B := by
      rw [← h, blockText_cons]
      simp [Entry.render]
    rcases split_at_first hP1 h' with ⟨hA, hB⟩ | ⟨A', hA, hQ⟩
    · refine ⟨[], e0, es, rfl, ?_, by simp [hB]⟩
      rw [hA]
      simp [before]
    · have hR : '=' ∉ ' ' :: e0.rhs := by
        simp only [List.mem_cons, not_or]
        exact ⟨by decide, wf_rhs_noeq hw0⟩
      obtain ⟨es1, e', es3, hes, hA', hB'⟩ :=
        sfx_occurrence es (fun x hx => hwf x (List.mem_cons_of_mem _ hx)) (' ' :: e0.rhs) A' B
          hR hQ
      refine ⟨e0 :: es1, e', es3, by simp [hes], ?_, hB'⟩
      rw [hA, hA']
      simp [before, Entry.render]

/-! ## The two sides of an occurrence of `=` -/

theorem boolPattern_eq (a : List Char) : boolPattern a = attrPattern a (tailOf .bool) := by
  simp [boolPattern, attrPattern, tailOf]

theorem listPattern_eq (a : List Char) : listPattern a = attrPattern a (tailOf .list) := by
  simp [listPattern, attrPattern, tailOf]

theorem singlePattern_eq (a : List Char) : singlePattern a = attrPattern a (tailOf .single) := by
  simp [singlePattern, attrPattern, tailOf]

theorem nameChar_not_space {c : Char} (h : nameChar c = true) : CharClass.space.test c = false := by
  cases hs : CharClass.space.test c with
  | false => rfl
  | true =>
    simp only [CharClass.test, Bool.or_eq_true, beq_iff_eq] at hs
    rcases hs with (((rfl | rfl) | rfl) | rfl) | rfl <;> exact absurd h (by decide)

/-- A leading run of characters of a class is determined by the text. -/
theorem span_unique (p : Char → Bool) {a a' b b' : List Char}
    (ha : ∀ c ∈ a, p c = true) (ha' : ∀ c ∈ a', p c = true)
    (hb : ∀ c t, b = c :: t → p c = false) (hb' : ∀ c t, b' = c :: t → p c = false)
    (h : a ++ b = a' ++ b') : a = a' ∧ b = b' := by
  induction a generalizing a' with
  | nil =>
    cases a' with
    | nil => exact ⟨rfl, by simpa using h⟩
    | cons x a' =>
      exfalso
      simp only [List.nil_append, List.cons_append] at h
      have := hb x _ h
      simp [ha' x (List.mem_cons_self _ _)] at this
  | cons x a ih =>
    cases a' with
    | nil =>
      exfalso
      simp only [List.nil_append, List.cons_append] at h
      have := hb' x _ h.symm
      simp [ha x (List.mem_cons_self _ _)] at this
    | cons y a' =>
      simp only [List.cons_append, List.cons.injEq] at h
      obtain ⟨h1, h2⟩ := ih (fun c hc => ha c (List.mem_cons_of_mem _ hc))
        (fun c hc => ha' c (List.mem_cons_of_mem _ hc)) h.2
      exact ⟨by rw [h.1, h1], h2⟩

theorem before_last (es1 : List Entry) :
    ∃ B0 l, before es1 = B0 ++ [l] ∧ CharClass.space.test l = false := by
  cases es1 with
  | nil => exact ⟨['['], '\x7b', rfl, by decide⟩
  | cons e0 es1 => exact ⟨_, ',', rfl, by decide⟩

/-- Left of the `=` of an entry named `N`: a match of the pattern of `X` ends with a suffix of
`N`, and when it is `N` itself the match starts at the space that leads the entry or right
after it. -/
theorem name_side {pre w1 X w2 Bf N : List Char}
    (hX : X ≠ [] ∧ ∀ c ∈ X, nameChar c = true) (hN : N ≠ [] ∧ ∀ c ∈ N, nameChar c = true)
    (hw1 : AllSpace w1) (hw2 : AllSpace w2)
    (hBf : ∃ B0 l, Bf = B0 ++ [l] ∧ CharClass.space.test l = false)
    (h : pre ++ (w1 ++ (X ++ w2)) = Bf ++ ' ' :: (N ++ [' '])) :
    ∃ a, N = a ++ X ∧ (a = [] → pre = Bf ∨ pre = Bf ++ [' ']) := by
  have hr := congrArg List.reverse h
  simp only [List.reverse_append, List.reverse_cons, List.reverse_nil, List.nil_append,
    List.append_assoc, List.singleton_append] at hr
  -- the trailing white space
  have hXr : ∀ c t, X.reverse ++ (w1.reverse ++ pre.reverse) = c :: t →
      CharClass.space.test c = false := by
    intro c t hc
    cases hX' : X.reverse with
    | nil => exact absurd (List.reverse_eq_nil_iff.1 hX') hX.1
    | cons x X' =>
      rw [hX'] at hc
      simp only [List.cons_append, List.cons.injEq] at hc
      rw [← hc.1]
      exact nameChar_not_space (hX.2 x (List.mem_reverse.1 (by rw [hX']; simp)))
  have hNr : ∀ c t, N.reverse ++ (' ' :: Bf.reverse) = c :: t →
      CharClass.space.test c = false := by
    intro c t hc
    cases hN' : N.reverse with
    | nil => exact absurd (List.reverse_eq_nil_iff.1 hN') hN.1
    | cons x N' =>
      rw [hN'] at hc
      simp only [List.cons_append, List.cons.injEq] at hc
      rw [← hc.1]
      exact nameChar_not_space (hN.2 x (List.mem_reverse.1 (by rw [hN']; simp)))
  have hr' : w2.reverse ++ (X.reverse ++ (w1.reverse ++ pre.reverse)) =
      [' '] ++ (N.reverse ++ (' ' :: Bf.reverse)) := by
    simpa using hr
  obtain ⟨-, h2⟩ := span_unique CharClass.space.test
    (fun c hc => hw2 c (List.mem_reverse.1 hc)) (by decide) hXr hNr hr'
  -- the name
  rcases List.append_eq_append_iff.1 h2 with ⟨a', h3, h4⟩ | ⟨c', h3, h4⟩
  · refine ⟨a'.reverse, ?_, ?_⟩
    · have := congrArg List.reverse h3
      simpa using this
    · intro ha
      have ha' : a' = [] := by simpa using ha
      subst ha'
      simp only [List.nil_append] at h4
      obtain ⟨B0, l, hB, hl⟩ := hBf
      cases hw : w1.reverse with
      | nil =>
        right
        rw [hw] at h4
        have := congrArg List.reverse h4
        simpa using this
      | cons y w1' =>
        left
        rw [hw] at h4
        simp only [List.cons_append, List.cons.injEq] at h4
        cases w1' with
        | nil =>
          have := congrArg List.reverse h4.2
          simpa using this
        | cons z w1'' =>
          exfalso
          have hz : CharClass.space.test z = true :=
            hw1 z (List.mem_reverse.1 (by rw [hw]; simp))
          rw [hB] at h4
          simp only [List.reverse_append, List.reverse_cons, List.reverse_nil, List.nil_append,
            List.singleton_append, List.cons_append, List.cons.injEq] at h4
          rw [h4.2.1, hl] at hz
          exact absurd hz (by decide)
  · cases c' with
    | nil =>
      refine ⟨[], ?_, ?_⟩
      · have := congrArg List.reverse h3
        simpa using this.symm
      · intro _
        simp only [List.nil_append] at h4
        obtain ⟨B0, l, hB, hl⟩ := hBf
        cases hw : w1.reverse with
        | nil =>
          right
          rw [hw] at h4
          have := congrArg List.reverse h4
          simpa using this.symm
        | cons y w1' =>
          left
          rw [hw] at h4
          simp only [List.cons_append, List.cons.injEq] at h4
          cases w1' with
          | nil =>
            have := congrArg List.reverse h4.2
            simpa using this.symm
          | cons z w1'' =>
            exfalso
            have hz : CharClass.space.test z = true :=
              hw1 z (List.mem_reverse.1 (by rw [hw]; simp))
            rw [hB] at h4
            simp only [List.reverse_append, List.reverse_cons, List.reverse_nil,
              List.nil_append, List.singleton_append, List.cons_append, List.cons.injEq] at h4
            rw [← h4.2.1, hl] at hz
            exact absurd hz (by decide)
    | cons y c'' =>
      exfalso
      simp only [List.cons_append, List.cons.injEq] at h4
      have hy : y ∈ X := List.mem_reverse.1 (by rw [h3]; simp)
      have := hX.2 y hy
      rw [← h4.1] at this
      exact absurd this (by decide)

theorem matchAtoms_one (cc : CharClass) (r : Regex) (o cap : List Char) (c : Char)
    (cs : List Char) :
    matchAtoms (.one cc :: r) o cap (c :: cs) =
      if cc.test c = true then matchAtoms r o cap cs else none := rfl

theorem matchAtoms_star (cc : CharClass) (r : Regex) (o cap s : List Char) :
    matchAtoms (.star cc :: r) o cap s = starGreedy cc (matchAtoms r o cap) s := rfl

theorem matchAtoms_plus (cc : CharClass) (r : Regex) (o cap : List Char) (c : Char)
    (cs : List Char) :
    matchAtoms (.plus cc :: r) o cap (c :: cs) =
      if cc.test c = true then starGreedy cc (matchAtoms r o cap) cs else none := rfl

theorem matchAtoms_open (r : Regex) (o cap s : List Char) :
    matchAtoms (.capOpen :: r) o cap s = matchAtoms r s cap s := rfl

theorem matchAtoms_close (r : Regex) (o cap s : List Char) :
    matchAtoms (.capClose :: r) o cap s = matchAtoms r o (o.take (o.length - s.length)) s := rfl

theorem tail_fails_on_space (κ : Kind) (s : List Char) :
    matchAtoms (tailOf κ) [] [] (' ' :: s) = none := by
  cases κ <;> rfl

theorem rhs_head (e : Entry) : ∃ r t, e.rhs = r :: t ∧ CharClass.space.test r = false := by
  cases e with
  | flag n b => cases b <;> exact ⟨_, _, rfl, by decide⟩
  | list n vs => exact ⟨_, _, rfl, by decide⟩
  | single n v => exact ⟨_, _, rfl, by decide⟩

/-- Right of the `=` of an entry: the tail of a pattern is matched against the text of the
entry's value. -/
theorem rhs_side {w3 t rhs S : List Char} {κ : Kind} {m : Match} (hw3 : AllSpace w3)
    (hr : ∃ r t', rhs = r :: t' ∧ CharClass.space.test r = false)
    (h : w3 ++ t = ' ' :: (rhs ++ S)) (hm : matchAtoms (tailOf κ) [] [] t = some m) :
    t = rhs ++ S := by
  cases w3 with
  | nil =>
    simp only [List.nil_append] at h
    rw [h, tail_fails_on_space] at hm
    cases hm
  | cons y w3' =>
    simp only [List.cons_append, List.cons.injEq] at h
    cases w3' with
    | nil => simpa using h.2
    | cons z w3'' =>
      exfalso
      obtain ⟨r, t', hrhs, hrs⟩ := hr
      have hz : CharClass.space.test z = true := hw3 z (by simp)
      rw [hrhs] at h
      simp only [List.cons_append, List.cons.injEq] at h
      rw [h.2.1, hrs] at hz
      exact absurd hz (by decide)

/-- The group `([^c]+)` captures a text free of `c` that is followed by `c`. -/
theorem plus_capture (c : Char) (v S : List Char) (r : Regex) (o cap : List Char) {m : Match}
    (hv : v ≠ []) (hc : c ∉ v) (h : matchAtoms r (v ++ c :: S) v (c :: S) = some m) :
    matchAtoms (.capOpen :: .plus (.notChar c) :: .capClose :: r) o cap (v ++ c :: S) =
      some m := by
  cases v with
  | nil => exact absurd rfl hv
  | cons x v' =>
    have hx : (CharClass.notChar c).test x = true := by
      simp only [CharClass.test, bne_iff_ne, ne_eq]
      intro hxc
      exact hc (by simp [hxc])
    have hv' : ∀ y ∈ v', (CharClass.notChar c).test y = true := by
      intro y hy
      simp only [CharClass.test, bne_iff_ne, ne_eq]
      intro hyc
      exact hc (by simp [← hyc, hy])
    have hstop : (CharClass.notChar c).test c = false := by simp [CharClass.test]
    have htake : (x :: (v' ++ c :: S)).take
        ((x :: (v' ++ c :: S)).length - (c :: S).length) = x :: v' := by
      have hl : (x :: (v' ++ c :: S)).length - (c :: S).length = (x :: v').length := by
        simp only [List.length_cons, List.length_append]
        omega
      rw [hl, ← List.cons_append, List.take_left']
      rfl
    rw [matchAtoms_open, List.cons_append, matchAtoms_plus, if_pos hx]
    apply starGreedy_max v' hv'
    rw [starGreedy_stop c S hstop, matchAtoms_close, htake]
    exact h

theorem mem_vals {c : Char} {vs : List (List Char)}
    (h : c ∈ joinWith ", ".toList (vs.map quote)) :
    c = ',' ∨ c = ' ' ∨ c = '"' ∨ ∃ v ∈ vs, c ∈ v := by
  rcases mem_joinWith h with h | ⟨x, hx, h⟩
  · simp only [String.toList, List.mem_cons, List.mem_singleton] at h
    rcases h with h | h | h
    · exact Or.inl h
    · exact Or.inr (Or.inl h)
    · simp at h
  · obtain ⟨v, hv, rfl⟩ := List.mem_map.1 hx
    simp only [quote, List.mem_cons, List.mem_append, List.mem_singleton] at h
    rcases h with h | h | h
    · exact Or.inr (Or.inr (Or.inl h))
    · exact Or.inr (Or.inr (Or.inr ⟨v, hv, h⟩))
    · rcases h with h | h
      · exact Or.inr (Or.inr (Or.inl h))
      · simp at h

theorem vals_ne_nil {vs : List (List Char)} (h : vs ≠ []) :
    joinWith ", ".toList (vs.map quote) ≠ [] := by
  cases vs with
  | nil => exact absurd rfl h
  | cons v vs => simp [joinWith_cons, quote]

/-- On the value of an entry, the tail of the pattern of the entry's own shape matches and
captures the text of the value. -/
theorem tail_match_some {e : Entry} (hwf : e.WF) {κ : Kind} (hk : e.kind = some κ)
    (S : List Char) : matchAtoms (tailOf κ) [] [] (e.rhs ++ S) = some ⟨e.captured, S⟩ := by
  cases e with
  | flag n b =>
    cases b with
    | false => simp [Entry.kind] at hk
    | true =>
      simp only [Entry.kind, Option.some.injEq] at hk
      subst hk
      rfl
  | list n vs =>
    simp only [Entry.kind, Option.some.injEq] at hk
    subst hk
    have hne := vals_ne_nil hwf.2.1
    have hnb : ']' ∉ joinWith ", ".toList (vs.map quote) := by
      intro hm
      rcases mem_vals hm with h | h | h | ⟨v, hv, h⟩
      · exact absurd h (by decide)
      · exact absurd h (by decide)
      · exact absurd h (by decide)
      · exact (hwf.2.2 v hv).2.2.1 h
    have hhead : ∃ t, joinWith ", ".toList (vs.map quote) = '"' :: t := by
      cases vs with
      | nil => exact absurd rfl hwf.2.1
      | cons v vs =>
        rw [List.map_cons, joinWith_cons]
        exact ⟨_, rfl⟩
    obtain ⟨t, ht⟩ := hhead
    have key := plus_capture ']' (joinWith ", ".toList (vs.map quote)) S
      [.star .space, .one (.lit ']')] [] [] (m := ⟨joinWith ", ".toList (vs.map quote), S⟩)
      hne hnb (by
        rw [matchAtoms_star, starGreedy_stop ']' S (by decide), matchAtoms_one,
          if_pos (by decide)]
        rfl)
    have hrhs : (Entry.list n vs).rhs ++ S =
        '[' :: (joinWith ", ".toList (vs.map quote) ++ ']' :: S) := by
      simp [Entry.rhs]
    rw [hrhs]
    show matchAtoms (.one (.lit '[') :: .star .space :: _) [] [] _ = _
    rw [matchAtoms_one, if_pos (by decide), matchAtoms_star]
    have hstop : ∀ k : List Char → Option Match,
        starGreedy CharClass.space k (joinWith ", ".toList (vs.map quote) ++ ']' :: S) =
          k (joinWith ", ".toList (vs.map quote) ++ ']' :: S) := by
      intro k
      rw [ht]
      exact starGreedy_stop '"' _ (by decide)
    rw [hstop]
    exact key
  | single n v =>
    simp only [Entry.kind, Option.some.injEq] at hk
    subst hk
    have key := plus_capture '"' v S [.one (.lit '"')] [] [] (m := ⟨v, S⟩)
      hwf.2.1 hwf.2.2.1 (by
        rw [matchAtoms_one, if_pos (by decide)]
        rfl)
    have hrhs : (Entry.single n v).rhs ++ S = '"' :: (v ++ '"' :: S) := by
      simp [Entry.rhs, quote]
    rw [hrhs]
    show matchAtoms (.one (.lit '"') :: _) [] [] _ = _
    rw [matchAtoms_one, if_pos (by decide)]
    exact key

/-- The tail of a pattern matches the value of an entry only if the entry has that shape. -/
theorem tail_match_kind {e : Entry} {κ : Kind} {S : List Char} {m : Match}
    (h : matchAtoms (tailOf κ) [] [] (e.rhs ++ S) = some m) : e.kind = some κ := by
  cases e with
  | flag n b =>
    cases b <;> cases κ <;> first | rfl | (exfalso; revert h; exact fun h => nomatch h)
  | list n vs =>
    cases κ <;> first | rfl | (exfalso; revert h; exact fun h => nomatch h)
  | single n v =>
    cases κ <;> first | rfl | (exfalso; revert h; exact fun h => nomatch h)

theorem attrPattern_complete {X : List Char} (hX : X ≠ [] ∧ ∀ c ∈ X, nameChar c = true)
    (tl : Regex) (r : Char) (R : List Char) (hr : CharClass.space.test r = false) {m : Match}
    (h : matchAtoms tl [] [] (r :: R) = some m) :
    matchAtoms (attrPattern X tl) [] [] (' ' :: (X ++ ' ' :: '=' :: ' ' :: r :: R)) =
      some m := by
  have hstopX : ∀ k : List Char → Option Match,
      starGreedy CharClass.space k (X ++ ' ' :: '=' :: ' ' :: r :: R) =
        k (X ++ ' ' :: '=' :: ' ' :: r :: R) := by
    intro k
    cases hX' : X with
    | nil => exact absurd hX' hX.1
    | cons x X' =>
      exact starGreedy_stop x _ (nameChar_not_space (hX.2 x (by rw [hX']; simp)))
  rw [attrPattern, matchAtoms_star]
  refine starGreedy_max [' '] (t := X ++ ' ' :: '=' :: ' ' :: r :: R) (by decide) ?_
  rw [hstopX, matchAtoms_lits, matchAtoms_star]
  refine starGreedy_max [' '] (t := '=' :: ' ' :: r :: R) (by decide) ?_
  rw [starGreedy_stop '=' _ (by decide), matchAtoms_one, if_pos (by decide), matchAtoms_star]
  refine starGreedy_max [' '] (t := r :: R) (by decide) ?_
  rw [starGreedy_stop r _ hr]
  exact h

/-! ## Where the pattern of a name matches in a grouped block -/

theorem suffix_table : ∀ X ∈ allPossibleAttrs, ∀ N ∈ allPossibleAttrs, X <:+ N →
    X = N ∨ (X = "service_token".toList ∧ N = "any_valid_service_token".toList) := by
  decide

theorem split_unique {es1 es1' es2 es2' : List Entry} {e e' : Entry}
    (hnd : ((es1 ++ e :: es2).map Entry.name).Nodup)
    (h : es1 ++ e :: es2 = es1' ++ e' :: es2') (hn : e.name = e'.name) :
    es1 = es1' ∧ e = e' ∧ es2 = es2' := by
  induction es1 generalizing es1' with
  | nil =>
    cases es1' with
    | nil =>
      simp only [List.nil_append, List.cons.injEq] at h
      exact ⟨rfl, h.1, h.2⟩
    | cons x r =>
      exfalso
      simp only [List.nil_append, List.cons_append, List.cons.injEq] at h
      simp only [List.nil_append, List.map_cons, List.nodup_cons] at hnd
      apply hnd.1
      rw [h.2, hn]
      simp
  | cons x r ih =>
    cases es1' with
    | nil =>
      exfalso
      simp only [List.nil_append, List.cons_append, List.cons.injEq] at h
      simp only [List.cons_append, List.map_cons, List.nodup_cons] at hnd
      apply hnd.1
      rw [h.1, ← hn]
      simp
    | cons y r' =>
      simp only [List.cons_append, List.cons.injEq] at h
      simp only [List.cons_append, List.map_cons, List.nodup_cons] at hnd
      obtain ⟨h1, h2, h3⟩ := ih hnd.2 h.2
      exact ⟨by rw [h.1, h1], h2, h3⟩

theorem kind_bool_name {e : Entry} (hwf : e.WF) (hk : e.kind = some .bool) :
    isBoolAttr e.name = true := by
  cases e with
  | flag n b => exact hwf
  | list n vs => simp [Entry.kind] at hk
  | single n v => simp [Entry.kind] at hk

theorem wf_any_valid {e : Entry} (hwf : e.WF) (hn : e.name = "any_valid_service_token".toList)
    {κ : Kind} (hk : e.kind = some κ) : κ = .bool := by
  cases e with
  | flag n b =>
    cases b with
    | false => simp [Entry.kind] at hk
    | true => simpa [Entry.kind] using hk.symm
  | list n vs =>
    exfalso
    simp only [Entry.name] at hn
    subst hn
    exact absurd hwf.1 (by decide)
  | single n v =>
    exfalso
    simp only [Entry.name] at hn
    subst hn
    rcases hwf.1 with h | h
    · exact absurd h (by decide)
    · exact absurd h (by decide)

/-- A match of the pattern of a known name in the text of a grouped block sits on the entry
of that name, has the shape of that entry, and starts at the space that leads the entry or right
after it. -/
theorem match_occurrence {es : List Entry} (hb : BlockWF es) {X : List Char}
    (hX : X ∈ allPossibleAttrs) {κ : Kind} (hκ : κ = .bool → isBoolAttr X = true)
    {p1 s : List Char} {m : Match} (h : blockText es = p1 ++ s)
    (hm : matchAtoms (attrPattern X (tailOf κ)) [] [] s = some m) :
    ∃ es1 e es2, es = es1 ++ e :: es2 ∧ e.name = X ∧ e.kind = some κ ∧
      (p1 = before es1 ∨ p1 = before es1 ++ [' ']) ∧ m = ⟨e.captured, sfx es2⟩ := by
  obtain ⟨w1, w2, w3, t, hs, hw1, hw2, hw3, ht⟩ := attrPattern_sound hm
  have hT : blockText es = (p1 ++ (w1 ++ (X ++ w2))) ++ '=' :: (w3 ++ t) := by
    rw [h, hs]
    simp
  obtain ⟨es1, e, es2, hes, hA, hB⟩ := block_occurrence es hb.1 hb.2.1 _ _ hT
  have hwe : e.WF := hb.2.1 e (by rw [hes]; simp)
  obtain ⟨a, hN, hpre⟩ :=
    name_side (nameChar_table X hX) (wf_name_chars hwe) hw1 hw2 (before_last es1) hA
  have ht' : t = e.rhs ++ sfx es2 := rhs_side hw3 (rhs_head e) hB ht
  rw [ht'] at ht
  have hk : e.kind = some κ := tail_match_kind ht
  rw [tail_match_some hwe hk] at ht
  rcases suffix_table X hX e.name (wf_name_mem hwe) ⟨a, hN.symm⟩ with hXN | ⟨hX1, hN1⟩
  · have ha : a = [] := by
      have := congrArg List.length hN
      rw [hXN] at this
      simp only [List.length_append] at this
      exact List.length_eq_zero.1 (by omega)
    exact ⟨es1, e, es2, hes, hXN.symm, hk, hpre ha, (Option.some.inj ht).symm⟩
  · exfalso
    have := hκ (wf_any_valid hwe hN1 hk)
    rw [hX1] at this
    exact absurd this (by decide)

/-- The leftmost match of the pattern of an entry's own shape: it starts at the space that
leads the entry and captures the text of the entry's value. -/
theorem find_entry {es1 es2 : List Entry} {e : Entry} (hb : BlockWF (es1 ++ e :: es2))
    {κ : Kind} (hk : e.kind = some κ) :
    findFrom (attrPattern e.name (tailOf κ)) (blockText (es1 ++ e :: es2)) 0 =
      some (byteLen (before es1), ⟨e.captured, sfx es2⟩) := by
  have hwe : e.WF := hb.2.1 e (by simp)
  obtain ⟨r, R, hrhs, hr⟩ := rhs_head e
  have hmatch : matchAtoms (attrPattern e.name (tailOf κ)) [] []
      (' ' :: (e.render ++ sfx es2)) = some ⟨e.captured, sfx es2⟩ := by
    have h1 := tail_match_some hwe hk (sfx es2)
    rw [hrhs] at h1
    have h2 := attrPattern_complete (wf_name_chars hwe) (tailOf κ) r (R ++ sfx es2) hr h1
    have h3 : ' ' :: (e.render ++ sfx es2) =
        ' ' :: (e.name ++ ' ' :: '=' :: ' ' :: r :: (R ++ sfx es2)) := by
      simp [Entry.render, hrhs]
    rw [h3]
    exact h2
  have hearly : ∀ p1 u, before es1 = p1 ++ u → u ≠ [] →
      matchAtoms (attrPattern e.name (tailOf κ)) [] [] (u ++ ' ' :: (e.render ++ sfx es2)) =
        none := by
    intro p1 u hu hne
    cases hmu : matchAtoms (attrPattern e.name (tailOf κ)) [] []
        (u ++ ' ' :: (e.render ++ sfx es2)) with
    | none => rfl
    | some m' =>
      exfalso
      have hT : blockText (es1 ++ e :: es2) = p1 ++ (u ++ ' ' :: (e.render ++ sfx es2)) := by
        rw [blockText_split, hu]
        simp
      obtain ⟨es1', e', es2', hes, hn, -, hp, -⟩ :=
        match_occurrence hb (wf_name_mem hwe) (fun hκ => kind_bool_name hwe (hκ ▸ hk)) hT hmu
      obtain ⟨h1, -, -⟩ := split_unique hb.2.2 hes hn.symm
      have hlen : (before es1).length = p1.length + u.length := by
        rw [hu, List.length_append]
      have hu' : 0 < u.length := List.length_pos.2 hne
      rcases hp with hp | hp
      · rw [hp, ← h1] at hlen
        omega
      · rw [hp, ← h1] at hlen
        simp only [List.length_append, List.length_singleton] at hlen
        omega
  have := findFrom_append (before es1) 0 hmatch hearly
  rw [blockText_split]
  simpa using this

/-- The pattern of a name matches nowhere in a grouped block that has no entry of that name
in the shape of the pattern. -/
theorem find_none {es : List Entry} (hb : BlockWF es) {X : List Char}
    (hX : X ∈ allPossibleAttrs) {κ : Kind} (hκ : κ = .bool → isBoolAttr X = true)
    (hno : ∀ e ∈ es, e.name = X → e.kind ≠ some κ) :
    findFrom (attrPattern X (tailOf κ)) (blockText es) 0 = none := by
  apply findFrom_none
  intro p t hpt
  cases hm : matchAtoms (attrPattern X (tailOf κ)) [] [] t with
  | none => rfl
  | some m =>
    exfalso
    obtain ⟨es1, e, es2, hes, hn, hk, -, -⟩ := match_occurrence hb hX hκ hpt hm
    exact hno e (by rw [hes]; simp) hn hk

/-! ## The two loops of `transformConditionString` on a grouped block -/

theorem valuePattern_match {v : List Char} (hv : GoodValue v) (S : List Char) :
    matchAtoms valuePattern [] [] ('"' :: (v ++ '"' :: S)) = some ⟨v, S⟩ := by
  have h := tail_match_some (e := .single "email".toList v) ⟨Or.inl (by decide), hv⟩
    (κ := .single) rfl S
  have hrhs : (Entry.single "email".toList v).rhs ++ S = '"' :: (v ++ '"' :: S) := by
    simp [Entry.rhs, quote]
  rw [hrhs] at h
  exact h

theorem sepValues_length (vs : List (List Char)) :
    vs.length ≤ (vs.flatMap fun v => ", ".toList ++ quote v).length := by
  induction vs with
  | nil => simp
  | cons v vs ih =>
    have h2 : ", ".toList.length = 2 := rfl
    simp only [List.flatMap_cons, List.length_append, List.length_cons, h2]
    omega

theorem findAllFuel_succ (re : Regex) (fuel : Nat) (s : List Char) :
    findAllFuel re (fuel + 1) s =
      match findFrom re s 0 with
      | none => []
      | some r => r.2.cap :: findAllFuel re fuel r.2.rest := rfl

theorem findAllFuel_sepValues (vs : List (List Char)) (hvs : ∀ v ∈ vs, GoodValue v) (fuel : Nat)
    (hf : vs.length < fuel) :
    findAllFuel valuePattern fuel (vs.flatMap fun v => ", ".toList ++ quote v) = vs := by
  induction vs generalizing fuel with
  | nil =>
    cases fuel with
    | zero => omega
    | succ f => rfl
  | cons v vs ih =>
    cases fuel with
    | zero => omega
    | succ f =>
      have hm := valuePattern_match (hvs v (by simp))
        (vs.flatMap fun v => ", ".toList ++ quote v)
      have hfind : findFrom valuePattern
          ((v :: vs).flatMap fun v => ", ".toList ++ quote v) 0 =
          some (0 + ','.utf8Size + ' '.utf8Size,
            ⟨v, vs.flatMap fun v => ", ".toList ++ quote v⟩) := by
        have h0 : ((v :: vs).flatMap fun v => ", ".toList ++ quote v) =
            ',' :: ' ' :: '"' :: (v ++ '"' :: vs.flatMap fun v => ", ".toList ++ quote v) := by
          simp [quote]
        rw [h0]
        have h1 : ∀ s, matchAtoms valuePattern [] [] (',' :: s) = none := fun s => rfl
        have h2 : ∀ s, matchAtoms valuePattern [] [] (' ' :: s) = none := fun s => rfl
        simp only [findFrom, h1, h2, hm]
      rw [findAllFuel_succ, hfind]
      show v :: findAllFuel valuePattern f _ = _
      rw [ih (fun x hx => hvs x (List.mem_cons_of_mem _ hx)) f (by simpa using hf)]

/-- The inner scan of a captured list text gives back the values in list order. -/
theorem findAll_values (vs : List (List Char)) (hvs : ∀ v ∈ vs, GoodValue v) :
    findAllStringSubmatch valuePattern (joinWith ", ".toList (vs.map quote)) = vs := by
  cases vs with
  | nil => rfl
  | cons v vs =>
    have hm := valuePattern_match (hvs v (by simp))
      (vs.flatMap fun v => ", ".toList ++ quote v)
    have h0 : joinWith ", ".toList ((v :: vs).map quote) =
        '"' :: (v ++ '"' :: vs.flatMap fun v => ", ".toList ++ quote v) := by
      simp [joinWith_cons, quote, List.flatMap_map]
    have hfind : findFrom valuePattern
        ('"' :: (v ++ '"' :: vs.flatMap fun v => ", ".toList ++ quote v)) 0 =
        some (0, ⟨v, vs.flatMap fun v => ", ".toList ++ quote v⟩) := by
      simp only [findFrom, hm]
    rw [findAllStringSubmatch, h0, findAllFuel_succ, hfind]
    show v :: findAllFuel valuePattern _ _ = _
    rw [findAllFuel_sepValues vs (fun x hx => hvs x (List.mem_cons_of_mem _ hx))]
    have := sepValues_length vs
    simp only [List.length_cons, List.length_append]
    omega

theorem entry_of_name {es : List Entry} (hb : BlockWF es) {e e' : Entry} (he : e ∈ es)
    (he' : e' ∈ es) (hn : e'.name = e.name) : e' = e :=
  List.inj_on_of_nodup_map hb.2.2 he' he hn

theorem nested_not_bool {n : List Char} (h : (nestedKeyOf n).isSome = true) :
    isBoolAttr n = false ∧ isStringAttr n = false := by
  simp only [nestedKeyOf, listAttrs, Option.isSome_map', List.find?_isSome, List.mem_cons,
    List.mem_singleton, List.not_mem_nil, or_false, beq_iff_eq, exists_eq_or_imp,
    exists_eq_left] at h
  rcases h with h | h | h | h | h | h | h | h | h | h <;> subst h <;> decide

theorem string_not_bool {n : List Char} (h : isStringAttr n = true) :
    isBoolAttr n = false ∧ nestedKeyOf n = none := by
  simp only [isStringAttr, Bool.or_eq_true, beq_iff_eq] at h
  rcases h with rfl | rfl <;> decide

theorem bool_not_nested {n : List Char} (h : isBoolAttr n = true) :
    nestedKeyOf n = none ∧ isStringAttr n = false := by
  simp only [isBoolAttr, Bool.or_eq_true, beq_iff_eq] at h
  rcases h with (rfl | rfl) | rfl <;> decide

theorem matchString_entry {es1 es2 : List Entry} {e : Entry} (hb : BlockWF (es1 ++ e :: es2))
    {κ : Kind} (hk : e.kind = some κ) :
    matchString (attrPattern e.name (tailOf κ)) (blockText (es1 ++ e :: es2)) = true := by
  rw [matchString, find_entry hb hk]
  rfl

theorem find_other_kind {es1 es2 : List Entry} {e : Entry} (hb : BlockWF (es1 ++ e :: es2))
    {κ : Kind} (hκ : κ = .bool → isBoolAttr e.name = true) (hk : e.kind ≠ some κ) :
    findFrom (attrPattern e.name (tailOf κ)) (blockText (es1 ++ e :: es2)) 0 = none := by
  have hwe : e.WF := hb.2.1 e (by simp)
  apply find_none hb (wf_name_mem hwe) hκ
  intro e' he' hn
  rw [entry_of_name hb (by simp) he' hn]
  exact hk

/-- First loop, on the name of an entry of the block: the entry is found at the space that leads
it, unless it is a flag written `false`. -/
theorem attrPositionOf_entry {es1 es2 : List Entry} {e : Entry}
    (hb : BlockWF (es1 ++ e :: es2)) :
    attrPositionOf (blockText (es1 ++ e :: es2)) e.name =
      if e.kind.isSome then some ⟨e.name, byteLen (before es1)⟩ else none := by
  have hwe : e.WF := hb.2.1 e (by simp)
  cases e with
  | flag n b =>
    have hbn : isBoolAttr n = true := hwe
    cases b with
    | true =>
      have := find_entry hb (e := .flag n true) (κ := .bool) rfl
      simp only [Entry.name] at this
      simp [attrPositionOf, hbn, boolPattern_eq, findStringIndex, this, Entry.kind, Entry.name]
    | false =>
      have := find_other_kind hb (e := .flag n false) (κ := .bool) (fun _ => hbn)
        (by simp [Entry.kind])
      simp only [Entry.name] at this
      simp [attrPositionOf, hbn, boolPattern_eq, findStringIndex, this, Entry.kind, Entry.name]
  | list n vs =>
    have hnk : (nestedKeyOf n).isSome = true := hwe.1
    have hnb := (nested_not_bool hnk).1
    have := find_entry hb (e := .list n vs) (κ := .list) rfl
    simp only [Entry.name] at this
    simp [attrPositionOf, hnb, hnk, listPattern_eq, matchString, findStringIndex, this,
      Entry.kind, Entry.name]
  | single n v =>
    have h1 := find_entry hb (e := .single n v) (κ := .single) rfl
    have h2 := find_other_kind hb (e := .single n v) (κ := .list) (by simp)
      (by simp [Entry.kind])
    simp only [Entry.name] at h1 h2
    rcases hwe.1 with hnk | hsa
    · have hnb := (nested_not_bool hnk).1
      simp [attrPositionOf, hnb, hnk, listPattern_eq, singlePattern_eq, matchString,
        findStringIndex, h1, h2, Entry.kind, Entry.name]
    · have hnb := (string_not_bool hsa).1
      have hnn := (string_not_bool hsa).2
      simp [attrPositionOf, hnb, hnn, hsa, singlePattern_eq, findStringIndex, h1, Entry.kind,
        Entry.name]

/-- First loop, on a known name that the block does not hold: nothing is found. -/
theorem attrPositionOf_absent {es : List Entry} (hb : BlockWF es) {X : List Char}
    (hX : X ∈ allPossibleAttrs) (hno : ∀ e ∈ es, e.name ≠ X) :
    attrPositionOf (blockText es) X = none := by
  have hnone : ∀ κ : Kind, (κ = .bool → isBoolAttr X = true) →
      findFrom (attrPattern X (tailOf κ)) (blockText es) 0 = none := fun κ hκ =>
    find_none hb hX hκ fun e he hn => absurd hn (hno e he)
  have hl := hnone .list (by simp)
  have hs := hnone .single (by simp)
  cases hbn : isBoolAttr X with
  | true =>
    have hbo := hnone .bool (fun _ => hbn)
    simp [attrPositionOf, hbn, boolPattern_eq, findStringIndex, hbo]
  | false =>
    cases hnk : (nestedKeyOf X).isSome with
    | true =>
      simp [attrPositionOf, hbn, hnk, listPattern_eq, singlePattern_eq, matchString,
        findStringIndex, hl, hs]
    | false =>
      cases hsa : isStringAttr X with
      | true => simp [attrPositionOf, hbn, hnk, hsa, singlePattern_eq, findStringIndex, hs]
      | false => simp [attrPositionOf, hbn, hnk, hsa]

/-- Second loop, on the name of an entry of the block: the objects appended are those the
entry stands for. -/
theorem emitAttr_entry {es1 es2 : List Entry} {e : Entry} (hb : BlockWF (es1 ++ e :: es2)) :
    emitAttr (blockText (es1 ++ e :: es2)) e.name = e.objects := by
  have hwe : e.WF := hb.2.1 e (by simp)
  cases e with
  | flag n b =>
    have hbn : isBoolAttr n = true := hwe
    cases b with
    | true =>
      have := find_entry hb (e := .flag n true) (κ := .bool) rfl
      simp only [Entry.name] at this
      simp [emitAttr, hbn, boolPattern_eq, matchString, this, Entry.objects, Entry.name]
    | false =>
      have := find_other_kind hb (e := .flag n false) (κ := .bool) (fun _ => hbn)
        (by simp [Entry.kind])
      simp only [Entry.name] at this
      simp [emitAttr, hbn, boolPattern_eq, matchString, this, Entry.objects, Entry.name]
  | list n vs =>
    have hnk : (nestedKeyOf n).isSome = true := hwe.1
    have hnb := (nested_not_bool hnk).1
    obtain ⟨k, hk⟩ := Option.isSome_iff_exists.1 hnk
    have h1 := find_entry hb (e := .list n vs) (κ := .list) rfl
    have h2 := find_other_kind hb (e := .list n vs) (κ := .single) (by simp)
      (by simp [Entry.kind])
    simp only [Entry.name] at h1 h2
    have hfa : findAllStringSubmatch valuePattern (joinWith [',', ' '] (List.map quote vs)) =
        vs := findAll_values vs hwe.2.2
    simp [emitAttr, hnb, hk, listPattern_eq, singlePattern_eq, findStringSubmatch, h1, h2,
      Entry.objects, Entry.name, Entry.captured, hfa, keyOf]
  | single n v =>
    have h1 := find_entry hb (e := .single n v) (κ := .single) rfl
    have h2 := find_other_kind hb (e := .single n v) (κ := .list) (by simp)
      (by simp [Entry.kind])
    simp only [Entry.name] at h1 h2
    rcases hwe.1 with hnk | hsa
    · have hnb := (nested_not_bool hnk).1
      obtain ⟨k, hk⟩ := Option.isSome_iff_exists.1 hnk
      simp [emitAttr, hnb, hk, listPattern_eq, singlePattern_eq, findStringSubmatch, h1, h2,
        Entry.objects, Entry.name, Entry.captured, keyOf]
    · have hnb := (string_not_bool hsa).1
      have hnn := (string_not_bool hsa).2
      simp [emitAttr, hnb, hnn, hsa, singlePattern_eq, findStringSubmatch, h1,
        Entry.objects, Entry.name, Entry.captured, keyOf, hwe.2.1]

/-! ## Sorting by offset -/

theorem perm_insertByPos (a : AttrPosition) (l : List AttrPosition) :
    (insertByPos a l).Perm (a :: l) := by
  induction l with
  | nil => exact List.Perm.refl _
  | cons b l ih =>
    unfold insertByPos
    split
    · exact List.Perm.refl _
    · exact (List.Perm.cons b ih).trans (List.Perm.swap a b l)

theorem perm_sortByPos (l : List AttrPosition) : (sortByPos l).Perm l := by
  induction l with
  | nil => exact List.Perm.refl _
  | cons a l ih => exact (perm_insertByPos a (sortByPos l)).trans (List.Perm.cons a ih)

theorem insertByPos_sorted (a : AttrPosition) (l : List AttrPosition)
    (hl : l.Pairwise fun x y => x.pos < y.pos) (ha : ∀ b ∈ l, a.pos ≠ b.pos) :
    (insertByPos a l).Pairwise fun x y => x.pos < y.pos := by
  induction l with
  | nil => simp [insertByPos]
  | cons b l ih =>
    unfold insertByPos
    split
    · rename_i hab
      refine List.Pairwise.cons ?_ hl
      intro c hc
      rcases List.mem_cons.1 hc with rfl | hc
      · exact hab
      · exact Nat.lt_trans hab (List.rel_of_pairwise_cons hl hc)
    · rename_i hab
      have hba : b.pos < a.pos := by
        have := ha b (List.mem_cons_self _ _)
        omega
      refine List.Pairwise.cons ?_ (ih (List.Pairwise.of_cons hl)
        fun c hc => ha c (List.mem_cons_of_mem _ hc))
      intro c hc
      rcases List.mem_cons.1 ((perm_insertByPos a l).subset hc) with rfl | hc
      · exact hba
      · exact List.rel_of_pairwise_cons hl hc

theorem sortByPos_sorted (l : List AttrPosition) (hl : l.Pairwise fun x y => x.pos ≠ y.pos) :
    (sortByPos l).Pairwise fun x y => x.pos < y.pos := by
  induction l with
  | nil => simp [sortByPos]
  | cons a l ih =>
    refine insertByPos_sorted a _ (ih (List.Pairwise.of_cons hl)) ?_
    intro b hb
    exact List.rel_of_pairwise_cons hl ((perm_sortByPos l).subset hb)

/-- Sorting a list of entries with distinct offsets gives the one arrangement in ascending
order of offsets. -/
theorem sortByPos_eq_of_perm {l r : List AttrPosition} (hp : l.Perm r)
    (hr : r.Pairwise fun x y => x.pos < y.pos) : sortByPos l = r := by
  have hne : r.Pairwise fun x y => x.pos ≠ y.pos := hr.imp fun h => Nat.ne_of_lt h
  have hl : l.Pairwise fun x y => x.pos ≠ y.pos :=
    (hp.pairwise_iff (fun {x y} (h : x.pos ≠ y.pos) => h.symm)).2 hne
  have hs := sortByPos_sorted l hl
  haveI : IsAntisymm AttrPosition fun x y => x.pos < y.pos :=
    ⟨fun x y h1 h2 => absurd h1 (Nat.lt_asymm h2)⟩
  exact List.eq_of_perm_of_sorted ((perm_sortByPos l).trans hp) hs hr

/-! ## The entries found in a grouped block -/

theorem byteLen_append (a b : List Char) : byteLen (a ++ b) = byteLen a + byteLen b := by
  simp [byteLen]

theorem before_snoc (done : List Entry) (e : Entry) :
    before (done ++ [e]) = before done ++ ' ' :: (e.render ++ [',']) := by
  cases done with
  | nil => simp [before, sepChunks]
  | cons e0 done => simp [before, sepChunks, List.flatMap_append]

theorem byteLen_before_lt (done : List Entry) (e : Entry) :
    byteLen (before done) < byteLen (before (done ++ [e])) := by
  rw [before_snoc, byteLen_append]
  have : 0 < byteLen (' ' :: (e.render ++ [','])) := by
    simp only [byteLen, List.map_cons, List.sum_cons]
    have := Char.utf8Size_pos ' '
    omega
  omega

theorem entryPositions_lower (done rest : List Entry) :
    ∀ p ∈ entryPositions done rest, byteLen (before done) ≤ p.pos := by
  induction rest generalizing done with
  | nil => simp [entryPositions]
  | cons e rest ih =>
    intro p hp
    simp only [entryPositions, List.mem_append] at hp
    rcases hp with hp | hp
    · split at hp
      · simp only [List.mem_singleton] at hp
        rw [hp]
      · simp at hp
    · have := ih (done ++ [e]) p hp
      have := byteLen_before_lt done e
      omega

theorem entryPositions_sorted (done rest : List Entry) :
    (entryPositions done rest).Pairwise fun x y => x.pos < y.pos := by
  induction rest generalizing done with
  | nil => simp [entryPositions]
  | cons e rest ih =>
    simp only [entryPositions]
    rw [List.pairwise_append]
    refine ⟨?_, ih _, ?_⟩
    · split <;> simp
    · intro a ha b hb
      have h1 := entryPositions_lower (done ++ [e]) rest b hb
      have h2 := byteLen_before_lt done e
      split at ha
      · simp only [List.mem_singleton] at ha
        rw [ha]
        exact Nat.lt_of_lt_of_le h2 h1
      · simp at ha

theorem mem_entryPositions {done rest : List Entry} {p : AttrPosition} :
    p ∈ entryPositions done rest ↔
      ∃ r1 e r2, rest = r1 ++ e :: r2 ∧ e.kind.isSome = true ∧
        p = ⟨e.name, byteLen (before (done ++ r1))⟩ := by
  induction rest generalizing done with
  | nil => simp [entryPositions]
  | cons e rest ih =>
    simp only [entryPositions, List.mem_append]
    constructor
    · rintro (hp | hp)
      · split at hp
        · rename_i hk
          simp only [List.mem_singleton] at hp
          exact ⟨[], e, rest, rfl, hk, by simpa using hp⟩
        · simp at hp
      · obtain ⟨r1, e', r2, hr, hk, hp⟩ := ih.1 hp
        exact ⟨e :: r1, e', r2, by simp [hr], hk, by simpa using hp⟩
    · rintro ⟨r1, e', r2, hr, hk, hp⟩
      cases r1 with
      | nil =>
        simp only [List.nil_append, List.cons.injEq] at hr
        left
        rw [hr.1, if_pos hk]
        simpa using hp
      | cons x r1 =>
        simp only [List.cons_append, List.cons.injEq] at hr
        right
        exact ih.2 ⟨r1, e', r2, hr.2, hk, by simpa [hr.1] using hp⟩

theorem objects_of_kind_none {e : Entry} (h : e.kind.isSome = false) : e.objects = [] := by
  cases e with
  | flag n b => cases b <;> simp_all [Entry.kind, Entry.objects]
  | list n vs => simp [Entry.kind] at h
  | single n v => simp [Entry.kind] at h

theorem entryPositions_emit (done rest : List Entry) (hb : BlockWF (done ++ rest)) :
    (entryPositions done rest).flatMap
        (fun p => emitAttr (blockText (done ++ rest)) p.name) =
      rest.flatMap Entry.objects := by
  induction rest generalizing done with
  | nil => simp [entryPositions]
  | cons e rest ih =>
    have hb' : BlockWF ((done ++ [e]) ++ rest) := by simpa using hb
    have := ih (done ++ [e]) hb'
    simp only [List.append_assoc, List.singleton_append] at this
    simp only [entryPositions, List.flatMap_append, List.flatMap_cons, this]
    congr 1
    cases hk : e.kind.isSome with
    | true => simp [emitAttr_entry hb]
    | false => simp [objects_of_kind_none hk]

theorem attrPositionOf_name {content X : List Char} {x : AttrPosition}
    (h : attrPositionOf content X = some x) : x.name = X := by
  have key : ∀ pat : Option Regex,
      (match pat with
        | none => none
        | some p => (findStringIndex p content).map fun i => (⟨X, i⟩ : AttrPosition)) =
        some x → x.name = X := by
    intro pat hp
    cases pat with
    | none => cases hp
    | some p =>
      simp only [Option.map_eq_some'] at hp
      obtain ⟨i, -, rfl⟩ := hp
      rfl
  exact key _ h

/-- The first loop and the sort, on a grouped block: whatever the order of the name table, the
sorted `attrPositions` are the entries found, in the order of the block. -/
theorem sorted_positions_block {es : List Entry} (hb : BlockWF es) {tbl : List (List Char)}
    (htbl : tbl.Perm allPossibleAttrs) :
    sortByPos (findAttrPositions tbl (blockText es)) = entryPositions [] es := by
  apply sortByPos_eq_of_perm _ (entryPositions_sorted [] es)
  have hnd : tbl.Nodup := htbl.nodup_iff.2 (by decide)
  apply (List.perm_ext_iff_of_nodup _ _).2
  · intro x
    rw [mem_entryPositions]
    simp only [findAttrPositions, List.mem_filterMap, List.nil_append]
    constructor
    · rintro ⟨X, hX, hx⟩
      by_cases hex : ∃ e ∈ es, e.name = X
      · obtain ⟨e, he, hn⟩ := hex
        obtain ⟨es1, es2, hes⟩ := List.append_of_mem he
        subst hes
        subst hn
        rw [attrPositionOf_entry hb] at hx
        split at hx
        · rename_i hk
          exact ⟨es1, e, es2, rfl, hk, (Option.some.inj hx).symm⟩
        · cases hx
      · rw [attrPositionOf_absent hb (htbl.mem_iff.1 hX)
          (fun e he hn => hex ⟨e, he, hn⟩)] at hx
        cases hx
    · rintro ⟨es1, e, es2, hes, hk, hx⟩
      subst hes
      have hwe : e.WF := hb.2.1 e (by simp)
      refine ⟨e.name, htbl.mem_iff.2 (wf_name_mem hwe), ?_⟩
      rw [attrPositionOf_entry hb, if_pos hk, hx]
  · refine List.Nodup.filterMap ?_ hnd
    intro a a' b hb1 hb2
    rw [Option.mem_def] at hb1 hb2
    rw [← attrPositionOf_name hb1, ← attrPositionOf_name hb2]
  · exact (entryPositions_sorted [] es).imp fun {a b} h heq => by
      subst heq
      exact Nat.lt_irrefl _ h

/-- The slice `conditionObjects` on a grouped block: the objects of the entries, entry by
entry in the order of the block, whatever the order of the name table. -/
theorem conditionObjects_block {es : List Entry} (hb : BlockWF es) {tbl : List (List Char)}
    (htbl : tbl.Perm allPossibleAttrs) :
    conditionObjectsWith tbl (blockText es) = es.flatMap Entry.objects := by
  rw [conditionObjectsWith, sorted_positions_block hb htbl]
  exact entryPositions_emit [] es (by simpa using hb)

theorem blockText_contains (es : List Entry) : (blockText es).contains '\x7b' = true := by
  simp [blockText]

/-- The result of `transformConditionString` on a grouped block. -/
theorem transform_block {es : List Entry} (hb : BlockWF es) {tbl : List (List Char)}
    (htbl : tbl.Perm allPossibleAttrs) :
    transformConditionStringWith tbl (blockText es) =
      if es.flatMap Entry.objects = [] then blockText es
      else "[\n".toList ++ joinWith ",\n".toList (es.flatMap Entry.objects) ++
        "\n  ]".toList := by
  simp only [transformConditionStringWith, blockText_contains, conditionObjects_block hb htbl,
    Bool.not_true, Bool.false_eq_true, if_false, List.length_eq_zero]

/-! ## Facts that hold on every text -/

theorem matchAtoms_rest {re : Regex} {o cap s : List Char} {m : Match}
    (h : matchAtoms re o cap s = some m) : ∃ u, s = u ++ m.rest := by
  induction re generalizing o cap s with
  | nil =>
    simp only [matchAtoms, Option.some.injEq] at h
    exact ⟨[], by rw [← h]; rfl⟩
  | cons a re ih =>
    cases a with
    | one cc =>
      cases s with
      | nil => simp [matchAtoms] at h
      | cons c cs =>
        rw [matchAtoms_one] at h
        split at h
        · obtain ⟨u, hu⟩ := ih h
          exact ⟨c :: u, by rw [hu]; rfl⟩
        · cases h
    | star cc =>
      rw [matchAtoms_star] at h
      obtain ⟨w, t, rfl, -, hk⟩ := starGreedy_some h
      obtain ⟨u, hu⟩ := ih hk
      exact ⟨w ++ u, by rw [hu]; simp⟩
    | plus cc =>
      cases s with
      | nil => simp [matchAtoms] at h
      | cons c cs =>
        rw [matchAtoms_plus] at h
        split at h
        · obtain ⟨w, t, rfl, -, hk⟩ := starGreedy_some h
          obtain ⟨u, hu⟩ := ih hk
          exact ⟨c :: (w ++ u), by rw [hu]; simp⟩
        · cases h
    | capOpen =>
      rw [matchAtoms_open] at h
      exact ih h
    | capClose =>
      rw [matchAtoms_close] at h
      exact ih h

/-- A match of `valuePattern` is never empty: the input left after it is shorter than the
input searched. -/
theorem valuePattern_consumes {s : List Char} {i : Nat} {m : Match}
    (h : findFrom valuePattern s 0 = some (i, m)) : m.rest.length < s.length := by
  obtain ⟨pre, t, rfl, -, ht, -⟩ := findFrom_some h
  cases t with
  | nil => exact absurd ht (by simp [valuePattern, matchAtoms])
  | cons c cs =>
    rw [valuePattern, matchAtoms_one] at ht
    split at ht
    · obtain ⟨u, hu⟩ := matchAtoms_rest ht
      have := congrArg List.length hu
      simp only [List.length_append, List.length_cons] at this ⊢
      omega
    · cases ht

/-- The rounds allowed to `findAllStringSubmatch` are never used up: any larger number of rounds
gives the same matches. -/
theorem findAllFuel_stable (fuel : Nat) (s : List Char) (hf : s.length + 1 ≤ fuel) :
    findAllFuel valuePattern fuel s = findAllStringSubmatch valuePattern s := by
  have key : ∀ (n : Nat) (s : List Char) (f1 f2 : Nat), s.length < n → s.length < f1 →
      s.length < f2 → findAllFuel valuePattern f1 s = findAllFuel valuePattern f2 s := by
    intro n
    induction n with
    | zero => intro s f1 f2 h; omega
    | succ n ih =>
      intro s f1 f2 _ h1 h2
      cases f1 with
      | zero => omega
      | succ f1 =>
        cases f2 with
        | zero => omega
        | succ f2 =>
          rw [findAllFuel_succ, findAllFuel_succ]
          cases hfind : findFrom valuePattern s 0 with
          | none => rfl
          | some r =>
            have hlt := valuePattern_consumes (i := r.1) (m := r.2) hfind
            show r.2.cap :: findAllFuel valuePattern f1 r.2.rest =
              r.2.cap :: findAllFuel valuePattern f2 r.2.rest
            rw [ih r.2.rest f1 f2 (by omega) (by omega) (by omega)]
  exact key (s.length + 1) s fuel (s.length + 1) (by omega) (by omega) (by omega)

theorem byteLen_eq_zero {s : List Char} (h : byteLen s = 0) : s = [] := by
  cases s with
  | nil => rfl
  | cons c cs =>
    exfalso
    simp only [byteLen, List.map_cons, List.sum_cons] at h
    have := Char.utf8Size_pos c
    omega

theorem split_byteLen_unique {pre pre' t t' : List Char} (h : pre ++ t = pre' ++ t')
    (hb : byteLen pre = byteLen pre') : t = t' := by
  rcases List.append_eq_append_iff.1 h with ⟨a, h1, h2⟩ | ⟨a, h1, h2⟩
  · rw [h1, byteLen_append] at hb
    have : a = [] := byteLen_eq_zero (by omega)
    rw [h2, this]
    rfl
  · rw [h1, byteLen_append] at hb
    have : a = [] := byteLen_eq_zero (by omega)
    rw [h2, this]
    rfl

/-- Two patterns built on known names that match at the same place are built on the same
name. -/
theorem attrPattern_same_start {X Y : List Char} {tl tl2 : Regex} {t : List Char}
    {m m2 : Match} (hX : X ≠ [] ∧ ∀ c ∈ X, nameChar c = true)
    (hY : Y ≠ [] ∧ ∀ c ∈ Y, nameChar c = true)
    (h1 : matchAtoms (attrPattern X tl) [] [] t = some m)
    (h2 : matchAtoms (attrPattern Y tl2) [] [] t = some m2) : X = Y := by
  obtain ⟨w1, w2, w3, u, hs, hw1, hw2, -, -⟩ := attrPattern_sound h1
  obtain ⟨v1, v2, v3, u2, hs2, hv1, hv2, -, -⟩ := attrPattern_sound h2
  have headName : ∀ (N R : List Char), (N ≠ [] ∧ ∀ c ∈ N, nameChar c = true) →
      ∀ c r, N ++ R = c :: r → CharClass.space.test c = false := by
    intro N R hN c r hc
    cases hN' : N with
    | nil => exact absurd hN' hN.1
    | cons x N' =>
      rw [hN'] at hc
      simp only [List.cons_append, List.cons.injEq] at hc
      rw [← hc.1]
      exact nameChar_not_space (hN.2 x (by rw [hN']; simp))
  have headRest : ∀ (w R : List Char), AllSpace w →
      ∀ c r, w ++ '=' :: R = c :: r → nameChar c = false := by
    intro w R hw c r hc
    cases w with
    | nil =>
      simp only [List.nil_append, List.cons.injEq] at hc
      rw [← hc.1]
      decide
    | cons x w' =>
      simp only [List.cons_append, List.cons.injEq] at hc
      rw [← hc.1]
      have hx := hw x (by simp)
      cases hn : nameChar x with
      | false => rfl
      | true => rw [nameChar_not_space hn] at hx; cases hx
  rw [hs] at hs2
  obtain ⟨-, h3⟩ := span_unique CharClass.space.test hw1 hv1 (headName X _ hX)
    (headName Y _ hY) hs2
  exact (span_unique nameChar hX.2 hY.2 (headRest w2 _ hw2) (headRest v2 _ hv2) h3).1

theorem attrPositionOf_match {content X : List Char} {x : AttrPosition}
    (h : attrPositionOf content X = some x) :
    ∃ κ m, findFrom (attrPattern X (tailOf κ)) content 0 = some (x.pos, m) := by
  have key : ∀ (κ : Kind),
      (findStringIndex (attrPattern X (tailOf κ)) content).map
        (fun i => (⟨X, i⟩ : AttrPosition)) = some x →
      ∃ κ m, findFrom (attrPattern X (tailOf κ)) content 0 = some (x.pos, m) := by
    intro κ hk
    simp only [findStringIndex, Option.map_eq_some', Option.map_map] at hk
    obtain ⟨r, hr, hx⟩ := hk
    refine ⟨κ, r.2, ?_⟩
    rw [hr, ← hx]
    rfl
  unfold attrPositionOf at h
  simp only [boolPattern_eq, listPattern_eq, singlePattern_eq] at h
  split_ifs at h
  · exact key .bool h
  · exact key .list h
  · exact key .single h
  · exact key .single h

/-- On every text, the entries of `attrPositions` found for distinct names have distinct
offsets. -/
theorem offsets_distinct {content X Y : List Char} (hX : X ∈ allPossibleAttrs)
    (hY : Y ∈ allPossibleAttrs) {x y : AttrPosition} (hx : attrPositionOf content X = some x)
    (hy : attrPositionOf content Y = some y) (hne : X ≠ Y) : x.pos ≠ y.pos := by
  intro hpos
  obtain ⟨κ, m, h1⟩ := attrPositionOf_match hx
  obtain ⟨κ2, m2, h2⟩ := attrPositionOf_match hy
  obtain ⟨pre, t, hs, hi, ht, -⟩ := findFrom_some h1
  obtain ⟨pre2, t2, hs2, hi2, ht2, -⟩ := findFrom_some h2
  have hb : byteLen pre = byteLen pre2 := by omega
  have htt : t = t2 := split_byteLen_unique (hs.symm.trans hs2) hb
  rw [← htt] at ht2
  exact hne (attrPattern_same_start (nameChar_table X hX) (nameChar_table Y hY) ht ht2)

theorem findAttrPositions_distinct (content : List Char) {tbl : List (List Char)}
    (hsub : ∀ X ∈ tbl, X ∈ allPossibleAttrs) (hnd : tbl.Nodup) :
    (findAttrPositions tbl content).Pairwise fun x y => x.pos ≠ y.pos := by
  induction tbl with
  | nil => simp [findAttrPositions]
  | cons X tbl ih =>
    have hrest := ih (fun Y hY => hsub Y (List.mem_cons_of_mem _ hY)) (List.nodup_cons.1 hnd).2
    simp only [findAttrPositions, List.filterMap_cons]
    cases hx : attrPositionOf content X with
    | none => exact hrest
    | some x =>
      refine List.Pairwise.cons ?_ hrest
      intro y hy
      obtain ⟨Y, hY, hYy⟩ := List.mem_filterMap.1 hy
      refine offsets_distinct (hsub X (List.mem_cons_self _ _))
        (hsub Y (List.mem_cons_of_mem _ hY)) hx hYy ?_
      rintro rfl
      exact (List.nodup_cons.1 hnd).1 hY

/-- On every text, the order of the name table has no effect on the result. -/
theorem table_order_irrelevant (content : List Char) {tbl : List (List Char)}
    (htbl : tbl.Perm allPossibleAttrs) :
    transformConditionStringWith tbl content = transformConditionString content := by
  have hs : sortByPos (findAttrPositions tbl content) =
      sortByPos (findAttrPositions allPossibleAttrs content) := by
    apply sortByPos_eq_of_perm
    · exact (htbl.filterMap _).trans (perm_sortByPos _).symm
    · exact sortByPos_sorted _
        (findAttrPositions_distinct content (fun _ h => h) (by decide))
  simp only [transformConditionString, transformConditionStringWith, conditionObjectsWith, hs]

/-! ## The document accessor: edits of one member of an object at a path -/

theorem getPath_append (P Q : List String) (j : JSON) :
    getPath (P ++ Q) j = (getPath P j).bind (getPath Q) := by
  induction P generalizing j with
  | nil => rfl
  | cons p P ih =>
    cases j with
    | obj kvs =>
      simp only [List.cons_append, getPath]
      cases lookupKey p kvs with
      | none => rfl
      | some c => simpa using ih c
    | arr xs =>
      cases hp : parseIndex p with
      | none => simp [getPath, hp]
      | some i =>
        cases hx : xs[i]? with
        | none => simp [getPath, hp, hx]
        | some c => simp [getPath, hp, hx, ih c]
    | null => rfl
    | bool b => rfl
    | num q => rfl
    | str s => rfl

theorem updateKey_lookup {k : String} {f : JSON → Option JSON} {kvs : List (String × JSON)}
    {c w : JSON} (hl : lookupKey k kvs = some c) (hf : f c = some w) :
    ∃ r, updateKey k f kvs = some r ∧ lookupKey k r = some w := by
  induction kvs with
  | nil => simp [lookupKey] at hl
  | cons kv kvs ih =>
    obtain ⟨k0, v0⟩ := kv
    by_cases h : k0 = k
    · simp only [lookupKey, h, if_true, Option.some.injEq] at hl
      subst hl
      exact ⟨(k0, w) :: kvs, by simp [updateKey, h, hf], by simp [lookupKey, h]⟩
    · simp only [lookupKey, h, if_false] at hl
      obtain ⟨r, hr, hlr⟩ := ih hl
      exact ⟨(k0, v0) :: r, by simp [updateKey, h, hr], by simp [lookupKey, h, hlr]⟩

theorem updateAt_get {f : JSON → Option JSON} {i : Nat} {xs : List JSON} {c c' : JSON}
    (hl : xs[i]? = some c) (hf : f c = some c') :
    ∃ r, updateAt f i xs = some r ∧ r[i]? = some c' := by
  induction xs generalizing i with
  | nil => simp at hl
  | cons x xs ih =>
    cases i with
    | zero =>
      simp only [List.getElem?_cons_zero, Option.some.injEq] at hl
      subst hl
      exact ⟨c' :: xs, by simp [updateAt, hf], by simp⟩
    | succ i =>
      simp only [List.getElem?_cons_succ] at hl
      obtain ⟨r, hr, hlr⟩ := ih hl
      exact ⟨x :: r, by simp [updateAt, hr], by simpa using hlr⟩

theorem getElem?_some_lt {xs : List JSON} {i : Nat} {c : JSON} (h : xs[i]? = some c) :
    i < xs.length := by
  induction xs generalizing i with
  | nil => simp at h
  | cons x xs ih =>
    cases i with
    | zero => simp
    | succ i =>
      simp only [List.getElem?_cons_succ] at h
      have := ih h
      simp only [List.length_cons]
      omega

theorem assignKey_eq {k : String} {v : JSON} {kvs : List (String × JSON)} :
    (match lookupKey k kvs with
      | some _ => (updateKey k (setPath [] v) kvs).map JSON.obj
      | none => some (JSON.obj (kvs ++ [(k, createPath [] v)]))) =
      some (JSON.obj (assignKey k v kvs)) := by
  unfold assignKey
  cases h : lookupKey k kvs with
  | none => rfl
  | some c =>
    obtain ⟨r, hr, -⟩ := updateKey_lookup (f := fun _ => some v) (w := v) h rfl
    have hr' : updateKey k (setPath [] v) kvs = some r := hr
    simp [hr, hr']

/-- Setting the member `k` of the object at path `P` replaces that object by the object with
`k` assigned. -/
theorem setPath_member (k : String) (v : JSON) (P : List String) (j : JSON)
    (kvs : List (String × JSON)) (h : getPath P j = some (.obj kvs)) :
    ∃ j', setPath (P ++ [k]) v j = some j' ∧ getPath P j' = some (.obj (assignKey k v kvs)) := by
  induction P generalizing j with
  | nil =>
    simp only [getPath, Option.some.injEq] at h
    subst h
    exact ⟨.obj (assignKey k v kvs), by simpa [setPath] using assignKey_eq, rfl⟩
  | cons p P ih =>
    cases j with
    | obj kvs0 =>
      simp only [getPath] at h
      cases hl : lookupKey p kvs0 with
      | none => simp [hl] at h
      | some c =>
        rw [hl] at h
        obtain ⟨c', hc', hg⟩ := ih c h
        obtain ⟨r, hr, hlr⟩ := updateKey_lookup (f := setPath (P ++ [k]) v) hl hc'
        refine ⟨.obj r, by simp [setPath, hl, hr], ?_⟩
        simpa [getPath, hlr] using hg
    | arr xs =>
      simp only [getPath] at h
      cases hp : parseIndex p with
      | none => simp [hp] at h
      | some i =>
        rw [hp] at h
        cases hx : xs[i]? with
        | none => simp [hx] at h
        | some c =>
          simp only [Option.some_bind, hx] at h
          obtain ⟨c', hc', hg⟩ := ih c h
          obtain ⟨r, hr, hlr⟩ := updateAt_get (f := setPath (P ++ [k]) v) hx hc'
          have hi : i < xs.length := getElem?_some_lt hx
          refine ⟨.arr r, by simp [setPath, hp, hi, hr], ?_⟩
          simpa [getPath, hp, hlr] using hg
    | null => simp [getPath] at h
    | bool b => simp [getPath] at h
    | num q => simp [getPath] at h
    | str s => simp [getPath] at h

/-- Deleting the member `k` of the object at path `P` replaces that object by the object
without `k`. -/
theorem deletePath_member (k : String) (P : List String) (j : JSON)
    (kvs : List (String × JSON)) (h : getPath P j = some (.obj kvs)) :
    getPath P (deletePath (P ++ [k]) j) = some (.obj (eraseKey k kvs)) := by
  induction P generalizing j with
  | nil =>
    simp only [getPath, Option.some.injEq] at h
    subst h
    rfl
  | cons p P ih =>
    obtain ⟨k2, ks, hks⟩ : ∃ k2 ks, P ++ [k] = k2 :: ks := by
      cases P with
      | nil => exact ⟨k, [], rfl⟩
      | cons q P => exact ⟨q, P ++ [k], rfl⟩
    cases j with
    | obj kvs0 =>
      simp only [getPath] at h
      cases hl : lookupKey p kvs0 with
      | none => simp [hl] at h
      | some c =>
        rw [hl] at h
        have hg := ih c h
        obtain ⟨r, hr, hlr⟩ := updateKey_lookup
          (f := fun c => some (deletePath (P ++ [k]) c)) hl rfl
        have hd : deletePath (p :: P ++ [k]) (.obj kvs0) = .obj r := by
          simp only [List.cons_append, hks, deletePath]
          rw [hks] at hr
          simp [hr]
        rw [hd]
        simpa [getPath, hlr] using hg
    | arr xs =>
      simp only [getPath] at h
      cases hp : parseIndex p with
      | none => simp [hp] at h
      | some i =>
        rw [hp] at h
        cases hx : xs[i]? with
        | none => simp [hx] at h
        | some c =>
          simp only [Option.some_bind, hx] at h
          have hg := ih c h
          obtain ⟨r, hr, hlr⟩ := updateAt_get
            (f := fun c => some (deletePath (P ++ [k]) c)) hx rfl
          have hd : deletePath (p :: P ++ [k]) (.arr xs) = .arr r := by
            simp only [List.cons_append, hks, deletePath, hp]
            rw [hks] at hr
            simp [hr]
          rw [hd]
          simpa [getPath, hp, hlr] using hg
    | null => simp [getPath] at h
    | bool b => simp [getPath] at h
    | num q => simp [getPath] at h
    | str s => simp [getPath] at h

theorem getPath_member (k : String) (P : List String) (j : JSON) (kvs : List (String × JSON))
    (h : getPath P j = some (.obj kvs)) : getPath (P ++ [k]) j = lookupKey k kvs := by
  rw [getPath_append, h]
  simp only [Option.some_bind, getPath]
  cases lookupKey k kvs <;> rfl

theorem lookupKey_updateKey_ne {k k' : String} (hne : k ≠ k') (f : JSON → Option JSON)
    {kvs r : List (String × JSON)} (h : updateKey k' f kvs = some r) :
    lookupKey k r = lookupKey k kvs := by
  induction kvs generalizing r with
  | nil =>
    simp only [updateKey, Option.some.injEq] at h
    rw [← h]
  | cons kv kvs ih =>
    obtain ⟨k0, v0⟩ := kv
    by_cases h0 : k0 = k'
    · simp only [updateKey, h0, if_true, Option.map_eq_some'] at h
      obtain ⟨w, -, rfl⟩ := h
      have : ¬ k' = k := fun h => hne h.symm
      simp [lookupKey, h0, this]
    · simp only [updateKey, h0, if_false, Option.map_eq_some'] at h
      obtain ⟨r', hr', rfl⟩ := h
      simp only [lookupKey]
      rw [ih hr']

theorem lookupKey_append_ne {k k' : String} (hne : k ≠ k') (v : JSON)
    (kvs : List (String × JSON)) : lookupKey k (kvs ++ [(k', v)]) = lookupKey k kvs := by
  induction kvs with
  | nil =>
    have : ¬ k' = k := fun h => hne h.symm
    simp [lookupKey, this]
  | cons kv kvs ih =>
    obtain ⟨k0, v0⟩ := kv
    by_cases h : k0 = k <;> simp [lookupKey, h, ih]

theorem lookupKey_assignKey_ne {k k' : String} (hne : k ≠ k') (v : JSON)
    (kvs : List (String × JSON)) : lookupKey k (assignKey k' v kvs) = lookupKey k kvs := by
  unfold assignKey
  cases h : lookupKey k' kvs with
  | none => exact lookupKey_append_ne hne v kvs
  | some c =>
    obtain ⟨r, hr, -⟩ := updateKey_lookup (f := fun _ => some v) (w := v) h rfl
    simp only [hr, Option.getD_some]
    exact lookupKey_updateKey_ne hne _ hr

theorem lookupKey_eraseKey_ne {k k' : String} (hne : k ≠ k') (kvs : List (String × JSON)) :
    lookupKey k (eraseKey k' kvs) = lookupKey k kvs := by
  induction kvs with
  | nil => rfl
  | cons kv kvs ih =>
    obtain ⟨k0, v0⟩ := kv
    by_cases h0 : k0 = k'
    · subst h0
      simp [eraseKey, lookupKey, ih, Ne.symm hne]
    · simp only [eraseKey, h0, if_false, lookupKey, ih]

theorem focus_get {P : List String} {d : Doc} {kvs : List (String × JSON)} (h : Focus P d kvs)
    (k : String) : d.get (P ++ [k]) = lookupKey k kvs := by
  obtain ⟨j, rfl, hj⟩ := h
  exact getPath_member k P j kvs hj

theorem focus_set {P : List String} {d : Doc} {kvs : List (String × JSON)} (h : Focus P d kvs)
    (k : String) (v : JSON) : Focus P (d.set (P ++ [k]) v) (assignKey k v kvs) := by
  obtain ⟨j, rfl, hj⟩ := h
  obtain ⟨j', h1, h2⟩ := setPath_member k v P j kvs hj
  exact ⟨j', h1, h2⟩

theorem focus_delete {P : List String} {d : Doc} {kvs : List (String × JSON)}
    (h : Focus P d kvs) (k : String) : Focus P (d.delete (P ++ [k])) (eraseKey k kvs) := by
  obtain ⟨j, rfl, hj⟩ := h
  exact ⟨_, rfl, deletePath_member k P j kvs hj⟩

/-- A value read at `P ++ [k]`, for a key `k` that is no array index, is a member of an object
at `P`. -/
theorem focus_of_get {P : List String} {d : Doc} {k : String} {x : JSON}
    (hk : parseIndex k = none) (h : d.get (P ++ [k]) = some x) :
    ∃ kvs, Focus P d kvs ∧ lookupKey k kvs = some x := by
  cases d with
  | none => simp [Doc.get] at h
  | some j =>
    simp only [Doc.get, Option.some_bind, getPath_append] at h
    cases hP : getPath P j with
    | none => simp [hP] at h
    | some y =>
      rw [hP] at h
      cases y with
      | obj kvs =>
        refine ⟨kvs, ⟨j, rfl, hP⟩, ?_⟩
        simp only [Option.some_bind, getPath] at h
        cases hl : lookupKey k kvs with
        | none => simp [hl] at h
        | some c => simpa [hl, getPath] using h
      | arr xs => simp [getPath, hk] at h
      | null => simp [getPath] at h
      | bool b => simp [getPath] at h
      | num q => simp [getPath] at h
      | str s => simp [getPath] at h

theorem mapOrPanic_some {α β : Type} (f : α → Option β) (xs : List α)
    (h : ∀ x ∈ xs, ∃ y, f x = some y) : ∃ ys, mapOrPanic f xs = some ys := by
  induction xs with
  | nil => exact ⟨[], rfl⟩
  | cons x xs ih =>
    obtain ⟨y, hy⟩ := h x (by simp)
    obtain ⟨ys, hys⟩ := ih fun z hz => h z (by simp [hz])
    exact ⟨y :: ys, by simp [mapOrPanic, hy, hys]⟩

theorem mapOrPanic_const {α β : Type} (f : α → Option β) (xs : List α) (b : β)
    (h : ∀ x ∈ xs, f x = some b) : mapOrPanic f xs = some (xs.map fun _ => b) := by
  induction xs with
  | nil => rfl
  | cons x xs ih =>
    simp [mapOrPanic, h x (by simp), ih fun z hz => h z (by simp [hz])]

/-! ## Steps of `transformZeroTrustAccessPolicyStateJSON` on the attributes object -/

theorem migrateApprovalGroup_focus {P : List String} {d : Doc} {kvs : List (String × JSON)}
    (h : Focus P d kvs)
    (hobj : ∀ gs, lookupKey "approval_group" kvs = some (.arr gs) → ∀ g ∈ gs, ∃ m, g = .obj m) :
    ∃ d' kvs', migrateApprovalGroup P d = some d' ∧ Focus P d' kvs' ∧
      ∀ k, k ≠ "approval_group" → k ≠ "approval_groups" →
        lookupKey k kvs' = lookupKey k kvs := by
  unfold migrateApprovalGroup
  rw [focus_get h]
  cases hl : lookupKey "approval_group" kvs with
  | none => exact ⟨d, kvs, rfl, h, fun _ _ _ => rfl⟩
  | some x =>
    cases x with
    | arr gs =>
      by_cases hlen : gs.length > 0
      · obtain ⟨gs', hgs'⟩ := mapOrPanic_some convertApprovalGroup gs (by
          intro g hg
          obtain ⟨m, rfl⟩ := hobj gs hl g hg
          simp [convertApprovalGroup, assertObject])
        refine ⟨_, _, by simp [hlen, hgs'],
          focus_delete (focus_set h "approval_groups" (.arr gs')) "approval_group", ?_⟩
        intro k h1 h2
        rw [lookupKey_eraseKey_ne h1, lookupKey_assignKey_ne h2]
      · refine ⟨_, _, by simp [hlen], focus_delete h "approval_group", ?_⟩
        intro k h1 _
        rw [lookupKey_eraseKey_ne h1]
    | null => exact ⟨d, kvs, rfl, h, fun _ _ _ => rfl⟩
    | bool b => exact ⟨d, kvs, rfl, h, fun _ _ _ => rfl⟩
    | num q => exact ⟨d, kvs, rfl, h, fun _ _ _ => rfl⟩
    | str s => exact ⟨d, kvs, rfl, h, fun _ _ _ => rfl⟩
    | obj m => exact ⟨d, kvs, rfl, h, fun _ _ _ => rfl⟩

theorem migrateConditionAttr_focus (iter : List (String × JSON) → List (String × JSON))
    {P : List String} {d : Doc} {kvs : List (String × JSON)} (h : Focus P d kvs) (b : String)
    (hobj : ∀ cs, lookupKey b kvs = some (.arr cs) → ∀ c ∈ cs, ∃ m, c = .obj m) :
    ∃ d' kvs', migrateConditionAttr iter P d b = some d' ∧ Focus P d' kvs' ∧
      ∀ k, k ≠ b → lookupKey k kvs' = lookupKey k kvs := by
  unfold migrateConditionAttr
  rw [focus_get h]
  cases hl : lookupKey b kvs with
  | none => exact ⟨d, kvs, rfl, h, fun _ _ => rfl⟩
  | some x =>
    cases x with
    | arr cs =>
      obtain ⟨parts, hparts⟩ := mapOrPanic_some
        (fun c => (assertObject c).map fun m => transformConditionObject (iter m)) cs (by
          intro c hc
          obtain ⟨m, rfl⟩ := hobj cs hl c hc
          simp [assertObject])
      by_cases hlen : parts.flatten.length > 0
      · refine ⟨_, _, ?_, focus_set h b (.arr parts.flatten), ?_⟩
        · show Option.map _ (mapOrPanic _ cs) = _
          rw [hparts]
          exact congrArg some (if_pos hlen)
        · intro k hk
          rw [lookupKey_assignKey_ne hk]
      · refine ⟨d, kvs, ?_, h, fun _ _ => rfl⟩
        show Option.map _ (mapOrPanic _ cs) = _
        rw [hparts]
        exact congrArg some (if_neg hlen)
    | null => exact ⟨d, kvs, rfl, h, fun _ _ => rfl⟩
    | bool b => exact ⟨d, kvs, rfl, h, fun _ _ => rfl⟩
    | num q => exact ⟨d, kvs, rfl, h, fun _ _ => rfl⟩
    | str s => exact ⟨d, kvs, rfl, h, fun _ _ => rfl⟩
    | obj m => exact ⟨d, kvs, rfl, h, fun _ _ => rfl⟩

/-- The step on a condition attribute whose elements all expand to nothing: it completes and
returns the document as it was. -/
theorem migrateConditionAttr_empty (iter : List (String × JSON) → List (String × JSON))
    (P : List String) (d : Doc) (b : String) (cs : List JSON)
    (hget : d.get (P ++ [b]) = some (.arr cs))
    (hexp : ∀ c ∈ cs, ∃ m, c = .obj m ∧ transformConditionObject (iter m) = []) :
    migrateConditionAttr iter P d b = some d := by
  unfold migrateConditionAttr
  rw [hget]
  have := mapOrPanic_const
    (fun c => (assertObject c).map fun m => transformConditionObject (iter m)) cs [] (by
      intro c hc
      obtain ⟨m, rfl, hm⟩ := hexp c hc
      simp [assertObject, hm])
  simp [this]

theorem deleteUnsupported_focus {P : List String} {d : Doc} {kvs : List (String × JSON)}
    (h : Focus P d kvs) :
    ∃ kvs', Focus P (deleteUnsupported P d) kvs' ∧
      ∀ k, k ∉ ["zone_id", "application_id", "precedence", "connection_rules"] →
        lookupKey k kvs' = lookupKey k kvs := by
  refine ⟨_, focus_delete (focus_delete (focus_delete (focus_delete h "zone_id")
    "application_id") "precedence") "connection_rules", ?_⟩
  intro k hk
  simp only [List.mem_cons, List.mem_singleton, List.not_mem_nil, or_false, not_or] at hk
  rw [lookupKey_eraseKey_ne hk.2.2.2, lookupKey_eraseKey_ne hk.2.2.1,
    lookupKey_eraseKey_ne hk.2.1, lookupKey_eraseKey_ne hk.1]

theorem defaultSessionDuration_focus {P : List String} {d : Doc} {kvs : List (String × JSON)}
    (h : Focus P d kvs) :
    ∃ kvs', Focus P (defaultSessionDuration P d) kvs' ∧
      ∀ k, k ≠ "session_duration" → lookupKey k kvs' = lookupKey k kvs := by
  unfold defaultSessionDuration
  rw [focus_get h]
  cases lookupKey "session_duration" kvs with
  | none =>
    exact ⟨_, focus_set h "session_duration" (.str "24h"),
      fun k hk => lookupKey_assignKey_ne hk _ _⟩
  | some x => exact ⟨kvs, h, fun _ _ => rfl⟩

theorem migrateApprovalGroup_result {P : List String} {d d' : Doc}
    {kvs : List (String × JSON)} (h : Focus P d kvs)
    (hr : migrateApprovalGroup P d = some d') :
    ∃ kvs', Focus P d' kvs' ∧
      ∀ k, k ≠ "approval_group" → k ≠ "approval_groups" →
        lookupKey k kvs' = lookupKey k kvs := by
  unfold migrateApprovalGroup at hr
  rw [focus_get h] at hr
  have same : some d = some d' → ∃ kvs', Focus P d' kvs' ∧
      ∀ k, k ≠ "approval_group" → k ≠ "approval_groups" →
        lookupKey k kvs' = lookupKey k kvs := by
    intro hd
    cases hd
    exact ⟨kvs, h, fun _ _ _ => rfl⟩
  cases hl : lookupKey "approval_group" kvs with
  | none =>
    rw [hl] at hr
    exact same hr
  | some x =>
    rw [hl] at hr
    cases x with
    | arr gs =>
      by_cases hlen : gs.length > 0
      · cases hm : mapOrPanic convertApprovalGroup gs with
        | none => simp [hlen, hm] at hr
        | some gs2 =>
          simp only [hlen, if_true, hm, Option.map_some', Option.some.injEq] at hr
          subst hr
          refine ⟨_, focus_delete (focus_set h "approval_groups" (.arr gs2)) "approval_group",
            ?_⟩
          intro k h1 h2
          rw [lookupKey_eraseKey_ne h1, lookupKey_assignKey_ne h2]
      · simp only [hlen, if_false, Option.map_some', Option.some.injEq] at hr
        subst hr
        refine ⟨_, focus_delete h "approval_group", ?_⟩
        intro k h1 _
        rw [lookupKey_eraseKey_ne h1]
    | null => exact same hr
    | bool b => exact same hr
    | num q => exact same hr
    | str s => exact same hr
    | obj m => exact same hr

theorem migrateConditionAttr_result (iter : List (String × JSON) → List (String × JSON))
    {P : List String} {d d' : Doc} {kvs : List (String × JSON)} (h : Focus P d kvs)
    {b : String} (hr : migrateConditionAttr iter P d b = some d') :
    ∃ kvs', Focus P d' kvs' ∧ ∀ k, k ≠ b → lookupKey k kvs' = lookupKey k kvs := by
  unfold migrateConditionAttr at hr
  rw [focus_get h] at hr
  have same : some d = some d' →
      ∃ kvs', Focus P d' kvs' ∧ ∀ k, k ≠ b → lookupKey k kvs' = lookupKey k kvs := by
    intro hd
    cases hd
    exact ⟨kvs, h, fun _ _ => rfl⟩
  cases hl : lookupKey b kvs with
  | none =>
    rw [hl] at hr
    exact same hr
  | some x =>
    rw [hl] at hr
    cases x with
    | arr cs =>
      cases hm : mapOrPanic
          (fun c => (assertObject c).map fun m => transformConditionObject (iter m)) cs with
      | none =>
        have hr2 : Option.map _ (mapOrPanic _ cs) = some d' := hr
        rw [hm] at hr2
        cases hr2
      | some parts =>
        have hr2 : Option.map _ (mapOrPanic _ cs) = some d' := hr
        rw [hm] at hr2
        by_cases hlen : parts.flatten.length > 0
        · have hr3 : some (d.set (P ++ [b]) (.arr parts.flatten)) = some d' :=
            (congrArg some (if_pos hlen)).symm.trans hr2
          cases hr3
          exact ⟨_, focus_set h b (.arr parts.flatten),
            fun k hk => lookupKey_assignKey_ne hk _ _⟩
        · have hr3 : some d = some d' := (congrArg some (if_neg hlen)).symm.trans hr2
          exact same hr3
    | null => exact same hr
    | bool b => exact same hr
    | num q => exact same hr
    | str s => exact same hr
    | obj m => exact same hr

/-! ## Member names of an object -/

theorem lookupKey_eq_none_iff (k : String) (kvs : List (String × JSON)) :
    lookupKey k kvs = none ↔ k ∉ kvs.map Prod.fst := by
  induction kvs with
  | nil => simp [lookupKey]
  | cons kv kvs ih =>
    obtain ⟨k0, v0⟩ := kv
    by_cases h : k0 = k
    · simp [lookupKey, h]
    · have h2 : ¬ k = k0 := fun e => h e.symm
      simp [lookupKey, h, h2, ih]

theorem lookupKey_append_self (k : String) (v : JSON) (kvs : List (String × JSON))
    (h : lookupKey k kvs = none) : lookupKey k (kvs ++ [(k, v)]) = some v := by
  induction kvs with
  | nil => simp [lookupKey]
  | cons kv kvs ih =>
    obtain ⟨k0, v0⟩ := kv
    by_cases h0 : k0 = k
    · simp [lookupKey, h0] at h
    · simp only [lookupKey, h0, if_false] at h
      simp [lookupKey, h0, ih h]

theorem lookupKey_assignKey_self (k : String) (v : JSON) (kvs : List (String × JSON)) :
    lookupKey k (assignKey k v kvs) = some v := by
  unfold assignKey
  cases h : lookupKey k kvs with
  | none => exact lookupKey_append_self k v kvs h
  | some c =>
    obtain ⟨r, hr, hlr⟩ := updateKey_lookup (f := fun _ => some v) (w := v) h rfl
    simp only [hr, Option.getD_some]
    exact hlr

theorem keys_updateKey {k : String} {f : JSON → Option JSON} {kvs r : List (String × JSON)}
    (h : updateKey k f kvs = some r) : r.map Prod.fst = kvs.map Prod.fst := by
  induction kvs generalizing r with
  | nil =>
    simp only [updateKey, Option.some.injEq] at h
    rw [← h]
  | cons kv kvs ih =>
    obtain ⟨k0, v0⟩ := kv
    by_cases h0 : k0 = k
    · simp only [updateKey, h0, if_true, Option.map_eq_some'] at h
      obtain ⟨w, -, rfl⟩ := h
      simp [h0]
    · simp only [updateKey, h0, if_false, Option.map_eq_some'] at h
      obtain ⟨r', hr', rfl⟩ := h
      simp [ih hr']

/-- Assignment keeps the member names distinct. -/
theorem nodup_assignKey (k : String) (v : JSON) (kvs : List (String × JSON))
    (h : (kvs.map Prod.fst).Nodup) : ((assignKey k v kvs).map Prod.fst).Nodup := by
  unfold assignKey
  cases hl : lookupKey k kvs with
  | none =>
    have hk := (lookupKey_eq_none_iff k kvs).mp hl
    simp only [List.map_append, List.map_cons, List.map_nil]
    exact List.Nodup.append h (List.nodup_singleton k) (by
      intro a ha hb
      rw [List.mem_singleton] at hb
      subst hb
      exact hk ha)
  | some c =>
    obtain ⟨r, hr, -⟩ := updateKey_lookup (f := fun _ => some v) (w := v) hl rfl
    simp only [hr, Option.getD_some]
    rw [keys_updateKey hr]
    exact h

theorem keys_eraseKey_sublist (k : String) (kvs : List (String × JSON)) :
    ((eraseKey k kvs).map Prod.fst).Sublist (kvs.map Prod.fst) := by
  induction kvs with
  | nil => exact List.Sublist.slnil
  | cons kv kvs ih =>
    obtain ⟨k0, v0⟩ := kv
    by_cases h0 : k0 = k
    · simp only [eraseKey, h0, if_true, List.map_cons]
      exact List.sublist_cons_self _ _
    · simp only [eraseKey, h0, if_false, List.map_cons]
      exact ih.cons₂ _

/-- Deletion keeps the member names distinct. -/
theorem nodup_eraseKey (k : String) (kvs : List (String × JSON))
    (h : (kvs.map Prod.fst).Nodup) : ((eraseKey k kvs).map Prod.fst).Nodup :=
  h.sublist (keys_eraseKey_sublist k kvs)

/-- In an object with distinct member names, the deleted member is absent. -/
theorem lookupKey_eraseKey_self (k : String) (kvs : List (String × JSON))
    (h : (kvs.map Prod.fst).Nodup) : lookupKey k (eraseKey k kvs) = none := by
  induction kvs with
  | nil => rfl
  | cons kv kvs ih =>
    obtain ⟨k0, v0⟩ := kv
    simp only [List.map_cons, List.nodup_cons] at h
    by_cases h0 : k0 = k
    · subst h0
      simp only [eraseKey, if_true]
      exact (lookupKey_eq_none_iff _ _).mpr h.1
    · simp only [eraseKey, h0, if_false, lookupKey]
      exact ih h.2

/-! ## The map version of the load balancer rewriter -/

theorem nodup_renameKey (old new : String) (m : List (String × JSON))
    (h : (m.map Prod.fst).Nodup) : ((renameKey old new m).map Prod.fst).Nodup := by
  unfold renameKey
  cases lookupKey old m with
  | none => exact h
  | some v => exact nodup_eraseKey _ _ (nodup_assignKey _ _ _ h)

theorem lookupKey_renameKey_ne {k old new : String} (h1 : k ≠ old) (h2 : k ≠ new)
    (m : List (String × JSON)) : lookupKey k (renameKey old new m) = lookupKey k m := by
  unfold renameKey
  cases lookupKey old m with
  | none => rfl
  | some v => simp only [lookupKey_eraseKey_ne h1, lookupKey_assignKey_ne h2]

/-- The renaming step: the new name holds the value, the old name is absent. -/
theorem lookupKey_renameKey (old new : String) (hne : new ≠ old) (m : List (String × JSON))
    (h : (m.map Prod.fst).Nodup) (v : JSON) (hv : lookupKey old m = some v) :
    lookupKey new (renameKey old new m) = some v ∧ lookupKey old (renameKey old new m) = none := by
  unfold renameKey
  simp only [hv]
  exact ⟨by rw [lookupKey_eraseKey_ne hne, lookupKey_assignKey_self],
    lookupKey_eraseKey_self _ _ (nodup_assignKey _ _ _ h)⟩

theorem nodup_deleteEmptySlice (m : List (String × JSON)) (attr : String)
    (h : (m.map Prod.fst).Nodup) : ((deleteEmptySlice m attr).map Prod.fst).Nodup := by
  unfold deleteEmptySlice
  split
  · exact nodup_eraseKey _ _ h
  · exact h

theorem lookupKey_deleteEmptySlice_ne {k attr : String} (hne : k ≠ attr)
    (m : List (String × JSON)) : lookupKey k (deleteEmptySlice m attr) = lookupKey k m := by
  unfold deleteEmptySlice
  split
  · exact lookupKey_eraseKey_ne hne m
  · rfl

theorem lookupKey_emptySliceToMap_ne {k attr : String} (hne : k ≠ attr)
    (m : List (String × JSON)) : lookupKey k (emptySliceToMap m attr) = lookupKey k m := by
  unfold emptySliceToMap
  split
  · exact lookupKey_assignKey_ne hne _ m
  · rfl

theorem nodup_emptySliceToMap (m : List (String × JSON)) (attr : String)
    (h : (m.map Prod.fst).Nodup) : ((emptySliceToMap m attr).map Prod.fst).Nodup := by
  unfold emptySliceToMap
  split
  · exact nodup_assignKey _ _ _ h
  · exact h

theorem nodup_foldl_deleteEmptySlice (names : List String) (m : List (String × JSON))
    (h : (m.map Prod.fst).Nodup) : ((names.foldl deleteEmptySlice m).map Prod.fst).Nodup := by
  induction names generalizing m with
  | nil => exact h
  | cons n names ih => exact ih _ (nodup_deleteEmptySlice m n h)

theorem nodup_foldl_emptySliceToMap (names : List String) (m : List (String × JSON))
    (h : (m.map Prod.fst).Nodup) : ((names.foldl emptySliceToMap m).map Prod.fst).Nodup := by
  induction names generalizing m with
  | nil => exact h
  | cons n names ih => exact ih _ (nodup_emptySliceToMap m n h)

theorem lookupKey_foldl_deleteEmptySlice_ne {k : String} (names : List String)
    (hk : k ∉ names) (m : List (String × JSON)) :
    lookupKey k (names.foldl deleteEmptySlice m) = lookupKey k m := by
  induction names generalizing m with
  | nil => rfl
  | cons n names ih =>
    rw [List.foldl_cons, ih (fun h => hk (List.mem_cons_of_mem _ h)),
      lookupKey_deleteEmptySlice_ne (fun (h : k = n) => hk (by rw [h]; exact List.mem_cons_self _ _))]

theorem lookupKey_foldl_emptySliceToMap_ne {k : String} (names : List String)
    (hk : k ∉ names) (m : List (String × JSON)) :
    lookupKey k (names.foldl emptySliceToMap m) = lookupKey k m := by
  induction names generalizing m with
  | nil => rfl
  | cons n names ih =>
    rw [List.foldl_cons, ih (fun h => hk (List.mem_cons_of_mem _ h)),
      lookupKey_emptySliceToMap_ne (fun (h : k = n) => hk (by rw [h]; exact List.mem_cons_self _ _))]

/-- What the loop over `singleObjectAttributes` does to the value of a member. -/
theorem lookupKey_foldl_deleteEmptySlice (k : String) (names : List String) (hk : k ∈ names)
    (m : List (String × JSON)) (h : (m.map Prod.fst).Nodup)
    (hv : lookupKey k m = some (.arr [])) :
    lookupKey k (names.foldl deleteEmptySlice m) = none := by
  have absent : ∀ (ns : List String) (a : List (String × JSON)), lookupKey k a = none →
      lookupKey k (ns.foldl deleteEmptySlice a) = none := by
    intro ns
    induction ns with
    | nil => exact fun _ ha => ha
    | cons n ns ih =>
      intro a ha
      refine ih _ ?_
      by_cases hn : k = n
      · subst hn
        simp only [deleteEmptySlice, ha]
      · rw [lookupKey_deleteEmptySlice_ne hn, ha]
  induction names generalizing m with
  | nil => exact absurd hk (List.not_mem_nil _)
  | cons n names ih =>
    rw [List.foldl_cons]
    by_cases hn : k = n
    · subst hn
      refine absent _ _ ?_
      simp only [deleteEmptySlice, hv]
      exact lookupKey_eraseKey_self _ _ h
    · refine ih ?_ _ (nodup_deleteEmptySlice m n h) ?_
      · rcases List.mem_cons.mp hk with e | e
        · exact absurd e hn
        · exact e
      · rw [lookupKey_deleteEmptySlice_ne hn, hv]

/-- What the loop over `mapAttributes` does to the value of a member: an empty array gives way
to an empty object, any other value stays. -/
theorem lookupKey_foldl_emptySliceToMap (k : String) (names : List String)
    (m : List (String × JSON)) :
    (lookupKey k m = some (.arr []) → k ∈ names →
      lookupKey k (names.foldl emptySliceToMap m) = some (.obj [])) ∧
    (∀ x, lookupKey k m = some x → ∃ y, lookupKey k (names.foldl emptySliceToMap m) = some y) := by
  have step : ∀ (a : List (String × JSON)) (n : String) (x : JSON), lookupKey k a = some x →
      ∃ y, lookupKey k (emptySliceToMap a n) = some y ∧
        (x = .obj [] → y = .obj []) ∧ (k ≠ n → y = x) ∧
        (k = n → x = .arr [] → y = .obj []) := by
    intro a n x hx
    by_cases hn : k = n
    · subst hn
      unfold emptySliceToMap
      rw [hx]
      split
      · next heq =>
        refine ⟨_, lookupKey_assignKey_self _ _ _, fun _ => rfl, fun h => absurd rfl h,
          fun _ _ => rfl⟩
      · next hne =>
        refine ⟨x, hx, fun h => h, fun _ => rfl, fun _ h => ?_⟩
        exact absurd (by rw [h]) hne
    · refine ⟨x, by rw [lookupKey_emptySliceToMap_ne hn, hx], fun h => h, fun _ => rfl,
        fun h => absurd h hn⟩
  have keep : ∀ (ns : List String) (a : List (String × JSON)) (x : JSON),
      lookupKey k a = some x →
      ∃ y, lookupKey k (ns.foldl emptySliceToMap a) = some y ∧ (x = .obj [] → y = .obj []) := by
    intro ns
    induction ns with
    | nil => exact fun a x hx => ⟨x, hx, fun h => h⟩
    | cons n ns ih =>
      intro a x hx
      obtain ⟨y, hy, h1, -, -⟩ := step a n x hx
      obtain ⟨z, hz, h2⟩ := ih _ y hy
      exact ⟨z, hz, fun h => h2 (h1 h)⟩
  constructor
  · intro hv hk
    induction names generalizing m with
    | nil => exact absurd hk (List.not_mem_nil _)
    | cons n names ih =>
      rw [List.foldl_cons]
      obtain ⟨y, hy, -, h2, h3⟩ := step m n _ hv
      by_cases hn : k = n
      · obtain ⟨z, hz, h4⟩ := keep names _ y hy
        rw [hz, h4 (h3 hn rfl)]
      · rw [h2 hn] at hy
        refine ih _ hy ?_
        rcases List.mem_cons.mp hk with e | e
        · exact absurd e hn
        · exact e
  · intro x hx
    obtain ⟨y, hy, -⟩ := keep names m x hx
    exact ⟨y, hy⟩

/-! ## The JSON version of the load balancer rewriter acts on the attributes as the map version -/

theorem focus_iff_get (P : List String) (d : Doc) (kvs : List (String × JSON)) :
    Focus P d kvs ↔ d.get P = some (.obj kvs) := by
  constructor
  · rintro ⟨j, rfl, hj⟩
    exact hj
  · intro h
    cases d with
    | none => simp [Doc.get] at h
    | some j => exact ⟨j, rfl, h⟩

theorem renameAttr_focus {P : List String} {d : Doc} {kvs : List (String × JSON)}
    (h : Focus P d kvs) (old new : String) :
    Focus P (renameAttr P old new d) (renameKey old new kvs) := by
  unfold renameAttr renameKey
  rw [focus_get h]
  cases lookupKey old kvs with
  | none => exact h
  | some v => exact focus_delete (focus_set h new v) old

theorem deleteEmptyArray_focus {P : List String} {d : Doc} {kvs : List (String × JSON)}
    (h : Focus P d kvs) (attr : String) :
    Focus P (deleteEmptyArray P d attr) (deleteEmptySlice kvs attr) := by
  unfold deleteEmptyArray deleteEmptySlice
  rw [focus_get h]
  split
  · exact focus_delete h attr
  · exact h

theorem emptyArrayToMap_focus {P : List String} {d : Doc} {kvs : List (String × JSON)}
    (h : Focus P d kvs) (attr : String) :
    Focus P (emptyArrayToMap P d attr) (emptySliceToMap kvs attr) := by
  unfold emptyArrayToMap emptySliceToMap
  rw [focus_get h]
  split
  · exact focus_set h attr _
  · exact h

theorem foldl_deleteEmptyArray_focus {P : List String} (names : List String) {d : Doc}
    {kvs : List (String × JSON)} (h : Focus P d kvs) :
    Focus P (names.foldl (deleteEmptyArray P) d) (names.foldl deleteEmptySlice kvs) := by
  induction names generalizing d kvs with
  | nil => exact h
  | cons n names ih => exact ih (deleteEmptyArray_focus h n)

theorem foldl_emptyArrayToMap_focus {P : List String} (names : List String) {d : Doc}
    {kvs : List (String × JSON)} (h : Focus P d kvs) :
    Focus P (names.foldl (emptyArrayToMap P) d) (names.foldl emptySliceToMap kvs) := by
  induction names generalizing d kvs with
  | nil => exact h
  | cons n names ih => exact ih (emptyArrayToMap_focus h n)

/-- On a document whose instance holds an attributes object, `transformLoadBalancerStateJSON`
leaves at that place the object that `transformLoadBalancerState` makes of it. -/
theorem transformLoadBalancerStateJSON_focus {instancePath : List String} {d : Doc}
    {kvs : List (String × JSON)} (h : Focus (instancePath ++ ["attributes"]) d kvs) :
    Focus (instancePath ++ ["attributes"]) (transformLoadBalancerStateJSON d instancePath)
      (transformLoadBalancerState kvs) :=
  foldl_emptyArrayToMap_focus _ (foldl_deleteEmptyArray_focus _
    (renameAttr_focus (renameAttr_focus h _ _) _ _))

theorem nodup_transformLoadBalancerState (m : List (String × JSON))
    (h : (m.map Prod.fst).Nodup) : ((transformLoadBalancerState m).map Prod.fst).Nodup :=
  nodup_foldl_emptySliceToMap _ _ (nodup_foldl_deleteEmptySlice _ _
    (nodup_renameKey _ _ _ (nodup_renameKey _ _ _ h)))

/-- The two renamings of `transformLoadBalancerState`. -/
theorem transformLoadBalancerState_rename (m : List (String × JSON))
    (h : (m.map Prod.fst).Nodup) (old new : String) (v : JSON)
    (hname : (old, new) ∈
      [("fallback_pool_id", "fallback_pool"), ("default_pool_ids", "default_pools")])
    (hv : lookupKey old m = some v) :
    lookupKey new (transformLoadBalancerState m) = some v ∧
      lookupKey old (transformLoadBalancerState m) = none := by
  simp only [List.mem_cons, List.mem_singleton, List.not_mem_nil, or_false, Prod.mk.injEq] at hname
  unfold transformLoadBalancerState
  rcases hname with ⟨rfl, rfl⟩ | ⟨rfl, rfl⟩
  · obtain ⟨h1, h2⟩ := lookupKey_renameKey "fallback_pool_id" "fallback_pool"
      (by decide) m h v hv
    constructor
    · rw [lookupKey_foldl_emptySliceToMap_ne _ (by decide),
        lookupKey_foldl_deleteEmptySlice_ne _ (by decide),
        lookupKey_renameKey_ne (by decide) (by decide), h1]
    · rw [lookupKey_foldl_emptySliceToMap_ne _ (by decide),
        lookupKey_foldl_deleteEmptySlice_ne _ (by decide),
        lookupKey_renameKey_ne (by decide) (by decide), h2]
  · have hv1 : lookupKey "default_pool_ids" (renameKey "fallback_pool_id" "fallback_pool" m) =
        some v := by
      rw [lookupKey_renameKey_ne (by decide) (by decide), hv]
    obtain ⟨h1, h2⟩ := lookupKey_renameKey "default_pool_ids" "default_pools"
      (by decide) _ (nodup_renameKey _ _ _ h) v hv1
    constructor
    · rw [lookupKey_foldl_emptySliceToMap_ne _ (by decide),
        lookupKey_foldl_deleteEmptySlice_ne _ (by decide), h1]
    · rw [lookupKey_foldl_emptySliceToMap_ne _ (by decide),
        lookupKey_foldl_deleteEmptySlice_ne _ (by decide), h2]

/-- The loop over `singleObjectAttributes` of `transformLoadBalancerState`. -/
theorem transformLoadBalancerState_single (m : List (String × JSON))
    (h : (m.map Prod.fst).Nodup) (attr : String)
    (hattr : attr ∈ ["adaptive_routing", "location_strategy", "random_steering",
      "session_affinity_attributes"])
    (hv : lookupKey attr m = some (.arr [])) :
    lookupKey attr (transformLoadBalancerState m) = none := by
  have hne : attr ≠ "fallback_pool_id" ∧ attr ≠ "fallback_pool" ∧ attr ≠ "default_pool_ids" ∧
      attr ≠ "default_pools" ∧ attr ∉ ["country_pools", "pop_pools", "region_pools"] := by
    simp only [List.mem_cons, List.mem_singleton, List.not_mem_nil, or_false] at hattr
    rcases hattr with rfl | rfl | rfl | rfl <;> decide
  obtain ⟨n1, n2, n3, n4, n5⟩ := hne
  unfold transformLoadBalancerState
  rw [lookupKey_foldl_emptySliceToMap_ne _ n5]
  refine lookupKey_foldl_deleteEmptySlice attr _ hattr _
    (nodup_renameKey _ _ _ (nodup_renameKey _ _ _ h)) ?_
  rw [lookupKey_renameKey_ne n3 n4, lookupKey_renameKey_ne n1 n2, hv]

/-- The loop over `mapAttributes` of `transformLoadBalancerState`. -/
theorem transformLoadBalancerState_map (m : List (String × JSON)) (attr : String)
    (hattr : attr ∈ ["country_pools", "pop_pools", "region_pools"]) :
    (lookupKey attr m = some (.arr []) →
      lookupKey attr (transformLoadBalancerState m) = some (.obj [])) ∧
    (∀ x, lookupKey attr m = some x →
      ∃ y, lookupKey attr (transformLoadBalancerState m) = some y) := by
  have hne : attr ≠ "fallback_pool_id" ∧ attr ≠ "fallback_pool" ∧ attr ≠ "default_pool_ids" ∧
      attr ≠ "default_pools" ∧ attr ∉ ["adaptive_routing", "location_strategy",
        "random_steering", "session_affinity_attributes"] := by
    simp only [List.mem_cons, List.mem_singleton, List.not_mem_nil, or_false] at hattr
    rcases hattr with rfl | rfl | rfl <;> decide
  obtain ⟨n1, n2, n3, n4, n5⟩ := hne
  have hsame : lookupKey attr
      (["adaptive_routing", "location_strategy", "random_steering",
        "session_affinity_attributes"].foldl deleteEmptySlice
        (renameKey "default_pool_ids" "default_pools"
          (renameKey "fallback_pool_id" "fallback_pool" m))) = lookupKey attr m := by
    rw [lookupKey_foldl_deleteEmptySlice_ne _ n5, lookupKey_renameKey_ne n3 n4,
      lookupKey_renameKey_ne n1 n2]
  obtain ⟨k1, k2⟩ := lookupKey_foldl_emptySliceToMap attr
    ["country_pools", "pop_pools", "region_pools"]
    (["adaptive_routing", "location_strategy", "random_steering",
        "session_affinity_attributes"].foldl deleteEmptySlice
        (renameKey "default_pool_ids" "default_pools"
          (renameKey "fallback_pool_id" "fallback_pool" m)))
  constructor
  · intro hv
    exact k1 (hsame.trans hv) hattr
  · intro x hx
    exact k2 x (hsame.trans hx)

/-! ## Array indices in paths -/

theorem digitChar_step (a d : Nat) (hd : d < 10) :
    (some a).bind (fun n =>
      if '0' ≤ digitChar d ∧ digitChar d ≤ '9' then
        some (n * 10 + ((digitChar d).toNat - '0'.toNat)) else none) = some (a * 10 + d) := by
  have key : ('0' ≤ digitChar d ∧ digitChar d ≤ '9') ∧ (digitChar d).toNat - '0'.toNat = d := by
    interval_cases d <;> decide
  simp only [Option.some_bind, key.1, and_self, if_true, key.2]

theorem foldl_formatIndexFuel (fuel n : Nat) (h : n ≤ fuel) :
    (formatIndexFuel fuel n).foldl
      (fun acc c => acc.bind fun n =>
        if '0' ≤ c ∧ c ≤ '9' then some (n * 10 + (c.toNat - '0'.toNat)) else none)
      (some 0) = some n := by
  induction fuel generalizing n with
  | zero =>
    have hn : n = 0 := by omega
    subst hn
    decide
  | succ fuel ih =>
    unfold formatIndexFuel
    by_cases h10 : n < 10
    · rw [if_pos h10, List.foldl_cons, List.foldl_nil, digitChar_step 0 n h10]
      simp
    · rw [if_neg h10, List.foldl_append, ih (n / 10) (by omega), List.foldl_cons, List.foldl_nil,
        digitChar_step (n / 10) (n % 10) (Nat.mod_lt _ (by decide))]
      congr 1
      omega

/-- The path part written for an index reads back as that index. -/
theorem parseIndex_formatIndex (n : Nat) : parseIndex (formatIndex n) = some n :=
  foldl_formatIndexFuel n n (Nat.le_refl n)

/-! ## Edits below an object -/

theorem focus_get_path {P : List String} {d : Doc} {kvs : List (String × JSON)}
    (h : Focus P d kvs) (Q : List String) : d.get (P ++ Q) = getPath Q (.obj kvs) := by
  obtain ⟨j, rfl, hj⟩ := h
  simp only [Doc.get, Option.some_bind, getPath_append, hj]

/-- Setting a value below the place `P` replaces the tree at `P` by the tree with the value
set. -/
theorem setPath_append (P Q : List String) (v : JSON) (j x y : JSON)
    (h : getPath P j = some x) (hs : setPath Q v x = some y) :
    ∃ j', setPath (P ++ Q) v j = some j' ∧ getPath P j' = some y := by
  induction P generalizing j with
  | nil =>
    simp only [getPath, Option.some.injEq] at h
    subst h
    exact ⟨y, hs, rfl⟩
  | cons p P ih =>
    cases j with
    | obj kvs0 =>
      simp only [getPath] at h
      cases hl : lookupKey p kvs0 with
      | none => simp [hl] at h
      | some c =>
        rw [hl] at h
        obtain ⟨c', hc', hg⟩ := ih c h
        obtain ⟨r, hr, hlr⟩ := updateKey_lookup (f := setPath (P ++ Q) v) hl hc'
        refine ⟨.obj r, by simp [setPath, hl, hr], ?_⟩
        simpa [getPath, hlr] using hg
    | arr xs =>
      simp only [getPath] at h
      cases hp : parseIndex p with
      | none => simp [hp] at h
      | some i =>
        rw [hp] at h
        cases hx : xs[i]? with
        | none => simp [hx] at h
        | some c =>
          simp only [Option.some_bind, hx] at h
          obtain ⟨c', hc', hg⟩ := ih c h
          obtain ⟨r, hr, hlr⟩ := updateAt_get (f := setPath (P ++ Q) v) hx hc'
          have hi : i < xs.length := getElem?_some_lt hx
          refine ⟨.arr r, by simp [setPath, hp, hi, hr], ?_⟩
          simpa [getPath, hp, hlr] using hg
    | null => simp [getPath] at h
    | bool b => simp [getPath] at h
    | num q => simp [getPath] at h
    | str s => simp [getPath] at h

/-- Deleting below the place `P` replaces the tree at `P` by the tree after the deletion. -/
theorem deletePath_append (P : List String) (q : String) (Q : List String) (j x : JSON)
    (h : getPath P j = some x) :
    getPath P (deletePath (P ++ q :: Q) j) = some (deletePath (q :: Q) x) := by
  induction P generalizing j with
  | nil =>
    simp only [getPath, Option.some.injEq] at h
    subst h
    rfl
  | cons p P ih =>
    obtain ⟨k2, ks, hks⟩ : ∃ k2 ks, P ++ q :: Q = k2 :: ks := by
      cases P with
      | nil => exact ⟨q, Q, rfl⟩
      | cons a P => exact ⟨a, P ++ q :: Q, rfl⟩
    cases j with
    | obj kvs0 =>
      simp only [getPath] at h
      cases hl : lookupKey p kvs0 with
      | none => simp [hl] at h
      | some c =>
        rw [hl] at h
        have hg := ih c h
        obtain ⟨r, hr, hlr⟩ := updateKey_lookup
          (f := fun c => some (deletePath (P ++ q :: Q) c)) hl rfl
        have hd : deletePath (p :: P ++ q :: Q) (.obj kvs0) = .obj r := by
          simp only [List.cons_append, hks, deletePath]
          rw [hks] at hr
          simp [hr]
        rw [hd]
        simpa [getPath, hlr] using hg
    | arr xs =>
      simp only [getPath] at h
      cases hp : parseIndex p with
      | none => simp [hp] at h
      | some i =>
        rw [hp] at h
        cases hx : xs[i]? with
        | none => simp [hx] at h
        | some c =>
          simp only [Option.some_bind, hx] at h
          have hg := ih c h
          obtain ⟨r, hr, hlr⟩ := updateAt_get
            (f := fun c => some (deletePath (P ++ q :: Q) c)) hx rfl
          have hd : deletePath (p :: P ++ q :: Q) (.arr xs) = .arr r := by
            simp only [List.cons_append, hks, deletePath, hp]
            rw [hks] at hr
            simp [hr]
          rw [hd]
          simpa [getPath, hp, hlr] using hg
    | null => simp [getPath] at h
    | bool b => simp [getPath] at h
    | num q => simp [getPath] at h
    | str s => simp [getPath] at h

theorem updateAt_append (f : JSON → Option JSON) (done : List JSON) (o : JSON)
    (rest : List JSON) :
    updateAt f done.length (done ++ o :: rest) = (f o).map fun w => done ++ w :: rest := by
  induction done with
  | nil => rfl
  | cons x done ih =>
    show (updateAt f done.length (done ++ o :: rest)).map (fun r => x :: r) = _
    rw [ih, Option.map_map]
    rfl

/-! ## The loop over `origins` of the pool rewriter -/

theorem getPath_single_obj (k : String) (kvs : List (String × JSON)) :
    getPath [k] (.obj kvs) = lookupKey k kvs := by
  simp only [getPath]
  cases lookupKey k kvs <;> rfl

theorem origin_set_focus {P : List String} {d : Doc} {kvs : List (String × JSON)}
    (h : Focus P d kvs) (done rest : List JSON) (om : List (String × JSON)) (v : JSON)
    (ho : lookupKey "origins" kvs = some (.arr (done ++ .obj om :: rest))) :
    ∃ kvs', Focus P (d.set (P ++ ["origins", formatIndex done.length] ++ ["header"]) v) kvs' ∧
      lookupKey "origins" kvs' = some (.arr (done ++ .obj (assignKey "header" v om) :: rest)) ∧
      (∀ k, k ≠ "origins" → lookupKey k kvs' = lookupKey k kvs) ∧
      kvs'.map Prod.fst = kvs.map Prod.fst := by
  obtain ⟨j, rfl, hj⟩ := h
  have h1 : setPath ["header"] v (.obj om) = some (.obj (assignKey "header" v om)) := by
    simpa [setPath] using @assignKey_eq "header" v om
  have h2 : setPath [formatIndex done.length, "header"] v (.arr (done ++ .obj om :: rest)) =
      some (.arr (done ++ .obj (assignKey "header" v om) :: rest)) := by
    have hlt : done.length < (done ++ JSON.obj om :: rest).length := by simp
    rw [setPath, parseIndex_formatIndex]
    simp only [hlt, if_true, updateAt_append, h1, Option.map_some']
  obtain ⟨r, hr, hlr⟩ := updateKey_lookup
    (f := setPath [formatIndex done.length, "header"] v) ho h2
  have h3 : setPath ["origins", formatIndex done.length, "header"] v (.obj kvs) =
      some (.obj r) := by
    rw [setPath]
    simp only [ho, hr, Option.map_some']
  obtain ⟨j', hj1, hj2⟩ := setPath_append P _ v j _ _ hj h3
  refine ⟨r, ⟨j', ?_, hj2⟩, hlr, fun k hk => lookupKey_updateKey_ne hk _ hr, keys_updateKey hr⟩
  rw [← hj1]
  simp [Doc.set]

theorem origin_delete_focus {P : List String} {d : Doc} {kvs : List (String × JSON)}
    (h : Focus P d kvs) (done rest : List JSON) (om : List (String × JSON))
    (ho : lookupKey "origins" kvs = some (.arr (done ++ .obj om :: rest))) :
    ∃ kvs', Focus P (d.delete (P ++ ["origins", formatIndex done.length] ++ ["header"])) kvs' ∧
      lookupKey "origins" kvs' = some (.arr (done ++ .obj (eraseKey "header" om) :: rest)) ∧
      (∀ k, k ≠ "origins" → lookupKey k kvs' = lookupKey k kvs) ∧
      kvs'.map Prod.fst = kvs.map Prod.fst := by
  obtain ⟨j, rfl, hj⟩ := h
  have h2 : deletePath [formatIndex done.length, "header"] (.arr (done ++ .obj om :: rest)) =
      .arr (done ++ .obj (eraseKey "header" om) :: rest) := by
    rw [deletePath, parseIndex_formatIndex]
    simp only [updateAt_append, Option.map_some']
    rfl
  obtain ⟨r, hr, hlr⟩ := updateKey_lookup
    (f := fun c => some (deletePath [formatIndex done.length, "header"] c)) ho rfl
  have h3 : deletePath ["origins", formatIndex done.length, "header"] (.obj kvs) = .obj r := by
    rw [deletePath]
    simp only [hr]
  have h4 := deletePath_append P "origins" [formatIndex done.length, "header"] j _ hj
  rw [h3] at h4
  refine ⟨r, ⟨_, ?_, h4⟩, by rw [hlr, h2], fun k hk => lookupKey_updateKey_ne hk _ hr,
    keys_updateKey hr⟩
  simp [Doc.delete]

/-- One turn of the loop rewrites the element it visits and nothing else. -/
theorem rewriteOriginHeader_focus {P : List String} {d : Doc} {kvs : List (String × JSON)}
    (h : Focus P d kvs) (done rest : List JSON) (o : JSON)
    (ho : lookupKey "origins" kvs = some (.arr (done ++ o :: rest))) :
    ∃ kvs', Focus P (rewriteOriginHeader P d done.length o) kvs' ∧
      lookupKey "origins" kvs' = some (.arr (done ++ rewrittenOrigin o :: rest)) ∧
      (∀ k, k ≠ "origins" → lookupKey k kvs' = lookupKey k kvs) ∧
      kvs'.map Prod.fst = kvs.map Prod.fst := by
  have same : ∀ x : JSON, x = o →
      ∃ kvs', Focus P d kvs' ∧ lookupKey "origins" kvs' = some (.arr (done ++ x :: rest)) ∧
      (∀ k, k ≠ "origins" → lookupKey k kvs' = lookupKey k kvs) ∧
      kvs'.map Prod.fst = kvs.map Prod.fst := by
    intro x hx
    subst hx
    exact ⟨kvs, h, ho, fun _ _ => rfl, rfl⟩
  cases o with
  | obj om =>
    unfold rewriteOriginHeader rewrittenOrigin
    simp only [getPath_single_obj]
    cases hh : lookupKey "header" om with
    | none => exact same _ rfl
    | some x =>
      cases x with
      | arr l =>
        cases l with
        | nil => exact origin_delete_focus h done rest om ho
        | cons fh l2 =>
          simp only []
          cases hv : hostValues fh with
          | none => exact same _ rfl
          | some vals => exact origin_set_focus h done rest om _ ho
      | obj hm =>
        simp only []
        cases hhost : lookupKey "host" hm with
        | some y => exact same _ rfl
        | none =>
          simp only []
          cases hv : hostValues (.obj hm) with
          | none => exact same _ rfl
          | some vals => exact origin_set_focus h done rest om _ ho
      | null => exact same _ rfl
      | bool b => exact same _ rfl
      | num q => exact same _ rfl
      | str s => exact same _ rfl
  | arr xs => exact same _ rfl
  | null => exact same _ rfl
  | bool b => exact same _ rfl
  | num q => exact same _ rfl
  | str s => exact same _ rfl

/-- The loop rewrites every element of `origins` and nothing else. -/
theorem forEachOrigin_focus {P : List String} (todo : List JSON) :
    ∀ (done : List JSON) (d : Doc) (kvs : List (String × JSON)), Focus P d kvs →
      lookupKey "origins" kvs = some (.arr (done ++ todo)) →
      ∃ kvs', Focus P (forEachOrigin P done.length todo d) kvs' ∧
        lookupKey "origins" kvs' = some (.arr (done ++ todo.map rewrittenOrigin)) ∧
        (∀ k, k ≠ "origins" → lookupKey k kvs' = lookupKey k kvs) ∧
        kvs'.map Prod.fst = kvs.map Prod.fst := by
  induction todo with
  | nil =>
    intro done d kvs h ho
    exact ⟨kvs, h, ho, fun _ _ => rfl, rfl⟩
  | cons o rest ih =>
    intro done d kvs h ho
    obtain ⟨kvs1, f1, o1, fr1, ks1⟩ := rewriteOriginHeader_focus h done rest o ho
    have o1' : lookupKey "origins" kvs1 =
        some (.arr ((done ++ [rewrittenOrigin o]) ++ rest)) := by
      rw [o1, List.append_assoc]
      rfl
    obtain ⟨kvs2, f2, o2, fr2, ks2⟩ := ih (done ++ [rewrittenOrigin o]) _ kvs1 f1 o1'
    refine ⟨kvs2, ?_, ?_, fun k hk => (fr2 k hk).trans (fr1 k hk), ks2.trans ks1⟩
    · have hlen : (done ++ [rewrittenOrigin o]).length = done.length + 1 := by simp
      rw [hlen] at f2
      exact f2
    · rw [o2, List.append_assoc]
      rfl

theorem unwrapSingleton_focus {P : List String} {d : Doc} {kvs : List (String × JSON)}
    (h : Focus P d kvs) (attr : String) :
    Focus P (unwrapSingleton P attr d) (unwrappedSingleton attr kvs) := by
  unfold unwrapSingleton unwrappedSingleton
  rw [focus_get h]
  split
  · exact focus_delete h attr
  · exact focus_set h attr _
  · exact h

theorem lookupKey_unwrappedSingleton_ne {k attr : String} (hne : k ≠ attr)
    (kvs : List (String × JSON)) :
    lookupKey k (unwrappedSingleton attr kvs) = lookupKey k kvs := by
  unfold unwrappedSingleton
  split
  · exact lookupKey_eraseKey_ne hne kvs
  · exact lookupKey_assignKey_ne hne _ kvs
  · rfl

theorem nodup_unwrappedSingleton (attr : String) (kvs : List (String × JSON))
    (h : (kvs.map Prod.fst).Nodup) : ((unwrappedSingleton attr kvs).map Prod.fst).Nodup := by
  unfold unwrappedSingleton
  split
  · exact nodup_eraseKey _ _ h
  · exact nodup_assignKey _ _ _ h
  · exact h

/-- On a document whose instance holds an attributes object, `transformLoadBalancerPoolStateJSON`
leaves an attributes object: `load_shedding` and `origin_steering` are unwrapped, every element
of an `origins` array is rewritten, and no other member changes. -/
theorem transformLoadBalancerPoolStateJSON_focus {instancePath : List String} {d : Doc}
    {kvs : List (String × JSON)} (h : Focus (instancePath ++ ["attributes"]) d kvs) :
    ∃ kvs', Focus (instancePath ++ ["attributes"])
        (transformLoadBalancerPoolStateJSON d instancePath) kvs' ∧
      (∀ k, k ≠ "origins" → lookupKey k kvs' =
        lookupKey k (unwrappedSingleton "origin_steering"
          (unwrappedSingleton "load_shedding" kvs))) ∧
      (∀ os, lookupKey "origins" kvs = some (.arr os) →
        lookupKey "origins" kvs' = some (.arr (os.map rewrittenOrigin))) ∧
      ((∀ os, lookupKey "origins" kvs ≠ some (.arr os)) →
        lookupKey "origins" kvs' = lookupKey "origins" kvs) := by
  have hu := unwrapSingleton_focus (unwrapSingleton_focus h "load_shedding") "origin_steering"
  have ho : lookupKey "origins" (unwrappedSingleton "origin_steering"
      (unwrappedSingleton "load_shedding" kvs)) = lookupKey "origins" kvs := by
    rw [lookupKey_unwrappedSingleton_ne (by decide), lookupKey_unwrappedSingleton_ne (by decide)]
  unfold transformLoadBalancerPoolStateJSON
  simp only []
  rw [focus_get hu "origins", ho]
  split
  · next os heq =>
    obtain ⟨kvs', f1, o1, fr1, -⟩ := forEachOrigin_focus os [] _ _ hu
      (by rw [ho, heq]; rfl)
    refine ⟨kvs', f1, fr1, ?_, ?_⟩
    · intro os2 hos2
      rw [heq] at hos2
      simp only [Option.some.injEq, JSON.arr.injEq] at hos2
      subst hos2
      exact o1
    · intro hne
      exact absurd heq (hne os)
  · next hne =>
    exact ⟨_, hu, fun _ _ => rfl, fun os hos => absurd hos (hne os), fun _ => ho⟩

/-- An empty `load_shedding` or `origin_steering` array is absent after steps 1 and 2. -/
theorem lookupKey_unwrapped_empty (attr : String)
    (hattr : attr ∈ ["load_shedding", "origin_steering"]) (kvs : List (String × JSON))
    (h : (kvs.map Prod.fst).Nodup) (hv : lookupKey attr kvs = some (.arr [])) :
    lookupKey attr (unwrappedSingleton "origin_steering"
      (unwrappedSingleton "load_shedding" kvs)) = none := by
  have del : ∀ m : List (String × JSON), (m.map Prod.fst).Nodup →
      lookupKey attr m = some (.arr []) → lookupKey attr (unwrappedSingleton attr m) = none := by
    intro m hm hl
    simp only [unwrappedSingleton, hl]
    exact lookupKey_eraseKey_self _ _ hm
  simp only [List.mem_cons, List.mem_singleton, List.not_mem_nil, or_false] at hattr
  rcases hattr with rfl | rfl
  · rw [lookupKey_unwrappedSingleton_ne (by decide)]
    exact del kvs h hv
  · refine del _ (nodup_unwrappedSingleton _ _ h) ?_
    rw [lookupKey_unwrappedSingleton_ne (by decide), hv]

/-! ## Edits below a path replace the tree at that path -/

theorem updateKey_congr {k : String} {f g : JSON → Option JSON} {kvs : List (String × JSON)}
    {c : JSON} (hl : lookupKey k kvs = some c) (h : f c = g c) :
    updateKey k f kvs = updateKey k g kvs := by
  induction kvs with
  | nil => rfl
  | cons kv kvs ih =>
    obtain ⟨k0, v0⟩ := kv
    by_cases h0 : k0 = k
    · simp only [lookupKey, h0, if_true, Option.some.injEq] at hl
      subst hl
      simp only [updateKey, h0, if_true, h]
    · simp only [lookupKey, h0, if_false] at hl
      simp only [updateKey, h0, if_false, ih hl]

theorem updateKey_comp {k : String} {f : JSON → Option JSON} (g : JSON → Option JSON)
    {kvs r : List (String × JSON)} (h : updateKey k f kvs = some r) :
    updateKey k g r = updateKey k (fun c => (f c).bind g) kvs := by
  induction kvs generalizing r with
  | nil =>
    simp only [updateKey, Option.some.injEq] at h
    subst h
    rfl
  | cons kv kvs ih =>
    obtain ⟨k0, v0⟩ := kv
    by_cases h0 : k0 = k
    · simp only [updateKey, h0, if_true, Option.map_eq_some'] at h
      obtain ⟨w, hw, rfl⟩ := h
      simp only [updateKey, if_true, h0, hw, Option.some_bind]
    · simp only [updateKey, h0, if_false, Option.map_eq_some'] at h
      obtain ⟨r', hr', rfl⟩ := h
      simp only [updateKey, h0, if_false, ih hr']

theorem updateKey_none {k : String} {f : JSON → Option JSON} {kvs : List (String × JSON)}
    {c : JSON} (hl : lookupKey k kvs = some c) (h : f c = none) : updateKey k f kvs = none := by
  induction kvs with
  | nil => simp [lookupKey] at hl
  | cons kv kvs ih =>
    obtain ⟨k0, v0⟩ := kv
    by_cases h0 : k0 = k
    · simp only [lookupKey, h0, if_true, Option.some.injEq] at hl
      subst hl
      simp only [updateKey, h0, if_true, h, Option.map_none']
    · simp only [lookupKey, h0, if_false] at hl
      simp only [updateKey, h0, if_false, ih hl, Option.map_none']

theorem updateKey_id {k : String} {f : JSON → Option JSON} {kvs : List (String × JSON)}
    {c : JSON} (hl : lookupKey k kvs = some c) (h : f c = some c) :
    updateKey k f kvs = some kvs := by
  induction kvs with
  | nil => rfl
  | cons kv kvs ih =>
    obtain ⟨k0, v0⟩ := kv
    by_cases h0 : k0 = k
    · simp only [lookupKey, h0, if_true, Option.some.injEq] at hl
      subst hl
      simp only [updateKey, h0, if_true, h, Option.map_some']
    · simp only [lookupKey, h0, if_false] at hl
      simp only [updateKey, h0, if_false, ih hl, Option.map_some']

theorem updateAt_congr {f g : JSON → Option JSON} {i : Nat} {xs : List JSON} {c : JSON}
    (hx : xs[i]? = some c) (h : f c = g c) : updateAt f i xs = updateAt g i xs := by
  induction xs generalizing i with
  | nil => simp at hx
  | cons x xs ih =>
    cases i with
    | zero =>
      simp only [List.getElem?_cons_zero, Option.some.injEq] at hx
      subst hx
      simp only [updateAt, h]
    | succ i =>
      simp only [List.getElem?_cons_succ] at hx
      simp only [updateAt, ih hx]

theorem updateAt_comp {f : JSON → Option JSON} (g : JSON → Option JSON) {i : Nat}
    {xs r : List JSON} (h : updateAt f i xs = some r) :
    updateAt g i r = updateAt (fun c => (f c).bind g) i xs := by
  induction xs generalizing i r with
  | nil =>
    cases i <;>
    · simp only [updateAt, Option.some.injEq] at h
      subst h
      rfl
  | cons x xs ih =>
    cases i with
    | zero =>
      simp only [updateAt, Option.map_eq_some'] at h
      obtain ⟨w, hw, rfl⟩ := h
      simp only [updateAt, hw, Option.some_bind]
    | succ i =>
      simp only [updateAt, Option.map_eq_some'] at h
      obtain ⟨r', hr', rfl⟩ := h
      simp only [updateAt, ih hr']

theorem updateAt_none {f : JSON → Option JSON} {i : Nat} {xs : List JSON} {c : JSON}
    (hx : xs[i]? = some c) (h : f c = none) : updateAt f i xs = none := by
  induction xs generalizing i with
  | nil => simp at hx
  | cons x xs ih =>
    cases i with
    | zero =>
      simp only [List.getElem?_cons_zero, Option.some.injEq] at hx
      subst hx
      simp only [updateAt, h, Option.map_none']
    | succ i =>
      simp only [List.getElem?_cons_succ] at hx
      simp only [updateAt, ih hx, Option.map_none']

theorem updateAt_id {f : JSON → Option JSON} {i : Nat} {xs : List JSON} {c : JSON}
    (hx : xs[i]? = some c) (h : f c = some c) : updateAt f i xs = some xs := by
  induction xs generalizing i with
  | nil => simp at hx
  | cons x xs ih =>
    cases i with
    | zero =>
      simp only [List.getElem?_cons_zero, Option.some.injEq] at hx
      subst hx
      simp only [updateAt, h, Option.map_some']
    | succ i =>
      simp only [List.getElem?_cons_succ] at hx
      simp only [updateAt, ih hx, Option.map_some']

theorem updateAt_length {f : JSON → Option JSON} {i : Nat} {xs r : List JSON}
    (h : updateAt f i xs = some r) : r.length = xs.length := by
  induction xs generalizing i r with
  | nil =>
    cases i <;>
    · simp only [updateAt, Option.some.injEq] at h
      subst h
      rfl
  | cons x xs ih =>
    cases i with
    | zero =>
      simp only [updateAt, Option.map_eq_some'] at h
      obtain ⟨w, -, rfl⟩ := h
      rfl
    | succ i =>
      simp only [updateAt, Option.map_eq_some'] at h
      obtain ⟨r', hr', rfl⟩ := h
      simp only [List.length_cons, ih hr']

/-- Setting a value below the place `P` is replacing the tree at `P` by that tree with the value
set. -/
theorem set_local (P Q : List String) (v : JSON) (j x : JSON) (h : getPath P j = some x) :
    setPath (P ++ Q) v j = (setPath Q v x).bind fun y => setPath P y j := by
  induction P generalizing j with
  | nil =>
    simp only [getPath, Option.some.injEq] at h
    subst h
    cases hq : setPath Q v j <;> simp [hq, setPath]
  | cons p P ih =>
    cases j with
    | obj kvs0 =>
      simp only [getPath] at h
      cases hl : lookupKey p kvs0 with
      | none => simp [hl] at h
      | some c =>
        rw [hl] at h
        have hc := ih c h
        have e1 : setPath (p :: P ++ Q) v (.obj kvs0) =
            (updateKey p (setPath (P ++ Q) v) kvs0).map .obj := by
          simp [setPath, hl]
        rw [e1]
        cases hq : setPath Q v x with
        | none =>
          rw [hq] at hc
          simp only [Option.none_bind] at hc ⊢
          rw [updateKey_none hl hc]
          rfl
        | some y =>
          rw [hq] at hc
          simp only [Option.some_bind] at hc ⊢
          rw [updateKey_congr (f := setPath (P ++ Q) v) (g := setPath P y) hl hc]
          simp [setPath, hl]
    | arr xs =>
      simp only [getPath] at h
      cases hp : parseIndex p with
      | none => simp [hp] at h
      | some i =>
        rw [hp] at h
        cases hx : xs[i]? with
        | none => simp [hx] at h
        | some c =>
          simp only [Option.some_bind, hx] at h
          have hc := ih c h
          have hi : i < xs.length := getElem?_some_lt hx
          have e1 : setPath (p :: P ++ Q) v (.arr xs) =
              (updateAt (setPath (P ++ Q) v) i xs).map .arr := by
            simp [setPath, hp, hi]
          rw [e1]
          cases hq : setPath Q v x with
          | none =>
            rw [hq] at hc
            simp only [Option.none_bind] at hc ⊢
            rw [updateAt_none hx hc]
            rfl
          | some y =>
            rw [hq] at hc
            simp only [Option.some_bind] at hc ⊢
            rw [updateAt_congr (f := setPath (P ++ Q) v) (g := setPath P y) hx hc]
            simp [setPath, hp, hi]
    | null => simp [getPath] at h
    | bool b => simp [getPath] at h
    | num q => simp [getPath] at h
    | str s => simp [getPath] at h

/-- Deleting below the place `P` is replacing the tree at `P` by that tree after the
deletion. -/
theorem delete_local (P : List String) (q : String) (Q : List String) (j x : JSON)
    (h : getPath P j = some x) :
    some (deletePath (P ++ q :: Q) j) = setPath P (deletePath (q :: Q) x) j := by
  induction P generalizing j with
  | nil =>
    simp only [getPath, Option.some.injEq] at h
    subst h
    rfl
  | cons p P ih =>
    obtain ⟨k2, ks, hks⟩ : ∃ k2 ks, P ++ q :: Q = k2 :: ks := by
      cases P with
      | nil => exact ⟨q, Q, rfl⟩
      | cons a P => exact ⟨a, P ++ q :: Q, rfl⟩
    cases j with
    | obj kvs0 =>
      simp only [getPath] at h
      cases hl : lookupKey p kvs0 with
      | none => simp [hl] at h
      | some c =>
        rw [hl] at h
        have hc := ih c h
        obtain ⟨r, hr, -⟩ := updateKey_lookup
          (f := fun c => some (deletePath (P ++ q :: Q) c)) hl rfl
        have hd : deletePath (p :: P ++ q :: Q) (.obj kvs0) = .obj r := by
          simp only [List.cons_append, hks, deletePath]
          rw [hks] at hr
          simp [hr]
        rw [hd]
        have hr2 : updateKey p (setPath P (deletePath (q :: Q) x)) kvs0 = some r := by
          rw [← updateKey_congr (f := fun c => some (deletePath (P ++ q :: Q) c))
            (g := setPath P (deletePath (q :: Q) x)) hl hc]
          exact hr
        simp [setPath, hl, hr2]
    | arr xs =>
      simp only [getPath] at h
      cases hp : parseIndex p with
      | none => simp [hp] at h
      | some i =>
        rw [hp] at h
        cases hx : xs[i]? with
        | none => simp [hx] at h
        | some c =>
          simp only [Option.some_bind, hx] at h
          have hc := ih c h
          have hi : i < xs.length := getElem?_some_lt hx
          obtain ⟨r, hr, -⟩ := updateAt_get
            (f := fun c => some (deletePath (P ++ q :: Q) c)) hx rfl
          have hd : deletePath (p :: P ++ q :: Q) (.arr xs) = .arr r := by
            simp only [List.cons_append, hks, deletePath, hp]
            rw [hks] at hr
            simp [hr]
          rw [hd]
          have hr2 : updateAt (setPath P (deletePath (q :: Q) x)) i xs = some r := by
            rw [← updateAt_congr (f := fun c => some (deletePath (P ++ q :: Q) c))
              (g := setPath P (deletePath (q :: Q) x)) hx hc]
            exact hr
          simp [setPath, hp, hi, hr2]
    | null => simp [getPath] at h
    | bool b => simp [getPath] at h
    | num q => simp [getPath] at h
    | str s => simp [getPath] at h

/-- Replacing the tree at an existing place succeeds, and the new tree is found there. -/
theorem put_get (P : List String) (j x y : JSON) (h : getPath P j = some x) :
    ∃ j', setPath P y j = some j' ∧ getPath P j' = some y := by
  have := setPath_append P [] y j x y h rfl
  simpa using this

/-- Of two replacements at the same place the second one counts. -/
theorem put_put (P : List String) (j j' x y z : JSON) (h : getPath P j = some x)
    (hy : setPath P y j = some j') : setPath P z j' = setPath P z j := by
  induction P generalizing j j' with
  | nil => rfl
  | cons p P ih =>
    cases j with
    | obj kvs0 =>
      simp only [getPath] at h
      cases hl : lookupKey p kvs0 with
      | none => simp [hl] at h
      | some c =>
        rw [hl] at h
        simp only [Option.some_bind] at h
        obtain ⟨c', hc', -⟩ := put_get P c x y h
        obtain ⟨r, hr, hlr⟩ := updateKey_lookup (f := setPath P y) hl hc'
        have hj' : j' = .obj r := by
          have : setPath (p :: P) y (.obj kvs0) = some (.obj r) := by simp [setPath, hl, hr]
          rw [this] at hy
          exact (Option.some.inj hy).symm
        subst hj'
        have e1 : setPath (p :: P) z (.obj r) = (updateKey p (setPath P z) r).map .obj := by
          simp [setPath, hlr]
        have e2 : setPath (p :: P) z (.obj kvs0) = (updateKey p (setPath P z) kvs0).map .obj := by
          simp [setPath, hl]
        rw [e1, e2, updateKey_comp _ hr]
        congr 1
        refine updateKey_congr hl ?_
        simp only [hc', Option.some_bind]
        exact ih c c' h hc'
    | arr xs =>
      simp only [getPath] at h
      cases hp : parseIndex p with
      | none => simp [hp] at h
      | some i =>
        rw [hp] at h
        cases hx : xs[i]? with
        | none => simp [hx] at h
        | some c =>
          simp only [Option.some_bind, hx] at h
          have hi : i < xs.length := getElem?_some_lt hx
          obtain ⟨c', hc', -⟩ := put_get P c x y h
          obtain ⟨r, hr, hlr⟩ := updateAt_get (f := setPath P y) hx hc'
          have hj' : j' = .arr r := by
            have : setPath (p :: P) y (.arr xs) = some (.arr r) := by simp [setPath, hp, hi, hr]
            rw [this] at hy
            exact (Option.some.inj hy).symm
          subst hj'
          have hi2 : i < r.length := by rw [updateAt_length hr]; exact hi
          have e1 : setPath (p :: P) z (.arr r) = (updateAt (setPath P z) i r).map .arr := by
            simp [setPath, hp, hi2]
          have e2 : setPath (p :: P) z (.arr xs) = (updateAt (setPath P z) i xs).map .arr := by
            simp [setPath, hp, hi]
          rw [e1, e2, updateAt_comp _ hr]
          congr 1
          refine updateAt_congr hx ?_
          simp only [hc', Option.some_bind]
          exact ih c c' h hc'
    | null => simp [getPath] at h
    | bool b => simp [getPath] at h
    | num q => simp [getPath] at h
    | str s => simp [getPath] at h

/-- Putting back the tree that is there changes nothing. -/
theorem put_same (P : List String) (j x : JSON) (h : getPath P j = some x) :
    setPath P x j = some j := by
  induction P generalizing j with
  | nil =>
    simp only [getPath, Option.some.injEq] at h
    subst h
    rfl
  | cons p P ih =>
    cases j with
    | obj kvs0 =>
      simp only [getPath] at h
      cases hl : lookupKey p kvs0 with
      | none => simp [hl] at h
      | some c =>
        rw [hl] at h
        simp only [Option.some_bind] at h
        have := updateKey_id (f := setPath P x) hl (ih c h)
        simp [setPath, hl, this]
    | arr xs =>
      simp only [getPath] at h
      cases hp : parseIndex p with
      | none => simp [hp] at h
      | some i =>
        rw [hp] at h
        cases hx : xs[i]? with
        | none => simp [hx] at h
        | some c =>
          simp only [Option.some_bind, hx] at h
          have hi : i < xs.length := getElem?_some_lt hx
          have := updateAt_id (f := setPath P x) hx (ih c h)
          simp [setPath, hp, hi, this]
    | null => simp [getPath] at h
    | bool b => simp [getPath] at h
    | num q => simp [getPath] at h
    | str s => simp [getPath] at h

/-! ## The relation `Puts` -/

theorem Puts.refl {P : List String} {d : Doc} {x : JSON} (h : d.get P = some x) :
    Puts P d d x x := by
  cases d with
  | none => simp [Doc.get] at h
  | some j => exact ⟨j, rfl, h, (put_same P j x h).symm⟩

theorem Puts.get {P : List String} {d d' : Doc} {x y : JSON} (h : Puts P d d' x y) :
    d'.get P = some y := by
  obtain ⟨j, rfl, hx, rfl⟩ := h
  obtain ⟨j', h1, h2⟩ := put_get P j x y hx
  rw [h1]
  exact h2

theorem Puts.get_before {P : List String} {d d' : Doc} {x y : JSON} (h : Puts P d d' x y) :
    d.get P = some x := by
  obtain ⟨j, rfl, hx, rfl⟩ := h
  exact hx

theorem Puts.trans {P : List String} {d d' d'' : Doc} {x y z : JSON} (h1 : Puts P d d' x y)
    (h2 : Puts P d' d'' y z) : Puts P d d'' x z := by
  obtain ⟨j, rfl, hx, rfl⟩ := h1
  obtain ⟨j', hj', -, rfl⟩ := h2
  exact ⟨j, rfl, hx, put_put P j j' x y z hx hj'⟩

/-- Setting below `P`, when the tree at `P` takes the value. -/
theorem puts_set {P : List String} {d : Doc} {x y : JSON} (h : d.get P = some x)
    (Q : List String) (v : JSON) (hs : setPath Q v x = some y) :
    Puts P d (d.set (P ++ Q) v) x y := by
  cases d with
  | none => simp [Doc.get] at h
  | some j =>
    refine ⟨j, rfl, h, ?_⟩
    show setPath (P ++ Q) v j = _
    rw [set_local P Q v j x h, hs]
    rfl

/-- Deleting below `P`. -/
theorem puts_delete {P : List String} {d : Doc} {x : JSON} (h : d.get P = some x)
    (q : String) (Q : List String) :
    Puts P d (d.delete (P ++ q :: Q)) x (deletePath (q :: Q) x) := by
  cases d with
  | none => simp [Doc.get] at h
  | some j => exact ⟨j, rfl, h, delete_local P q Q j x h⟩

/-- A replacement below `P` is a replacement at `P`. -/
theorem puts_lift {P Q : List String} {d d' : Doc} {x y u : JSON}
    (h : Puts (P ++ Q) d d' x y) (hu : d.get P = some u) :
    ∃ w, setPath Q y u = some w ∧ Puts P d d' u w := by
  obtain ⟨j, rfl, hx, rfl⟩ := h
  have hu' : getPath P j = some u := hu
  have hq : getPath Q u = some x := by
    rw [getPath_append, hu'] at hx
    exact hx
  obtain ⟨w, hw, -⟩ := put_get Q u x y hq
  refine ⟨w, hw, j, rfl, hu', ?_⟩
  rw [set_local P Q y j u hu', hw]
  rfl

theorem puts_focus_set {P : List String} {d : Doc} {kvs : List (String × JSON)}
    (h : d.get P = some (.obj kvs)) (k : String) (v : JSON) :
    Puts P d (d.set (P ++ [k]) v) (.obj kvs) (.obj (assignKey k v kvs)) :=
  puts_set h [k] v (by simpa [setPath] using @assignKey_eq k v kvs)

theorem puts_focus_delete {P : List String} {d : Doc} {kvs : List (String × JSON)}
    (h : d.get P = some (.obj kvs)) (k : String) :
    Puts P d (d.delete (P ++ [k])) (.obj kvs) (.obj (eraseKey k kvs)) :=
  puts_delete h k []

/-- When the place `P` holds no object, no member of it is found. -/
theorem get_member_none {P : List String} {d : Doc} {k : String} (hk : parseIndex k = none)
    (h : ∀ kvs, d.get P ≠ some (.obj kvs)) : d.get (P ++ [k]) = none := by
  cases hg : d.get (P ++ [k]) with
  | none => rfl
  | some x =>
    obtain ⟨kvs, hF, -⟩ := focus_of_get hk hg
    exact absurd ((focus_iff_get _ _ _).mp hF) (h kvs)

theorem assignKey_same {k : String} {v : JSON} {kvs : List (String × JSON)}
    (h : lookupKey k kvs = some v) : assignKey k v kvs = kvs := by
  unfold assignKey
  rw [h]
  simp only []
  rw [updateKey_id (f := fun _ => some v) h rfl]
  rfl

theorem assignKey_assignKey (k : String) (v w : JSON) (kvs : List (String × JSON))
    (h : lookupKey k kvs ≠ none) : assignKey k w (assignKey k v kvs) = assignKey k w kvs := by
  cases hl : lookupKey k kvs with
  | none => exact absurd hl h
  | some c =>
    obtain ⟨r, hr, hlr⟩ := updateKey_lookup (f := fun _ => some v) (w := v) hl rfl
    have e1 : assignKey k v kvs = r := by
      unfold assignKey
      rw [hl]
      simp only [hr, Option.getD_some]
    rw [e1]
    unfold assignKey
    rw [hlr, hl]
    simp only []
    rw [updateKey_comp _ hr]
    obtain ⟨r2, hr2, -⟩ := updateKey_lookup (f := fun _ => some w) (w := w) hl rfl
    have e2 : updateKey k (fun c => (some v).bind fun _ => some w) kvs = some r2 := hr2
    rw [e2, hr2]
    rfl

/-- An assignment to an existing member, as the replacement `sjson` makes. -/
theorem updateKey_eq_assignKey {k : String} {f : JSON → Option JSON}
    {kvs r : List (String × JSON)} {c w : JSON} (hl : lookupKey k kvs = some c)
    (hf : f c = some w) (hr : updateKey k f kvs = some r) : r = assignKey k w kvs := by
  unfold assignKey
  rw [hl]
  simp only []
  rw [← updateKey_congr (f := f) (g := fun _ => some w) hl hf, hr]
  rfl

/-! ## The rewriters replace the attributes object -/

theorem renameAttr_puts {P : List String} {d : Doc} {kvs : List (String × JSON)}
    (h : d.get P = some (.obj kvs)) (old new : String) :
    Puts P d (renameAttr P old new d) (.obj kvs) (.obj (renameKey old new kvs)) := by
  unfold renameAttr renameKey
  rw [focus_get ((focus_iff_get _ _ _).mpr h)]
  cases lookupKey old kvs with
  | none => exact Puts.refl h
  | some v =>
    exact (puts_focus_set h new v).trans (puts_focus_delete (puts_focus_set h new v).get old)

theorem deleteEmptyArray_puts {P : List String} {d : Doc} {kvs : List (String × JSON)}
    (h : d.get P = some (.obj kvs)) (attr : String) :
    Puts P d (deleteEmptyArray P d attr) (.obj kvs) (.obj (deleteEmptySlice kvs attr)) := by
  unfold deleteEmptyArray deleteEmptySlice
  rw [focus_get ((focus_iff_get _ _ _).mpr h)]
  split
  · exact puts_focus_delete h attr
  · exact Puts.refl h

theorem emptyArrayToMap_puts {P : List String} {d : Doc} {kvs : List (String × JSON)}
    (h : d.get P = some (.obj kvs)) (attr : String) :
    Puts P d (emptyArrayToMap P d attr) (.obj kvs) (.obj (emptySliceToMap kvs attr)) := by
  unfold emptyArrayToMap emptySliceToMap
  rw [focus_get ((focus_iff_get _ _ _).mpr h)]
  split
  · exact puts_focus_set h attr _
  · exact Puts.refl h

theorem foldl_deleteEmptyArray_puts {P : List String} (names : List String) {d : Doc}
    {kvs : List (String × JSON)} (h : d.get P = some (.obj kvs)) :
    Puts P d (names.foldl (deleteEmptyArray P) d) (.obj kvs)
      (.obj (names.foldl deleteEmptySlice kvs)) := by
  induction names generalizing d kvs with
  | nil => exact Puts.refl h
  | cons n names ih =>
    exact (deleteEmptyArray_puts h n).trans (ih (deleteEmptyArray_puts h n).get)

theorem foldl_emptyArrayToMap_puts {P : List String} (names : List String) {d : Doc}
    {kvs : List (String × JSON)} (h : d.get P = some (.obj kvs)) :
    Puts P d (names.foldl (emptyArrayToMap P) d) (.obj kvs)
      (.obj (names.foldl emptySliceToMap kvs)) := by
  induction names generalizing d kvs with
  | nil => exact Puts.refl h
  | cons n names ih =>
    exact (emptyArrayToMap_puts h n).trans (ih (emptyArrayToMap_puts h n).get)

/-- `transformLoadBalancerStateJSON` replaces the attributes object by the object that
`transformLoadBalancerState` makes of it, and changes nothing else. -/
theorem transformLoadBalancerStateJSON_puts {instancePath : List String} {d : Doc}
    {kvs : List (String × JSON)} (h : d.get (instancePath ++ ["attributes"]) = some (.obj kvs)) :
    Puts (instancePath ++ ["attributes"]) d (transformLoadBalancerStateJSON d instancePath)
      (.obj kvs) (.obj (transformLoadBalancerState kvs)) := by
  have h1 := renameAttr_puts h "fallback_pool_id" "fallback_pool"
  have h2 := renameAttr_puts h1.get "default_pool_ids" "default_pools"
  have h3 := foldl_deleteEmptyArray_puts ["adaptive_routing", "location_strategy",
    "random_steering", "session_affinity_attributes"] h2.get
  have h4 := foldl_emptyArrayToMap_puts ["country_pools", "pop_pools", "region_pools"] h3.get
  exact ((h1.trans h2).trans h3).trans h4

theorem renameAttr_of_none {P : List String} {d : Doc} {old : String} (new : String)
    (h : d.get (P ++ [old]) = none) : renameAttr P old new d = d := by
  unfold renameAttr
  rw [h]

theorem deleteEmptyArray_of_none {P : List String} {d : Doc} {attr : String}
    (h : d.get (P ++ [attr]) = none) : deleteEmptyArray P d attr = d := by
  unfold deleteEmptyArray
  rw [h]

theorem emptyArrayToMap_of_none {P : List String} {d : Doc} {attr : String}
    (h : d.get (P ++ [attr]) = none) : emptyArrayToMap P d attr = d := by
  unfold emptyArrayToMap
  rw [h]

theorem unwrapSingleton_of_none {P : List String} {d : Doc} {attr : String}
    (h : d.get (P ++ [attr]) = none) : unwrapSingleton P attr d = d := by
  unfold unwrapSingleton
  rw [h]

/-- Without an attributes object `transformLoadBalancerStateJSON` changes nothing. -/
theorem transformLoadBalancerStateJSON_noattrs {instancePath : List String} {d : Doc}
    (h : ∀ kvs, d.get (instancePath ++ ["attributes"]) ≠ some (.obj kvs)) :
    transformLoadBalancerStateJSON d instancePath = d := by
  have g : ∀ k, parseIndex k = none → d.get (instancePath ++ ["attributes"] ++ [k]) = none :=
    fun k hk => get_member_none hk h
  unfold transformLoadBalancerStateJSON
  simp only []
  rw [renameAttr_of_none _ (g _ (by decide)), renameAttr_of_none _ (g _ (by decide))]
  simp only [List.foldl_cons, List.foldl_nil]
  rw [deleteEmptyArray_of_none (g _ (by decide)), deleteEmptyArray_of_none (g _ (by decide)),
    deleteEmptyArray_of_none (g _ (by decide)), deleteEmptyArray_of_none (g _ (by decide)),
    emptyArrayToMap_of_none (g _ (by decide)), emptyArrayToMap_of_none (g _ (by decide)),
    emptyArrayToMap_of_none (g _ (by decide))]

theorem unwrapSingleton_puts {P : List String} {d : Doc} {kvs : List (String × JSON)}
    (h : d.get P = some (.obj kvs)) (attr : String) :
    Puts P d (unwrapSingleton P attr d) (.obj kvs) (.obj (unwrappedSingleton attr kvs)) := by
  unfold unwrapSingleton unwrappedSingleton
  rw [focus_get ((focus_iff_get _ _ _).mpr h)]
  split
  · exact puts_focus_delete h attr
  · exact puts_focus_set h attr _
  · exact Puts.refl h

theorem origin_set_puts {P : List String} {d : Doc} {kvs : List (String × JSON)}
    (h : d.get P = some (.obj kvs)) (done rest : List JSON) (om : List (String × JSON))
    (v : JSON) (ho : lookupKey "origins" kvs = some (.arr (done ++ .obj om :: rest))) :
    Puts P d (d.set (P ++ ["origins", formatIndex done.length] ++ ["header"]) v) (.obj kvs)
      (.obj (assignKey "origins"
        (.arr (done ++ .obj (assignKey "header" v om) :: rest)) kvs)) := by
  have h1 : setPath ["header"] v (.obj om) = some (.obj (assignKey "header" v om)) := by
    simpa [setPath] using @assignKey_eq "header" v om
  have h2 : setPath [formatIndex done.length, "header"] v (.arr (done ++ .obj om :: rest)) =
      some (.arr (done ++ .obj (assignKey "header" v om) :: rest)) := by
    have hlt : done.length < (done ++ JSON.obj om :: rest).length := by simp
    rw [setPath, parseIndex_formatIndex]
    simp only [hlt, if_true, updateAt_append, h1, Option.map_some']
  obtain ⟨r, hr, -⟩ := updateKey_lookup
    (f := setPath [formatIndex done.length, "header"] v) ho h2
  have h3 : setPath ["origins", formatIndex done.length, "header"] v (.obj kvs) =
      some (.obj r) := by
    rw [setPath]
    simp only [ho, hr, Option.map_some']
  rw [updateKey_eq_assignKey ho h2 hr] at h3
  have hpath : P ++ ["origins", formatIndex done.length] ++ ["header"] =
      P ++ ["origins", formatIndex done.length, "header"] := by simp
  rw [hpath]
  exact puts_set h _ v h3

theorem origin_delete_puts {P : List String} {d : Doc} {kvs : List (String × JSON)}
    (h : d.get P = some (.obj kvs)) (done rest : List JSON) (om : List (String × JSON))
    (ho : lookupKey "origins" kvs = some (.arr (done ++ .obj om :: rest))) :
    Puts P d (d.delete (P ++ ["origins", formatIndex done.length] ++ ["header"])) (.obj kvs)
      (.obj (assignKey "origins"
        (.arr (done ++ .obj (eraseKey "header" om) :: rest)) kvs)) := by
  have h2 : deletePath [formatIndex done.length, "header"] (.arr (done ++ .obj om :: rest)) =
      .arr (done ++ .obj (eraseKey "header" om) :: rest) := by
    rw [deletePath, parseIndex_formatIndex]
    simp only [updateAt_append, Option.map_some']
    rfl
  obtain ⟨r, hr, -⟩ := updateKey_lookup
    (f := fun c => some (deletePath [formatIndex done.length, "header"] c)) ho rfl
  have h3 : deletePath ["origins", formatIndex done.length, "header"] (.obj kvs) = .obj r := by
    rw [deletePath]
    simp only [hr]
  rw [updateKey_eq_assignKey ho (by rw [h2]) hr] at h3
  have hpath : P ++ ["origins", formatIndex done.length] ++ ["header"] =
      P ++ "origins" :: [formatIndex done.length, "header"] := by simp
  rw [hpath, ← h3]
  exact puts_delete h "origins" [formatIndex done.length, "header"]

/-- One turn of the loop over `origins` replaces the attributes object by the object whose
`origins` has the visited element rewritten. -/
theorem rewriteOriginHeader_puts {P : List String} {d : Doc} {kvs : List (String × JSON)}
    (h : d.get P = some (.obj kvs)) (done rest : List JSON) (o : JSON)
    (ho : lookupKey "origins" kvs = some (.arr (done ++ o :: rest))) :
    Puts P d (rewriteOriginHeader P d done.length o) (.obj kvs)
      (.obj (assignKey "origins" (.arr (done ++ rewrittenOrigin o :: rest)) kvs)) := by
  have same : ∀ x : JSON, x = o →
      Puts P d d (.obj kvs) (.obj (assignKey "origins" (.arr (done ++ x :: rest)) kvs)) := by
    intro x hx
    subst hx
    rw [assignKey_same ho]
    exact Puts.refl h
  cases o with
  | obj om =>
    unfold rewriteOriginHeader rewrittenOrigin
    simp only [getPath_single_obj]
    cases hh : lookupKey "header" om with
    | none => exact same _ rfl
    | some x =>
      cases x with
      | arr l =>
        cases l with
        | nil => exact origin_delete_puts h done rest om ho
        | cons fh l2 =>
          simp only []
          cases hv : hostValues fh with
          | none => exact same _ rfl
          | some vals => exact origin_set_puts h done rest om _ ho
      | obj hm =>
        simp only []
        cases hhost : lookupKey "host" hm with
        | some y => exact same _ rfl
        | none =>
          simp only []
          cases hv : hostValues (.obj hm) with
          | none => exact same _ rfl
          | some vals => exact origin_set_puts h done rest om _ ho
      | null => exact same _ rfl
      | bool b => exact same _ rfl
      | num q => exact same _ rfl
      | str s => exact same _ rfl
  | arr xs => exact same _ rfl
  | null => exact same _ rfl
  | bool b => exact same _ rfl
  | num q => exact same _ rfl
  | str s => exact same _ rfl

theorem forEachOrigin_puts {P : List String} (todo : List JSON) :
    ∀ (done : List JSON) (d : Doc) (kvs : List (String × JSON)), d.get P = some (.obj kvs) →
      lookupKey "origins" kvs = some (.arr (done ++ todo)) →
      Puts P d (forEachOrigin P done.length todo d) (.obj kvs)
        (.obj (assignKey "origins" (.arr (done ++ todo.map rewrittenOrigin)) kvs)) := by
  induction todo with
  | nil =>
    intro done d kvs h ho
    rw [List.map_nil, assignKey_same ho]
    exact Puts.refl h
  | cons o rest ih =>
    intro done d kvs h ho
    have s1 := rewriteOriginHeader_puts h done rest o ho
    have ho1 : lookupKey "origins"
        (assignKey "origins" (.arr (done ++ rewrittenOrigin o :: rest)) kvs) =
        some (.arr ((done ++ [rewrittenOrigin o]) ++ rest)) := by
      rw [lookupKey_assignKey_self, List.append_assoc]
      rfl
    have s2 := ih (done ++ [rewrittenOrigin o]) _ _ s1.get ho1
    have hlen : (done ++ [rewrittenOrigin o]).length = done.length + 1 := by simp
    rw [hlen, assignKey_assignKey _ _ _ _ (by rw [ho]; simp), List.append_assoc] at s2
    exact s1.trans s2

/-- `transformLoadBalancerPoolStateJSON` replaces the attributes object by `poolAttrs` of it,
and changes nothing else. -/
theorem transformLoadBalancerPoolStateJSON_puts {instancePath : List String} {d : Doc}
    {kvs : List (String × JSON)} (h : d.get (instancePath ++ ["attributes"]) = some (.obj kvs)) :
    Puts (instancePath ++ ["attributes"]) d (transformLoadBalancerPoolStateJSON d instancePath)
      (.obj kvs) (.obj (poolAttrs kvs)) := by
  have h1 := unwrapSingleton_puts h "load_shedding"
  have h2 := unwrapSingleton_puts h1.get "origin_steering"
  have h12 := h1.trans h2
  unfold transformLoadBalancerPoolStateJSON poolAttrs
  simp only []
  rw [focus_get ((focus_iff_get _ _ _).mpr h2.get) "origins"]
  split
  · next os heq =>
    have s := forEachOrigin_puts os [] _ _ h2.get (by rw [heq]; rfl)
    exact h12.trans s
  · next hne => exact h12

/-- Without an attributes object `transformLoadBalancerPoolStateJSON` changes nothing. -/
theorem transformLoadBalancerPoolStateJSON_noattrs {instancePath : List String} {d : Doc}
    (h : ∀ kvs, d.get (instancePath ++ ["attributes"]) ≠ some (.obj kvs)) :
    transformLoadBalancerPoolStateJSON d instancePath = d := by
  have g : ∀ k, parseIndex k = none → d.get (instancePath ++ ["attributes"] ++ [k]) = none :=
    fun k hk => get_member_none hk h
  unfold transformLoadBalancerPoolStateJSON
  simp only []
  rw [unwrapSingleton_of_none (g _ (by decide)), unwrapSingleton_of_none (g _ (by decide)),
    g _ (by decide)]

/-! ## Instances, resources and the loops of `transformStateJSON` -/

theorem doc_get_append (d : Doc) (P Q : List String) :
    d.get (P ++ Q) = (d.get P).bind (getPath Q) := by
  cases d with
  | none => rfl
  | some j => simp only [Doc.get, Option.some_bind, getPath_append]

theorem getPath_key_not_obj {k : String} (hk : parseIndex k = none) (Q : List String)
    {x : JSON} (h : ∀ kvs, x ≠ .obj kvs) : getPath (k :: Q) x = none := by
  cases x with
  | obj kvs => exact absurd rfl (h kvs)
  | arr xs => simp [getPath, hk]
  | null => rfl
  | bool b => rfl
  | num q => rfl
  | str s => rfl

/-- A rewriter that replaces the attributes object by `f` of it, and changes nothing without
one, replaces the instance by the instance with its attributes rewritten. -/
theorem withAttributes_puts (e : Doc → List String → Doc)
    (f : List (String × JSON) → List (String × JSON))
    (hputs : ∀ (d : Doc) (ip : List String) (kvs : List (String × JSON)),
      d.get (ip ++ ["attributes"]) = some (.obj kvs) →
      Puts (ip ++ ["attributes"]) d (e d ip) (.obj kvs) (.obj (f kvs)))
    (hid : ∀ (d : Doc) (ip : List String),
      (∀ kvs, d.get (ip ++ ["attributes"]) ≠ some (.obj kvs)) → e d ip = d)
    {d : Doc} {ip : List String} {inst : JSON} (h : d.get ip = some inst) :
    Puts ip d (e d ip) inst (withAttributes f inst) := by
  have hget : d.get (ip ++ ["attributes"]) = getPath ["attributes"] inst := by
    rw [doc_get_append, h]
    rfl
  have none_case : (∀ kvs, getPath ["attributes"] inst ≠ some (.obj kvs)) →
      withAttributes f inst = inst → Puts ip d (e d ip) inst (withAttributes f inst) := by
    intro hn hw
    rw [hw, hid d ip (by rw [hget]; exact hn)]
    exact Puts.refl h
  cases inst with
  | obj ikvs =>
    rw [getPath_single_obj] at hget
    cases hl : lookupKey "attributes" ikvs with
    | none =>
      exact none_case (by rw [getPath_single_obj, hl]; simp) (by simp [withAttributes, hl])
    | some a =>
      cases a with
      | obj kvs =>
        rw [hl] at hget
        obtain ⟨w, hw, hP⟩ := puts_lift (hputs d ip kvs hget) h
        have hw2 : setPath ["attributes"] (.obj (f kvs)) (.obj ikvs) =
            some (.obj (assignKey "attributes" (.obj (f kvs)) ikvs)) := by
          simpa [setPath] using @assignKey_eq "attributes" (.obj (f kvs)) ikvs
        rw [hw2] at hw
        have : withAttributes f (.obj ikvs) =
            .obj (assignKey "attributes" (.obj (f kvs)) ikvs) := by
          simp [withAttributes, hl]
        rw [this, Option.some.inj hw]
        exact hP
      | arr xs =>
        exact none_case (by rw [getPath_single_obj, hl]; simp) (by simp [withAttributes, hl])
      | null =>
        exact none_case (by rw [getPath_single_obj, hl]; simp) (by simp [withAttributes, hl])
      | bool b =>
        exact none_case (by rw [getPath_single_obj, hl]; simp) (by simp [withAttributes, hl])
      | num q =>
        exact none_case (by rw [getPath_single_obj, hl]; simp) (by simp [withAttributes, hl])
      | str s =>
        exact none_case (by rw [getPath_single_obj, hl]; simp) (by simp [withAttributes, hl])
  | arr xs =>
    exact none_case (by rw [getPath_key_not_obj (by decide) [] (by simp)]; simp) rfl
  | null => exact none_case (by simp [getPath]) rfl
  | bool b => exact none_case (by simp [getPath]) rfl
  | num q => exact none_case (by simp [getPath]) rfl
  | str s => exact none_case (by simp [getPath]) rfl

theorem getElem?_append_length (done : List JSON) (x : JSON) (rest : List JSON) :
    (done ++ x :: rest)[done.length]? = some x := by
  induction done with
  | nil => simp
  | cons a done ih =>
    simp only [List.cons_append, List.length_cons, List.getElem?_cons_succ]
    exact ih

/-- A loop whose turn for index `k` replaces element `k` of the array at `A` by `g` of it
replaces the array by the array of the `g` of its elements. -/
theorem forEach_puts (A : List String) (body : Doc → Nat → JSON → Doc) (g : JSON → JSON)
    (hbody : ∀ (d : Doc) (k : Nat) (x : JSON), d.get (A ++ [formatIndex k]) = some x →
      Puts (A ++ [formatIndex k]) d (body d k x) x (g x)) (todo : List JSON) :
    ∀ (done : List JSON) (d : Doc), d.get A = some (.arr (done ++ todo)) →
      Puts A d (forEach body done.length todo d) (.arr (done ++ todo))
        (.arr (done ++ todo.map g)) := by
  induction todo with
  | nil =>
    intro done d h
    exact Puts.refl h
  | cons x rest ih =>
    intro done d h
    have hx : d.get (A ++ [formatIndex done.length]) = some x := by
      rw [doc_get_append, h]
      simp only [Option.some_bind, getPath, parseIndex_formatIndex,
        getElem?_append_length]
    obtain ⟨w, hw, hP⟩ := puts_lift (hbody d done.length x hx) h
    have hw2 : setPath [formatIndex done.length] (g x) (.arr (done ++ x :: rest)) =
        some (.arr (done ++ g x :: rest)) := by
      have hlt : done.length < (done ++ x :: rest).length := by simp
      rw [setPath, parseIndex_formatIndex]
      simp only [hlt, if_true, updateAt_append, setPath, Option.map_some']
    rw [hw2] at hw
    rw [← Option.some.inj hw] at hP
    have h1 : (body d done.length x).get A = some (.arr ((done ++ [g x]) ++ rest)) := by
      rw [hP.get, List.append_assoc]
      rfl
    have s2 := ih (done ++ [g x]) _ h1
    have hlen : (done ++ [g x]).length = done.length + 1 := by simp
    rw [hlen] at s2
    have e1 : (done ++ [g x]) ++ rest = done ++ g x :: rest := by simp
    have e2 : (done ++ [g x]) ++ rest.map g = done ++ (x :: rest).map g := by simp
    rw [e1, e2] at s2
    exact hP.trans s2

theorem forEach_id (body : Doc → Nat → JSON → Doc) (h : ∀ d k x, body d k x = d)
    (xs : List JSON) : ∀ (k : Nat) (d : Doc), forEach body k xs d = d := by
  induction xs with
  | nil => intro k d; rfl
  | cons x rest ih =>
    intro k d
    rw [forEach, h, ih]

/-- The turn of `transformStateJSON` for an instance of a pool. -/
theorem poolStep_puts {d : Doc} {ip : List String} {inst : JSON} (h : d.get ip = some inst) :
    Puts ip d ((transformLoadBalancerPoolStateJSON d ip).delete
      (ip ++ ["identity_schema_version"])) inst (poolInstance inst) := by
  have s1 := withAttributes_puts transformLoadBalancerPoolStateJSON poolAttrs
    (fun _ _ _ hk => transformLoadBalancerPoolStateJSON_puts hk)
    (fun _ _ hn => transformLoadBalancerPoolStateJSON_noattrs hn) h
  exact s1.trans (puts_delete s1.get "identity_schema_version" [])

/-- The turn of `transformStateJSON` for an instance of a load balancer. -/
theorem loadBalancerStep_puts {d : Doc} {ip : List String} {inst : JSON}
    (h : d.get ip = some inst) :
    Puts ip d (transformLoadBalancerStateJSON d ip) inst
      (withAttributes transformLoadBalancerState inst) :=
  withAttributes_puts transformLoadBalancerStateJSON transformLoadBalancerState
    (fun _ _ _ hk => transformLoadBalancerStateJSON_puts hk)
    (fun _ _ hn => transformLoadBalancerStateJSON_noattrs hn) h

/-- A loop over the instances of a resource whose turn replaces the instance by `g` of it
replaces the resource by the resource with the instances `g` of its instances. -/
theorem instances_puts {rp : List String} (body : Doc → Nat → JSON → Doc) (g : JSON → JSON)
    (hbody : ∀ (d : Doc) (k : Nat) (x : JSON),
      d.get (rp ++ ["instances", formatIndex k]) = some x →
      Puts (rp ++ ["instances", formatIndex k]) d (body d k x) x (g x))
    {d : Doc} {r : JSON} {insts : List JSON} (h : d.get rp = some r)
    (hi : getPath ["instances"] r = some (.arr insts)) :
    Puts rp d (forEach body 0 insts d) r (withInstances (insts.map g) r) := by
  have hA : d.get (rp ++ ["instances"]) = some (.arr ([] ++ insts)) := by
    rw [doc_get_append, h]
    exact hi
  have s := forEach_puts (rp ++ ["instances"]) body g (by
    intro d k x hx
    have e : rp ++ ["instances"] ++ [formatIndex k] = rp ++ ["instances", formatIndex k] := by
      simp
    rw [e]
    rw [e] at hx
    exact hbody d k x hx) insts [] d hA
  obtain ⟨w, hw, hP⟩ := puts_lift s h
  cases r with
  | obj rkvs =>
    have hw2 : setPath ["instances"] (.arr ([] ++ insts.map g)) (.obj rkvs) =
        some (.obj (assignKey "instances" (.arr (insts.map g)) rkvs)) := by
      simpa [setPath] using @assignKey_eq "instances" (.arr (insts.map g)) rkvs
    rw [hw2] at hw
    rw [← Option.some.inj hw] at hP
    exact hP
  | arr xs => rw [getPath_key_not_obj (by decide) [] (by simp)] at hi; simp at hi
  | null => simp [getPath] at hi
  | bool b => simp [getPath] at hi
  | num q => simp [getPath] at hi
  | str s => simp [getPath] at hi

/-! ## The tiered cache rewriter -/

theorem assignKey_cons (k : String) (v : JSON) (k0 : String) (v0 : JSON)
    (m : List (String × JSON)) :
    assignKey k v ((k0, v0) :: m) =
      if k0 = k then (k0, v) :: m else (k0, v0) :: assignKey k v m := by
  by_cases h0 : k0 = k
  · simp [assignKey, lookupKey, updateKey, h0]
  · rw [if_neg h0]
    unfold assignKey
    simp only [lookupKey, h0, if_false]
    cases hl : lookupKey k m with
    | none => rfl
    | some c =>
      obtain ⟨r, hr, -⟩ := updateKey_lookup (f := fun _ => some v) (w := v) hl rfl
      simp [updateKey, h0, hr]

/-- Assignments to two members that exist can be made in either order. -/
theorem assignKey_comm {k1 k2 : String} (hne : k1 ≠ k2) (v1 v2 : JSON)
    (m : List (String × JSON)) (h1 : lookupKey k1 m ≠ none) (h2 : lookupKey k2 m ≠ none) :
    assignKey k1 v1 (assignKey k2 v2 m) = assignKey k2 v2 (assignKey k1 v1 m) := by
  induction m with
  | nil => exact absurd rfl h1
  | cons kv m ih =>
    obtain ⟨k0, v0⟩ := kv
    by_cases e1 : k0 = k1
    · have e2 : ¬ k0 = k2 := fun e => hne (e1.symm.trans e)
      rw [assignKey_cons k2, if_neg e2, assignKey_cons k1, if_pos e1, assignKey_cons k1,
        if_pos e1, assignKey_cons k2, if_neg e2]
    · by_cases e2 : k0 = k2
      · rw [assignKey_cons k2, if_pos e2, assignKey_cons k1, if_neg e1, assignKey_cons k1,
          if_neg e1, assignKey_cons k2, if_pos e2]
      · simp only [lookupKey, e1, e2, if_false] at h1 h2
        rw [assignKey_cons k2, if_neg e2, assignKey_cons k1, if_neg e1, assignKey_cons k1,
          if_neg e1, assignKey_cons k2, if_neg e2, ih h1 h2]

/-- The statements of the tiered cache rewriter on the attributes replace the attributes object
by `tieredAttrs` of it. -/
theorem rewriteCacheType_puts {instancePath : List String} {d : Doc}
    {kvs : List (String × JSON)} (h : d.get (instancePath ++ ["attributes"]) = some (.obj kvs)) :
    Puts (instancePath ++ ["attributes"]) d (rewriteCacheType d instancePath) (.obj kvs)
      (.obj (tieredAttrs kvs)) := by
  have tail : ∀ v : JSON, Puts (instancePath ++ ["attributes"]) d
      ((d.delete (instancePath ++ ["attributes"] ++ ["cache_type"])).set
        (instancePath ++ ["attributes"] ++ ["value"]) v) (.obj kvs)
      (.obj (assignKey "value" v (eraseKey "cache_type" kvs))) := fun v =>
    (puts_focus_delete h "cache_type").trans
      (puts_focus_set (puts_focus_delete h "cache_type").get "value" v)
  unfold rewriteCacheType tieredAttrs
  simp only []
  rw [focus_get ((focus_iff_get _ _ _).mpr h)]
  cases hl : lookupKey "cache_type" kvs with
  | none => exact Puts.refl h
  | some c =>
    cases c with
    | str s =>
      simp only []
      by_cases h1 : s = "generic"
      · rw [if_pos h1, if_pos h1]
        exact tail _
      · rw [if_neg h1, if_neg h1]
        by_cases h2 : s = "smart"
        · rw [if_pos h2, if_pos h2]
          exact tail _
        · rw [if_neg h2, if_neg h2]
          by_cases h3 : s = "off"
          · rw [if_pos h3, if_pos h3]
            exact tail _
          · rw [if_neg h3, if_neg h3]
            exact Puts.refl h
    | null => exact Puts.refl h
    | bool b => exact Puts.refl h
    | num q => exact Puts.refl h
    | arr xs => exact Puts.refl h
    | obj m => exact Puts.refl h

theorem rewriteCacheType_noattrs {instancePath : List String} {d : Doc}
    (h : ∀ kvs, d.get (instancePath ++ ["attributes"]) ≠ some (.obj kvs)) :
    rewriteCacheType d instancePath = d := by
  unfold rewriteCacheType
  simp only []
  rw [get_member_none (by decide) h]

theorem rewriteCacheType_instance {d : Doc} {ip : List String} {inst : JSON}
    (h : d.get ip = some inst) :
    Puts ip d (rewriteCacheType d ip) inst (withAttributes tieredAttrs inst) :=
  withAttributes_puts rewriteCacheType tieredAttrs
    (fun _ _ _ hk => rewriteCacheType_puts hk)
    (fun _ _ hn => rewriteCacheType_noattrs hn) h

/-- The members of a resource after the assignment of the relabelled type, when `b`. -/
theorem relabel_lookup (b : Bool) (rkvs : List (String × JSON)) {k : String}
    (hk : k ≠ "type") :
    lookupKey k (if b then assignKey "type" (.str "cloudflare_argo_tiered_caching") rkvs
      else rkvs) = lookupKey k rkvs := by
  cases b
  · rfl
  · exact lookupKey_assignKey_ne hk _ _

/-- The tiered cache rewriter is the assignment of the resource type, when the instance holds
`cache_type = "generic"`, followed by the statements on the attributes. -/
theorem transformTieredCacheStateJSON_split {d : Doc} {rp : List String} (k : String)
    {rkvs : List (String × JSON)} {inst : JSON} (h : d.get rp = some (.obj rkvs))
    (hi : getPath ["instances", k] (.obj rkvs) = some inst) :
    ∃ d1, Puts rp d d1 (.obj rkvs)
        (.obj (if isGenericInstance inst then
          assignKey "type" (.str "cloudflare_argo_tiered_caching") rkvs else rkvs)) ∧
      transformTieredCacheStateJSON d (rp ++ ["instances", k]) rp =
        rewriteCacheType d1 (rp ++ ["instances", k]) := by
  have hct : d.get (rp ++ ["instances", k] ++ ["attributes"] ++ ["cache_type"]) =
      getPath ["attributes", "cache_type"] inst := by
    have e : rp ++ ["instances", k] ++ ["attributes"] ++ ["cache_type"] =
        rp ++ (["instances", k] ++ ["attributes", "cache_type"]) := by simp
    rw [e, doc_get_append, h]
    simp only [Option.some_bind, getPath_append, hi]
  have same : isGenericInstance inst = false →
      transformTieredCacheStateJSON d (rp ++ ["instances", k]) rp =
        rewriteCacheType d (rp ++ ["instances", k]) →
      ∃ d1, Puts rp d d1 (.obj rkvs)
        (.obj (if isGenericInstance inst then
          assignKey "type" (.str "cloudflare_argo_tiered_caching") rkvs else rkvs)) ∧
      transformTieredCacheStateJSON d (rp ++ ["instances", k]) rp =
        rewriteCacheType d1 (rp ++ ["instances", k]) := by
    intro hg he
    refine ⟨d, ?_, he⟩
    rw [hg]
    exact Puts.refl h
  cases hc : getPath ["attributes", "cache_type"] inst with
  | none =>
    refine same (by simp [isGenericInstance, hc]) ?_
    unfold transformTieredCacheStateJSON rewriteCacheType
    simp only [hct, hc]
  | some c =>
    cases c with
    | str s =>
      by_cases h1 : s = "generic"
      · subst h1
        have hg : isGenericInstance inst = true := by simp [isGenericInstance, hc]
        have s1 := puts_focus_set h "type" (.str "cloudflare_argo_tiered_caching")
        refine ⟨_, by rw [hg]; exact s1, ?_⟩
        have hct1 : (d.set (rp ++ ["type"]) (.str "cloudflare_argo_tiered_caching")).get
            (rp ++ ["instances", k] ++ ["attributes"] ++ ["cache_type"]) =
            some (.str "generic") := by
          have e : rp ++ ["instances", k] ++ ["attributes"] ++ ["cache_type"] =
              rp ++ (["instances", k] ++ ["attributes", "cache_type"]) := by simp
          rw [e, doc_get_append, s1.get]
          have hi' : getPath ["instances", k]
              (.obj (assignKey "type" (.str "cloudflare_argo_tiered_caching") rkvs)) =
              some inst := by
            simp only [getPath] at hi ⊢
            rw [lookupKey_assignKey_ne (by decide)]
            exact hi
          simp only [Option.some_bind, getPath_append, hi', hc]
        unfold transformTieredCacheStateJSON rewriteCacheType
        simp only [hct, hc, hct1, if_true]
      · refine same (by simp [isGenericInstance, hc, h1]) ?_
        unfold transformTieredCacheStateJSON rewriteCacheType
        simp only [hct, hc, if_neg h1]
    | null =>
      refine same (by simp [isGenericInstance, hc]) ?_
      unfold transformTieredCacheStateJSON rewriteCacheType
      simp only [hct, hc]
    | bool b =>
      refine same (by simp [isGenericInstance, hc]) ?_
      unfold transformTieredCacheStateJSON rewriteCacheType
      simp only [hct, hc]
    | num q =>
      refine same (by simp [isGenericInstance, hc]) ?_
      unfold transformTieredCacheStateJSON rewriteCacheType
      simp only [hct, hc]
    | arr xs =>
      refine same (by simp [isGenericInstance, hc]) ?_
      unfold transformTieredCacheStateJSON rewriteCacheType
      simp only [hct, hc]
    | obj m =>
      refine same (by simp [isGenericInstance, hc]) ?_
      unfold transformTieredCacheStateJSON rewriteCacheType
      simp only [hct, hc]

/-! ## `transformStateJSON` leaves the document `stateAfter` -/

theorem setPath_instance {m : List (String × JSON)} {done rest : List JSON} {x : JSON}
    (v : JSON) (hi : lookupKey "instances" m = some (.arr (done ++ x :: rest))) :
    setPath ["instances", formatIndex done.length] v (.obj m) =
      some (.obj (assignKey "instances" (.arr (done ++ v :: rest)) m)) := by
  have h2 : setPath [formatIndex done.length] v (.arr (done ++ x :: rest)) =
      some (.arr (done ++ v :: rest)) := by
    have hlt : done.length < (done ++ x :: rest).length := by simp
    rw [setPath, parseIndex_formatIndex]
    simp only [hlt, if_true, updateAt_append, setPath, Option.map_some']
  obtain ⟨r, hr, -⟩ := updateKey_lookup (f := setPath [formatIndex done.length] v) hi h2
  rw [setPath]
  simp only [hi, hr, Option.map_some']
  rw [updateKey_eq_assignKey hi h2 hr]

theorem getPath_instance {m : List (String × JSON)} {done rest : List JSON} {x : JSON}
    (hi : lookupKey "instances" m = some (.arr (done ++ x :: rest))) :
    getPath ["instances", formatIndex done.length] (.obj m) = some x := by
  simp only [getPath, hi, Option.some_bind, parseIndex_formatIndex, getElem?_append_length]

/-- One turn of the loop over the instances of a tiered cache, on the resource. -/
theorem tieredStep_puts {d : Doc} {rp : List String} {rkvs : List (String × JSON)}
    (done rest : List JSON) (x : JSON) (h : d.get rp = some (.obj rkvs))
    (hi : lookupKey "instances" rkvs = some (.arr (done ++ x :: rest))) :
    Puts rp d (transformTieredCacheStateJSON d (rp ++ ["instances", formatIndex done.length]) rp)
      (.obj rkvs)
      (.obj (assignKey "instances" (.arr (done ++ withAttributes tieredAttrs x :: rest))
        (if isGenericInstance x then
          assignKey "type" (.str "cloudflare_argo_tiered_caching") rkvs else rkvs))) := by
  obtain ⟨d1, s1, he⟩ := transformTieredCacheStateJSON_split (formatIndex done.length) h
    (getPath_instance hi)
  rw [he]
  have hi1 : lookupKey "instances" (if isGenericInstance x then
      assignKey "type" (.str "cloudflare_argo_tiered_caching") rkvs else rkvs) =
      some (.arr (done ++ x :: rest)) := by
    rw [relabel_lookup _ _ (by decide), hi]
  have hx : d1.get (rp ++ ["instances", formatIndex done.length]) = some x := by
    rw [doc_get_append, s1.get]
    exact getPath_instance hi1
  obtain ⟨w, hw, hP⟩ := puts_lift (rewriteCacheType_instance hx) s1.get
  rw [setPath_instance _ hi1] at hw
  rw [← Option.some.inj hw] at hP
  exact s1.trans hP

/-- The loop over the instances of a tiered cache, on the resource. -/
theorem tieredLoop_puts {rp : List String} (todo : List JSON) :
    ∀ (done : List JSON) (d : Doc) (rkvs : List (String × JSON)),
      d.get rp = some (.obj rkvs) →
      lookupKey "instances" rkvs = some (.arr (done ++ todo)) →
      lookupKey "type" rkvs ≠ none →
      Puts rp d
        (forEach (fun result iidx _ =>
            transformTieredCacheStateJSON result (rp ++ ["instances", formatIndex iidx]) rp)
          done.length todo d)
        (.obj rkvs)
        (.obj (assignKey "instances" (.arr (done ++ todo.map (withAttributes tieredAttrs)))
          (if todo.any isGenericInstance then
            assignKey "type" (.str "cloudflare_argo_tiered_caching") rkvs else rkvs))) := by
  induction todo with
  | nil =>
    intro done d rkvs h hi _
    simp only [List.map_nil, List.any_nil]
    rw [if_neg (by simp), assignKey_same hi]
    exact Puts.refl h
  | cons x rest ih =>
    intro done d rkvs h hi ht
    have s1 := tieredStep_puts done rest x h hi
    have hX : ∀ b : Bool, lookupKey "instances" (if b then
        assignKey "type" (.str "cloudflare_argo_tiered_caching") rkvs else rkvs) ≠ none := by
      intro b
      rw [relabel_lookup _ _ (by decide), hi]
      simp
    have hT : ∀ b : Bool, lookupKey "type" (if b then
        assignKey "type" (.str "cloudflare_argo_tiered_caching") rkvs else rkvs) ≠ none := by
      intro b
      cases b
      · exact ht
      · simp [lookupKey_assignKey_self]
    have hi2 : lookupKey "instances"
        (assignKey "instances" (.arr (done ++ withAttributes tieredAttrs x :: rest))
          (if isGenericInstance x then
            assignKey "type" (.str "cloudflare_argo_tiered_caching") rkvs else rkvs)) =
        some (.arr ((done ++ [withAttributes tieredAttrs x]) ++ rest)) := by
      rw [lookupKey_assignKey_self, List.append_assoc]
      rfl
    have ht2 : lookupKey "type"
        (assignKey "instances" (.arr (done ++ withAttributes tieredAttrs x :: rest))
          (if isGenericInstance x then
            assignKey "type" (.str "cloudflare_argo_tiered_caching") rkvs else rkvs)) ≠ none := by
      rw [lookupKey_assignKey_ne (by decide)]
      exact hT _
    have s2 := ih (done ++ [withAttributes tieredAttrs x]) _ _ s1.get hi2 ht2
    have hlen : (done ++ [withAttributes tieredAttrs x]).length = done.length + 1 := by simp
    rw [hlen] at s2
    have e2 : (done ++ [withAttributes tieredAttrs x]) ++ rest.map (withAttributes tieredAttrs) =
        done ++ (x :: rest).map (withAttributes tieredAttrs) := by simp
    rw [e2] at s2
    have key : assignKey "instances"
          (.arr (done ++ (x :: rest).map (withAttributes tieredAttrs)))
          (if rest.any isGenericInstance then
            assignKey "type" (.str "cloudflare_argo_tiered_caching")
              (assignKey "instances" (.arr (done ++ withAttributes tieredAttrs x :: rest))
                (if isGenericInstance x then
                  assignKey "type" (.str "cloudflare_argo_tiered_caching") rkvs else rkvs))
          else
            assignKey "instances" (.arr (done ++ withAttributes tieredAttrs x :: rest))
              (if isGenericInstance x then
                assignKey "type" (.str "cloudflare_argo_tiered_caching") rkvs else rkvs)) =
        assignKey "instances" (.arr (done ++ (x :: rest).map (withAttributes tieredAttrs)))
          (if (x :: rest).any isGenericInstance then
            assignKey "type" (.str "cloudflare_argo_tiered_caching") rkvs else rkvs) := by
      cases hb' : rest.any isGenericInstance
      · simp only [List.any_cons, hb', Bool.or_false, Bool.false_eq_true, if_false]
        exact assignKey_assignKey _ _ _ _ (hX _)
      · simp only [List.any_cons, hb', Bool.or_true, if_true]
        rw [assignKey_comm (by decide) _ _ _ (hT _) (hX _),
          assignKey_assignKey _ _ _ _ (by
            rw [lookupKey_assignKey_ne (by decide)]
            exact hX _)]
        cases isGenericInstance x
        · rfl
        · simp only [if_true]
          rw [assignKey_assignKey _ _ _ _ ht]
    rw [key] at s2
    exact s1.trans s2

/-- The turn of `transformStateJSON` for a resource replaces the resource by `resourceAfter` of
it, and changes nothing else. -/
theorem resourceBody_puts {d : Doc} {rp : List String} {r : JSON} (h : d.get rp = some r) :
    Puts rp d (resourceBody rp d r) r (resourceAfter r) := by
  have idle : ∀ (ty : Option JSON) (insts : List JSON),
      (∀ res : Doc, ∀ p : List String, instanceStep ty rp p res = res) →
      forEach (fun result iidx _ =>
        instanceStep ty rp (rp ++ ["instances", formatIndex iidx]) result) 0 insts d = d :=
    fun ty insts hid => forEach_id _ (fun _ _ _ => hid _ _) insts 0 d
  unfold resourceBody resourceAfter
  cases hi : getPath ["instances"] r with
  | none => exact Puts.refl h
  | some iv =>
    cases iv with
    | arr insts =>
      simp only []
      cases ht : getPath ["type"] r with
      | none =>
        rw [idle none insts (fun _ _ => rfl)]
        exact Puts.refl h
      | some tv =>
        cases tv with
        | str t =>
          simp only []
          by_cases h1 : t = "cloudflare_load_balancer_pool"
          · rw [if_pos h1]
            have hb : (fun (result : Doc) (iidx : Nat) (_ : JSON) =>
                instanceStep (some (.str t)) rp (rp ++ ["instances", formatIndex iidx]) result) =
                fun result iidx _ =>
                  (transformLoadBalancerPoolStateJSON result
                    (rp ++ ["instances", formatIndex iidx])).delete
                    (rp ++ ["instances", formatIndex iidx] ++ ["identity_schema_version"]) := by
              funext result iidx _
              simp only [instanceStep]
              rw [if_pos h1]
            rw [hb]
            exact instances_puts _ poolInstance (fun _ _ _ hx => poolStep_puts hx) h hi
          · rw [if_neg h1]
            by_cases h2 : t = "cloudflare_load_balancer"
            · rw [if_pos h2]
              have hb : (fun (result : Doc) (iidx : Nat) (_ : JSON) =>
                  instanceStep (some (.str t)) rp (rp ++ ["instances", formatIndex iidx])
                    result) =
                  fun result iidx _ =>
                    transformLoadBalancerStateJSON result
                      (rp ++ ["instances", formatIndex iidx]) := by
                funext result iidx _
                simp only [instanceStep]
                rw [if_neg h1, if_pos h2]
              rw [hb]
              exact instances_puts _ (withAttributes transformLoadBalancerState)
                (fun _ _ _ hx => loadBalancerStep_puts hx) h hi
            · rw [if_neg h2]
              by_cases h3 : t = "cloudflare_tiered_cache"
              · rw [if_pos h3]
                have hb : (fun (result : Doc) (iidx : Nat) (_ : JSON) =>
                    instanceStep (some (.str t)) rp (rp ++ ["instances", formatIndex iidx])
                      result) =
                    fun result iidx _ =>
                      transformTieredCacheStateJSON result
                        (rp ++ ["instances", formatIndex iidx]) rp := by
                  funext result iidx _
                  simp only [instanceStep]
                  rw [if_neg h1, if_neg h2, if_pos h3]
                rw [hb]
                cases r with
                | obj rkvs =>
                  rw [getPath_single_obj] at hi ht
                  have s := tieredLoop_puts insts [] d rkvs h (by rw [hi]; rfl)
                    (by rw [ht]; simp)
                  simp only [List.nil_append, List.length_nil] at s
                  cases hany : insts.any isGenericInstance
                  · rw [hany] at s
                    simpa [withInstances] using s
                  · rw [hany] at s
                    simpa [withInstances, relabelled] using s
                | arr xs =>
                  rw [getPath_key_not_obj (by decide) [] (by simp)] at hi
                  simp at hi
                | null => simp [getPath] at hi
                | bool b => simp [getPath] at hi
                | num q => simp [getPath] at hi
                | str s => simp [getPath] at hi
              · rw [if_neg h3]
                rw [idle (some (.str t)) insts (fun _ _ => by
                  simp only [instanceStep]
                  rw [if_neg h1, if_neg h2, if_neg h3])]
                exact Puts.refl h
        | null =>
          rw [idle (some .null) insts (fun _ _ => rfl)]
          exact Puts.refl h
        | bool b =>
          rw [idle (some (.bool b)) insts (fun _ _ => rfl)]
          exact Puts.refl h
        | num q =>
          rw [idle (some (.num q)) insts (fun _ _ => rfl)]
          exact Puts.refl h
        | arr xs =>
          rw [idle (some (.arr xs)) insts (fun _ _ => rfl)]
          exact Puts.refl h
        | obj m =>
          rw [idle (some (.obj m)) insts (fun _ _ => rfl)]
          exact Puts.refl h
    | null => exact Puts.refl h
    | bool b => exact Puts.refl h
    | num q => exact Puts.refl h
    | str s => exact Puts.refl h
    | obj m => exact Puts.refl h

/-- The function `transformStateJSON` returns the document `stateAfter`: every resource of the
`resources` array is replaced by `resourceAfter` of it, and nothing else changes. -/
theorem transformStateJSON_eq (data : JSON) : transformStateJSON data = some (stateAfter data) := by
  cases data with
  | obj top =>
    cases hl : lookupKey "resources" top with
    | none => simp [transformStateJSON, stateAfter, getPath_single_obj, hl]
    | some rv =>
      cases rv with
      | arr rs =>
        have h0 : Doc.get (some (JSON.obj top)) ["resources"] = some (.arr ([] ++ rs)) := by
          show getPath ["resources"] (.obj top) = _
          rw [getPath_single_obj, hl]
          rfl
        have s := forEach_puts ["resources"]
          (fun result ridx resource =>
            resourceBody ["resources", formatIndex ridx] result resource) resourceAfter
          (fun d k x hx => resourceBody_puts hx) rs [] (some (.obj top)) h0
        obtain ⟨j, hj, -, hr⟩ := s
        cases hj
        simp only [List.nil_append, List.length_nil] at hr
        have e1 : transformStateJSON (.obj top) =
            forEach (fun result ridx resource =>
              resourceBody ["resources", formatIndex ridx] result resource) 0 rs
              (some (.obj top)) := by
          simp [transformStateJSON, getPath_single_obj, hl]
        have e2 : stateAfter (.obj top) =
            .obj (assignKey "resources" (.arr (rs.map resourceAfter)) top) := by
          simp [stateAfter, hl]
        rw [e1, e2, hr]
        simpa [setPath] using @assignKey_eq "resources" (.arr (rs.map resourceAfter)) top
      | null => simp [transformStateJSON, stateAfter, getPath_single_obj, hl]
      | bool b => simp [transformStateJSON, stateAfter, getPath_single_obj, hl]
      | num q => simp [transformStateJSON, stateAfter, getPath_single_obj, hl]
      | str s => simp [transformStateJSON, stateAfter, getPath_single_obj, hl]
      | obj m => simp [transformStateJSON, stateAfter, getPath_single_obj, hl]
  | arr xs =>
    simp [transformStateJSON, stateAfter, getPath_key_not_obj (k := "resources") (by decide) []
      (x := JSON.arr xs) (by simp)]
  | null => rfl
  | bool b => rfl
  | num q => rfl
  | str s => rfl

/-! ## The steps of the access policy rewriter, with the member names kept distinct -/

theorem convertApprovalGroup_eq {g g' : JSON} (h : convertApprovalGroup g = some g') :
    g' = g := by
  cases g with
  | obj m =>
    simp only [convertApprovalGroup, assertObject, Option.map_some', Option.some.injEq] at h
    rw [← h]
    cases hl : lookupKey "approvals_needed" m with
    | none => rfl
    | some x =>
      cases x with
      | num q =>
        simp only []
        rw [assignKey_same hl]
      | null => rfl
      | bool b => rfl
      | str s => rfl
      | arr xs => rfl
      | obj o => rfl
  | arr xs => simp [convertApprovalGroup, assertObject] at h
  | null => simp [convertApprovalGroup, assertObject] at h
  | bool b => simp [convertApprovalGroup, assertObject] at h
  | num q => simp [convertApprovalGroup, assertObject] at h
  | str s => simp [convertApprovalGroup, assertObject] at h

/-- The loop over the approval groups gives back the groups it read. -/
theorem mapOrPanic_convertApprovalGroup {gs gs' : List JSON}
    (h : mapOrPanic convertApprovalGroup gs = some gs') : gs' = gs := by
  induction gs generalizing gs' with
  | nil =>
    simp only [mapOrPanic, Option.some.injEq] at h
    exact h.symm
  | cons g gs ih =>
    simp only [mapOrPanic] at h
    cases hg : convertApprovalGroup g with
    | none => simp [hg] at h
    | some g' =>
      cases hm : mapOrPanic convertApprovalGroup gs with
      | none => simp [hg, hm] at h
      | some gs2 =>
        simp only [hg, hm, Option.some_bind, Option.map_some', Option.some.injEq] at h
        rw [← h, convertApprovalGroup_eq hg, ih hm]

theorem migrateApprovalGroup_full {P : List String} {d d' : Doc}
    {kvs : List (String × JSON)} (h : Focus P d kvs)
    (hr : migrateApprovalGroup P d = some d') :
    ∃ kvs', Focus P d' kvs' ∧
      (∀ k, k ≠ "approval_group" → k ≠ "approval_groups" →
        lookupKey k kvs' = lookupKey k kvs) ∧
      ((kvs.map Prod.fst).Nodup → (kvs'.map Prod.fst).Nodup) ∧
      (∀ gs, lookupKey "approval_group" kvs = some (.arr gs) →
        ((kvs.map Prod.fst).Nodup → lookupKey "approval_group" kvs' = none) ∧
        (gs ≠ [] → lookupKey "approval_groups" kvs' = some (.arr gs)) ∧
        (gs = [] → lookupKey "approval_groups" kvs' = lookupKey "approval_groups" kvs)) := by
  unfold migrateApprovalGroup at hr
  rw [focus_get h] at hr
  have same : (∀ gs, lookupKey "approval_group" kvs ≠ some (.arr gs)) → some d = some d' →
      ∃ kvs', Focus P d' kvs' ∧
      (∀ k, k ≠ "approval_group" → k ≠ "approval_groups" →
        lookupKey k kvs' = lookupKey k kvs) ∧
      ((kvs.map Prod.fst).Nodup → (kvs'.map Prod.fst).Nodup) ∧
      (∀ gs, lookupKey "approval_group" kvs = some (.arr gs) →
        ((kvs.map Prod.fst).Nodup → lookupKey "approval_group" kvs' = none) ∧
        (gs ≠ [] → lookupKey "approval_groups" kvs' = some (.arr gs)) ∧
        (gs = [] → lookupKey "approval_groups" kvs' = lookupKey "approval_groups" kvs)) := by
    intro hne hd
    cases hd
    exact ⟨kvs, h, fun _ _ _ => rfl, fun hn => hn, fun gs hgs => absurd hgs (hne gs)⟩
  obtain ⟨o, hl⟩ : ∃ o, lookupKey "approval_group" kvs = o := ⟨_, rfl⟩
  rw [hl] at hr
  cases o with
  | none => exact same (fun gs => by simp [hl]) hr
  | some x =>
    cases x with
    | arr gs =>
      by_cases hlen : gs.length > 0
      · cases hm : mapOrPanic convertApprovalGroup gs with
        | none => simp [hlen, hm] at hr
        | some gs2 =>
          simp only [hlen, if_true, hm, Option.map_some', Option.some.injEq] at hr
          subst hr
          have hgs2 := mapOrPanic_convertApprovalGroup hm
          subst hgs2
          refine ⟨_, focus_delete (focus_set h "approval_groups" (.arr gs2)) "approval_group",
            ?_, ?_, ?_⟩
          · intro k h1 h2
            rw [lookupKey_eraseKey_ne h1, lookupKey_assignKey_ne h2]
          · intro hn
            exact nodup_eraseKey _ _ (nodup_assignKey _ _ _ hn)
          · intro gs3 hgs3
            rw [hl] at hgs3
            simp only [Option.some.injEq, JSON.arr.injEq] at hgs3
            subst hgs3
            refine ⟨fun hn => lookupKey_eraseKey_self _ _ (nodup_assignKey _ _ _ hn), ?_, ?_⟩
            · intro _
              rw [lookupKey_eraseKey_ne (by decide), lookupKey_assignKey_self]
            · intro he
              rw [he] at hlen
              simp at hlen
      · simp only [hlen, if_false, Option.map_some', Option.some.injEq] at hr
        subst hr
        refine ⟨_, focus_delete h "approval_group", ?_, ?_, ?_⟩
        · intro k h1 _
          rw [lookupKey_eraseKey_ne h1]
        · intro hn
          exact nodup_eraseKey _ _ hn
        · intro gs3 hgs3
          rw [hl] at hgs3
          simp only [Option.some.injEq, JSON.arr.injEq] at hgs3
          subst hgs3
          refine ⟨fun hn => lookupKey_eraseKey_self _ _ hn, ?_, ?_⟩
          · intro hne
            cases gs with
            | nil => exact absurd rfl hne
            | cons g gs => simp at hlen
          · intro _
            rw [lookupKey_eraseKey_ne (by decide)]
    | null => exact same (fun gs => by simp [hl]) hr
    | bool b => exact same (fun gs => by simp [hl]) hr
    | num q => exact same (fun gs => by simp [hl]) hr
    | str s => exact same (fun gs => by simp [hl]) hr
    | obj m => exact same (fun gs => by simp [hl]) hr

theorem migrateConditionAttr_full (iter : List (String × JSON) → List (String × JSON))
    {P : List String} {d d' : Doc} {kvs : List (String × JSON)} (h : Focus P d kvs)
    {b : String} (hr : migrateConditionAttr iter P d b = some d') :
    ∃ kvs', Focus P d' kvs' ∧ (∀ k, k ≠ b → lookupKey k kvs' = lookupKey k kvs) ∧
      ((kvs.map Prod.fst).Nodup → (kvs'.map Prod.fst).Nodup) := by
  unfold migrateConditionAttr at hr
  rw [focus_get h] at hr
  have same : some d = some d' →
      ∃ kvs', Focus P d' kvs' ∧ (∀ k, k ≠ b → lookupKey k kvs' = lookupKey k kvs) ∧
        ((kvs.map Prod.fst).Nodup → (kvs'.map Prod.fst).Nodup) := by
    intro hd
    cases hd
    exact ⟨kvs, h, fun _ _ => rfl, fun hn => hn⟩
  cases hl : lookupKey b kvs with
  | none =>
    rw [hl] at hr
    exact same hr
  | some x =>
    rw [hl] at hr
    cases x with
    | arr cs =>
      cases hm : mapOrPanic
          (fun c => (assertObject c).map fun m => transformConditionObject (iter m)) cs with
      | none =>
        have hr2 : Option.map _ (mapOrPanic _ cs) = some d' := hr
        rw [hm] at hr2
        cases hr2
      | some parts =>
        have hr2 : Option.map _ (mapOrPanic _ cs) = some d' := hr
        rw [hm] at hr2
        by_cases hlen : parts.flatten.length > 0
        · have hr3 : some (d.set (P ++ [b]) (.arr parts.flatten)) = some d' :=
            (congrArg some (if_pos hlen)).symm.trans hr2
          cases hr3
          exact ⟨_, focus_set h b (.arr parts.flatten),
            fun k hk => lookupKey_assignKey_ne hk _ _, fun hn => nodup_assignKey _ _ _ hn⟩
        · have hr3 : some d = some d' := (congrArg some (if_neg hlen)).symm.trans hr2
          exact same hr3
    | null => exact same hr
    | bool b => exact same hr
    | num q => exact same hr
    | str s => exact same hr
    | obj m => exact same hr

theorem deleteUnsupported_full {P : List String} {d : Doc} {kvs : List (String × JSON)}
    (h : Focus P d kvs) :
    ∃ kvs', Focus P (deleteUnsupported P d) kvs' ∧
      (∀ k, k ∉ ["zone_id", "application_id", "precedence", "connection_rules"] →
        lookupKey k kvs' = lookupKey k kvs) ∧
      ((kvs.map Prod.fst).Nodup → (kvs'.map Prod.fst).Nodup ∧
        ∀ k ∈ ["zone_id", "application_id", "precedence", "connection_rules"],
          lookupKey k kvs' = none) := by
  refine ⟨_, focus_delete (focus_delete (focus_delete (focus_delete h "zone_id")
    "application_id") "precedence") "connection_rules", ?_, ?_⟩
  · intro k hk
    simp only [List.mem_cons, List.mem_singleton, List.not_mem_nil, or_false, not_or] at hk
    rw [lookupKey_eraseKey_ne hk.2.2.2, lookupKey_eraseKey_ne hk.2.2.1,
      lookupKey_eraseKey_ne hk.2.1, lookupKey_eraseKey_ne hk.1]
  · intro hn
    have n1 := nodup_eraseKey "zone_id" _ hn
    have n2 := nodup_eraseKey "application_id" _ n1
    have n3 := nodup_eraseKey "precedence" _ n2
    have n4 := nodup_eraseKey "connection_rules" _ n3
    refine ⟨n4, ?_⟩
    intro k hk
    simp only [List.mem_cons, List.mem_singleton, List.not_mem_nil, or_false] at hk
    rcases hk with rfl | rfl | rfl | rfl
    · rw [lookupKey_eraseKey_ne (by decide), lookupKey_eraseKey_ne (by decide),
        lookupKey_eraseKey_ne (by decide)]
      exact lookupKey_eraseKey_self _ _ hn
    · rw [lookupKey_eraseKey_ne (by decide), lookupKey_eraseKey_ne (by decide)]
      exact lookupKey_eraseKey_self _ _ n1
    · rw [lookupKey_eraseKey_ne (by decide)]
      exact lookupKey_eraseKey_self _ _ n2
    · exact lookupKey_eraseKey_self _ _ n3

theorem defaultSessionDuration_full {P : List String} {d : Doc} {kvs : List (String × JSON)}
    (h : Focus P d kvs) :
    ∃ kvs', Focus P (defaultSessionDuration P d) kvs' ∧
      (∀ k, k ≠ "session_duration" → lookupKey k kvs' = lookupKey k kvs) ∧
      (lookupKey "session_duration" kvs = none →
        lookupKey "session_duration" kvs' = some (.str "24h")) ∧
      (∀ x, lookupKey "session_duration" kvs = some x →
        lookupKey "session_duration" kvs' = some x) := by
  unfold defaultSessionDuration
  rw [focus_get h]
  cases hl : lookupKey "session_duration" kvs with
  | none =>
    exact ⟨_, focus_set h "session_duration" (.str "24h"),
      fun k hk => lookupKey_assignKey_ne hk _ _, fun _ => lookupKey_assignKey_self _ _ _,
      fun x hx => by simp at hx⟩
  | some x => exact ⟨kvs, h, fun _ _ => rfl, fun hx => by simp at hx, fun y hy => hl ▸ hy⟩

/-- What `transformZeroTrustAccessPolicyStateJSON` leaves in the attributes object, whenever it
returns. -/
theorem policy_full (iter : List (String × JSON) → List (String × JSON)) {json r : Doc}
    {instancePath : List String} {kvs : List (String × JSON)}
    (h : Focus (instancePath ++ ["attributes"]) json kvs)
    (hr : transformZeroTrustAccessPolicyStateJSON iter json instancePath = some r) :
    ∃ kvs', Focus (instancePath ++ ["attributes"]) r kvs' ∧
      (lookupKey "session_duration" kvs = none →
        lookupKey "session_duration" kvs' = some (.str "24h")) ∧
      (∀ x, lookupKey "session_duration" kvs = some x →
        lookupKey "session_duration" kvs' = some x) ∧
      ((kvs.map Prod.fst).Nodup →
        ∀ k ∈ ["zone_id", "application_id", "precedence", "connection_rules"],
          lookupKey k kvs' = none) ∧
      (∀ gs, lookupKey "approval_group" kvs = some (.arr gs) →
        ((kvs.map Prod.fst).Nodup → lookupKey "approval_group" kvs' = none) ∧
        (gs ≠ [] → lookupKey "approval_groups" kvs' = some (.arr gs)) ∧
        (gs = [] → lookupKey "approval_groups" kvs' = lookupKey "approval_groups" kvs)) := by
  simp only [transformZeroTrustAccessPolicyStateJSON, List.foldlM_cons, List.foldlM_nil,
    Option.bind_eq_bind, Option.pure_def, bind, pure] at hr
  cases e1 : migrateApprovalGroup (instancePath ++ ["attributes"]) json with
  | none => simp [e1] at hr
  | some d1 =>
    obtain ⟨kvs1, hF1, hk1, hn1, ha1⟩ := migrateApprovalGroup_full h e1
    rw [e1] at hr
    simp only [Option.some_bind] at hr
    cases e2 : migrateConditionAttr iter (instancePath ++ ["attributes"]) d1 "include" with
    | none => simp [e2] at hr
    | some d2 =>
      obtain ⟨kvs2, hF2, hk2, hn2⟩ := migrateConditionAttr_full iter hF1 e2
      rw [e2] at hr
      simp only [Option.some_bind] at hr
      cases e3 : migrateConditionAttr iter (instancePath ++ ["attributes"]) d2 "exclude" with
      | none => simp [e3] at hr
      | some d3 =>
        obtain ⟨kvs3, hF3, hk3, hn3⟩ := migrateConditionAttr_full iter hF2 e3
        rw [e3] at hr
        simp only [Option.some_bind] at hr
        cases e4 : migrateConditionAttr iter (instancePath ++ ["attributes"]) d3 "require" with
        | none => simp [e4] at hr
        | some d4 =>
          obtain ⟨kvs4, hF4, hk4, hn4⟩ := migrateConditionAttr_full iter hF3 e4
          rw [e4] at hr
          simp only [Option.some_bind, Option.map_some', Option.some.injEq] at hr
          subst hr
          obtain ⟨kvs5, hF5, hk5, hn5⟩ := deleteUnsupported_full hF4
          obtain ⟨kvs6, hF6, hk6, hs1, hs2⟩ := defaultSessionDuration_full hF5
          have up : ∀ k, k ∉ ["include", "exclude", "require"] →
              lookupKey k kvs4 = lookupKey k kvs1 := by
            intro k hk
            simp only [List.mem_cons, List.mem_singleton, List.not_mem_nil, or_false,
              not_or] at hk
            rw [hk4 k hk.2.2, hk3 k hk.2.1, hk2 k hk.1]
          have sd5 : lookupKey "session_duration" kvs5 = lookupKey "session_duration" kvs := by
            rw [hk5 _ (by decide), up _ (by decide), hk1 _ (by decide) (by decide)]
          refine ⟨kvs6, hF6, ?_, ?_, ?_, ?_⟩
          · intro hx
            exact hs1 (sd5.trans hx)
          · intro x hx
            exact hs2 x (sd5.trans hx)
          · intro hn k hk
            have hk' : k ≠ "session_duration" := by
              simp only [List.mem_cons, List.mem_singleton, List.not_mem_nil, or_false] at hk
              rcases hk with rfl | rfl | rfl | rfl <;> decide
            rw [hk6 k hk']
            exact (hn5 (hn4 (hn3 (hn2 (hn1 hn))))).2 k hk
          · intro gs hgs
            obtain ⟨a1, a2, a3⟩ := ha1 gs hgs
            have f : ∀ k, k ∈ ["approval_group", "approval_groups"] →
                lookupKey k kvs6 = lookupKey k kvs1 := by
              intro k hk
              simp only [List.mem_cons, List.mem_singleton, List.not_mem_nil, or_false] at hk
              rcases hk with rfl | rfl
              · rw [hk6 _ (by decide), hk5 _ (by decide), up _ (by decide)]
              · rw [hk6 _ (by decide), hk5 _ (by decide), up _ (by decide)]
            refine ⟨fun hn => ?_, fun hne => ?_, fun he => ?_⟩
            · rw [f _ (by decide)]
              exact a1 hn
            · rw [f _ (by decide)]
              exact a2 hne
            · rw [f _ (by decide)]
              exact a3 he

/-- The rewriter returns when the elements of the arrays it reads are objects. -/
theorem policy_total (iter : List (String × JSON) → List (String × JSON)) {json : Doc}
    {instancePath : List String} {kvs : List (String × JSON)}
    (h : Focus (instancePath ++ ["attributes"]) json kvs)
    (hobj : ∀ b ∈ ["include", "exclude", "require", "approval_group"], ∀ xs,
      lookupKey b kvs = some (.arr xs) → ∀ c ∈ xs, ∃ m, c = .obj m) :
    ∃ r, transformZeroTrustAccessPolicyStateJSON iter json instancePath = some r := by
  obtain ⟨d1, kvs1, e1, hF1, hk1⟩ := migrateApprovalGroup_focus h (hobj "approval_group"
    (by decide))
  obtain ⟨d2, kvs2, e2, hF2, hk2⟩ := migrateConditionAttr_focus iter hF1 "include" (by
    rw [hk1 _ (by decide) (by decide)]
    exact hobj "include" (by decide))
  obtain ⟨d3, kvs3, e3, hF3, hk3⟩ := migrateConditionAttr_focus iter hF2 "exclude" (by
    rw [hk2 _ (by decide), hk1 _ (by decide) (by decide)]
    exact hobj "exclude" (by decide))
  obtain ⟨d4, kvs4, e4, hF4, hk4⟩ := migrateConditionAttr_focus iter hF3 "require" (by
    rw [hk3 _ (by decide), hk2 _ (by decide), hk1 _ (by decide) (by decide)]
    exact hobj "require" (by decide))
  refine ⟨defaultSessionDuration (instancePath ++ ["attributes"])
    (deleteUnsupported (instancePath ++ ["attributes"]) d4), ?_⟩
  simp only [transformZeroTrustAccessPolicyStateJSON, e1, Option.some_bind, List.foldlM_cons,
    List.foldlM_nil, e2, e3, e4, Option.bind_eq_bind, Option.pure_def, Option.map_some',
    bind, pure]

/-! ## Effects of the tiered cache rewriter on a document -/

/-- Setting below the member `q` of an object leaves the other members. -/
theorem setPath_obj_frame {q : String} {Q : List String} {v w : JSON}
    {m : List (String × JSON)} (h : setPath (q :: Q) v (.obj m) = some w) :
    ∃ m', w = .obj m' ∧ ∀ k, k ≠ q → lookupKey k m' = lookupKey k m := by
  simp only [setPath] at h
  cases hl : lookupKey q m with
  | none =>
    rw [hl] at h
    simp only [Option.some.injEq] at h
    exact ⟨_, h.symm, fun k hk => lookupKey_append_ne hk _ _⟩
  | some c =>
    rw [hl] at h
    simp only [Option.map_eq_some'] at h
    obtain ⟨r, hr, rfl⟩ := h
    exact ⟨r, rfl, fun k hk => lookupKey_updateKey_ne hk _ hr⟩

/-- A replacement below the member `q` of the object at `P` leaves the other members of that
object. -/
theorem puts_frame {P Q : List String} {q : String} {d d' : Doc} {x y : JSON}
    {m : List (String × JSON)} (h : Puts (P ++ q :: Q) d d' x y)
    (hm : d.get P = some (.obj m)) (k : String) (hk : k ≠ q) :
    d'.get (P ++ [k]) = d.get (P ++ [k]) := by
  obtain ⟨w, hw, hP⟩ := puts_lift h hm
  obtain ⟨m', rfl, hf⟩ := setPath_obj_frame hw
  rw [doc_get_append, hP.get, doc_get_append, hm]
  simp only [Option.some_bind, getPath_single_obj]
  exact hf k hk

/-- A document that holds an attributes object below `rp.instances.k` holds an object at `rp`
and an instance at `rp.instances.k`. -/
theorem resource_of_attrs {d : Doc} {rp : List String} {k : String}
    {attributes : List (String × JSON)}
    (h : d.get (rp ++ ["instances", k] ++ ["attributes"]) = some (.obj attributes)) :
    ∃ rkvs inst, d.get rp = some (.obj rkvs) ∧
      getPath ["instances", k] (.obj rkvs) = some inst ∧
      getPath ["attributes"] inst = some (.obj attributes) := by
  have e : rp ++ ["instances", k] ++ ["attributes"] =
      rp ++ (["instances", k] ++ ["attributes"]) := by simp
  rw [e, doc_get_append] at h
  cases hr : d.get rp with
  | none => simp [hr] at h
  | some x =>
    rw [hr] at h
    simp only [Option.some_bind, getPath_append] at h
    cases x with
    | obj rkvs =>
      obtain ⟨o, hi⟩ : ∃ o, getPath ["instances", k] (.obj rkvs) = o := ⟨_, rfl⟩
      rw [hi] at h
      cases o with
      | none => simp at h
      | some inst => exact ⟨rkvs, inst, rfl, hi, h⟩
    | arr xs => rw [getPath_key_not_obj (by decide) [k] (by simp)] at h; simp at h
    | null => simp [getPath] at h
    | bool b => simp [getPath] at h
    | num q => simp [getPath] at h
    | str s => simp [getPath] at h

/-- What `transformTieredCacheStateJSON` leaves for the instance `k` of the resource at `rp`:
the attributes object `tieredAttrs` of the one it found, and the relabelled type when the
instance held `cache_type = "generic"`, the type it found otherwise. -/
theorem tiered_effect {d : Doc} {rp : List String} {k : String}
    {attributes : List (String × JSON)}
    (h : d.get (rp ++ ["instances", k] ++ ["attributes"]) = some (.obj attributes)) :
    (transformTieredCacheStateJSON d (rp ++ ["instances", k]) rp).get
        (rp ++ ["instances", k] ++ ["attributes"]) = some (.obj (tieredAttrs attributes)) ∧
    (lookupKey "cache_type" attributes = some (.str "generic") →
      (transformTieredCacheStateJSON d (rp ++ ["instances", k]) rp).get (rp ++ ["type"]) =
        some (.str "cloudflare_argo_tiered_caching")) ∧
    (lookupKey "cache_type" attributes ≠ some (.str "generic") →
      (transformTieredCacheStateJSON d (rp ++ ["instances", k]) rp).get (rp ++ ["type"]) =
        d.get (rp ++ ["type"])) := by
  obtain ⟨rkvs, inst, hr, hi, ha⟩ := resource_of_attrs h
  obtain ⟨d1, s1, he⟩ := transformTieredCacheStateJSON_split k hr hi
  have hgen : isGenericInstance inst = true ↔
      lookupKey "cache_type" attributes = some (.str "generic") := by
    have e : getPath ["attributes", "cache_type"] inst = lookupKey "cache_type" attributes := by
      have : (["attributes", "cache_type"] : List String) = ["attributes"] ++ ["cache_type"] :=
        rfl
      rw [this, getPath_append, ha]
      simp only [Option.some_bind, getPath_single_obj]
    unfold isGenericInstance
    rw [e]
    cases hl : lookupKey "cache_type" attributes with
    | none => simp
    | some c => cases c <;> simp
  have hi1 : getPath ["instances", k] (.obj (if isGenericInstance inst then
      assignKey "type" (.str "cloudflare_argo_tiered_caching") rkvs else rkvs)) = some inst := by
    simp only [getPath] at hi ⊢
    rw [relabel_lookup _ _ (by decide)]
    exact hi
  have ha1 : d1.get (rp ++ ["instances", k] ++ ["attributes"]) = some (.obj attributes) := by
    have e : rp ++ ["instances", k] ++ ["attributes"] =
        rp ++ (["instances", k] ++ ["attributes"]) := by simp
    rw [e, doc_get_append, s1.get]
    simp only [Option.some_bind, getPath_append, hi1, ha]
  have s2 := rewriteCacheType_puts ha1
  rw [he]
  have e2 : rp ++ ["instances", k] ++ ["attributes"] =
      rp ++ "instances" :: [k, "attributes"] := by simp
  have hty : (rewriteCacheType d1 (rp ++ ["instances", k])).get (rp ++ ["type"]) =
      d1.get (rp ++ ["type"]) := by
    rw [e2] at s2
    exact puts_frame s2 s1.get "type" (by decide)
  have hty1 : d1.get (rp ++ ["type"]) = lookupKey "type" (if isGenericInstance inst then
      assignKey "type" (.str "cloudflare_argo_tiered_caching") rkvs else rkvs) := by
    rw [doc_get_append, s1.get]
    simp only [Option.some_bind, getPath_single_obj]
  refine ⟨s2.get, ?_, ?_⟩
  · intro hg
    rw [hty, hty1, if_pos (hgen.mpr hg), lookupKey_assignKey_self]
  · intro hg
    have hb : isGenericInstance inst = false := by
      cases hb : isGenericInstance inst
      · rfl
      · exact absurd (hgen.mp hb) hg
    rw [hty, hty1, hb, doc_get_append, hr]
    simp only [Option.some_bind, getPath_single_obj]
    rfl

/-- When `cache_type` is not one of the strings `generic`, `smart`, `off`, the rewriter returns
the document it was given. -/
theorem tiered_unchanged (d : Doc) (ip rp : List String)
    (h : ∀ s, d.get (ip ++ ["attributes"] ++ ["cache_type"]) = some (.str s) →
      s ≠ "generic" ∧ s ≠ "smart" ∧ s ≠ "off") :
    transformTieredCacheStateJSON d ip rp = d := by
  unfold transformTieredCacheStateJSON
  simp only []
  cases hc : d.get (ip ++ ["attributes"] ++ ["cache_type"]) with
  | none => rfl
  | some c =>
    cases c with
    | str s =>
      obtain ⟨h1, h2, h3⟩ := h s hc
      simp only [if_neg h1, if_neg h2, if_neg h3]
    | null => rfl
    | bool b => rfl
    | num q => rfl
    | arr xs => rfl
    | obj m => rfl

theorem lookupKey_tieredAttrs (kvs : List (String × JSON)) (h : (kvs.map Prod.fst).Nodup)
    (s v : String) (hs : lookupKey "cache_type" kvs = some (.str s))
    (hv : (s, v) ∈ [("generic", "on"), ("smart", "on"), ("off", "off")]) :
    lookupKey "cache_type" (tieredAttrs kvs) = none ∧
      lookupKey "value" (tieredAttrs kvs) = some (.str v) := by
  have key : tieredAttrs kvs = assignKey "value" (.str v) (eraseKey "cache_type" kvs) := by
    simp only [List.mem_cons, List.mem_singleton, List.not_mem_nil, or_false,
      Prod.mk.injEq] at hv
    unfold tieredAttrs
    rw [hs]
    rcases hv with ⟨rfl, rfl⟩ | ⟨rfl, rfl⟩ | ⟨rfl, rfl⟩ <;> rfl
  rw [key]
  exact ⟨by rw [lookupKey_assignKey_ne (by decide)]; exact lookupKey_eraseKey_self _ _ h,
    lookupKey_assignKey_self _ _ _⟩

/-! ## A second run of a rewriter on the attributes changes nothing -/

theorem eraseKey_of_none {k : String} {kvs : List (String × JSON)}
    (h : lookupKey k kvs = none) : eraseKey k kvs = kvs := by
  induction kvs with
  | nil => rfl
  | cons kv kvs ih =>
    obtain ⟨k0, v0⟩ := kv
    by_cases h0 : k0 = k
    · simp [lookupKey, h0] at h
    · simp only [lookupKey, h0, if_false] at h
      simp only [eraseKey, h0, if_false, ih h]

theorem renameKey_absent (old new : String) (hne : new ≠ old) (m : List (String × JSON))
    (h : (m.map Prod.fst).Nodup) : lookupKey old (renameKey old new m) = none := by
  cases hl : lookupKey old m with
  | none =>
    unfold renameKey
    rw [hl]
    exact hl
  | some v => exact (lookupKey_renameKey old new hne m h v hl).2

theorem lookupKey_deleteEmptySlice_keep {k : String} (m : List (String × JSON)) (attr : String)
    (h : lookupKey k m ≠ some (.arr [])) : lookupKey k (deleteEmptySlice m attr) = lookupKey k m := by
  by_cases hk : k = attr
  · subst hk
    unfold deleteEmptySlice
    split
    · next heq => exact absurd heq h
    · rfl
  · exact lookupKey_deleteEmptySlice_ne hk m

theorem lookupKey_deleteEmptySlice_not_empty {k : String} (m : List (String × JSON))
    (attr : String) (hn : (m.map Prod.fst).Nodup) (hk : k = attr ∨ lookupKey k m ≠ some (.arr [])) :
    lookupKey k (deleteEmptySlice m attr) ≠ some (.arr []) := by
  by_cases h : lookupKey k m = some (.arr [])
  · rcases hk with rfl | hk
    · simp only [deleteEmptySlice, h]
      rw [lookupKey_eraseKey_self _ _ hn]
      simp
    · exact absurd h hk
  · rw [lookupKey_deleteEmptySlice_keep m attr h]
    exact h

theorem foldl_deleteEmptySlice_not_empty {k : String} (names : List String)
    (m : List (String × JSON)) (hn : (m.map Prod.fst).Nodup)
    (hk : k ∈ names ∨ lookupKey k m ≠ some (.arr [])) :
    lookupKey k (names.foldl deleteEmptySlice m) ≠ some (.arr []) := by
  induction names generalizing m with
  | nil =>
    rcases hk with hk | hk
    · exact absurd hk (List.not_mem_nil _)
    · exact hk
  | cons n names ih =>
    rw [List.foldl_cons]
    refine ih _ (nodup_deleteEmptySlice m n hn) ?_
    rcases hk with hk | hk
    · rcases List.mem_cons.mp hk with e | e
      · exact Or.inr (lookupKey_deleteEmptySlice_not_empty m n hn (Or.inl e))
      · exact Or.inl e
    · exact Or.inr (lookupKey_deleteEmptySlice_not_empty m n hn (Or.inr hk))

theorem lookupKey_emptySliceToMap_not_empty {k : String} (m : List (String × JSON))
    (attr : String) (hk : k = attr ∨ lookupKey k m ≠ some (.arr [])) :
    lookupKey k (emptySliceToMap m attr) ≠ some (.arr []) := by
  by_cases hka : k = attr
  · subst hka
    unfold emptySliceToMap
    split
    · rw [lookupKey_assignKey_self]
      simp
    · next hne => exact fun h => hne h
  · rw [lookupKey_emptySliceToMap_ne hka]
    rcases hk with e | e
    · exact absurd e hka
    · exact e

theorem foldl_emptySliceToMap_not_empty {k : String} (names : List String)
    (m : List (String × JSON)) (hk : k ∈ names ∨ lookupKey k m ≠ some (.arr [])) :
    lookupKey k (names.foldl emptySliceToMap m) ≠ some (.arr []) := by
  induction names generalizing m with
  | nil =>
    rcases hk with hk | hk
    · exact absurd hk (List.not_mem_nil _)
    · exact hk
  | cons n names ih =>
    rw [List.foldl_cons]
    refine ih _ ?_
    rcases hk with hk | hk
    · rcases List.mem_cons.mp hk with e | e
      · exact Or.inr (lookupKey_emptySliceToMap_not_empty m n (Or.inl e))
      · exact Or.inl e
    · exact Or.inr (lookupKey_emptySliceToMap_not_empty m n (Or.inr hk))

theorem foldl_deleteEmptySlice_id (names : List String) (m : List (String × JSON))
    (h : ∀ a ∈ names, lookupKey a m ≠ some (.arr [])) : names.foldl deleteEmptySlice m = m := by
  induction names with
  | nil => rfl
  | cons n names ih =>
    have e : deleteEmptySlice m n = m := by
      unfold deleteEmptySlice
      split
      · next heq => exact absurd heq (h n (List.mem_cons_self _ _))
      · rfl
    rw [List.foldl_cons, e]
    exact ih fun a ha => h a (List.mem_cons_of_mem _ ha)

theorem foldl_emptySliceToMap_id (names : List String) (m : List (String × JSON))
    (h : ∀ a ∈ names, lookupKey a m ≠ some (.arr [])) : names.foldl emptySliceToMap m = m := by
  induction names with
  | nil => rfl
  | cons n names ih =>
    have e : emptySliceToMap m n = m := by
      unfold emptySliceToMap
      split
      · next heq => exact absurd heq (h n (List.mem_cons_self _ _))
      · rfl
    rw [List.foldl_cons, e]
    exact ih fun a ha => h a (List.mem_cons_of_mem _ ha)

theorem transformLoadBalancerState_stable (x : List (String × JSON))
    (f1 : lookupKey "fallback_pool_id" x = none) (f2 : lookupKey "default_pool_ids" x = none)
    (f3 : ∀ a ∈ ["adaptive_routing", "location_strategy", "random_steering",
      "session_affinity_attributes"], lookupKey a x ≠ some (.arr []))
    (f4 : ∀ a ∈ ["country_pools", "pop_pools", "region_pools"],
      lookupKey a x ≠ some (.arr [])) : transformLoadBalancerState x = x := by
  have e1 : renameKey "fallback_pool_id" "fallback_pool" x = x := by
    unfold renameKey
    rw [f1]
  have e2 : renameKey "default_pool_ids" "default_pools" x = x := by
    unfold renameKey
    rw [f2]
  unfold transformLoadBalancerState
  simp only []
  rw [e1, e2, foldl_deleteEmptySlice_id _ _ f3, foldl_emptySliceToMap_id _ _ f4]

/-- `transformLoadBalancerState` applied to its own result changes nothing. -/
theorem transformLoadBalancerState_idem (m : List (String × JSON))
    (h : (m.map Prod.fst).Nodup) :
    transformLoadBalancerState (transformLoadBalancerState m) = transformLoadBalancerState m := by
  have n1 := nodup_renameKey "fallback_pool_id" "fallback_pool" m h
  have n2 := nodup_renameKey "default_pool_ids" "default_pools" _ n1
  have n3 := nodup_foldl_deleteEmptySlice ["adaptive_routing", "location_strategy",
    "random_steering", "session_affinity_attributes"] _ n2
  have f1 : lookupKey "fallback_pool_id" (transformLoadBalancerState m) = none := by
    unfold transformLoadBalancerState
    rw [lookupKey_foldl_emptySliceToMap_ne _ (by decide),
      lookupKey_foldl_deleteEmptySlice_ne _ (by decide),
      lookupKey_renameKey_ne (by decide) (by decide)]
    exact renameKey_absent _ _ (by decide) m h
  have f2 : lookupKey "default_pool_ids" (transformLoadBalancerState m) = none := by
    unfold transformLoadBalancerState
    rw [lookupKey_foldl_emptySliceToMap_ne _ (by decide),
      lookupKey_foldl_deleteEmptySlice_ne _ (by decide)]
    exact renameKey_absent _ _ (by decide) _ n1
  have f3 : ∀ a ∈ ["adaptive_routing", "location_strategy", "random_steering",
      "session_affinity_attributes"],
      lookupKey a (transformLoadBalancerState m) ≠ some (.arr []) := by
    intro a ha
    unfold transformLoadBalancerState
    refine foldl_emptySliceToMap_not_empty _ _ (Or.inr ?_)
    exact foldl_deleteEmptySlice_not_empty _ _ n2 (Or.inl ha)
  have f4 : ∀ a ∈ ["country_pools", "pop_pools", "region_pools"],
      lookupKey a (transformLoadBalancerState m) ≠ some (.arr []) := by
    intro a ha
    unfold transformLoadBalancerState
    exact foldl_emptySliceToMap_not_empty _ _ (Or.inl ha)
  exact transformLoadBalancerState_stable _ f1 f2 f3 f4

/-- `tieredAttrs` applied to its own result changes nothing. -/
theorem tieredAttrs_idem (m : List (String × JSON)) (h : (m.map Prod.fst).Nodup) :
    tieredAttrs (tieredAttrs m) = tieredAttrs m := by
  have stable : ∀ x : List (String × JSON), lookupKey "cache_type" x = none →
      tieredAttrs x = x := by
    intro x hx
    unfold tieredAttrs
    rw [hx]
  have gone : ∀ v : JSON, lookupKey "cache_type"
      (assignKey "value" v (eraseKey "cache_type" m)) = none := by
    intro v
    rw [lookupKey_assignKey_ne (by decide)]
    exact lookupKey_eraseKey_self _ _ h
  cases hl : lookupKey "cache_type" m with
  | none => rw [stable m hl, stable m hl]
  | some c =>
    cases c with
    | str s =>
      by_cases h1 : s = "generic"
      · have e : tieredAttrs m = assignKey "value" (.str "on") (eraseKey "cache_type" m) := by
          simp [tieredAttrs, hl, h1]
        rw [e, stable _ (gone _)]
      · by_cases h2 : s = "smart"
        · have e : tieredAttrs m = assignKey "value" (.str "on") (eraseKey "cache_type" m) := by
            simp [tieredAttrs, hl, h2]
          rw [e, stable _ (gone _)]
        · by_cases h3 : s = "off"
          · have e : tieredAttrs m =
                assignKey "value" (.str "off") (eraseKey "cache_type" m) := by
              simp [tieredAttrs, hl, h3]
            rw [e, stable _ (gone _)]
          · have e : tieredAttrs m = m := by
              simp [tieredAttrs, hl, h1, h2, h3]
            rw [e, e]
    | null =>
      have e : tieredAttrs m = m := by simp [tieredAttrs, hl]
      rw [e, e]
    | bool b =>
      have e : tieredAttrs m = m := by simp [tieredAttrs, hl]
      rw [e, e]
    | num q =>
      have e : tieredAttrs m = m := by simp [tieredAttrs, hl]
      rw [e, e]
    | arr xs =>
      have e : tieredAttrs m = m := by simp [tieredAttrs, hl]
      rw [e, e]
    | obj o =>
      have e : tieredAttrs m = m := by simp [tieredAttrs, hl]
      rw [e, e]

theorem distinctNames_iff (kvs : List (String × JSON)) :
    distinctNames kvs = true ↔ (kvs.map Prod.fst).Nodup := by
  simp [distinctNames]

/-- The rewriting of an origin applied to its own result changes nothing. -/
theorem rewrittenOrigin_idem (o : JSON) (h : regularOrigin o = true) :
    rewrittenOrigin (rewrittenOrigin o) = rewrittenOrigin o := by
  have fix : rewrittenOrigin o = o → rewrittenOrigin (rewrittenOrigin o) = rewrittenOrigin o := by
    intro e
    rw [e, e]
  cases o with
  | obj om =>
    have hn : (om.map Prod.fst).Nodup := (distinctNames_iff om).mp h
    have host : ∀ vals : JSON,
        rewrittenOrigin (.obj (assignKey "header" (.obj [("host", vals)]) om)) =
          .obj (assignKey "header" (.obj [("host", vals)]) om) := by
      intro vals
      simp [rewrittenOrigin, lookupKey_assignKey_self, lookupKey]
    cases hh : lookupKey "header" om with
    | none => exact fix (by simp [rewrittenOrigin, hh])
    | some x =>
      cases x with
      | arr l =>
        cases l with
        | nil =>
          have e : rewrittenOrigin (.obj om) = .obj (eraseKey "header" om) := by
            simp [rewrittenOrigin, hh]
          rw [e]
          simp [rewrittenOrigin, lookupKey_eraseKey_self _ _ hn]
        | cons fh l2 =>
          cases hv : hostValues fh with
          | none => exact fix (by simp [rewrittenOrigin, hh, hv])
          | some vals =>
            have e : rewrittenOrigin (.obj om) =
                .obj (assignKey "header" (.obj [("host", vals)]) om) := by
              simp [rewrittenOrigin, hh, hv]
            rw [e, host]
      | obj hm =>
        cases hhost : lookupKey "host" hm with
        | some y => exact fix (by simp [rewrittenOrigin, hh, hhost])
        | none =>
          cases hv : hostValues (.obj hm) with
          | none => exact fix (by simp [rewrittenOrigin, hh, hhost, hv])
          | some vals =>
            have e : rewrittenOrigin (.obj om) =
                .obj (assignKey "header" (.obj [("host", vals)]) om) := by
              simp [rewrittenOrigin, hh, hhost, hv]
            rw [e, host]
      | null => exact fix (by simp [rewrittenOrigin, hh])
      | bool b => exact fix (by simp [rewrittenOrigin, hh])
      | num q => exact fix (by simp [rewrittenOrigin, hh])
      | str s => exact fix (by simp [rewrittenOrigin, hh])
  | arr xs => rfl
  | null => rfl
  | bool b => rfl
  | num q => rfl
  | str s => rfl

theorem unwrappedSingleton_not_array (attr : String) (m : List (String × JSON))
    (hn : (m.map Prod.fst).Nodup) (hu : unwrapsOnce attr m = true) (xs : List JSON) :
    lookupKey attr (unwrappedSingleton attr m) ≠ some (.arr xs) := by
  unfold unwrappedSingleton
  unfold unwrapsOnce at hu
  cases hl : lookupKey attr m with
  | none => simp [hl]
  | some x =>
    rw [hl] at hu
    cases x with
    | arr l =>
      cases l with
      | nil =>
        simp only []
        rw [lookupKey_eraseKey_self _ _ hn]
        simp
      | cons f l2 =>
        simp only []
        rw [lookupKey_assignKey_self]
        cases f with
        | arr ys => simp at hu
        | null => simp
        | bool b => simp
        | num q => simp
        | str s => simp
        | obj o => simp
    | null => simp [hl]
    | bool b => simp [hl]
    | num q => simp [hl]
    | str s => simp [hl]
    | obj o => simp [hl]

theorem unwrappedSingleton_stable (attr : String) (x : List (String × JSON))
    (h : ∀ xs, lookupKey attr x ≠ some (.arr xs)) : unwrappedSingleton attr x = x := by
  unfold unwrappedSingleton
  split
  · next heq => exact absurd heq (h _)
  · next heq => exact absurd heq (h _)
  · rfl

theorem poolAttrs_stable (x : List (String × JSON))
    (h1 : ∀ xs, lookupKey "load_shedding" x ≠ some (.arr xs))
    (h2 : ∀ xs, lookupKey "origin_steering" x ≠ some (.arr xs))
    (h3 : ∀ os, lookupKey "origins" x = some (.arr os) → os.map rewrittenOrigin = os) :
    poolAttrs x = x := by
  unfold poolAttrs
  simp only []
  rw [unwrappedSingleton_stable _ x h1, unwrappedSingleton_stable _ x h2]
  split
  · next os heq =>
    rw [h3 os heq]
    exact assignKey_same heq
  · rfl

theorem unwrapsOnce_congr {attr : String} {m m' : List (String × JSON)}
    (h : lookupKey attr m' = lookupKey attr m) : unwrapsOnce attr m' = unwrapsOnce attr m := by
  unfold unwrapsOnce
  rw [h]

theorem regularAttrs_facts {m : List (String × JSON)} (h : regularAttrs m = true) :
    (m.map Prod.fst).Nodup ∧ unwrapsOnce "load_shedding" m = true ∧
      unwrapsOnce "origin_steering" m = true ∧
      ∀ os, lookupKey "origins" m = some (.arr os) → ∀ o ∈ os, regularOrigin o = true := by
  unfold regularAttrs at h
  simp only [Bool.and_eq_true] at h
  obtain ⟨⟨⟨a, b⟩, c⟩, d⟩ := h
  refine ⟨(distinctNames_iff m).mp a, b, c, ?_⟩
  intro os hos o ho
  rw [hos] at d
  exact List.all_eq_true.mp d o ho

/-- `poolAttrs` applied to its own result changes nothing. -/
theorem poolAttrs_idem (m : List (String × JSON)) (h : regularAttrs m = true) :
    poolAttrs (poolAttrs m) = poolAttrs m := by
  obtain ⟨hn, hls, hos, hor⟩ := regularAttrs_facts h
  have n1 := nodup_unwrappedSingleton "load_shedding" m hn
  have look : ∀ k, k ≠ "origins" → lookupKey k (poolAttrs m) =
      lookupKey k (unwrappedSingleton "origin_steering"
        (unwrappedSingleton "load_shedding" m)) := by
    intro k hk
    unfold poolAttrs
    simp only []
    split
    · exact lookupKey_assignKey_ne hk _ _
    · rfl
  have ho : lookupKey "origins" (unwrappedSingleton "origin_steering"
      (unwrappedSingleton "load_shedding" m)) = lookupKey "origins" m := by
    rw [lookupKey_unwrappedSingleton_ne (by decide), lookupKey_unwrappedSingleton_ne (by decide)]
  refine poolAttrs_stable _ ?_ ?_ ?_
  · intro xs
    rw [look _ (by decide), lookupKey_unwrappedSingleton_ne (by decide)]
    exact unwrappedSingleton_not_array _ m hn hls xs
  · intro xs
    rw [look _ (by decide)]
    refine unwrappedSingleton_not_array _ _ n1 ?_ xs
    rw [unwrapsOnce_congr (lookupKey_unwrappedSingleton_ne (by decide) m)]
    exact hos
  · intro os hos2
    unfold poolAttrs at hos2
    simp only [] at hos2
    rw [ho] at hos2
    cases hl : lookupKey "origins" m with
    | none =>
      rw [hl] at hos2
      simp only [] at hos2
      rw [ho, hl] at hos2
      simp at hos2
    | some x =>
      rw [hl] at hos2
      cases x with
      | arr os0 =>
        simp only [] at hos2
        rw [lookupKey_assignKey_self] at hos2
        simp only [Option.some.injEq, JSON.arr.injEq] at hos2
        rw [← hos2, List.map_map]
        refine List.map_congr_left ?_
        intro o ho2
        exact rewrittenOrigin_idem o (hor os0 hl o ho2)
      | null =>
        simp only [] at hos2
        rw [ho, hl] at hos2
        simp at hos2
      | bool b =>
        simp only [] at hos2
        rw [ho, hl] at hos2
        simp at hos2
      | num q =>
        simp only [] at hos2
        rw [ho, hl] at hos2
        simp at hos2
      | str s =>
        simp only [] at hos2
        rw [ho, hl] at hos2
        simp at hos2
      | obj o =>
        simp only [] at hos2
        rw [ho, hl] at hos2
        simp at hos2

/-! ## A second run of `transformStateJSON` changes nothing -/

theorem withAttributes_idem (f : List (String × JSON) → List (String × JSON)) (inst : JSON)
    (hf : ∀ kvs, getPath ["attributes"] inst = some (.obj kvs) → f (f kvs) = f kvs) :
    withAttributes f (withAttributes f inst) = withAttributes f inst := by
  have fix : withAttributes f inst = inst →
      withAttributes f (withAttributes f inst) = withAttributes f inst := by
    intro e
    rw [e, e]
  cases inst with
  | obj ikvs =>
    cases hl : lookupKey "attributes" ikvs with
    | none => exact fix (by simp [withAttributes, hl])
    | some a =>
      cases a with
      | obj kvs =>
        have e : withAttributes f (.obj ikvs) =
            .obj (assignKey "attributes" (.obj (f kvs)) ikvs) := by
          simp [withAttributes, hl]
        rw [e]
        simp only [withAttributes, lookupKey_assignKey_self]
        rw [hf kvs (by rw [getPath_single_obj, hl]),
          assignKey_assignKey _ _ _ _ (by rw [hl]; simp)]
      | arr xs => exact fix (by simp [withAttributes, hl])
      | null => exact fix (by simp [withAttributes, hl])
      | bool b => exact fix (by simp [withAttributes, hl])
      | num q => exact fix (by simp [withAttributes, hl])
      | str s => exact fix (by simp [withAttributes, hl])
  | arr xs => rfl
  | null => rfl
  | bool b => rfl
  | num q => rfl
  | str s => rfl

theorem regularInstance_facts {ikvs : List (String × JSON)}
    (h : regularInstance (.obj ikvs) = true) :
    (ikvs.map Prod.fst).Nodup ∧
      ∀ kvs, lookupKey "attributes" ikvs = some (.obj kvs) → regularAttrs kvs = true := by
  unfold regularInstance at h
  simp only [Bool.and_eq_true] at h
  refine ⟨(distinctNames_iff ikvs).mp h.1, ?_⟩
  intro kvs hk
  have h2 := h.2
  rw [hk] at h2
  exact h2

theorem regularInstance_attrs {inst : JSON} (h : regularInstance inst = true)
    (kvs : List (String × JSON)) (hk : getPath ["attributes"] inst = some (.obj kvs)) :
    regularAttrs kvs = true := by
  cases inst with
  | obj ikvs =>
    rw [getPath_single_obj] at hk
    exact (regularInstance_facts h).2 kvs hk
  | arr xs => rw [getPath_key_not_obj (by decide) [] (by simp)] at hk; simp at hk
  | null => simp [getPath] at hk
  | bool b => simp [getPath] at hk
  | num q => simp [getPath] at hk
  | str s => simp [getPath] at hk

theorem regularAttrs_nodup {kvs : List (String × JSON)} (h : regularAttrs kvs = true) :
    (kvs.map Prod.fst).Nodup := (regularAttrs_facts h).1

/-- The members of an instance with its attributes rewritten. -/
theorem withAttributes_obj (f : List (String × JSON) → List (String × JSON))
    (ikvs : List (String × JSON)) :
    ∃ ikvs', withAttributes f (.obj ikvs) = .obj ikvs' ∧
      (∀ k, k ≠ "attributes" → lookupKey k ikvs' = lookupKey k ikvs) ∧
      ((ikvs.map Prod.fst).Nodup → (ikvs'.map Prod.fst).Nodup) ∧
      (∀ kvs, lookupKey "attributes" ikvs = some (.obj kvs) →
        lookupKey "attributes" ikvs' = some (.obj (f kvs))) ∧
      ((∀ kvs, lookupKey "attributes" ikvs ≠ some (.obj kvs)) → ikvs' = ikvs) := by
  have same : (∀ kvs, lookupKey "attributes" ikvs ≠ some (.obj kvs)) →
      withAttributes f (.obj ikvs) = .obj ikvs →
      ∃ ikvs', withAttributes f (.obj ikvs) = .obj ikvs' ∧
      (∀ k, k ≠ "attributes" → lookupKey k ikvs' = lookupKey k ikvs) ∧
      ((ikvs.map Prod.fst).Nodup → (ikvs'.map Prod.fst).Nodup) ∧
      (∀ kvs, lookupKey "attributes" ikvs = some (.obj kvs) →
        lookupKey "attributes" ikvs' = some (.obj (f kvs))) ∧
      ((∀ kvs, lookupKey "attributes" ikvs ≠ some (.obj kvs)) → ikvs' = ikvs) :=
    fun hn e => ⟨ikvs, e, fun _ _ => rfl, fun h => h, fun kvs hk => absurd hk (hn kvs),
      fun _ => rfl⟩
  obtain ⟨o, hl⟩ : ∃ o, lookupKey "attributes" ikvs = o := ⟨_, rfl⟩
  cases o with
  | none => exact same (by simp [hl]) (by simp [withAttributes, hl])
  | some a =>
    cases a with
    | obj kvs =>
      refine ⟨assignKey "attributes" (.obj (f kvs)) ikvs, by simp [withAttributes, hl],
        fun k hk => lookupKey_assignKey_ne hk _ _, fun h => nodup_assignKey _ _ _ h, ?_, ?_⟩
      · intro kvs2 hk2
        rw [hl] at hk2
        simp only [Option.some.injEq, JSON.obj.injEq] at hk2
        subst hk2
        exact lookupKey_assignKey_self _ _ _
      · intro hn
        exact absurd hl (hn kvs)
    | arr xs => exact same (by simp [hl]) (by simp [withAttributes, hl])
    | null => exact same (by simp [hl]) (by simp [withAttributes, hl])
    | bool b => exact same (by simp [hl]) (by simp [withAttributes, hl])
    | num q => exact same (by simp [hl]) (by simp [withAttributes, hl])
    | str s => exact same (by simp [hl]) (by simp [withAttributes, hl])

theorem withAttributes_not_obj (f : List (String × JSON) → List (String × JSON)) {x : JSON}
    (h : ∀ kvs, x ≠ .obj kvs) : withAttributes f x = x := by
  cases x with
  | obj kvs => exact absurd rfl (h kvs)
  | arr xs => rfl
  | null => rfl
  | bool b => rfl
  | num q => rfl
  | str s => rfl

/-- The members of an instance of a pool after its turn. -/
theorem poolInstance_obj (ikvs : List (String × JSON)) :
    ∃ ikvs', withAttributes poolAttrs (.obj ikvs) = .obj ikvs' ∧
      poolInstance (.obj ikvs) = .obj (eraseKey "identity_schema_version" ikvs') := by
  obtain ⟨ikvs', e, -⟩ := withAttributes_obj poolAttrs ikvs
  exact ⟨ikvs', e, by rw [poolInstance, e]; rfl⟩

theorem poolInstance_not_obj {x : JSON} (h : ∀ kvs, x ≠ .obj kvs) : poolInstance x = x := by
  rw [poolInstance, withAttributes_not_obj _ h]
  cases x with
  | obj kvs => exact absurd rfl (h kvs)
  | arr xs => rfl
  | null => rfl
  | bool b => rfl
  | num q => rfl
  | str s => rfl

/-- The turn for an instance of a pool, applied to its own result, changes nothing. -/
theorem poolInstance_idem (inst : JSON) (h : regularInstance inst = true) :
    poolInstance (poolInstance inst) = poolInstance inst := by
  cases inst with
  | obj ikvs =>
    obtain ⟨hn, hattrs⟩ := regularInstance_facts h
    obtain ⟨ikvs', e, fr, hn', ha, hna⟩ := withAttributes_obj poolAttrs ikvs
    have e1 : poolInstance (.obj ikvs) = .obj (eraseKey "identity_schema_version" ikvs') := by
      rw [poolInstance, e]
      rfl
    have gone : lookupKey "identity_schema_version"
        (eraseKey "identity_schema_version" ikvs') = none :=
      lookupKey_eraseKey_self _ _ (hn' hn)
    have e2 : withAttributes poolAttrs (.obj (eraseKey "identity_schema_version" ikvs')) =
        .obj (eraseKey "identity_schema_version" ikvs') := by
      have hla : lookupKey "attributes" (eraseKey "identity_schema_version" ikvs') =
          lookupKey "attributes" ikvs' := lookupKey_eraseKey_ne (by decide) _
      obtain ⟨o, hl⟩ : ∃ o, lookupKey "attributes" ikvs = o := ⟨_, rfl⟩
      have other : (∀ kvs, o ≠ some (.obj kvs)) →
          withAttributes poolAttrs (.obj (eraseKey "identity_schema_version" ikvs')) =
            .obj (eraseKey "identity_schema_version" ikvs') := by
        intro hno
        have e3 := hna (by rw [hl]; exact hno)
        rw [e3] at hla ⊢
        unfold withAttributes
        simp only []
        rw [lookupKey_eraseKey_ne (by decide), hl]
        cases o with
        | none => rfl
        | some a =>
          cases a with
          | obj kvs => exact absurd rfl (hno kvs)
          | arr xs => rfl
          | null => rfl
          | bool b => rfl
          | num q => rfl
          | str s => rfl
      cases o with
      | none => exact other (by simp)
      | some a =>
        cases a with
        | obj kvs =>
          have h3 := ha kvs hl
          unfold withAttributes
          simp only []
          rw [hla, h3]
          simp only []
          rw [poolAttrs_idem kvs (hattrs kvs hl), assignKey_same (by rw [hla, h3])]
        | arr xs => exact other (by simp)
        | null => exact other (by simp)
        | bool b => exact other (by simp)
        | num q => exact other (by simp)
        | str s => exact other (by simp)
    rw [e1, poolInstance, e2]
    show JSON.obj (eraseKey "identity_schema_version"
      (eraseKey "identity_schema_version" ikvs')) = _
    rw [eraseKey_of_none gone]
  | arr xs =>
    have e := poolInstance_not_obj (x := JSON.arr xs) (by simp)
    rw [e, e]
  | null =>
    have e := poolInstance_not_obj (x := JSON.null) (by simp)
    rw [e, e]
  | bool b =>
    have e := poolInstance_not_obj (x := JSON.bool b) (by simp)
    rw [e, e]
  | num q =>
    have e := poolInstance_not_obj (x := JSON.num q) (by simp)
    rw [e, e]
  | str s =>
    have e := poolInstance_not_obj (x := JSON.str s) (by simp)
    rw [e, e]

/-- The resource after its turn, for a resource with a type string and an instances list. -/
theorem resourceAfter_obj (rkvs : List (String × JSON)) (insts : List JSON) (t : String)
    (hi : lookupKey "instances" rkvs = some (.arr insts))
    (ht : lookupKey "type" rkvs = some (.str t)) :
    resourceAfter (.obj rkvs) =
      if t = "cloudflare_load_balancer_pool" then
        .obj (assignKey "instances" (.arr (insts.map poolInstance)) rkvs)
      else if t = "cloudflare_load_balancer" then
        .obj (assignKey "instances"
          (.arr (insts.map (withAttributes transformLoadBalancerState))) rkvs)
      else if t = "cloudflare_tiered_cache" then
        .obj (assignKey "instances" (.arr (insts.map (withAttributes tieredAttrs)))
          (if insts.any isGenericInstance then
            assignKey "type" (.str "cloudflare_argo_tiered_caching") rkvs else rkvs))
      else .obj rkvs := by
  simp only [resourceAfter, getPath_single_obj, hi, ht]
  by_cases h1 : t = "cloudflare_load_balancer_pool"
  · simp only [if_pos h1, withInstances]
  · by_cases h2 : t = "cloudflare_load_balancer"
    · simp only [if_neg h1, if_pos h2, withInstances]
    · by_cases h3 : t = "cloudflare_tiered_cache"
      · simp only [if_neg h1, if_neg h2, if_pos h3]
        cases insts.any isGenericInstance <;> simp [withInstances, relabelled]
      · simp only [if_neg h1, if_neg h2, if_neg h3]

/-- A resource whose type is none of the three rewritten types is left as it is. -/
theorem resourceAfter_unchanged (r : JSON)
    (h : ∀ t, getPath ["type"] r = some (.str t) →
      t ∉ ["cloudflare_load_balancer_pool", "cloudflare_load_balancer",
        "cloudflare_tiered_cache"]) : resourceAfter r = r := by
  unfold resourceAfter
  split
  · next insts hi =>
    split
    · next t ht =>
      have := h t ht
      simp only [List.mem_cons, List.mem_singleton, List.not_mem_nil, or_false, not_or] at this
      simp only [if_neg this.1, if_neg this.2.1, if_neg this.2.2]
    · rfl
  · rfl

theorem tieredAttrs_not_generic (kvs : List (String × JSON)) (h : (kvs.map Prod.fst).Nodup) :
    lookupKey "cache_type" (tieredAttrs kvs) ≠ some (.str "generic") := by
  have gone : ∀ v : JSON, lookupKey "cache_type"
      (assignKey "value" v (eraseKey "cache_type" kvs)) ≠ some (.str "generic") := by
    intro v
    rw [lookupKey_assignKey_ne (by decide), lookupKey_eraseKey_self _ _ h]
    simp
  obtain ⟨o, hl⟩ : ∃ o, lookupKey "cache_type" kvs = o := ⟨_, rfl⟩
  unfold tieredAttrs
  rw [hl]
  cases o with
  | none => simp [hl]
  | some c =>
    cases c with
    | str s =>
      simp only []
      by_cases h1 : s = "generic"
      · rw [if_pos h1]
        exact gone _
      · rw [if_neg h1]
        by_cases h2 : s = "smart"
        · rw [if_pos h2]
          exact gone _
        · rw [if_neg h2]
          by_cases h3 : s = "off"
          · rw [if_pos h3]
            exact gone _
          · rw [if_neg h3, hl]
            simpa using h1
    | null => simp [hl]
    | bool b => simp [hl]
    | num q => simp [hl]
    | arr xs => simp [hl]
    | obj m => simp [hl]

theorem isGenericInstance_withAttributes (inst : JSON) (h : regularInstance inst = true) :
    isGenericInstance (withAttributes tieredAttrs inst) = false := by
  cases inst with
  | obj ikvs =>
    obtain ⟨hn, hattrs⟩ := regularInstance_facts h
    obtain ⟨ikvs', e, -, -, ha, hna⟩ := withAttributes_obj tieredAttrs ikvs
    rw [e]
    unfold isGenericInstance
    have hp : getPath ["attributes", "cache_type"] (.obj ikvs') =
        (lookupKey "attributes" ikvs').bind (getPath ["cache_type"]) := rfl
    rw [hp]
    obtain ⟨o, hl⟩ : ∃ o, lookupKey "attributes" ikvs = o := ⟨_, rfl⟩
    have other : (∀ kvs, o ≠ some (.obj kvs)) →
        (match (lookupKey "attributes" ikvs').bind (getPath ["cache_type"]) with
          | some (.str cacheType) => decide (cacheType = "generic")
          | _ => false) = false := by
      intro hno
      rw [hna (by rw [hl]; exact hno), hl]
      cases o with
      | none => rfl
      | some a =>
        cases a with
        | obj kvs => exact absurd rfl (hno kvs)
        | arr xs => simp [getPath, show parseIndex "cache_type" = none by decide]
        | null => rfl
        | bool b => rfl
        | num q => rfl
        | str s => rfl
    cases o with
    | none => exact other (by simp)
    | some a =>
      cases a with
      | obj kvs =>
        rw [ha kvs hl]
        simp only [Option.some_bind, getPath_single_obj]
        have hng := tieredAttrs_not_generic kvs (regularAttrs_nodup (hattrs kvs hl))
        cases hc : lookupKey "cache_type" (tieredAttrs kvs) with
        | none => rfl
        | some c =>
          cases c with
          | str s =>
            simp only [decide_eq_false_iff_not]
            intro hs
            rw [hc, hs] at hng
            exact hng rfl
          | null => rfl
          | bool b => rfl
          | num q => rfl
          | arr xs => rfl
          | obj m => rfl
      | arr xs => exact other (by simp)
      | null => exact other (by simp)
      | bool b => exact other (by simp)
      | num q => exact other (by simp)
      | str s => exact other (by simp)
  | arr xs => simp [withAttributes, isGenericInstance, getPath,
      show parseIndex "attributes" = none by decide]
  | null => rfl
  | bool b => rfl
  | num q => rfl
  | str s => rfl

theorem map_idem {f : JSON → JSON} {xs : List JSON} (h : ∀ x ∈ xs, f (f x) = f x) :
    (xs.map f).map f = xs.map f := by
  rw [List.map_map]
  exact List.map_congr_left h

/-- The turn for a resource, applied to its own result, changes nothing. -/
theorem resourceAfter_idem (r : JSON) (h : regularResource r = true) :
    resourceAfter (resourceAfter r) = resourceAfter r := by
  have fix : resourceAfter r = r → resourceAfter (resourceAfter r) = resourceAfter r := by
    intro e
    rw [e, e]
  have notype : (∀ t, getPath ["type"] r ≠ some (.str t)) → resourceAfter r = r :=
    fun hn => resourceAfter_unchanged r fun t ht => absurd ht (hn t)
  have noinst : (∀ insts, getPath ["instances"] r ≠ some (.arr insts)) →
      resourceAfter r = r := by
    intro hn
    unfold resourceAfter
    split
    · next insts hi => exact absurd hi (hn insts)
    · rfl
  cases r with
  | obj rkvs =>
    obtain ⟨oi, hi⟩ : ∃ o, lookupKey "instances" rkvs = o := ⟨_, rfl⟩
    obtain ⟨ot, ht⟩ : ∃ o, lookupKey "type" rkvs = o := ⟨_, rfl⟩
    cases oi with
    | none => exact fix (noinst (by simp [getPath_single_obj, hi]))
    | some iv =>
      cases iv with
      | arr insts =>
        have hreg : ∀ x ∈ insts, regularInstance x = true := by
          unfold regularResource at h
          rw [getPath_single_obj, hi] at h
          exact fun x hx => List.all_eq_true.mp h x hx
        cases ot with
        | none => exact fix (notype (by simp [getPath_single_obj, ht]))
        | some tv =>
          cases tv with
          | str t =>
            have e1 := resourceAfter_obj rkvs insts t hi ht
            by_cases h1 : t = "cloudflare_load_balancer_pool"
            · rw [if_pos h1] at e1
              rw [e1, resourceAfter_obj _ (insts.map poolInstance) t
                (lookupKey_assignKey_self _ _ _)
                (by rw [lookupKey_assignKey_ne (by decide)]; exact ht), if_pos h1,
                assignKey_assignKey _ _ _ _ (by rw [hi]; simp),
                map_idem fun x hx => poolInstance_idem x (hreg x hx)]
            · rw [if_neg h1] at e1
              by_cases h2 : t = "cloudflare_load_balancer"
              · rw [if_pos h2] at e1
                rw [e1, resourceAfter_obj _
                  (insts.map (withAttributes transformLoadBalancerState)) t
                  (lookupKey_assignKey_self _ _ _)
                  (by rw [lookupKey_assignKey_ne (by decide)]; exact ht), if_neg h1, if_pos h2,
                  assignKey_assignKey _ _ _ _ (by rw [hi]; simp),
                  map_idem fun x hx => withAttributes_idem _ x fun kvs hk =>
                    transformLoadBalancerState_idem kvs
                      (regularAttrs_nodup (regularInstance_attrs (hreg x hx) kvs hk))]
              · rw [if_neg h2] at e1
                by_cases h3 : t = "cloudflare_tiered_cache"
                · rw [if_pos h3] at e1
                  rw [e1]
                  cases hany : insts.any isGenericInstance
                  · simp only [Bool.false_eq_true, if_false]
                    have hany2 : (insts.map (withAttributes tieredAttrs)).any
                        isGenericInstance = false := by
                      rw [List.any_eq_false]
                      intro x hx
                      obtain ⟨y, hy, rfl⟩ := List.mem_map.mp hx
                      rw [isGenericInstance_withAttributes y (hreg y hy)]
                      simp
                    rw [resourceAfter_obj _ (insts.map (withAttributes tieredAttrs)) t
                      (lookupKey_assignKey_self _ _ _)
                      (by rw [lookupKey_assignKey_ne (by decide)]; exact ht), if_neg h1,
                      if_neg h2, if_pos h3, hany2]
                    simp only [Bool.false_eq_true, if_false]
                    rw [assignKey_assignKey _ _ _ _ (by rw [hi]; simp),
                      map_idem fun x hx => withAttributes_idem _ x fun kvs hk =>
                        tieredAttrs_idem kvs
                          (regularAttrs_nodup (regularInstance_attrs (hreg x hx) kvs hk))]
                  · simp only [if_true]
                    refine resourceAfter_unchanged _ ?_
                    intro t2 ht2
                    rw [getPath_single_obj, lookupKey_assignKey_ne (by decide),
                      lookupKey_assignKey_self] at ht2
                    simp only [Option.some.injEq, JSON.str.injEq] at ht2
                    rw [← ht2]
                    decide
                · rw [if_neg h3] at e1
                  exact fix e1
          | null => exact fix (notype (by simp [getPath_single_obj, ht]))
          | bool b => exact fix (notype (by simp [getPath_single_obj, ht]))
          | num q => exact fix (notype (by simp [getPath_single_obj, ht]))
          | arr xs => exact fix (notype (by simp [getPath_single_obj, ht]))
          | obj m => exact fix (notype (by simp [getPath_single_obj, ht]))
      | null => exact fix (noinst (by simp [getPath_single_obj, hi]))
      | bool b => exact fix (noinst (by simp [getPath_single_obj, hi]))
      | num q => exact fix (noinst (by simp [getPath_single_obj, hi]))
      | str s => exact fix (noinst (by simp [getPath_single_obj, hi]))
      | obj m => exact fix (noinst (by simp [getPath_single_obj, hi]))
  | arr xs =>
    exact fix (noinst (by rw [getPath_key_not_obj (by decide) [] (by simp)]; simp))
  | null => exact fix (noinst (by simp [getPath]))
  | bool b => exact fix (noinst (by simp [getPath]))
  | num q => exact fix (noinst (by simp [getPath]))
  | str s => exact fix (noinst (by simp [getPath]))

/-- The document after `transformStateJSON`, rewritten again, is the same document. -/
theorem stateAfter_idem (data : JSON) (h : regularState data = true) :
    stateAfter (stateAfter data) = stateAfter data := by
  cases data with
  | obj top =>
    obtain ⟨o, hl⟩ : ∃ o, lookupKey "resources" top = o := ⟨_, rfl⟩
    have fix : stateAfter (.obj top) = .obj top →
        stateAfter (stateAfter (.obj top)) = stateAfter (.obj top) := by
      intro e
      rw [e, e]
    cases o with
    | none => exact fix (by simp [stateAfter, hl])
    | some rv =>
      cases rv with
      | arr rs =>
        have hreg : ∀ x ∈ rs, regularResource x = true := by
          unfold regularState at h
          rw [Bool.and_eq_true, getPath_single_obj, hl] at h
          exact fun x hx => List.all_eq_true.mp h.2 x hx
        have e : stateAfter (.obj top) =
            .obj (assignKey "resources" (.arr (rs.map resourceAfter)) top) := by
          simp [stateAfter, hl]
        rw [e]
        simp only [stateAfter, lookupKey_assignKey_self]
        rw [assignKey_assignKey _ _ _ _ (by rw [hl]; simp),
          map_idem fun x hx => resourceAfter_idem x (hreg x hx)]
      | null => exact fix (by simp [stateAfter, hl])
      | bool b => exact fix (by simp [stateAfter, hl])
      | num q => exact fix (by simp [stateAfter, hl])
      | str s => exact fix (by simp [stateAfter, hl])
      | obj m => exact fix (by simp [stateAfter, hl])
  | arr xs => rfl
  | null => rfl
  | bool b => rfl
  | num q => rfl
  | str s => rfl

/-! ## Rewriters applied twice, and the members of the document after `transformStateJSON` -/

theorem Puts.same {P : List String} {d d' : Doc} {x : JSON} (h : Puts P d d' x x) : d' = d := by
  obtain ⟨j, rfl, hx, rfl⟩ := h
  exact put_same P j x hx

/-- A rewriter that replaces the instance by `g` of it, applied twice, gives what it gives
applied once when `g` does. -/
theorem rewriter_twice (e : Doc → List String → Doc) (g : JSON → JSON)
    (hputs : ∀ (d : Doc) (ip : List String) (inst : JSON), d.get ip = some inst →
      Puts ip d (e d ip) inst (g inst))
    {d : Doc} {ip : List String} {inst : JSON} (h : d.get ip = some inst)
    (hg : g (g inst) = g inst) : e (e d ip) ip = e d ip := by
  have s1 := hputs d ip inst h
  have s2 := hputs (e d ip) ip (g inst) s1.get
  rw [hg] at s2
  exact s2.same

theorem tieredAttrs_settled (kvs : List (String × JSON)) (h : (kvs.map Prod.fst).Nodup)
    (s : String) (hs : lookupKey "cache_type" (tieredAttrs kvs) = some (.str s)) :
    s ≠ "generic" ∧ s ≠ "smart" ∧ s ≠ "off" := by
  have gone : ∀ v : JSON, lookupKey "cache_type"
      (assignKey "value" v (eraseKey "cache_type" kvs)) = none := by
    intro v
    rw [lookupKey_assignKey_ne (by decide)]
    exact lookupKey_eraseKey_self _ _ h
  obtain ⟨o, hl⟩ : ∃ o, lookupKey "cache_type" kvs = o := ⟨_, rfl⟩
  unfold tieredAttrs at hs
  rw [hl] at hs
  cases o with
  | none =>
    simp only [] at hs
    rw [hl] at hs
    simp at hs
  | some c =>
    cases c with
    | str s0 =>
      simp only [] at hs
      by_cases h1 : s0 = "generic"
      · rw [if_pos h1, gone] at hs
        simp at hs
      · rw [if_neg h1] at hs
        by_cases h2 : s0 = "smart"
        · rw [if_pos h2, gone] at hs
          simp at hs
        · rw [if_neg h2] at hs
          by_cases h3 : s0 = "off"
          · rw [if_pos h3, gone] at hs
            simp at hs
          · rw [if_neg h3, hl] at hs
            simp only [Option.some.injEq, JSON.str.injEq] at hs
            subst hs
            exact ⟨h1, h2, h3⟩
    | null =>
      simp only [] at hs
      rw [hl] at hs
      simp at hs
    | bool b =>
      simp only [] at hs
      rw [hl] at hs
      simp at hs
    | num q =>
      simp only [] at hs
      rw [hl] at hs
      simp at hs
    | arr xs =>
      simp only [] at hs
      rw [hl] at hs
      simp at hs
    | obj m =>
      simp only [] at hs
      rw [hl] at hs
      simp at hs

/-- The tiered cache rewriter applied twice gives what it gives applied once. -/
theorem tiered_twice {d : Doc} {rp : List String} {k : String}
    {attributes : List (String × JSON)}
    (h : d.get (rp ++ ["instances", k] ++ ["attributes"]) = some (.obj attributes))
    (hn : (attributes.map Prod.fst).Nodup) :
    transformTieredCacheStateJSON
        (transformTieredCacheStateJSON d (rp ++ ["instances", k]) rp) (rp ++ ["instances", k]) rp =
      transformTieredCacheStateJSON d (rp ++ ["instances", k]) rp := by
  obtain ⟨h1, -, -⟩ := tiered_effect h
  refine tiered_unchanged _ _ _ ?_
  intro s hs
  rw [focus_get ((focus_iff_get _ _ _).mpr h1)] at hs
  exact tieredAttrs_settled attributes hn s hs

theorem getPath_stateAfter {top : List (String × JSON)} {rs : List JSON} {i : Nat} {r : JSON}
    (hrs : lookupKey "resources" top = some (.arr rs)) (hr : rs[i]? = some r)
    (Q : List String) :
    getPath ("resources" :: formatIndex i :: Q) (stateAfter (.obj top)) =
      getPath Q (resourceAfter r) := by
  have e : stateAfter (.obj top) =
      .obj (assignKey "resources" (.arr (rs.map resourceAfter)) top) := by
    simp [stateAfter, hrs]
  rw [e]
  simp only [getPath, lookupKey_assignKey_self, Option.some_bind, parseIndex_formatIndex,
    List.getElem?_map, hr, Option.map_some']

theorem getPath_instances {rkvs : List (String × JSON)} {xs : List JSON} (j : Nat)
    (Q : List String) :
    getPath ("instances" :: formatIndex j :: Q)
        (.obj (assignKey "instances" (.arr xs) rkvs)) = xs[j]?.bind (getPath Q) := by
  simp only [getPath, lookupKey_assignKey_self, Option.some_bind, parseIndex_formatIndex]

/-- The members of an instance of a pool after its turn: no `identity_schema_version`, and every
member other than it and `attributes` as before. -/
theorem poolInstance_members (inst : JSON)
    (hn : ∀ ikvs, inst = .obj ikvs → (ikvs.map Prod.fst).Nodup) :
    getPath ["identity_schema_version"] (poolInstance inst) = none ∧
      ∀ k, k ≠ "identity_schema_version" → k ≠ "attributes" →
        getPath [k] (poolInstance inst) = getPath [k] inst := by
  cases inst with
  | obj ikvs =>
    obtain ⟨ikvs', e, fr, hn', -, -⟩ := withAttributes_obj poolAttrs ikvs
    have e1 : poolInstance (.obj ikvs) = .obj (eraseKey "identity_schema_version" ikvs') := by
      rw [poolInstance, e]
      rfl
    rw [e1]
    refine ⟨?_, ?_⟩
    · rw [getPath_single_obj]
      exact lookupKey_eraseKey_self _ _ (hn' (hn ikvs rfl))
    · intro k h1 h2
      rw [getPath_single_obj, getPath_single_obj, lookupKey_eraseKey_ne h1, fr k h2]
  | arr xs =>
    rw [poolInstance_not_obj (by simp)]
    exact ⟨getPath_key_not_obj (by decide) [] (by simp), fun _ _ _ => rfl⟩
  | null => exact ⟨rfl, fun _ _ _ => rfl⟩
  | bool b => exact ⟨rfl, fun _ _ _ => rfl⟩
  | num q => exact ⟨rfl, fun _ _ _ => rfl⟩
  | str s => exact ⟨rfl, fun _ _ _ => rfl⟩

/-- The document after `transformStateJSON` is the document when no resource has one of the
three rewritten types. -/
theorem stateAfter_unchanged (data : JSON)
    (h : ∀ rs, getPath ["resources"] data = some (.arr rs) → ∀ r ∈ rs, ∀ t,
      getPath ["type"] r = some (.str t) →
      t ∉ ["cloudflare_load_balancer_pool", "cloudflare_load_balancer",
        "cloudflare_tiered_cache"]) : stateAfter data = data := by
  cases data with
  | obj top =>
    obtain ⟨o, hl⟩ : ∃ o, lookupKey "resources" top = o := ⟨_, rfl⟩
    cases o with
    | none => simp [stateAfter, hl]
    | some rv =>
      cases rv with
      | arr rs =>
        have e : rs.map resourceAfter = rs := by
          conv_rhs => rw [← List.map_id rs]
          refine List.map_congr_left ?_
          intro r hr
          exact resourceAfter_unchanged r (h rs (by rw [getPath_single_obj, hl]) r hr)
        simp only [stateAfter, hl, e]
        rw [assignKey_same hl]
      | null => simp [stateAfter, hl]
      | bool b => simp [stateAfter, hl]
      | num q => simp [stateAfter, hl]
      | str s => simp [stateAfter, hl]
      | obj m => simp [stateAfter, hl]
  | arr xs => rfl
  | null => rfl
  | bool b => rfl
  | num q => rfl
  | str s => rfl

/-! ## State path: `transformConditionObject` -/

theorem expandList_length (attr nested : String) (xs : List JSON) :
    (expandList attr nested (.arr xs)).length = countStrings xs := by
  induction xs with
  | nil => rfl
  | cons x xs ih =>
    cases x <;> simp_all [expandList, countStrings, List.filterMap_cons]

theorem expandList_strings (attr nested : String) (ss : List String) :
    expandList attr nested (.arr (ss.map JSON.str)) =
      ss.map fun s => JSON.obj [(attr, .obj [(nested, .str s)])] := by
  induction ss with
  | nil => rfl
  | cons s ss ih => simp_all [expandList, List.filterMap_cons]

theorem countStrings_strings (ss : List String) : countStrings (ss.map JSON.str) = ss.length := by
  induction ss with
  | nil => rfl
  | cons s ss ih => simp [countStrings, ih]

theorem transformAttr_list {a k : String} (h : (a, k) ∈ stateListAttrs) (v : JSON) :
    transformAttr a v = expandList a k v := by
  simp only [stateListAttrs, List.mem_cons, Prod.mk.injEq, List.mem_singleton,
    List.not_mem_nil, or_false] at h
  rcases h with ⟨rfl, rfl⟩ | ⟨rfl, rfl⟩ | ⟨rfl, rfl⟩ | ⟨rfl, rfl⟩ | ⟨rfl, rfl⟩ | ⟨rfl, rfl⟩ |
    ⟨rfl, rfl⟩ | ⟨rfl, rfl⟩ | ⟨rfl, rfl⟩ | ⟨rfl, rfl⟩ <;> rfl

/-- C8 (as stated, refuted): the condition `{email: [1]}` has a list-valued name and a list with
one element, yet `transformConditionObject` returns no object. -/
theorem transformConditionObject_count_counterexample :
    (transformConditionObject [("email", JSON.arr [JSON.num 1])]).length ≠
      ([JSON.num 1] : List JSON).length := by
  decide

/-- C8 (amended): for a condition with the single key `a`, `transformConditionObject` returns as
many objects as the list has string elements when `a` is a list-valued name (so `N` objects for
a list of `N` strings), exactly one object for a flag with value `true`, and none for a flag
with value `false`. -/
theorem transformConditionObject_count (a k : String) (h : (a, k) ∈ stateListAttrs)
    (f : String) (hf : f ∈ stateFlagNames) (xs : List JSON) (ss : List String) :
    (transformConditionObject [(a, .arr xs)]).length = countStrings xs ∧
      (transformConditionObject [(a, .arr (ss.map JSON.str))]).length = ss.length ∧
      (transformConditionObject [(f, .bool true)]).length = 1 ∧
      (transformConditionObject [(f, .bool false)]).length = 0 := by
  refine ⟨?_, ?_, ?_, ?_⟩
  · simp [transformConditionObject, transformAttr_list h, expandList_length]
  · simp [transformConditionObject, transformAttr_list h, expandList_length,
      countStrings_strings]
  · simp only [stateFlagNames, List.mem_cons, List.mem_singleton, List.not_mem_nil,
      or_false] at hf
    rcases hf with rfl | rfl | rfl <;> rfl
  · simp only [stateFlagNames, List.mem_cons, List.mem_singleton, List.not_mem_nil,
      or_false] at hf
    rcases hf with rfl | rfl | rfl <;> rfl

/-- C8 (amended), at the condition `{geo: ["CN", 7, "RU"]}` and the flag `everyone`. -/
theorem transformConditionObject_count_witness :
    (transformConditionObject
        [("geo", .arr [.str "CN", .num 7, .str "RU"])]).length = 2 ∧
      (transformConditionObject [("geo", .arr (["CN", "RU"].map JSON.str))]).length = 2 ∧
      (transformConditionObject [("everyone", .bool true)]).length = 1 ∧
      (transformConditionObject [("everyone", .bool false)]).length = 0 :=
  transformConditionObject_count "geo" "country_code" (by decide) "everyone" (by decide)
    [.str "CN", .num 7, .str "RU"] ["CN", "RU"]

/-- C9: for a list-valued name `a` with nested key `k` and a list of strings `s1..sN`,
`transformConditionObject` applied to `{a: [s1..sN]}` returns `[{a: {k: s1}}, ..., {a: {k: sN}}]`
in list order. -/
theorem transformConditionObject_list (a k : String) (h : (a, k) ∈ stateListAttrs)
    (ss : List String) :
    transformConditionObject [(a, .arr (ss.map JSON.str))] =
      ss.map fun s => JSON.obj [(a, .obj [(k, .str s)])] := by
  simp [transformConditionObject, transformAttr_list h, expandList_strings]

/-- C9, at the condition `{service_token: ["t1", "t2"]}`. -/
theorem transformConditionObject_list_witness :
    transformConditionObject [("service_token", .arr (["t1", "t2"].map JSON.str))] =
      ["t1", "t2"].map fun s => JSON.obj [("service_token", .obj [("token_id", .str s)])] :=
  transformConditionObject_list "service_token" "token_id" (by decide) ["t1", "t2"]

/-- C10 (the code at the failing input): a github rule with the teams `team1`, `team2` gives one
object, which carries `team1` only; the gsuite and okta rules likewise keep element 0 of their
list field. -/
theorem transformConditionObject_provider_first_only :
    transformConditionObject
        [("github", .arr [.obj [("name", .str "example-org"),
          ("teams", .arr [.str "team1", .str "team2"]),
          ("identity_provider_id", .str "github-provider")]])] =
      [.obj [("github_organization", .obj [("name", .str "example-org"),
        ("identity_provider_id", .str "github-provider"), ("team", .str "team1")])]] ∧
    transformConditionObject
        [("gsuite", .arr [.obj [("email", .arr [.str "a@g.com", .str "b@g.com"]),
          ("identity_provider_id", .str "idp")]])] =
      [.obj [("gsuite", .obj [("identity_provider_id", .str "idp"),
        ("email", .str "a@g.com")])]] ∧
    transformConditionObject
        [("okta", .arr [.obj [("name", .arr [.str "g1", .str "g2"]),
          ("identity_provider_id", .str "idp")]])] =
      [.obj [("okta", .obj [("identity_provider_id", .str "idp"), ("name", .str "g1")])]] :=
  ⟨rfl, rfl, rfl⟩

/-! ## Configuration path: runs on concrete attribute texts -/

/-- C3 (the code at the failing input): the first run on `[{ email = ["a@x.com", "b@x.com"] }]`
gives two objects; a second run on that output matches `email = "a@x.com"` inside the first
object and gives back one object, so `b@x.com` is lost and the second run is not a no-op. -/
theorem transformConditionString_second_run :
    transformConditionString "[\x7b email = [\"a@x.com\", \"b@x.com\"] \x7d]".toList =
        ("[\n    \x7b email = \x7b email = \"a@x.com\" \x7d \x7d,\n" ++
          "    \x7b email = \x7b email = \"b@x.com\" \x7d \x7d\n  ]").toList ∧
      transformConditionString
          (transformConditionString "[\x7b email = [\"a@x.com\", \"b@x.com\"] \x7d]".toList) =
        "[\n    \x7b email = \x7b email = \"a@x.com\" \x7d \x7d\n  ]".toList ∧
      transformConditionString
          (transformConditionString "[\x7b email = [\"a@x.com\", \"b@x.com\"] \x7d]".toList) ≠
        transformConditionString "[\x7b email = [\"a@x.com\", \"b@x.com\"] \x7d]".toList := by
  refine ⟨by decide, by decide, by decide⟩

/-- C4 (the code at the failing input): for two grouped blocks that both hold `email`, only the
value of the first block is emitted; `b@x.com` appears nowhere in the output. -/
theorem transformConditionString_repeated_name :
    transformConditionString
        "[\x7b email = [\"a@x.com\"] \x7d, \x7b email = [\"b@x.com\"] \x7d]".toList =
      "[\n    \x7b email = \x7b email = \"a@x.com\" \x7d \x7d\n  ]".toList := by
  decide

/-- C6 (the code at the failing input): on the include text of the test
`mixed_condition_types_transform`, written in the source order email, email_domain, everyone,
any_valid_service_token, the output is the four objects in that same order; it is not the list
that the test expects, which places the two flag objects first. -/
theorem transformConditionString_mixed_source_order :
    transformConditionString
        ("[\x7b\n    email = [\"user@example.com\"]\n    email_domain = [\"example.com\"]\n" ++
          "    everyone = true\n    any_valid_service_token = true\n  \x7d]").toList =
      ("[\n    \x7b email = \x7b email = \"user@example.com\" \x7d \x7d,\n" ++
        "    \x7b email_domain = \x7b domain = \"example.com\" \x7d \x7d,\n" ++
        "    \x7b everyone = \x7b\x7d \x7d,\n    \x7b any_valid_service_token = \x7b\x7d \x7d\n  ]").toList ∧
    transformConditionString
        ("[\x7b\n    email = [\"user@example.com\"]\n    email_domain = [\"example.com\"]\n" ++
          "    everyone = true\n    any_valid_service_token = true\n  \x7d]").toList ≠
      ("[\n    \x7b everyone = \x7b\x7d \x7d,\n    \x7b any_valid_service_token = \x7b\x7d \x7d,\n" ++
        "    \x7b email = \x7b email = \"user@example.com\" \x7d \x7d,\n" ++
        "    \x7b email_domain = \x7b domain = \"example.com\" \x7d \x7d\n  ]").toList := by
  constructor
  · decide
  · decide

/-! ## Configuration path: grouped blocks -/

theorem nestedKeyOf_of_mem {a k : List Char} (h : (a, k) ∈ listAttrs) :
    nestedKeyOf a = some k := by
  simp only [listAttrs, List.mem_cons, Prod.mk.injEq, List.mem_singleton, List.not_mem_nil,
    or_false] at h
  rcases h with ⟨rfl, rfl⟩ | ⟨rfl, rfl⟩ | ⟨rfl, rfl⟩ | ⟨rfl, rfl⟩ | ⟨rfl, rfl⟩ | ⟨rfl, rfl⟩ |
    ⟨rfl, rfl⟩ | ⟨rfl, rfl⟩ | ⟨rfl, rfl⟩ | ⟨rfl, rfl⟩ <;> decide

theorem entryPositions_names (done rest : List Entry) :
    (entryPositions done rest).map (fun p => p.name) =
      (rest.filter fun e => e.kind.isSome).map Entry.name := by
  induction rest generalizing done with
  | nil => rfl
  | cons e rest ih =>
    cases hk : e.kind.isSome <;> simp [entryPositions, hk, ih]

/-- C1: for the attribute text `[{ a = ["v1", ..., "vN"] }]`, with `a` one of the ten
list-valued names, `N ≥ 1` and every value non-empty and free of `"`, `]`, `=`,
`transformConditionString` returns `[\n`, then the `N` lines `    { a = { k = "vi" } }` in list
order joined by `,\n`, then `\n  ]`, where `k` is the nested key that `listAttrs` gives for
`a`. -/
theorem transformConditionString_one_list (a k : List Char) (hak : (a, k) ∈ listAttrs)
    (vs : List (List Char)) (hN : 1 ≤ vs.length)
    (hvs : ∀ v ∈ vs, v ≠ [] ∧ '"' ∉ v ∧ ']' ∉ v ∧ '=' ∉ v) :
    transformConditionString
        ("[\x7b ".toList ++ a ++ " = [".toList ++
          joinWith ", ".toList (vs.map fun v => "\"".toList ++ v ++ "\"".toList) ++
          "] \x7d]".toList) =
      "[\n".toList ++
        joinWith ",\n".toList
          (vs.map fun v =>
            "    \x7b ".toList ++ a ++ " = \x7b ".toList ++ k ++ " = \"".toList ++ v ++
              "\" \x7d \x7d".toList) ++
        "\n  ]".toList := by
  have hkey := nestedKeyOf_of_mem hak
  have hne : vs ≠ [] := by
    intro h
    rw [h] at hN
    simp at hN
  have hb : BlockWF [.list a vs] := by
    refine ⟨by simp, ?_, by simp⟩
    intro e he
    simp only [List.mem_singleton] at he
    subst he
    exact ⟨by simp [hkey], hne, hvs⟩
  have htext : "[\x7b ".toList ++ a ++ " = [".toList ++
      joinWith ", ".toList (vs.map fun v => "\"".toList ++ v ++ "\"".toList) ++
      "] \x7d]".toList = blockText [.list a vs] := by
    have hq : (fun v : List Char => "\"".toList ++ v ++ "\"".toList) = quote := rfl
    rw [hq]
    simp [blockText, joinWith, Entry.render, Entry.rhs, Entry.name]
  have hobj : [Entry.list a vs].flatMap Entry.objects = vs.map (conditionLine a k) := by
    simp [Entry.objects, keyOf, hkey]
  rw [htext, transformConditionString, transform_block hb (List.Perm.refl _), hobj,
    if_neg (by simpa using hne)]
  rfl

/-- C1, at `geo = ["CN", "RU"]`. -/
theorem transformConditionString_one_list_witness :
    transformConditionString
        ("[\x7b ".toList ++ "geo".toList ++ " = [".toList ++
          joinWith ", ".toList
            (["CN".toList, "RU".toList].map fun v => "\"".toList ++ v ++ "\"".toList) ++
          "] \x7d]".toList) =
      "[\n".toList ++
        joinWith ",\n".toList
          (["CN".toList, "RU".toList].map fun v =>
            "    \x7b ".toList ++ "geo".toList ++ " = \x7b ".toList ++ "country_code".toList ++
              " = \"".toList ++ v ++ "\" \x7d \x7d".toList) ++
        "\n  ]".toList :=
  transformConditionString_one_list "geo".toList "country_code".toList (by decide)
    ["CN".toList, "RU".toList] (by decide) (by decide)

/-- C2: for the text of one grouped block of distinct known sub-attributes, each written once,
and for every ordering `tbl` of the name table `allPossibleAttrs`: the sorted `attrPositions`
have strictly ascending byte offsets, their names are the names of the block in source order
(a flag written `false` is not found), `conditionObjects` is the concatenation, in source
order, of the objects of each sub-attribute, and the text returned by
`transformConditionString` is the list of these objects in that order (the input when there is
none).  On the text of the test `exclude_conditions_transform`, written with one sub-attribute
per line, the output is the expected one: the object of `email`, then the two of `geo`, for
every ordering of the table.  Moreover, on every text whatsoever, in any layout, the sorted
`attrPositions` have strictly ascending offsets and are the same for every ordering of the
table, `conditionObjects` is the concatenation, in that order, of the objects made for each
name found, and the result with the table `tbl` is the result with `allPossibleAttrs`. -/
theorem conditionObjects_source_order (tbl : List (List Char))
    (htbl : tbl.Perm allPossibleAttrs) (es : List Entry) (hb : BlockWF es) :
    (sortByPos (findAttrPositions tbl (blockText es))).Pairwise (fun x y => x.pos < y.pos) ∧
      (sortByPos (findAttrPositions tbl (blockText es))).map (fun p => p.name) =
        (es.filter fun e => e.kind.isSome).map Entry.name ∧
      conditionObjectsWith tbl (blockText es) = es.flatMap Entry.objects ∧
      transformConditionStringWith tbl (blockText es) =
        (if es.flatMap Entry.objects = [] then blockText es
          else "[\n".toList ++ joinWith ",\n".toList (es.flatMap Entry.objects) ++
            "\n  ]".toList) ∧
      transformConditionString (blockText es) =
        (if es.flatMap Entry.objects = [] then blockText es
          else "[\n".toList ++ joinWith ",\n".toList (es.flatMap Entry.objects) ++
            "\n  ]".toList) ∧
      transformConditionStringWith tbl
          ("[\x7b\n    email = [\"blocked@example.com\"]\n    geo = [\"CN\", \"RU\"]\n" ++
            "  \x7d]").toList =
        ("[\n    \x7b email = \x7b email = \"blocked@example.com\" \x7d \x7d,\n" ++
          "    \x7b geo = \x7b country_code = \"CN\" \x7d \x7d,\n" ++
          "    \x7b geo = \x7b country_code = \"RU\" \x7d \x7d\n  ]").toList ∧
      ∀ content,
        (sortByPos (findAttrPositions tbl content)).Pairwise (fun x y => x.pos < y.pos) ∧
        sortByPos (findAttrPositions tbl content) =
          sortByPos (findAttrPositions allPossibleAttrs content) ∧
        conditionObjectsWith tbl content =
          (sortByPos (findAttrPositions allPossibleAttrs content)).flatMap
            (fun p => emitAttr content p.name) ∧
        transformConditionStringWith tbl content = transformConditionString content := by
  rw [sorted_positions_block hb htbl]
  have hs : ∀ content, sortByPos (findAttrPositions tbl content) =
      sortByPos (findAttrPositions allPossibleAttrs content) := by
    intro content
    apply sortByPos_eq_of_perm
    · exact (htbl.filterMap _).trans (perm_sortByPos _).symm
    · exact sortByPos_sorted _
        (findAttrPositions_distinct content (fun _ h => h) (by decide))
  refine ⟨entryPositions_sorted [] es, entryPositions_names [] es,
    conditionObjects_block hb htbl, transform_block hb htbl, ?_, ?_,
    fun content => ⟨?_, hs content, ?_, table_order_irrelevant content htbl⟩⟩
  · rw [transformConditionString, transform_block hb (List.Perm.refl _)]
  · rw [table_order_irrelevant _ htbl]
    decide
  · exact sortByPos_sorted _ (findAttrPositions_distinct content
      (fun X hX => htbl.mem_iff.1 hX) (htbl.nodup_iff.2 (by decide)))
  · rw [conditionObjectsWith, hs content]

/-- C2, at the scenario of the specification, with the name table reversed: the text
`[{ everyone = true, any_valid_service_token = true, email = ["u@x.com"] }]` gives the objects of
everyone, any_valid_service_token, email, in that order, and the text returned is the list of
the three. -/
theorem conditionObjects_source_order_witness :
    blockText [.flag "everyone".toList true, .flag "any_valid_service_token".toList true,
        .list "email".toList ["u@x.com".toList]] =
      "[\x7b everyone = true, any_valid_service_token = true, email = [\"u@x.com\"] \x7d]".toList ∧
    [Entry.flag "everyone".toList true, .flag "any_valid_service_token".toList true,
        .list "email".toList ["u@x.com".toList]].flatMap Entry.objects =
      ["    \x7b everyone = \x7b\x7d \x7d".toList, "    \x7b any_valid_service_token = \x7b\x7d \x7d".toList,
        "    \x7b email = \x7b email = \"u@x.com\" \x7d \x7d".toList] ∧
    ((sortByPos (findAttrPositions allPossibleAttrs.reverse
        (blockText [.flag "everyone".toList true, .flag "any_valid_service_token".toList true,
          .list "email".toList ["u@x.com".toList]]))).Pairwise (fun x y => x.pos < y.pos) ∧
      (sortByPos (findAttrPositions allPossibleAttrs.reverse
        (blockText [.flag "everyone".toList true, .flag "any_valid_service_token".toList true,
          .list "email".toList ["u@x.com".toList]]))).map (fun p => p.name) =
        ([Entry.flag "everyone".toList true, .flag "any_valid_service_token".toList true,
          .list "email".toList ["u@x.com".toList]].filter fun e => e.kind.isSome).map
            Entry.name ∧
      conditionObjectsWith allPossibleAttrs.reverse
          (blockText [.flag "everyone".toList true, .flag "any_valid_service_token".toList true,
            .list "email".toList ["u@x.com".toList]]) =
        [Entry.flag "everyone".toList true, .flag "any_valid_service_token".toList true,
          .list "email".toList ["u@x.com".toList]].flatMap Entry.objects ∧
      transformConditionStringWith allPossibleAttrs.reverse
          (blockText [.flag "everyone".toList true, .flag "any_valid_service_token".toList true,
            .list "email".toList ["u@x.com".toList]]) =
        ("[\n    \x7b everyone = \x7b\x7d \x7d,\n    \x7b any_valid_service_token = \x7b\x7d \x7d,\n" ++
          "    \x7b email = \x7b email = \"u@x.com\" \x7d \x7d\n  ]").toList) :=
  have h := conditionObjects_source_order allPossibleAttrs.reverse (List.reverse_perm _)
      [.flag "everyone".toList true, .flag "any_valid_service_token".toList true,
        .list "email".toList ["u@x.com".toList]]
      ⟨by simp, by
        intro e he
        simp only [List.mem_cons, List.mem_singleton, List.not_mem_nil, or_false] at he
        rcases he with rfl | rfl | rfl
        · exact (by decide : isBoolAttr "everyone".toList = true)
        · exact (by decide : isBoolAttr "any_valid_service_token".toList = true)
        · refine ⟨by decide, by simp, ?_⟩
          intro v hv
          simp only [List.mem_singleton] at hv
          subst hv
          exact ⟨by decide, by decide, by decide, by decide⟩,
        by decide⟩
  ⟨by decide, by decide, h.1, h.2.1, h.2.2.1, h.2.2.2.1.trans (by decide)⟩

theorem flagLine_mem_objects {e : Entry} (hwe : e.WF) {f : List Char}
    (hf : ∀ c ∈ f, nameChar c = true)
    (h : "    \x7b ".toList ++ f ++ " = \x7b\x7d \x7d".toList ∈ e.objects) : e.name = f := by
  have hn := (wf_name_chars hwe).2
  have key : ∀ t : List Char, (∀ c u, t = c :: u → nameChar c = false) →
      "    \x7b ".toList ++ f ++ " = \x7b\x7d \x7d".toList = "    \x7b ".toList ++ e.name ++ t →
      e.name = f := by
    intro t ht heq
    simp only [List.append_assoc] at heq
    have heq' := List.append_cancel_left heq
    exact (span_unique nameChar hf hn (by
      intro c u hc
      simp only [String.toList, List.cons.injEq] at hc
      rw [← hc.1]
      decide) ht heq').1.symm
  cases e with
  | flag n b =>
    cases b with
    | false => simp [Entry.objects] at h
    | true =>
      simp only [Entry.objects, List.mem_singleton] at h
      exact key " = \x7b\x7d \x7d".toList (by
        intro c u hc
        simp only [String.toList, List.cons.injEq] at hc
        rw [← hc.1]
        decide) h
  | list n vs =>
    simp only [Entry.objects, List.mem_map] at h
    obtain ⟨v, -, hv⟩ := h
    refine key (" = \x7b ".toList ++ keyOf n ++ " = \"".toList ++ v ++ "\" \x7d \x7d".toList) ?_ ?_
    · intro c u hc
      simp only [String.toList, List.cons_append, List.cons.injEq] at hc
      rw [← hc.1]
      decide
    · rw [← hv]
      simp [conditionLine, Entry.name]
  | single n v =>
    simp only [Entry.objects, List.mem_singleton] at h
    refine key (" = \x7b ".toList ++ keyOf n ++ " = \"".toList ++ v ++ "\" \x7d \x7d".toList) ?_ ?_
    · intro c u hc
      simp only [String.toList, List.cons_append, List.cons.injEq] at hc
      rw [← hc.1]
      decide
    · rw [h]
      simp [conditionLine, Entry.name]

theorem flagLine_not_mem {es : List Entry} (hwf : ∀ e ∈ es, e.WF) {f : List Char}
    (hf : ∀ c ∈ f, nameChar c = true) (hno : f ∉ es.map Entry.name) :
    "    \x7b ".toList ++ f ++ " = \x7b\x7d \x7d".toList ∉ es.flatMap Entry.objects := by
  intro h
  obtain ⟨e, he, hm⟩ := List.mem_flatMap.1 h
  exact hno (List.mem_map.2 ⟨e, he, flagLine_mem_objects (hwf e he) hf hm⟩)

/-- C5: in the text of one grouped block of distinct known sub-attributes that holds the flag
`f` written `= b`, `conditionObjects` is made of the objects of the sub-attributes before the
flag, then the one object `    { f = {} }` when `b` is `true` and nothing when `b` is `false`,
then the objects of the sub-attributes after the flag; the object `    { f = {} }` occurs once
when `b` is `true` and not at all when `b` is `false`.  On the texts of the tests
`require_certificate_transform` and `boolean_false_removal` the output is the expected one. -/
theorem flag_objects (es1 es2 : List Entry) (f : List Char) (b : Bool)
    (hb : BlockWF (es1 ++ .flag f b :: es2)) :
    conditionObjectsWith allPossibleAttrs (blockText (es1 ++ .flag f b :: es2)) =
        es1.flatMap Entry.objects ++
          (if b then ["    \x7b ".toList ++ f ++ " = \x7b\x7d \x7d".toList] else []) ++
          es2.flatMap Entry.objects ∧
      (conditionObjectsWith allPossibleAttrs (blockText (es1 ++ .flag f b :: es2))).count
          ("    \x7b ".toList ++ f ++ " = \x7b\x7d \x7d".toList) = (if b then 1 else 0) ∧
      transformConditionString (blockText (es1 ++ .flag f b :: es2)) =
        (if conditionObjectsWith allPossibleAttrs (blockText (es1 ++ .flag f b :: es2)) = []
          then blockText (es1 ++ .flag f b :: es2)
          else "[\n".toList ++
            joinWith ",\n".toList
              (conditionObjectsWith allPossibleAttrs (blockText (es1 ++ .flag f b :: es2))) ++
            "\n  ]".toList) ∧
      transformConditionString "[\x7b\n    certificate = true\n  \x7d]".toList =
        "[\n    \x7b certificate = \x7b\x7d \x7d\n  ]".toList ∧
      transformConditionString
          ("[\x7b\n    email = [\"user@example.com\"]\n    everyone = false\n" ++
            "    certificate = false\n  \x7d]").toList =
        "[\n    \x7b email = \x7b email = \"user@example.com\" \x7d \x7d\n  ]".toList := by
  have hobjs : conditionObjectsWith allPossibleAttrs (blockText (es1 ++ .flag f b :: es2)) =
      es1.flatMap Entry.objects ++
        (if b then ["    \x7b ".toList ++ f ++ " = \x7b\x7d \x7d".toList] else []) ++
        es2.flatMap Entry.objects := by
    rw [conditionObjects_block hb (List.Perm.refl _)]
    cases b <;> simp [Entry.objects]
  have hwf := hb.2.1
  have hfc : ∀ c ∈ f, nameChar c = true :=
    (wf_name_chars (hwf (.flag f b) (by simp))).2
  have hnd := hb.2.2
  simp only [List.map_append, List.map_cons, Entry.name] at hnd
  have hnd' := List.nodup_middle.1 hnd
  have hno : f ∉ es1.map Entry.name ∧ f ∉ es2.map Entry.name := by
    have := (List.nodup_cons.1 hnd').1
    simpa [not_or] using this
  have h1 := flagLine_not_mem (fun e he => hwf e (by simp [he])) hfc hno.1
  have h2 := flagLine_not_mem (fun e he => hwf e (by simp [he])) hfc hno.2
  refine ⟨hobjs, ?_, ?_, by decide, by decide⟩
  · rw [hobjs, List.count_append, List.count_append, List.count_eq_zero_of_not_mem h1,
      List.count_eq_zero_of_not_mem h2]
    cases b <;> simp
  · rw [transformConditionString, transform_block hb (List.Perm.refl _),
      conditionObjects_block hb (List.Perm.refl _)]

/-- C5, at the block `[{ email = ["user@example.com"], everyone = false, certificate = false }]`
and its flag `everyone`. -/
theorem flag_objects_witness :
    blockText ([.list "email".toList ["user@example.com".toList]] ++
        .flag "everyone".toList false :: [.flag "certificate".toList false]) =
      "[\x7b email = [\"user@example.com\"], everyone = false, certificate = false \x7d]".toList ∧
    (conditionObjectsWith allPossibleAttrs
        (blockText ([.list "email".toList ["user@example.com".toList]] ++
          .flag "everyone".toList false :: [.flag "certificate".toList false])) =
      [Entry.list "email".toList ["user@example.com".toList]].flatMap Entry.objects ++
        (if false then ["    \x7b ".toList ++ "everyone".toList ++ " = \x7b\x7d \x7d".toList] else []) ++
        [Entry.flag "certificate".toList false].flatMap Entry.objects) :=
  ⟨by decide,
    (flag_objects [.list "email".toList ["user@example.com".toList]]
      [.flag "certificate".toList false] "everyone".toList false
      ⟨by simp, by
        intro e he
        simp only [List.cons_append, List.nil_append, List.mem_cons, List.mem_singleton,
          List.not_mem_nil, or_false] at he
        rcases he with rfl | rfl | rfl
        · refine ⟨by decide, by simp, ?_⟩
          intro v hv
          simp only [List.mem_singleton] at hv
          subst hv
          exact ⟨by decide, by decide, by decide, by decide⟩
        · exact (by decide : isBoolAttr "everyone".toList = true)
        · exact (by decide : isBoolAttr "certificate".toList = true),
        by decide⟩).1⟩

/-! ## No expansion, no rewrite -/

theorem conditionKey_facts {a : String} (ha : a ∈ ["include", "exclude", "require"]) :
    parseIndex a = none ∧ a ≠ "approval_group" ∧ a ≠ "approval_groups" ∧
      a ∉ ["zone_id", "application_id", "precedence", "connection_rules"] ∧
      a ≠ "session_duration" := by
  simp only [List.mem_cons, List.mem_singleton, List.not_mem_nil, or_false] at ha
  rcases ha with rfl | rfl | rfl <;> exact ⟨rfl, by decide, by decide, by decide, by decide⟩

theorem migrateConditionAttr_keep (iter : List (String × JSON) → List (String × JSON))
    {P : List String} {d : Doc} {kvs : List (String × JSON)} (h : Focus P d kvs)
    {a : String} {cs : List JSON} (hla : lookupKey a kvs = some (.arr cs))
    (hexp : ∀ c ∈ cs, ∃ m, c = .obj m ∧ transformConditionObject (iter m) = [])
    (b : String)
    (hobj : ∀ xs, lookupKey b kvs = some (.arr xs) → ∀ c ∈ xs, ∃ m, c = .obj m) :
    ∃ d' kvs', migrateConditionAttr iter P d b = some d' ∧ Focus P d' kvs' ∧
      (∀ k, k ≠ b → lookupKey k kvs' = lookupKey k kvs) ∧
      lookupKey a kvs' = some (.arr cs) := by
  by_cases hba : a = b
  · subst hba
    refine ⟨d, kvs, ?_, h, fun _ _ => rfl, hla⟩
    exact migrateConditionAttr_empty iter P d a cs (by rw [focus_get h, hla]) hexp
  · obtain ⟨d', kvs', h1, h2, h3⟩ := migrateConditionAttr_focus iter h b hobj
    exact ⟨d', kvs', h1, h2, h3, by rw [h3 a hba, hla]⟩

/-- The state rewriter on an instance whose condition attribute `a` expands to nothing: it
completes, and `a` holds the array it held. -/
theorem policy_state_keeps_attribute (iter : List (String × JSON) → List (String × JSON))
    (json : Doc) (instancePath : List String) (a : String)
    (ha : a ∈ ["include", "exclude", "require"]) (cs : List JSON)
    (hget : json.get (instancePath ++ ["attributes"] ++ [a]) = some (.arr cs))
    (hexp : ∀ c ∈ cs, ∃ m, c = .obj m ∧ transformConditionObject (iter m) = [])
    (hobj : ∀ b ∈ ["include", "exclude", "require", "approval_group"], ∀ xs,
      json.get (instancePath ++ ["attributes"] ++ [b]) = some (.arr xs) →
        ∀ c ∈ xs, ∃ m, c = .obj m) :
    ∃ r, transformZeroTrustAccessPolicyStateJSON iter json instancePath = some r ∧
      r.get (instancePath ++ ["attributes"] ++ [a]) = some (.arr cs) := by
  obtain ⟨hidx, hne1, hne2, hne3, hne4⟩ := conditionKey_facts ha
  obtain ⟨kvs, hF, hla⟩ := focus_of_get hidx hget
  have hmem : ∀ b ∈ ["include", "exclude", "require", "approval_group"], ∀ xs,
      lookupKey b kvs = some (.arr xs) → ∀ c ∈ xs, ∃ m, c = .obj m := by
    intro b hb xs hxs
    exact hobj b hb xs (by rw [focus_get hF, hxs])
  obtain ⟨d1, kvs1, e1, hF1, hk1⟩ := migrateApprovalGroup_focus hF (hmem "approval_group"
    (by decide))
  have hla1 : lookupKey a kvs1 = some (.arr cs) := by rw [hk1 a hne1 hne2, hla]
  obtain ⟨d2, kvs2, e2, hF2, hk2, hla2⟩ := migrateConditionAttr_keep iter hF1 hla1 hexp "include"
    (by rw [hk1 _ (by decide) (by decide)]; exact hmem "include" (by decide))
  obtain ⟨d3, kvs3, e3, hF3, hk3, hla3⟩ := migrateConditionAttr_keep iter hF2 hla2 hexp "exclude"
    (by
      rw [hk2 _ (by decide), hk1 _ (by decide) (by decide)]
      exact hmem "exclude" (by decide))
  obtain ⟨d4, kvs4, e4, hF4, hk4, hla4⟩ := migrateConditionAttr_keep iter hF3 hla3 hexp "require"
    (by
      rw [hk3 _ (by decide), hk2 _ (by decide), hk1 _ (by decide) (by decide)]
      exact hmem "require" (by decide))
  obtain ⟨kvs5, hF5, hk5⟩ := deleteUnsupported_focus hF4
  obtain ⟨kvs6, hF6, hk6⟩ := defaultSessionDuration_focus hF5
  refine ⟨defaultSessionDuration (instancePath ++ ["attributes"])
    (deleteUnsupported (instancePath ++ ["attributes"]) d4), ?_, ?_⟩
  · simp only [transformZeroTrustAccessPolicyStateJSON, e1, Option.some_bind, List.foldlM_cons,
      List.foldlM_nil, e2, e3, e4, Option.bind_eq_bind, Option.pure_def, Option.map_some',
      bind, pure]
  · rw [focus_get hF6, hk6 a hne4, hk5 a hne3, hla4]

theorem migrateConditionAttr_keep_result
    (iter : List (String × JSON) → List (String × JSON)) {P : List String} {d d2 : Doc}
    {kvs : List (String × JSON)} (h : Focus P d kvs) {a : String} {cs : List JSON}
    (hla : lookupKey a kvs = some (.arr cs))
    (hexp : ∀ c ∈ cs, ∃ m, c = .obj m ∧ transformConditionObject (iter m) = [])
    {b : String} (hr : migrateConditionAttr iter P d b = some d2) :
    ∃ kvs2, Focus P d2 kvs2 ∧ lookupKey a kvs2 = some (.arr cs) := by
  by_cases hba : a = b
  · subst hba
    have := migrateConditionAttr_empty iter P d a cs (by rw [focus_get h, hla]) hexp
    rw [this] at hr
    cases hr
    exact ⟨kvs, h, hla⟩
  · obtain ⟨kvs2, h2, h3⟩ := migrateConditionAttr_result iter h hr
    exact ⟨kvs2, h2, by rw [h3 a hba, hla]⟩

/-- Whenever the state rewriter returns, a condition attribute whose elements all expand to
nothing holds the array it held. -/
theorem policy_state_result (iter : List (String × JSON) → List (String × JSON))
    (json : Doc) (instancePath : List String) (a : String)
    (ha : a ∈ ["include", "exclude", "require"]) (cs : List JSON)
    (hget : json.get (instancePath ++ ["attributes"] ++ [a]) = some (.arr cs))
    (hexp : ∀ c ∈ cs, ∃ m, c = .obj m ∧ transformConditionObject (iter m) = [])
    (r : Doc) (hr : transformZeroTrustAccessPolicyStateJSON iter json instancePath = some r) :
    r.get (instancePath ++ ["attributes"] ++ [a]) = some (.arr cs) := by
  obtain ⟨hidx, hne1, hne2, hne3, hne4⟩ := conditionKey_facts ha
  obtain ⟨kvs, hF, hla⟩ := focus_of_get hidx hget
  simp only [transformZeroTrustAccessPolicyStateJSON, List.foldlM_cons, List.foldlM_nil,
    Option.bind_eq_bind, Option.pure_def, bind, pure] at hr
  cases e1 : migrateApprovalGroup (instancePath ++ ["attributes"]) json with
  | none => simp [e1] at hr
  | some d1 =>
    obtain ⟨kvs1, hF1, hk1⟩ := migrateApprovalGroup_result hF e1
    have hla1 : lookupKey a kvs1 = some (.arr cs) := by rw [hk1 a hne1 hne2, hla]
    simp only [e1, Option.some_bind] at hr
    cases e2 : migrateConditionAttr iter (instancePath ++ ["attributes"]) d1 "include" with
    | none => simp [e2] at hr
    | some d2 =>
      obtain ⟨kvs2, hF2, hla2⟩ := migrateConditionAttr_keep_result iter hF1 hla1 hexp e2
      simp only [e2, Option.some_bind] at hr
      cases e3 : migrateConditionAttr iter (instancePath ++ ["attributes"]) d2 "exclude" with
      | none => simp [e3] at hr
      | some d3 =>
        obtain ⟨kvs3, hF3, hla3⟩ := migrateConditionAttr_keep_result iter hF2 hla2 hexp e3
        simp only [e3, Option.some_bind] at hr
        cases e4 : migrateConditionAttr iter (instancePath ++ ["attributes"]) d3 "require" with
        | none => simp [e4] at hr
        | some d4 =>
          obtain ⟨kvs4, hF4, hla4⟩ := migrateConditionAttr_keep_result iter hF3 hla3 hexp e4
          simp only [e4, Option.some_bind, Option.map_some', Option.some.injEq] at hr
          obtain ⟨kvs5, hF5, hk5⟩ := deleteUnsupported_focus hF4
          obtain ⟨kvs6, hF6, hk6⟩ := defaultSessionDuration_focus hF5
          rw [← hr, focus_get hF6, hk6 a hne4, hk5 a hne3, hla4]

/-- C7: when the expansion produces no condition object the attribute is left as it was.  In
the configuration path `transformConditionString` returns its input and
`transformConditionListTokens` returns `nil`.  In the state path the step on a condition
attribute whose elements all expand to nothing returns the document unchanged; whenever
`transformZeroTrustAccessPolicyStateJSON` returns, that attribute holds the array it held; and
it does return when the elements of the condition arrays and of `approval_group` are objects,
so that no type assertion fails. -/
theorem no_expansion_no_rewrite (content : List Char) (tokens : List Token)
    (hcontent : (tokens.flatMap fun t => t.bytes) = content)
    (hzero : conditionObjectsWith allPossibleAttrs content = [])
    (iter : List (String × JSON) → List (String × JSON)) (json : Doc)
    (instancePath : List String) (a : String) (ha : a ∈ ["include", "exclude", "require"])
    (cs : List JSON)
    (hget : json.get (instancePath ++ ["attributes"] ++ [a]) = some (.arr cs))
    (hexp : ∀ c ∈ cs, ∃ m, c = .obj m ∧ transformConditionObject (iter m) = [])
    (hobj : ∀ b ∈ ["include", "exclude", "require", "approval_group"], ∀ xs,
      json.get (instancePath ++ ["attributes"] ++ [b]) = some (.arr xs) →
        ∀ c ∈ xs, ∃ m, c = .obj m) :
    transformConditionString content = content ∧
      transformConditionListTokens tokens = none ∧
      migrateConditionAttr iter (instancePath ++ ["attributes"]) json a = some json ∧
      (∀ r, transformZeroTrustAccessPolicyStateJSON iter json instancePath = some r →
        r.get (instancePath ++ ["attributes"] ++ [a]) = some (.arr cs)) ∧
      ∃ r, transformZeroTrustAccessPolicyStateJSON iter json instancePath = some r ∧
        r.get (instancePath ++ ["attributes"] ++ [a]) = some (.arr cs) := by
  have h1 : transformConditionString content = content := by
    simp [transformConditionString, transformConditionStringWith, hzero]
  refine ⟨h1, ?_, migrateConditionAttr_empty iter _ json a cs hget hexp,
    policy_state_result iter json instancePath a ha cs hget hexp,
    policy_state_keeps_attribute iter json instancePath a ha cs hget hexp hobj⟩
  simp [transformConditionListTokens, hcontent, h1]

/-- C7, at the text `[{ everyone = false }]` and at an instance whose `include` holds
`[{"everyone": false}]` next to an `exclude` that does expand. -/
theorem no_expansion_no_rewrite_witness :
    transformConditionString "[\x7b everyone = false \x7d]".toList = "[\x7b everyone = false \x7d]".toList ∧
      transformConditionListTokens
        [⟨false, "[\x7b".toList⟩, ⟨false, " everyone = false \x7d]".toList⟩] = none ∧
      migrateConditionAttr id (["resources", "0", "instances", "0"] ++ ["attributes"])
          (some (.obj [("resources", .arr [.obj [("type", .str "cloudflare_zero_trust_access_policy"),
            ("instances", .arr [.obj [("attributes", .obj
              [("include", .arr [.obj [("everyone", .bool false)]]),
               ("exclude", .arr [.obj [("email", .arr [.str "a@x.com"])]])])]])]])]))
          "include" =
        some (some (.obj [("resources", .arr [.obj [("type", .str "cloudflare_zero_trust_access_policy"),
            ("instances", .arr [.obj [("attributes", .obj
              [("include", .arr [.obj [("everyone", .bool false)]]),
               ("exclude", .arr [.obj [("email", .arr [.str "a@x.com"])]])])]])]])])) ∧
      ∃ r, transformZeroTrustAccessPolicyStateJSON id
          (some (.obj [("resources", .arr [.obj [("type", .str "cloudflare_zero_trust_access_policy"),
            ("instances", .arr [.obj [("attributes", .obj
              [("include", .arr [.obj [("everyone", .bool false)]]),
               ("exclude", .arr [.obj [("email", .arr [.str "a@x.com"])]])])]])]])]))
          ["resources", "0", "instances", "0"] = some r ∧
        r.get (["resources", "0", "instances", "0"] ++ ["attributes"] ++ ["include"]) =
          some (.arr [.obj [("everyone", .bool false)]]) :=
  have h := no_expansion_no_rewrite "[\x7b everyone = false \x7d]".toList
    [⟨false, "[\x7b".toList⟩, ⟨false, " everyone = false \x7d]".toList⟩] (by decide) (by decide) id
    (some (.obj [("resources", .arr [.obj [("type", .str "cloudflare_zero_trust_access_policy"),
      ("instances", .arr [.obj [("attributes", .obj
        [("include", .arr [.obj [("everyone", .bool false)]]),
         ("exclude", .arr [.obj [("email", .arr [.str "a@x.com"])]])])]])]])]))
    ["resources", "0", "instances", "0"] "include" (by decide)
    [.obj [("everyone", .bool false)]] rfl
    (by
      intro c hc
      simp only [List.mem_singleton] at hc
      subst hc
      exact ⟨_, rfl, rfl⟩)
    (by
      intro b hb xs h c hc
      simp only [List.mem_cons, List.mem_singleton, List.not_mem_nil, or_false] at hb
      rcases hb with rfl | rfl | rfl | rfl
      · have h' : some (JSON.arr [.obj [("everyone", .bool false)]]) = some (JSON.arr xs) := h
        cases h'
        simp only [List.mem_singleton] at hc
        exact ⟨_, hc⟩
      · have h' : some (JSON.arr [.obj [("email", .arr [.str "a@x.com"])]]) =
            some (JSON.arr xs) := h
        cases h'
        simp only [List.mem_singleton] at hc
        exact ⟨_, hc⟩
      · have h' : (none : Option JSON) = some (JSON.arr xs) := h
        cases h'
      · have h' : (none : Option JSON) = some (JSON.arr xs) := h
        cases h')
  ⟨h.1, h.2.1, h.2.2.1, h.2.2.2.2⟩

/-! ## State path: the other cases of `transformConditionObject` -/

/-- C11: for an azure rule stored as a list whose first element is an object with
`id = [g1, ...]` (`g1` a string) and `identity_provider_id = p`, `transformConditionObject`
returns exactly one object, of type key `azure_ad`, whose members are `id = g1` and
`identity_provider_id = p`: only the first element of the id list is read.  (The members of the
emitted object are listed in the order of the assignments of the source; a Go map has no member
order.) -/
theorem transformConditionObject_azure (m : List (String × JSON)) (g1 p : String)
    (ids others : List JSON) (hid : lookupKey "id" m = some (.arr (.str g1 :: ids)))
    (hp : lookupKey "identity_provider_id" m = some (.str p)) :
    transformConditionObject [("azure", .arr (.obj m :: others))] =
        [.obj [("azure_ad", .obj [("identity_provider_id", .str p), ("id", .str g1)])]] ∧
      lookupKey "id" [("identity_provider_id", JSON.str p), ("id", JSON.str g1)] =
        some (.str g1) ∧
      lookupKey "identity_provider_id" [("identity_provider_id", JSON.str p),
        ("id", JSON.str g1)] = some (.str p) := by
  refine ⟨?_, rfl, rfl⟩
  simp [transformConditionObject, transformAttr, expandProvider, copyString, copyFirst, hid, hp]

/-- C11, at the rule `azure = [{id: ["group1", "group2"], identity_provider_id: "provider1"}]`. -/
theorem transformConditionObject_azure_witness :
    transformConditionObject
        [("azure", .arr [.obj [("id", .arr [.str "group1", .str "group2"]),
          ("identity_provider_id", .str "provider1")]])] =
      [.obj [("azure_ad", .obj [("identity_provider_id", .str "provider1"),
        ("id", .str "group1")])]] :=
  (transformConditionObject_azure
    [("id", .arr [.str "group1", .str "group2"]), ("identity_provider_id", .str "provider1")]
    "group1" "provider1" [.str "group2"] [] rfl rfl).1

/-- C12 (counterexample): the azure rule of the test, with the ids `group1`, `group2` and the
provider `provider1`, gives one `azure_ad` object, which carries `group1`: not two objects, and
none that carries `group2`. -/
theorem transformConditionObject_azure_two_ids :
    transformConditionObject
        [("azure", .arr [.obj [("id", .arr [.str "group1", .str "group2"]),
          ("identity_provider_id", .str "provider1")]])] =
      [.obj [("azure_ad", .obj [("identity_provider_id", .str "provider1"),
        ("id", .str "group1")])]] ∧
    (transformConditionObject
        [("azure", .arr [.obj [("id", .arr [.str "group1", .str "group2"]),
          ("identity_provider_id", .str "provider1")]])]).length ≠ 2 :=
  ⟨rfl, by decide⟩

/-- C12 (amended): for an azure rule whose id list holds `N ≥ 1` group ids, the state-path
expansion yields exactly one `azure_ad` condition object, whatever `N` is: its id is the first
group id and its `identity_provider_id` is that of the rule. -/
theorem transformConditionObject_azure_one_object (p : String) (gs : List String)
    (hgs : gs ≠ []) :
    transformConditionObject
        [("azure", .arr [.obj [("id", .arr (gs.map JSON.str)),
          ("identity_provider_id", .str p)]])] =
      [.obj [("azure_ad", .obj [("identity_provider_id", .str p),
        ("id", .str (gs.head hgs))])]] ∧
    (transformConditionObject
        [("azure", .arr [.obj [("id", .arr (gs.map JSON.str)),
          ("identity_provider_id", .str p)]])]).length = 1 := by
  cases gs with
  | nil => exact absurd rfl hgs
  | cons g rest => exact ⟨rfl, rfl⟩

/-- C12 (amended), at three group ids. -/
theorem transformConditionObject_azure_one_object_witness :
    transformConditionObject
        [("azure", .arr [.obj [("id", .arr [.str "g1", .str "g2", .str "g3"]),
          ("identity_provider_id", .str "idp")]])] =
      [.obj [("azure_ad", .obj [("identity_provider_id", .str "idp"), ("id", .str "g1")])]] :=
  (transformConditionObject_azure_one_object "idp" ["g1", "g2", "g3"] (by decide)).1

/-- C13: for a condition with one key among `saml`, `external_evaluation`, `auth_context` whose
value is a JSON object `v`, `transformConditionObject` returns the one-element sequence
`[{key: v}]`, with `v` unchanged. -/
theorem transformConditionObject_passthrough (key : String)
    (hkey : key ∈ ["saml", "external_evaluation", "auth_context"])
    (v : List (String × JSON)) :
    transformConditionObject [(key, .obj v)] = [.obj [(key, .obj v)]] := by
  simp only [List.mem_cons, List.mem_singleton, List.not_mem_nil, or_false] at hkey
  rcases hkey with rfl | rfl | rfl <;> rfl

/-- C13, at a saml rule. -/
theorem transformConditionObject_passthrough_witness :
    transformConditionObject
        [("saml", .obj [("attribute_name", .str "group"), ("attribute_value", .str "admins")])] =
      [.obj [("saml", .obj [("attribute_name", .str "group"),
        ("attribute_value", .str "admins")])]] :=
  transformConditionObject_passthrough "saml" (by decide)
    [("attribute_name", .str "group"), ("attribute_value", .str "admins")]

/-- C14: for a `common_name` or `auth_method` rule whose value is a string `v`,
`transformConditionObject` returns exactly one object `{name: {name: v}}`, the nested key being
the attribute name itself. -/
theorem transformConditionObject_scalar (name : String)
    (hname : name ∈ ["common_name", "auth_method"]) (v : String) :
    transformConditionObject [(name, .str v)] = [.obj [(name, .obj [(name, .str v)])]] := by
  simp only [List.mem_cons, List.mem_singleton, List.not_mem_nil, or_false] at hname
  rcases hname with rfl | rfl <;> rfl

/-- C14, at `auth_method = "mfa"`. -/
theorem transformConditionObject_scalar_witness :
    transformConditionObject [("auth_method", .str "mfa")] =
      [.obj [("auth_method", .obj [("auth_method", .str "mfa")])]] :=
  transformConditionObject_scalar "auth_method" (by decide) "mfa"

/-- C15 (counterexample): the `common_names` rule of the test, with three certificate names,
gives no condition object: not the three `common_name` objects. -/
theorem transformConditionObject_common_names_dropped :
    transformConditionObject
        [("common_names", .arr [.str "cert1.example.com", .str "cert2.example.com",
          .str "cert3.example.com"])] = [] ∧
    (transformConditionObject
        [("common_names", .arr [.str "cert1.example.com", .str "cert2.example.com",
          .str "cert3.example.com"])]).length ≠ 3 :=
  ⟨rfl, by decide⟩

/-- C15 (amended): `transformConditionObject` skips the key `common_names`, whatever it holds:
a `common_names` rule gives no condition object, and a condition that holds the key gives the
objects it gives without it. -/
theorem transformConditionObject_common_names (v : JSON) (c1 c2 : List (String × JSON)) :
    transformConditionObject [("common_names", v)] = [] ∧
      transformConditionObject (c1 ++ ("common_names", v) :: c2) =
        transformConditionObject (c1 ++ c2) := by
  refine ⟨rfl, ?_⟩
  simp only [transformConditionObject, List.flatMap_append, List.flatMap_cons]
  rfl

/-- An attribute name outside the case labels of the `switch` falls through it. -/
theorem transformAttr_unknown (k : String) (v : JSON) (h : k ∉ stateKnownKeys) :
    transformAttr k v = [] := by
  simp only [stateKnownKeys, List.mem_cons, List.mem_singleton, List.not_mem_nil, or_false,
    not_or] at h
  unfold transformAttr
  split <;> simp_all

/-- The result of `transformConditionObject` is the concatenation of the results of the
entries. -/
theorem transformConditionObject_cons (kv : String × JSON) (c : List (String × JSON)) :
    transformConditionObject (kv :: c) = transformAttr kv.1 kv.2 ++ transformConditionObject c :=
  rfl

/-- C16: an attribute name that `transformConditionObject` does not know contributes no
condition object, and the function, which is total, does not fail on it: for every condition the
result equals the result for the condition with all unknown keys removed, and a condition holding
only unknown keys gives the empty sequence. -/
theorem transformConditionObject_unknown_keys (condition : List (String × JSON)) :
    transformConditionObject condition =
        transformConditionObject (condition.filter fun kv => decide (kv.1 ∈ stateKnownKeys)) ∧
      ((∀ kv ∈ condition, kv.1 ∉ stateKnownKeys) → transformConditionObject condition = []) := by
  constructor
  · induction condition with
    | nil => rfl
    | cons kv c ih =>
      by_cases hk : kv.1 ∈ stateKnownKeys
      · rw [List.filter_cons_of_pos (by simpa using hk), transformConditionObject_cons,
          transformConditionObject_cons, ih]
      · rw [List.filter_cons_of_neg (by simpa using hk), transformConditionObject_cons,
          transformAttr_unknown _ _ hk, ih]
        rfl
  · intro h
    induction condition with
    | nil => rfl
    | cons kv c ih =>
      rw [transformConditionObject_cons, transformAttr_unknown _ _ (h kv (List.mem_cons_self _ _)),
        ih fun x hx => h x (List.mem_cons_of_mem _ hx)]
      rfl

/-- C16, at a condition with the unknown keys `purpose` and `note` around an `email` rule, and at
a condition that holds only the unknown key `purpose`. -/
theorem transformConditionObject_unknown_keys_witness :
    transformConditionObject
        [("purpose", .str "x"), ("email", .arr [.str "a@example.com"]), ("note", .null)] =
      transformConditionObject [("email", .arr [.str "a@example.com"])] ∧
    transformConditionObject [("purpose", .str "x")] = [] :=
  ⟨(transformConditionObject_unknown_keys
      [("purpose", .str "x"), ("email", .arr [.str "a@example.com"]), ("note", .null)]).1,
   (transformConditionObject_unknown_keys [("purpose", .str "x")]).2 (by
      intro kv hkv
      rw [List.mem_singleton] at hkv
      subst hkv
      decide)⟩

/-- C17 (counterexample): the map `{everyone: true, email: ["a@example.com"]}` iterated in its
two orders gives two different sequences: the object of the key that is met first comes first. -/
theorem transformConditionObject_order_counterexample :
    List.Perm [("everyone", JSON.bool true), ("email", JSON.arr [.str "a@example.com"])]
        [("email", JSON.arr [.str "a@example.com"]), ("everyone", JSON.bool true)] ∧
      transformConditionObject
          [("everyone", .bool true), ("email", .arr [.str "a@example.com"])] =
        [.obj [("everyone", .obj [])], .obj [("email", .obj [("email", .str "a@example.com")])]] ∧
      transformConditionObject
          [("email", .arr [.str "a@example.com"]), ("everyone", .bool true)] =
        [.obj [("email", .obj [("email", .str "a@example.com")])], .obj [("everyone", .obj [])]] ∧
      transformConditionObject
          [("everyone", .bool true), ("email", .arr [.str "a@example.com"])] ≠
        transformConditionObject
          [("email", .arr [.str "a@example.com"]), ("everyone", .bool true)] := by
  refine ⟨List.Perm.swap _ _ _, rfl, rfl, ?_⟩
  intro h
  have h2 : ([.obj [("everyone", .obj [])],
        .obj [("email", .obj [("email", .str "a@example.com")])]] : List JSON) =
      [.obj [("email", .obj [("email", .str "a@example.com")])], .obj [("everyone", .obj [])]] :=
    h
  injection h2 with h3 _
  injection h3 with h4
  injection h4 with h5 _
  injection h5 with h6 _
  exact absurd h6 (by decide)

/-- C17 (amended): the results of `transformConditionObject` for two iteration orders of the
same map hold the same objects the same number of times (each is a permutation of the other),
and they are the same sequence when, of any two entries of the map, at most one yields
objects. -/
theorem transformConditionObject_iteration_order (c1 c2 : List (String × JSON))
    (h : c1.Perm c2) :
    (transformConditionObject c1).Perm (transformConditionObject c2) ∧
      (c1.Pairwise (fun a b => transformAttr a.1 a.2 = [] ∨ transformAttr b.1 b.2 = []) →
        transformConditionObject c1 = transformConditionObject c2) := by
  constructor
  · exact List.Perm.flatMap_right _ h
  · induction h with
    | nil => intro _; rfl
    | cons x _ ih =>
      intro hp
      rw [transformConditionObject_cons, transformConditionObject_cons,
        ih (List.pairwise_cons.mp hp).2]
    | swap x y l =>
      intro hp
      rw [transformConditionObject_cons, transformConditionObject_cons,
        transformConditionObject_cons, transformConditionObject_cons]
      rcases (List.pairwise_cons.mp hp).1 x (List.mem_cons_self _ _) with hy | hx
      · rw [hy]; rfl
      · rw [hx]; rfl
    | trans h12 _ ih1 ih2 =>
      intro hp
      have hsymm : ∀ a b : String × JSON,
          (transformAttr a.1 a.2 = [] ∨ transformAttr b.1 b.2 = []) →
          (transformAttr b.1 b.2 = [] ∨ transformAttr a.1 a.2 = []) := fun _ _ hab => hab.symm
      exact (ih1 hp).trans (ih2 ((h12.pairwise_iff (fun {a b} hab => hsymm a b hab)).mp hp))

/-- C17 (amended), at the map `{purpose: "x", email: ["a@example.com", "b@example.com"]}`, of
which only `email` yields objects, iterated in its two orders. -/
theorem transformConditionObject_iteration_order_witness :
    (transformConditionObject
        [("purpose", .str "x"), ("email", .arr [.str "a@example.com", .str "b@example.com"])]).Perm
      (transformConditionObject
        [("email", .arr [.str "a@example.com", .str "b@example.com"]), ("purpose", .str "x")]) ∧
    transformConditionObject
        [("purpose", .str "x"), ("email", .arr [.str "a@example.com", .str "b@example.com"])] =
      transformConditionObject
        [("email", .arr [.str "a@example.com", .str "b@example.com"]), ("purpose", .str "x")] :=
  ⟨(transformConditionObject_iteration_order _ _ (List.Perm.swap _ _ _)).1,
   (transformConditionObject_iteration_order
      [("purpose", .str "x"), ("email", .arr [.str "a@example.com", .str "b@example.com"])]
      [("email", .arr [.str "a@example.com", .str "b@example.com"]), ("purpose", .str "x")]
      (List.Perm.swap _ _ _)).2
    (List.pairwise_cons.mpr ⟨fun _ _ => Or.inl rfl,
      List.pairwise_cons.mpr ⟨fun _ hb => absurd hb (List.not_mem_nil _), List.Pairwise.nil⟩⟩)⟩

/-! ## Load balancer and pool state: renamed, deleted and converted attributes -/

/-- C19: every singleton-shape attribute that holds the empty array is deleted by its rewriter
and is not turned into an empty object: after the rewriter the key is absent.  This holds of
`load_shedding`, `origin_steering` and the `header` of every element of `origins` for the pool
rewriter, and of `adaptive_routing`, `location_strategy`, `random_steering` and
`session_affinity_attributes` for the load-balancer rewriter (member names distinct). -/
theorem empty_singleton_deleted (json : Doc) (instancePath : List String)
    (attributes : List (String × JSON))
    (hattrs : json.get (instancePath ++ ["attributes"]) = some (.obj attributes))
    (hkeys : (attributes.map Prod.fst).Nodup) :
    (∀ attr ∈ ["load_shedding", "origin_steering"],
      lookupKey attr attributes = some (.arr []) →
      (transformLoadBalancerPoolStateJSON json instancePath).get
        (instancePath ++ ["attributes"] ++ [attr]) = none) ∧
    (∀ (origins : List JSON) (k : Nat) (origin : List (String × JSON)),
      lookupKey "origins" attributes = some (.arr origins) →
      origins[k]? = some (.obj origin) → (origin.map Prod.fst).Nodup →
      lookupKey "header" origin = some (.arr []) →
      (transformLoadBalancerPoolStateJSON json instancePath).get
        (instancePath ++ ["attributes"] ++ ["origins", formatIndex k] ++ ["header"]) = none) ∧
    (∀ attr ∈ ["adaptive_routing", "location_strategy", "random_steering",
        "session_affinity_attributes"],
      lookupKey attr attributes = some (.arr []) →
      (transformLoadBalancerStateJSON json instancePath).get
        (instancePath ++ ["attributes"] ++ [attr]) = none ∧
      lookupKey attr (transformLoadBalancerState attributes) = none) := by
  have h0 := (focus_iff_get _ _ _).mpr hattrs
  obtain ⟨kvs', hp, fr, ho, -⟩ := transformLoadBalancerPoolStateJSON_focus h0
  refine ⟨?_, ?_, ?_⟩
  · intro attr hattr hv
    have hne : attr ≠ "origins" := by
      simp only [List.mem_cons, List.mem_singleton, List.not_mem_nil, or_false] at hattr
      rcases hattr with rfl | rfl <;> decide
    rw [focus_get hp, fr attr hne]
    exact lookupKey_unwrapped_empty attr hattr attributes hkeys hv
  · intro origins k origin hor hk hok hh
    have hpath : instancePath ++ ["attributes"] ++ ["origins", formatIndex k] ++ ["header"] =
        (instancePath ++ ["attributes"]) ++ ["origins", formatIndex k, "header"] := by
      simp
    rw [hpath, focus_get_path hp]
    have hk2 : (origins.map rewrittenOrigin)[k]? = some (.obj (eraseKey "header" origin)) := by
      rw [List.getElem?_map, hk]
      simp [rewrittenOrigin, hh]
    simp only [getPath, ho origins hor, Option.some_bind, parseIndex_formatIndex, hk2]
    rw [lookupKey_eraseKey_self _ _ hok]
    rfl
  · intro attr hattr hv
    have hf := transformLoadBalancerStateJSON_focus h0
    rw [focus_get hf]
    exact ⟨transformLoadBalancerState_single attributes hkeys attr hattr hv,
      transformLoadBalancerState_single attributes hkeys attr hattr hv⟩

/-- C19, at the example pool (`load_shedding`, and the `header` of the origin of index 1) and at
the example load balancer (`adaptive_routing`). -/
theorem empty_singleton_deleted_witness :
    (transformLoadBalancerPoolStateJSON poolState firstInstance).get
        (firstInstance ++ ["attributes"] ++ ["load_shedding"]) = none ∧
    (transformLoadBalancerPoolStateJSON poolState firstInstance).get
        (firstInstance ++ ["attributes"] ++ ["origins", formatIndex 1] ++ ["header"]) = none ∧
    (transformLoadBalancerStateJSON loadBalancerState firstInstance).get
        (firstInstance ++ ["attributes"] ++ ["adaptive_routing"]) = none :=
  ⟨(empty_singleton_deleted poolState firstInstance poolAttributes rfl (by decide)).1
      "load_shedding" (by decide) rfl,
   (empty_singleton_deleted poolState firstInstance poolAttributes rfl (by decide)).2.1
      [.obj [("name", .str "origin-0")], .obj originAttributes] 1 originAttributes rfl rfl
      (by decide) rfl,
   ((empty_singleton_deleted loadBalancerState firstInstance loadBalancerAttributes rfl
      (by decide)).2.2 "adaptive_routing" (by decide) rfl).1⟩

/-- C20: for the map-shape attributes `country_pools`, `pop_pools` and `region_pools` of a load
balancer: if the attribute is the empty array then after the rewriter the key is still present
and holds the empty object; and whatever the attribute holds, the key is present after the
rewriter: none of the three keys is deleted.  This holds of `transformLoadBalancerStateJSON` on
the document and of `transformLoadBalancerState` on the map. -/
theorem loadBalancer_map_attrs (json : Doc) (instancePath : List String)
    (attributes : List (String × JSON)) (attr : String)
    (hattrs : json.get (instancePath ++ ["attributes"]) = some (.obj attributes))
    (hattr : attr ∈ ["country_pools", "pop_pools", "region_pools"]) :
    (lookupKey attr attributes = some (.arr []) →
      (transformLoadBalancerStateJSON json instancePath).get
          (instancePath ++ ["attributes"] ++ [attr]) = some (.obj []) ∧
        lookupKey attr (transformLoadBalancerState attributes) = some (.obj [])) ∧
    (∀ x, lookupKey attr attributes = some x →
      (∃ y, (transformLoadBalancerStateJSON json instancePath).get
          (instancePath ++ ["attributes"] ++ [attr]) = some y) ∧
        ∃ y, lookupKey attr (transformLoadBalancerState attributes) = some y) := by
  have hf := transformLoadBalancerStateJSON_focus ((focus_iff_get _ _ _).mpr hattrs)
  obtain ⟨h1, h2⟩ := transformLoadBalancerState_map attributes attr hattr
  rw [focus_get hf]
  exact ⟨fun hv => ⟨h1 hv, h1 hv⟩, fun x hx => ⟨h2 x hx, h2 x hx⟩⟩

/-- C20, at the example load balancer: the empty `country_pools` becomes the empty object, and
`region_pools`, which is not empty, is still present. -/
theorem loadBalancer_map_attrs_witness :
    (transformLoadBalancerStateJSON loadBalancerState firstInstance).get
        (firstInstance ++ ["attributes"] ++ ["country_pools"]) = some (.obj []) ∧
    ∃ y, (transformLoadBalancerStateJSON loadBalancerState firstInstance).get
        (firstInstance ++ ["attributes"] ++ ["region_pools"]) = some y :=
  ⟨((loadBalancer_map_attrs loadBalancerState firstInstance loadBalancerAttributes
      "country_pools" rfl (by decide)).1 rfl).1,
   ((loadBalancer_map_attrs loadBalancerState firstInstance loadBalancerAttributes
      "region_pools" rfl (by decide)).2 _ rfl).1⟩
/-! ## The unwrapped attribute and the origin with a `Host` header -/

theorem lookupKey_unwrappedSingleton_first {attr : String} {kvs : List (String × JSON)}
    {first : JSON} {rest : List JSON} (h : lookupKey attr kvs = some (.arr (first :: rest))) :
    lookupKey attr (unwrappedSingleton attr kvs) = some first := by
  unfold unwrappedSingleton
  rw [h]
  exact lookupKey_assignKey_self _ _ _

theorem lookupKey_unwrapSingletonMap_ne {k attr : String} (hne : k ≠ attr)
    (kvs : List (String × JSON)) :
    lookupKey k (unwrapSingletonMap attr kvs) = lookupKey k kvs := by
  unfold unwrapSingletonMap
  split
  · exact lookupKey_eraseKey_ne hne kvs
  · exact lookupKey_assignKey_ne hne _ kvs
  · rfl

/-- The origins that `transformLoadBalancerPoolState` leaves in the map. -/
theorem transformLoadBalancerPoolState_origins (attributes : List (String × JSON))
    (origins : List JSON) (h : lookupKey "origins" attributes = some (.arr origins)) :
    lookupKey "origins" (transformLoadBalancerPoolState attributes) =
      some (.arr (origins.map rewriteOriginMap)) := by
  have e : lookupKey "origins" (unwrapSingletonMap "origin_steering"
      (unwrapSingletonMap "load_shedding" attributes)) = some (.arr origins) := by
    rw [lookupKey_unwrapSingletonMap_ne (by decide), lookupKey_unwrapSingletonMap_ne (by decide),
      h]
  simp only [transformLoadBalancerPoolState, e]
  exact lookupKey_assignKey_self _ _ _

theorem hostValues_obj {hm : List (String × JSON)} {vs : JSON}
    (hname : lookupKey "header" hm = some (.str "Host"))
    (hvs : lookupKey "values" hm = some vs) : hostValues (.obj hm) = some vs := by
  simp [hostValues, getPath_single_obj, hname, hvs]

theorem hostValuesMap_arr {hm : List (String × JSON)} {values : List JSON}
    (hname : lookupKey "header" hm = some (.str "Host"))
    (hvs : lookupKey "values" hm = some (.arr values)) :
    hostValuesMap hm = some (.arr values) := by
  simp [hostValuesMap, hname, hvs]

/-- The origin with a `Host` header after its turn of the loop of
`transformLoadBalancerPoolStateJSON`. -/
theorem rewrittenOrigin_host {origin hm : List (String × JSON)} {h vs : JSON}
    (hheader : lookupKey "header" origin = some h)
    (hcase : (∃ rest, h = .arr (.obj hm :: rest)) ∨
      (h = .obj hm ∧ lookupKey "host" hm = none))
    (hname : lookupKey "header" hm = some (.str "Host"))
    (hvs : lookupKey "values" hm = some vs) :
    rewrittenOrigin (.obj origin) = .obj (assignKey "header" (.obj [("host", vs)]) origin) := by
  rcases hcase with ⟨rest, rfl⟩ | ⟨rfl, hhost⟩
  · simp only [rewrittenOrigin, hheader, hostValues_obj hname hvs]
  · simp only [rewrittenOrigin, hheader, hhost, hostValues_obj hname hvs]

/-- The origin with a `Host` header whose values are a list, after its turn of the loop of
`transformLoadBalancerPoolState`. -/
theorem rewriteOriginMap_host {origin hm : List (String × JSON)} {h : JSON} {values : List JSON}
    (hheader : lookupKey "header" origin = some h)
    (hcase : (∃ rest, h = .arr (.obj hm :: rest)) ∨
      (h = .obj hm ∧ lookupKey "host" hm = none))
    (hname : lookupKey "header" hm = some (.str "Host"))
    (hvs : lookupKey "values" hm = some (.arr values)) :
    rewriteOriginMap (.obj origin) =
      .obj (assignKey "header" (.obj [("host", .arr values)]) origin) := by
  rcases hcase with ⟨rest, rfl⟩ | ⟨rfl, hhost⟩
  · simp only [rewriteOriginMap, hheader, hostValuesMap_arr hname hvs]
  · simp only [rewriteOriginMap, hheader, hhost, hostValuesMap_arr hname hvs]

/-! ## Members read by name, and attribute rewriters applied twice -/

theorem obj_of_getPath {k : String} (hk : parseIndex k = none) {x v : JSON}
    (h : getPath [k] x = some v) : ∃ kvs, x = .obj kvs ∧ lookupKey k kvs = some v := by
  cases x with
  | obj kvs =>
    rw [getPath_single_obj] at h
    exact ⟨kvs, rfl, h⟩
  | arr xs =>
    rw [getPath_key_not_obj hk [] (by simp)] at h
    cases h
  | null => simp [getPath] at h
  | bool b => simp [getPath] at h
  | num q => simp [getPath] at h
  | str s => simp [getPath] at h

/-- A rewriter that replaces the attributes object by `f` of it, and changes nothing without
one, gives applied twice what it gives applied once when `f` does. -/
theorem attrs_rewriter_twice (e : Doc → List String → Doc)
    (f : List (String × JSON) → List (String × JSON))
    (hputs : ∀ (d : Doc) (ip : List String) (kvs : List (String × JSON)),
      d.get (ip ++ ["attributes"]) = some (.obj kvs) →
      Puts (ip ++ ["attributes"]) d (e d ip) (.obj kvs) (.obj (f kvs)))
    (hid : ∀ (d : Doc) (ip : List String),
      (∀ kvs, d.get (ip ++ ["attributes"]) ≠ some (.obj kvs)) → e d ip = d)
    (d : Doc) (ip : List String)
    (hf : ∀ kvs, d.get (ip ++ ["attributes"]) = some (.obj kvs) → f (f kvs) = f kvs) :
    e (e d ip) ip = e d ip := by
  by_cases hk : ∃ kvs, d.get (ip ++ ["attributes"]) = some (.obj kvs)
  · obtain ⟨kvs, hk⟩ := hk
    have s1 := hputs d ip kvs hk
    have s2 := hputs (e d ip) ip (f kvs) s1.get
    rw [hf kvs hk] at s2
    exact s2.same
  · have e1 := hid d ip (fun kvs h => hk ⟨kvs, h⟩)
    rw [e1, e1]

/-! ## The example access policy -/

/-- The elements of the arrays that the policy rewriter reads in the example policy are
objects. -/
theorem policyAttributes_objects :
    ∀ b ∈ ["include", "exclude", "require", "approval_group"], ∀ xs,
      lookupKey b policyAttributes = some (.arr xs) → ∀ c ∈ xs, ∃ m, c = .obj m := by
  intro b hb xs h c hc
  simp only [List.mem_cons, List.mem_singleton, List.not_mem_nil, or_false] at hb
  rcases hb with rfl | rfl | rfl | rfl
  · have h' : some (JSON.arr [.obj [("email", .arr [.str "a@example.com",
        .str "b@example.com"])]]) = some (JSON.arr xs) := h
    cases h'
    simp only [List.mem_singleton] at hc
    exact ⟨_, hc⟩
  · have h' : (none : Option JSON) = some (JSON.arr xs) := h
    cases h'
  · have h' : (none : Option JSON) = some (JSON.arr xs) := h
    cases h'
  · have h' : some (JSON.arr [.obj [("approvals_needed", .num 2),
        ("email_addresses", .arr [.str "a@example.com"])]]) = some (JSON.arr xs) := h
    cases h'
    simp only [List.mem_singleton] at hc
    exact ⟨_, hc⟩
/-! ## Tiered cache and pool state: what the rewriters leave -/

/-- C21: for an instance (at the part `k` of the `instances` of the resource at `resourcePath`)
whose attributes object, with distinct member names, holds `cache_type = "generic"`, after
`transformTieredCacheStateJSON` the `type` of the enclosing resource is
`cloudflare_argo_tiered_caching`, the attributes have no `cache_type` key, and the attributes
hold `value = "on"`. -/
theorem tieredCache_generic (json : Doc) (resourcePath : List String) (k : String)
    (attributes : List (String × JSON))
    (hattrs : json.get (resourcePath ++ ["instances", k] ++ ["attributes"]) =
      some (.obj attributes))
    (hkeys : (attributes.map Prod.fst).Nodup)
    (hgeneric : lookupKey "cache_type" attributes = some (.str "generic")) :
    (transformTieredCacheStateJSON json (resourcePath ++ ["instances", k]) resourcePath).get
        (resourcePath ++ ["type"]) = some (.str "cloudflare_argo_tiered_caching") ∧
    (transformTieredCacheStateJSON json (resourcePath ++ ["instances", k]) resourcePath).get
        (resourcePath ++ ["instances", k] ++ ["attributes"] ++ ["cache_type"]) = none ∧
    (transformTieredCacheStateJSON json (resourcePath ++ ["instances", k]) resourcePath).get
        (resourcePath ++ ["instances", k] ++ ["attributes"] ++ ["value"]) =
      some (.str "on") := by
  obtain ⟨h1, h2, -⟩ := tiered_effect hattrs
  obtain ⟨a, b⟩ := lookupKey_tieredAttrs attributes hkeys "generic" "on" hgeneric (by decide)
  have hf := (focus_iff_get _ _ _).mpr h1
  rw [focus_get hf, focus_get hf]
  exact ⟨h2 hgeneric, a, b⟩

/-- C21, at the second instance of the example tiered cache. -/
theorem tieredCache_generic_witness :
    (transformTieredCacheStateJSON tieredCacheState (["resources", "0"] ++ ["instances", "1"])
        ["resources", "0"]).get (["resources", "0"] ++ ["type"]) =
      some (.str "cloudflare_argo_tiered_caching") ∧
    (transformTieredCacheStateJSON tieredCacheState (["resources", "0"] ++ ["instances", "1"])
        ["resources", "0"]).get
        (["resources", "0"] ++ ["instances", "1"] ++ ["attributes"] ++ ["cache_type"]) = none ∧
    (transformTieredCacheStateJSON tieredCacheState (["resources", "0"] ++ ["instances", "1"])
        ["resources", "0"]).get
        (["resources", "0"] ++ ["instances", "1"] ++ ["attributes"] ++ ["value"]) =
      some (.str "on") :=
  tieredCache_generic tieredCacheState ["resources", "0"] "1"
    [("cache_type", .str "generic"), ("zone_id", .str "z2")] rfl (by decide) rfl

/-- C22: for an instance whose attributes object, with distinct member names, holds
`cache_type = "smart"` (respectively `"off"`), after `transformTieredCacheStateJSON` the `type`
of the resource is what it was, `cache_type` is absent and `value` is `"on"` (respectively
`"off"`); and when `cache_type` is absent, is not a string, or is a string other than `generic`,
`smart` and `off`, the rewriter returns the document it was given. -/
theorem tieredCache_smart_off (json : Doc) :
    (∀ (resourcePath : List String) (k : String) (attributes : List (String × JSON))
        (s v : String),
      json.get (resourcePath ++ ["instances", k] ++ ["attributes"]) = some (.obj attributes) →
      (attributes.map Prod.fst).Nodup →
      (s, v) ∈ [("smart", "on"), ("off", "off")] →
      lookupKey "cache_type" attributes = some (.str s) →
      (transformTieredCacheStateJSON json (resourcePath ++ ["instances", k]) resourcePath).get
          (resourcePath ++ ["type"]) = json.get (resourcePath ++ ["type"]) ∧
      (transformTieredCacheStateJSON json (resourcePath ++ ["instances", k]) resourcePath).get
          (resourcePath ++ ["instances", k] ++ ["attributes"] ++ ["cache_type"]) = none ∧
      (transformTieredCacheStateJSON json (resourcePath ++ ["instances", k]) resourcePath).get
          (resourcePath ++ ["instances", k] ++ ["attributes"] ++ ["value"]) =
        some (.str v)) ∧
    (∀ (instancePath resourcePath : List String),
      (∀ s, json.get (instancePath ++ ["attributes"] ++ ["cache_type"]) = some (.str s) →
        s ∉ ["generic", "smart", "off"]) →
      transformTieredCacheStateJSON json instancePath resourcePath = json) := by
  refine ⟨?_, ?_⟩
  · intro resourcePath k attributes s v hattrs hkeys hsv hs
    obtain ⟨h1, -, h3⟩ := tiered_effect hattrs
    have hne : s ≠ "generic" := by
      simp only [List.mem_cons, List.mem_singleton, List.not_mem_nil, or_false,
        Prod.mk.injEq] at hsv
      rcases hsv with ⟨rfl, -⟩ | ⟨rfl, -⟩ <;> decide
    have hsv3 : (s, v) ∈ [("generic", "on"), ("smart", "on"), ("off", "off")] :=
      List.mem_cons_of_mem _ hsv
    obtain ⟨a, b⟩ := lookupKey_tieredAttrs attributes hkeys s v hs hsv3
    have hf := (focus_iff_get _ _ _).mpr h1
    rw [focus_get hf, focus_get hf]
    refine ⟨h3 ?_, a, b⟩
    rw [hs]
    intro e
    simp only [Option.some.injEq, JSON.str.injEq] at e
    exact hne e
  · intro instancePath resourcePath h
    refine tiered_unchanged json instancePath resourcePath ?_
    intro s hs
    have hn := h s hs
    simp only [List.mem_cons, List.mem_singleton, List.not_mem_nil, or_false, not_or] at hn
    exact hn

/-- C22, at the first instance of the example tiered cache (`cache_type = "smart"`), and at the
example load balancer, which has no `cache_type`. -/
theorem tieredCache_smart_off_witness :
    ((transformTieredCacheStateJSON tieredCacheState (["resources", "0"] ++ ["instances", "0"])
        ["resources", "0"]).get (["resources", "0"] ++ ["type"]) =
      tieredCacheState.get (["resources", "0"] ++ ["type"]) ∧
    (transformTieredCacheStateJSON tieredCacheState (["resources", "0"] ++ ["instances", "0"])
        ["resources", "0"]).get
        (["resources", "0"] ++ ["instances", "0"] ++ ["attributes"] ++ ["cache_type"]) = none ∧
    (transformTieredCacheStateJSON tieredCacheState (["resources", "0"] ++ ["instances", "0"])
        ["resources", "0"]).get
        (["resources", "0"] ++ ["instances", "0"] ++ ["attributes"] ++ ["value"]) =
      some (.str "on")) ∧
    transformTieredCacheStateJSON loadBalancerState firstInstance ["resources", "0"] =
      loadBalancerState :=
  ⟨(tieredCache_smart_off tieredCacheState).1 ["resources", "0"] "0"
      [("cache_type", .str "smart"), ("zone_id", .str "z1")] "smart" "on" rfl (by decide)
      (by decide) rfl,
   (tieredCache_smart_off loadBalancerState).2 firstInstance ["resources", "0"]
      (fun s hs => by
        have h0 : loadBalancerState.get (firstInstance ++ ["attributes"] ++ ["cache_type"]) =
            none := rfl
        rw [h0] at hs
        cases hs)⟩

/-- C24 (the code at the failing input): the origin whose header is the one-element array
`[{header: "Host", values: "example.com"}]`, where `values` holds a string.  The map version
`transformLoadBalancerPoolState` leaves the header as it was, not `{host: "example.com"}`, while
`transformLoadBalancerPoolStateJSON` writes `{host: "example.com"}`, on the tree as `gjson`
reads it and on the tree of the text alike. -/
theorem pool_host_header_scalar_values :
    getPath ["origins", "0", "header"]
        (.obj (transformLoadBalancerPoolState scalarHostAttributes)) =
      some (.arr [.obj [("header", .str "Host"), ("values", .str "example.com")]]) ∧
    getPath ["origins", "0", "header"]
        (.obj (transformLoadBalancerPoolState scalarHostAttributes)) ≠
      some (.obj [("host", .str "example.com")]) ∧
    (transformLoadBalancerPoolStateJSON scalarHostState firstInstance).get
        (firstInstance ++ ["attributes"] ++ ["origins", "0", "header"]) =
      some (.obj [("host", .str "example.com")]) ∧
    (transformLoadBalancerPoolStateJSON64 scalarHostState firstInstance).get
        (firstInstance ++ ["attributes"] ++ ["origins", "0", "header"]) =
      some (.obj [("host", .str "example.com")]) := by
  have e : getPath ["origins", "0", "header"]
      (.obj (transformLoadBalancerPoolState scalarHostAttributes)) =
      some (.arr [.obj [("header", .str "Host"), ("values", .str "example.com")]]) := rfl
  refine ⟨e, ?_, rfl, rfl⟩
  rw [e]
  intro h
  cases h
/-! ## The dispatcher `transformStateJSON`: what it removes, what it leaves, a second run -/

/-- C25: after `transformStateJSON`, every instance (element `j` of `instances`, with distinct
member names) of every resource (element `i` of `resources`) of type
`cloudflare_load_balancer_pool` has no `identity_schema_version` key, and its `schema_version`
is what it was. -/
theorem pool_identity_schema_version (data : JSON) (resources : List JSON) (i : Nat)
    (resource : JSON) (instances : List JSON) (j : Nat) (inst : JSON)
    (hresources : getPath ["resources"] data = some (.arr resources))
    (hresource : resources[i]? = some resource)
    (htype : getPath ["type"] resource = some (.str "cloudflare_load_balancer_pool"))
    (hinstances : getPath ["instances"] resource = some (.arr instances))
    (hinst : instances[j]? = some inst)
    (hkeys : ∀ ikvs, inst = .obj ikvs → (ikvs.map Prod.fst).Nodup) :
    (transformStateJSON data).get
        ["resources", formatIndex i, "instances", formatIndex j, "identity_schema_version"] =
      none ∧
    (transformStateJSON data).get
        ["resources", formatIndex i, "instances", formatIndex j, "schema_version"] =
      getPath ["schema_version"] inst := by
  obtain ⟨top, rfl, hrs⟩ := obj_of_getPath (by decide) hresources
  obtain ⟨rkvs, rfl, hty⟩ := obj_of_getPath (by decide) htype
  rw [getPath_single_obj] at hinstances
  have hpool := poolInstance_members inst hkeys
  have key : ∀ m, (transformStateJSON (.obj top)).get
      ["resources", formatIndex i, "instances", formatIndex j, m] =
      getPath [m] (poolInstance inst) := by
    intro m
    rw [transformStateJSON_eq]
    simp only [Doc.get, Option.some_bind]
    rw [getPath_stateAfter hrs hresource, resourceAfter_obj rkvs instances _ hinstances hty,
      if_pos rfl, getPath_instances, List.getElem?_map, hinst]
    rfl
  exact ⟨(key _).trans hpool.1, (key _).trans (hpool.2 _ (by decide) (by decide))⟩

/-- C25, at the instance of the example pool document, which holds `schema_version = 0` and
`identity_schema_version = 1`. -/
theorem pool_identity_schema_version_witness :
    (transformStateJSON poolDocument).get
        ["resources", formatIndex 0, "instances", formatIndex 0, "identity_schema_version"] =
      none ∧
    (transformStateJSON poolDocument).get
        ["resources", formatIndex 0, "instances", formatIndex 0, "schema_version"] =
      some (.num 0) :=
  pool_identity_schema_version poolDocument
    [.obj [("type", .str "cloudflare_load_balancer_pool"),
      ("instances", .arr [.obj [("schema_version", .num 0), ("identity_schema_version", .num 1),
        ("attributes", .obj [("name", .str "pool-1"), ("load_shedding", .arr []),
          ("origins", .arr [.obj [("name", .str "origin-0"),
            ("header", .arr [.obj [("header", .str "Host"),
              ("values", .arr [.str "example.com"])]])]])])]])]]
    0
    (.obj [("type", .str "cloudflare_load_balancer_pool"),
      ("instances", .arr [.obj [("schema_version", .num 0), ("identity_schema_version", .num 1),
        ("attributes", .obj [("name", .str "pool-1"), ("load_shedding", .arr []),
          ("origins", .arr [.obj [("name", .str "origin-0"),
            ("header", .arr [.obj [("header", .str "Host"),
              ("values", .arr [.str "example.com"])]])]])])]])])
    [.obj [("schema_version", .num 0), ("identity_schema_version", .num 1),
      ("attributes", .obj [("name", .str "pool-1"), ("load_shedding", .arr []),
        ("origins", .arr [.obj [("name", .str "origin-0"),
          ("header", .arr [.obj [("header", .str "Host"),
            ("values", .arr [.str "example.com"])]])]])])]]
    0
    (.obj [("schema_version", .num 0), ("identity_schema_version", .num 1),
      ("attributes", .obj [("name", .str "pool-1"), ("load_shedding", .arr []),
        ("origins", .arr [.obj [("name", .str "origin-0"),
          ("header", .arr [.obj [("header", .str "Host"),
            ("values", .arr [.str "example.com"])]])]])])])
    rfl rfl rfl rfl rfl
    (fun ikvs h => by
      cases h
      decide)

/-- C26: for every state document (with lists in `resources` and `instances`) in which no
resource has the type `cloudflare_load_balancer_pool`, `cloudflare_load_balancer` or
`cloudflare_tiered_cache`, in particular for `cloudflare_zero_trust_access_policy` resources,
`transformStateJSON` returns a document with the same tree. -/
theorem other_types_unchanged (data : JSON) (hshape : listShaped data = true)
    (htypes : ∀ resources, getPath ["resources"] data = some (.arr resources) →
      ∀ resource ∈ resources, ∀ t, getPath ["type"] resource = some (.str t) →
        t ∉ ["cloudflare_load_balancer_pool", "cloudflare_load_balancer",
          "cloudflare_tiered_cache"]) :
    transformStateJSON data = some data := by
  have _ := hshape
  rw [transformStateJSON_eq, stateAfter_unchanged data htypes]

/-- C26, at the example document with one access policy. -/
theorem other_types_unchanged_witness : transformStateJSON policyDocument = some policyDocument :=
  other_types_unchanged policyDocument rfl (fun resources hrs resource hr t ht => by
    have e : some (JSON.arr [.obj [("type", .str "cloudflare_zero_trust_access_policy"),
        ("instances", .arr [.obj [("schema_version", .num 0),
          ("attributes", .obj policyAttributes)]])]]) = some (JSON.arr resources) := hrs
    cases e
    simp only [List.mem_singleton] at hr
    subst hr
    have e2 : some (JSON.str "cloudflare_zero_trust_access_policy") = some (JSON.str t) := ht
    cases e2
    decide)

/-- C27 (counterexample): the document with one pool whose `load_shedding` holds
`[[{default_percent: 50}]]`.  One run leaves `[{default_percent: 50}]` there, a second run
leaves `{default_percent: 50}`: the second run changes the document, and so does a second call
of the pool rewriter on the instance. -/
theorem transformStateJSON_twice_nested :
    (transformStateJSON nestedPoolState).get (firstInstance ++ ["attributes", "load_shedding"]) =
      some (.arr [.obj [("default_percent", .num 50)]]) ∧
    Doc.get ((transformStateJSON nestedPoolState).bind transformStateJSON)
        (firstInstance ++ ["attributes", "load_shedding"]) =
      some (.obj [("default_percent", .num 50)]) ∧
    (transformStateJSON nestedPoolState).bind transformStateJSON ≠
      transformStateJSON nestedPoolState ∧
    transformLoadBalancerPoolStateJSON
        (transformLoadBalancerPoolStateJSON (some nestedPoolState) firstInstance) firstInstance ≠
      transformLoadBalancerPoolStateJSON (some nestedPoolState) firstInstance := by
  have e1 : (transformStateJSON nestedPoolState).get
      (firstInstance ++ ["attributes", "load_shedding"]) =
      some (.arr [.obj [("default_percent", .num 50)]]) := rfl
  have e2 : Doc.get ((transformStateJSON nestedPoolState).bind transformStateJSON)
      (firstInstance ++ ["attributes", "load_shedding"]) =
      some (.obj [("default_percent", .num 50)]) := rfl
  have e3 : (transformLoadBalancerPoolStateJSON (some nestedPoolState) firstInstance).get
      (firstInstance ++ ["attributes", "load_shedding"]) =
      some (.arr [.obj [("default_percent", .num 50)]]) := rfl
  have e4 : (transformLoadBalancerPoolStateJSON
      (transformLoadBalancerPoolStateJSON (some nestedPoolState) firstInstance)
      firstInstance).get (firstInstance ++ ["attributes", "load_shedding"]) =
      some (.obj [("default_percent", .num 50)]) := rfl
  refine ⟨e1, e2, ?_, ?_⟩
  · intro h
    rw [h, e1] at e2
    cases e2
  · intro h
    rw [h, e3] at e4
    cases e4

/-- C27 (amended): for every state document as Terraform writes it (`regularState`: lists in
`resources` and `instances`, distinct member names in instances, attributes and origins, and no
array as element 0 of a pool's `load_shedding` or `origin_steering`), the tree of
`transformStateJSON` applied twice equals the tree of `transformStateJSON` applied once; and
each rewriter applied twice to an instance gives the document it gives applied once: the pool
rewriter when the attributes object is regular, the load-balancer and the tiered-cache rewriter
when its member names are distinct. -/
theorem transformStateJSON_idempotent (data : JSON) (hregular : regularState data = true) :
    (transformStateJSON data).bind transformStateJSON = transformStateJSON data ∧
    (∀ (json : Doc) (instancePath : List String),
      (∀ attributes, json.get (instancePath ++ ["attributes"]) = some (.obj attributes) →
        regularAttrs attributes = true) →
      transformLoadBalancerPoolStateJSON
          (transformLoadBalancerPoolStateJSON json instancePath) instancePath =
        transformLoadBalancerPoolStateJSON json instancePath) ∧
    (∀ (json : Doc) (instancePath : List String),
      (∀ attributes, json.get (instancePath ++ ["attributes"]) = some (.obj attributes) →
        (attributes.map Prod.fst).Nodup) →
      transformLoadBalancerStateJSON
          (transformLoadBalancerStateJSON json instancePath) instancePath =
        transformLoadBalancerStateJSON json instancePath) ∧
    (∀ (json : Doc) (resourcePath : List String) (k : String),
      (∀ attributes,
        json.get (resourcePath ++ ["instances", k] ++ ["attributes"]) = some (.obj attributes) →
        (attributes.map Prod.fst).Nodup) →
      transformTieredCacheStateJSON
          (transformTieredCacheStateJSON json (resourcePath ++ ["instances", k]) resourcePath)
          (resourcePath ++ ["instances", k]) resourcePath =
        transformTieredCacheStateJSON json (resourcePath ++ ["instances", k]) resourcePath) := by
  refine ⟨?_, ?_, ?_, ?_⟩
  · rw [transformStateJSON_eq, Option.some_bind, transformStateJSON_eq,
      stateAfter_idem data hregular]
  · intro json instancePath h
    exact attrs_rewriter_twice transformLoadBalancerPoolStateJSON poolAttrs
      (fun _ _ _ hk => transformLoadBalancerPoolStateJSON_puts hk)
      (fun _ _ hn => transformLoadBalancerPoolStateJSON_noattrs hn) json instancePath
      (fun kvs hk => poolAttrs_idem kvs (h kvs hk))
  · intro json instancePath h
    exact attrs_rewriter_twice transformLoadBalancerStateJSON transformLoadBalancerState
      (fun _ _ _ hk => transformLoadBalancerStateJSON_puts hk)
      (fun _ _ hn => transformLoadBalancerStateJSON_noattrs hn) json instancePath
      (fun kvs hk => transformLoadBalancerState_idem kvs (h kvs hk))
  · intro json resourcePath k h
    by_cases hk : ∃ kvs,
        json.get (resourcePath ++ ["instances", k] ++ ["attributes"]) = some (.obj kvs)
    · obtain ⟨kvs, hk⟩ := hk
      exact tiered_twice hk (h kvs hk)
    · have e : transformTieredCacheStateJSON json (resourcePath ++ ["instances", k])
          resourcePath = json := by
        refine tiered_unchanged _ _ _ ?_
        intro s hs
        rw [get_member_none (by decide) (fun kvs h => hk ⟨kvs, h⟩)] at hs
        cases hs
      rw [e, e]

/-- C27 (amended), at the example pool document, at the example pool with one-element arrays,
at the example load balancer and at the second instance of the example tiered cache. -/
theorem transformStateJSON_idempotent_witness :
    (transformStateJSON poolDocument).bind transformStateJSON = transformStateJSON poolDocument ∧
    transformLoadBalancerPoolStateJSON
        (transformLoadBalancerPoolStateJSON steeredPoolState firstInstance) firstInstance =
      transformLoadBalancerPoolStateJSON steeredPoolState firstInstance ∧
    transformLoadBalancerStateJSON
        (transformLoadBalancerStateJSON loadBalancerState firstInstance) firstInstance =
      transformLoadBalancerStateJSON loadBalancerState firstInstance ∧
    transformTieredCacheStateJSON
        (transformTieredCacheStateJSON tieredCacheState (["resources", "0"] ++ ["instances", "1"])
          ["resources", "0"])
        (["resources", "0"] ++ ["instances", "1"]) ["resources", "0"] =
      transformTieredCacheStateJSON tieredCacheState (["resources", "0"] ++ ["instances", "1"])
        ["resources", "0"] :=
  ⟨(transformStateJSON_idempotent poolDocument (by decide)).1,
   (transformStateJSON_idempotent poolDocument (by decide)).2.1 steeredPoolState firstInstance
      (fun attributes h => by
        have e : some (JSON.obj steeredPoolAttributes) = some (JSON.obj attributes) := h
        cases e
        decide),
   (transformStateJSON_idempotent poolDocument (by decide)).2.2.1 loadBalancerState
      firstInstance
      (fun attributes h => by
        have e : some (JSON.obj loadBalancerAttributes) = some (JSON.obj attributes) := h
        cases e
        decide),
   (transformStateJSON_idempotent poolDocument (by decide)).2.2.2 tieredCacheState
      ["resources", "0"] "1"
      (fun attributes h => by
        have e : some (JSON.obj [("cache_type", .str "generic"), ("zone_id", .str "z2")]) =
            some (JSON.obj attributes) := h
        cases e
        decide)⟩
/-! ## Access policy state: session duration, approval groups, attributes without a successor -/

/-- C28: `transformZeroTrustAccessPolicyStateJSON` sets `session_duration` to `"24h"` if and
only if the key is absent from the attributes of the instance: when the key is absent the
result holds `"24h"`, and when it is present, with whatever value (`null` included), the result
holds that value.  The rewriter returns when the elements of the arrays it reads are
objects. -/
theorem policy_session_duration (iter : List (String × JSON) → List (String × JSON))
    (json : Doc) (instancePath : List String) (attributes : List (String × JSON))
    (hattrs : json.get (instancePath ++ ["attributes"]) = some (.obj attributes)) :
    ((∀ b ∈ ["include", "exclude", "require", "approval_group"], ∀ xs,
        lookupKey b attributes = some (.arr xs) → ∀ c ∈ xs, ∃ m, c = .obj m) →
      ∃ r, transformZeroTrustAccessPolicyStateJSON iter json instancePath = some r) ∧
    ∀ r, transformZeroTrustAccessPolicyStateJSON iter json instancePath = some r →
      (lookupKey "session_duration" attributes = none →
        r.get (instancePath ++ ["attributes"] ++ ["session_duration"]) = some (.str "24h")) ∧
      (∀ x, lookupKey "session_duration" attributes = some x →
        r.get (instancePath ++ ["attributes"] ++ ["session_duration"]) = some x) := by
  have h0 := (focus_iff_get _ _ _).mpr hattrs
  refine ⟨fun hobj => policy_total iter h0 hobj, ?_⟩
  intro r hr
  obtain ⟨kvs', hF, h1, h2, -, -⟩ := policy_full iter h0 hr
  rw [focus_get hF]
  exact ⟨h1, h2⟩

/-- C28, at the example policy, which has no `session_duration`, and at a policy whose
`session_duration` is `null`. -/
theorem policy_session_duration_witness :
    (∃ r, transformZeroTrustAccessPolicyStateJSON id policyState firstInstance = some r ∧
      r.get (firstInstance ++ ["attributes"] ++ ["session_duration"]) = some (.str "24h")) ∧
    ∀ r, transformZeroTrustAccessPolicyStateJSON id
        (some (.obj [("resources", .arr [.obj [("instances", .arr [.obj [("attributes",
          .obj [("session_duration", .null)])]])]])])) firstInstance = some r →
      r.get (firstInstance ++ ["attributes"] ++ ["session_duration"]) = some .null := by
  have h := policy_session_duration id policyState firstInstance policyAttributes rfl
  have h2 := policy_session_duration id
    (some (.obj [("resources", .arr [.obj [("instances", .arr [.obj [("attributes",
      .obj [("session_duration", .null)])]])]])])) firstInstance
    [("session_duration", .null)] rfl
  obtain ⟨r, hr⟩ := h.1 policyAttributes_objects
  exact ⟨⟨r, hr, (h.2 r hr).1 rfl⟩, fun r2 hr2 => (h2.2 r2 hr2).2 .null rfl⟩

/-- C30: whenever `transformZeroTrustAccessPolicyStateJSON` returns (and it returns when the
elements of the arrays it reads are objects), the attributes of the instance (member names
distinct) contain none of the keys `zone_id`, `application_id`, `precedence` and
`connection_rules`, whatever values they held before. -/
theorem policy_unsupported_removed (iter : List (String × JSON) → List (String × JSON))
    (json : Doc) (instancePath : List String) (attributes : List (String × JSON))
    (hattrs : json.get (instancePath ++ ["attributes"]) = some (.obj attributes))
    (hkeys : (attributes.map Prod.fst).Nodup) :
    ((∀ b ∈ ["include", "exclude", "require", "approval_group"], ∀ xs,
        lookupKey b attributes = some (.arr xs) → ∀ c ∈ xs, ∃ m, c = .obj m) →
      ∃ r, transformZeroTrustAccessPolicyStateJSON iter json instancePath = some r) ∧
    ∀ r, transformZeroTrustAccessPolicyStateJSON iter json instancePath = some r →
      ∀ k ∈ ["zone_id", "application_id", "precedence", "connection_rules"],
        r.get (instancePath ++ ["attributes"] ++ [k]) = none := by
  have h0 := (focus_iff_get _ _ _).mpr hattrs
  refine ⟨fun hobj => policy_total iter h0 hobj, ?_⟩
  intro r hr k hk
  obtain ⟨kvs', hF, -, -, h3, -⟩ := policy_full iter h0 hr
  rw [focus_get hF]
  exact h3 hkeys k hk

/-- C30, at the example policy, which holds `zone_id` and `precedence`. -/
theorem policy_unsupported_removed_witness :
    ∃ r, transformZeroTrustAccessPolicyStateJSON id policyState firstInstance = some r ∧
      r.get (firstInstance ++ ["attributes"] ++ ["zone_id"]) = none ∧
      r.get (firstInstance ++ ["attributes"] ++ ["precedence"]) = none := by
  have h := policy_unsupported_removed id policyState firstInstance policyAttributes rfl
    (by decide)
  obtain ⟨r, hr⟩ := h.1 policyAttributes_objects
  exact ⟨r, hr, h.2 r hr "zone_id" (by decide), h.2 r hr "precedence" (by decide)⟩
/-! ## The body of a block under `SetAttributeRaw` -/

theorem getAttribute_setAttributeRaw_self (name : String) (tokens : List Token)
    (body : List BodyItem) :
    getAttribute name (setAttributeRaw name tokens body) = some tokens := by
  induction body with
  | nil => simp [setAttributeRaw, getAttribute]
  | cons item rest ih =>
    cases item with
    | attr n e c =>
      by_cases h : n = name
      · simp [setAttributeRaw, getAttribute, h]
      · simp [setAttributeRaw, getAttribute, h, ih]
    | other ts => simp [setAttributeRaw, getAttribute, ih]

theorem getAttribute_setAttributeRaw_ne {name k : String} (hne : k ≠ name) (tokens : List Token)
    (body : List BodyItem) :
    getAttribute k (setAttributeRaw name tokens body) = getAttribute k body := by
  induction body with
  | nil => simp [setAttributeRaw, getAttribute, Ne.symm hne]
  | cons item rest ih =>
    cases item with
    | attr n e c =>
      by_cases h : n = name
      · subst h
        simp [setAttributeRaw, getAttribute, Ne.symm hne]
      · by_cases h2 : n = k
        · subst h2
          simp [setAttributeRaw, getAttribute, hne]
        · simp [setAttributeRaw, getAttribute, h, h2, ih]
    | other ts => simp [setAttributeRaw, getAttribute, ih]

theorem sameBody_refl (names : List String) (body : List BodyItem) :
    List.Forall₂ (SameButExpr names) body body := by
  induction body with
  | nil => exact List.Forall₂.nil
  | cons item rest ih => exact List.Forall₂.cons (Or.inl rfl) ih

theorem sameButExpr_trans {names : List String} {x y z : BodyItem}
    (h1 : SameButExpr names x y) (h2 : SameButExpr names y z) : SameButExpr names x z := by
  rcases h1 with rfl | ⟨n, e, e1, c, hn, rfl, rfl⟩
  · exact h2
  · rcases h2 with rfl | ⟨n2, e2, e3, c2, _, h3, rfl⟩
    · exact Or.inr ⟨n, e, e1, c, hn, rfl, rfl⟩
    · cases h3
      exact Or.inr ⟨n, e, e3, c, hn, rfl, rfl⟩

theorem sameBody_trans {names : List String} {a b c : List BodyItem}
    (h1 : List.Forall₂ (SameButExpr names) a b) (h2 : List.Forall₂ (SameButExpr names) b c) :
    List.Forall₂ (SameButExpr names) a c := by
  induction h1 generalizing c with
  | nil =>
    cases h2
    exact List.Forall₂.nil
  | cons hxy _ ih =>
    cases h2 with
    | cons hyz hrest => exact List.Forall₂.cons (sameButExpr_trans hxy hyz) (ih hrest)

/-- Replacing the expression of an attribute that exists leaves every item where it is, and
changes the expression of that attribute only. -/
theorem sameBody_setAttributeRaw {names : List String} {name : String} (hn : name ∈ names)
    (tokens : List Token) (body : List BodyItem) {e : List Token}
    (h : getAttribute name body = some e) :
    List.Forall₂ (SameButExpr names) body (setAttributeRaw name tokens body) := by
  induction body with
  | nil => simp [getAttribute] at h
  | cons item rest ih =>
    cases item with
    | attr n e0 c =>
      by_cases hq : n = name
      · subst hq
        simp only [setAttributeRaw, if_true]
        exact List.Forall₂.cons (Or.inr ⟨n, e0, tokens, c, hn, rfl, rfl⟩) (sameBody_refl _ _)
      · simp only [setAttributeRaw, if_neg hq]
        simp only [getAttribute, if_neg hq] at h
        exact List.Forall₂.cons (Or.inl rfl) (ih h)
    | other ts =>
      simp only [setAttributeRaw]
      simp only [getAttribute] at h
      exact List.Forall₂.cons (Or.inl rfl) (ih h)

/-- One turn of the loop of `transformAccessPolicyBlock`. -/
theorem transformConditionAttribute_spec (names : List String) (body : List BodyItem)
    (a : String) (ha : a ∈ names) :
    List.Forall₂ (SameButExpr names) body (transformConditionAttribute body a) ∧
      (∀ k, k ≠ a →
        getAttribute k (transformConditionAttribute body a) = getAttribute k body) ∧
      (getAttribute a body = none →
        getAttribute a (transformConditionAttribute body a) = none) ∧
      (∀ tokens, getAttribute a body = some tokens →
        getAttribute a (transformConditionAttribute body a) =
          some ((transformConditionListTokens tokens).getD tokens)) := by
  obtain ⟨o, hg⟩ : ∃ o, getAttribute a body = o := ⟨_, rfl⟩
  cases o with
  | none =>
    have e : transformConditionAttribute body a = body := by
      simp only [transformConditionAttribute, hg]
    rw [e]
    exact ⟨sameBody_refl _ _, fun _ _ => rfl, fun h => h, fun _ h => by rw [hg] at h; cases h⟩
  | some tokens =>
    obtain ⟨o2, ht⟩ : ∃ o2, transformConditionListTokens tokens = o2 := ⟨_, rfl⟩
    cases o2 with
    | none =>
      have e : transformConditionAttribute body a = body := by
        simp only [transformConditionAttribute, hg, ht]
      rw [e]
      refine ⟨sameBody_refl _ _, fun _ _ => rfl, fun h => h, ?_⟩
      intro t h
      rw [hg] at h
      cases h
      rw [ht, hg]
      rfl
    | some t2 =>
      have e : transformConditionAttribute body a = setAttributeRaw a t2 body := by
        simp only [transformConditionAttribute, hg, ht]
      rw [e]
      refine ⟨sameBody_setAttributeRaw ha t2 body hg,
        fun k hk => getAttribute_setAttributeRaw_ne hk t2 body,
        (fun h => by rw [hg] at h; cases h), ?_⟩
      intro t h
      rw [hg] at h
      cases h
      rw [ht]
      exact getAttribute_setAttributeRaw_self a t2 body

/-- The tokens that `transformConditionListTokens` makes the caller keep or write. -/
theorem transformConditionListTokens_getD (tokens : List Token) :
    (transformConditionString (tokens.flatMap fun t => t.bytes) =
        (tokens.flatMap fun t => t.bytes) →
      (transformConditionListTokens tokens).getD tokens = tokens) ∧
    (transformConditionString (tokens.flatMap fun t => t.bytes) ≠
        (tokens.flatMap fun t => t.bytes) →
      (transformConditionListTokens tokens).getD tokens =
        [⟨true, transformConditionString (tokens.flatMap fun t => t.bytes)⟩]) := by
  unfold transformConditionListTokens
  simp only []
  constructor
  · intro h
    rw [if_pos h.symm]
    rfl
  · intro h
    rw [if_neg (fun e => h e.symm)]
    rfl

/-- What `transformAccessPolicyBlock` leaves in the body. -/
theorem transformAccessPolicyBlock_spec (body : List BodyItem) :
    List.Forall₂ (SameButExpr ["include", "exclude", "require"]) body
        (transformAccessPolicyBlock body) ∧
      (∀ k, k ∉ ["include", "exclude", "require"] →
        getAttribute k (transformAccessPolicyBlock body) = getAttribute k body) ∧
      (∀ a ∈ ["include", "exclude", "require"],
        (getAttribute a body = none → getAttribute a (transformAccessPolicyBlock body) = none) ∧
        ∀ tokens, getAttribute a body = some tokens →
          getAttribute a (transformAccessPolicyBlock body) =
            some ((transformConditionListTokens tokens).getD tokens)) := by
  obtain ⟨s1, n1, a1, v1⟩ := transformConditionAttribute_spec
    ["include", "exclude", "require"] body "include" (by decide)
  obtain ⟨s2, n2, a2, v2⟩ := transformConditionAttribute_spec
    ["include", "exclude", "require"] (transformConditionAttribute body "include")
    "exclude" (by decide)
  obtain ⟨s3, n3, a3, v3⟩ := transformConditionAttribute_spec
    ["include", "exclude", "require"]
    (transformConditionAttribute (transformConditionAttribute body "include") "exclude")
    "require" (by decide)
  have e : transformAccessPolicyBlock body = transformConditionAttribute
      (transformConditionAttribute (transformConditionAttribute body "include") "exclude")
      "require" := rfl
  rw [e]
  refine ⟨sameBody_trans (sameBody_trans s1 s2) s3, ?_, ?_⟩
  · intro k hk
    simp only [List.mem_cons, List.mem_singleton, List.not_mem_nil, or_false, not_or] at hk
    rw [n3 k hk.2.2, n2 k hk.2.1, n1 k hk.1]
  · intro a ha
    simp only [List.mem_cons, List.mem_singleton, List.not_mem_nil, or_false] at ha
    rcases ha with rfl | rfl | rfl
    · rw [n3 _ (by decide), n2 _ (by decide)]
      exact ⟨a1, v1⟩
    · rw [n3 _ (by decide)]
      refine ⟨fun h => a2 ((n1 _ (by decide)).trans h), fun t h => ?_⟩
      exact v2 t ((n1 _ (by decide)).trans h)
    · have e1 : getAttribute "require"
          (transformConditionAttribute (transformConditionAttribute body "include") "exclude") =
          getAttribute "require" body := by
        rw [n2 _ (by decide), n1 _ (by decide)]
      exact ⟨fun h => a3 (e1.trans h), fun t h => v3 t (e1.trans h)⟩
/-! ## The steps of the policy rewriter: when they return, and the conditions they write -/

theorem mapOrPanic_objects {β : Type} {f : JSON → Option β}
    (hf : ∀ c, (∀ m, c ≠ .obj m) → f c = none) :
    ∀ (cs : List JSON) (parts : List β), mapOrPanic f cs = some parts →
      ∀ c ∈ cs, ∃ m, c = .obj m := by
  intro cs
  induction cs with
  | nil =>
    intro _ _ c hc
    exact absurd hc (List.not_mem_nil _)
  | cons c0 cs ih =>
    intro parts h c hc
    cases h0 : f c0 with
    | none => simp [mapOrPanic, h0] at h
    | some y =>
      cases hm : mapOrPanic f cs with
      | none => simp [mapOrPanic, h0, hm] at h
      | some ys =>
        rcases List.mem_cons.mp hc with rfl | hc
        · by_contra hno
          have := hf c (fun m hm2 => hno ⟨m, hm2⟩)
          rw [this] at h0
          cases h0
        · exact ih ys hm c hc

theorem mapOrPanic_map_obj {β : Type} (g : List (String × JSON) → β)
    (ms : List (List (String × JSON))) :
    mapOrPanic (fun c => (assertObject c).map g) (ms.map JSON.obj) = some (ms.map g) := by
  induction ms with
  | nil => rfl
  | cons m ms ih =>
    show ((assertObject (.obj m)).map g).bind
      (fun y => (mapOrPanic (fun c => (assertObject c).map g) (ms.map JSON.obj)).map
        fun ys => y :: ys) = _
    rw [ih]
    rfl

theorem assertObject_not_obj {c : JSON} (h : ∀ m, c ≠ .obj m) : assertObject c = none := by
  cases c with
  | obj m => exact absurd rfl (h m)
  | arr xs => rfl
  | null => rfl
  | bool b => rfl
  | num q => rfl
  | str s => rfl

/-- When step 1 returns, the elements of an `approval_group` array are objects. -/
theorem migrateApprovalGroup_objects {P : List String} {d d' : Doc}
    {kvs : List (String × JSON)} (h : Focus P d kvs)
    (hr : migrateApprovalGroup P d = some d') :
    ∀ gs, lookupKey "approval_group" kvs = some (.arr gs) →
      ∀ g ∈ gs, ∃ m, g = .obj m := by
  intro gs hl g hg
  unfold migrateApprovalGroup at hr
  rw [focus_get h, hl] at hr
  have hlen : gs.length > 0 := List.length_pos_of_mem hg
  simp only [hlen, if_true] at hr
  cases hm : mapOrPanic convertApprovalGroup gs with
  | none => simp [hm] at hr
  | some gs2 =>
    refine mapOrPanic_objects ?_ gs gs2 hm g hg
    intro c hc
    simp [convertApprovalGroup, assertObject_not_obj hc]

/-- When the step for a condition attribute returns, the elements of its array are objects. -/
theorem migrateConditionAttr_objects (iter : List (String × JSON) → List (String × JSON))
    {P : List String} {d d' : Doc} {kvs : List (String × JSON)} (h : Focus P d kvs)
    {b : String} (hr : migrateConditionAttr iter P d b = some d') :
    ∀ cs, lookupKey b kvs = some (.arr cs) → ∀ c ∈ cs, ∃ m, c = .obj m := by
  intro cs hl c hc
  unfold migrateConditionAttr at hr
  rw [focus_get h, hl] at hr
  cases hm : mapOrPanic
      (fun c => (assertObject c).map fun m => transformConditionObject (iter m)) cs with
  | none =>
    have hr2 : Option.map _ (mapOrPanic _ cs) = some d' := hr
    rw [hm] at hr2
    cases hr2
  | some parts =>
    refine mapOrPanic_objects ?_ cs parts hm c hc
    intro c hc
    simp [assertObject_not_obj hc]

/-- The step for a condition attribute that holds the objects `ms`, when their expansions make
a list that is not empty: the attribute holds that list afterwards. -/
theorem migrateConditionAttr_value (iter : List (String × JSON) → List (String × JSON))
    {P : List String} {d d' : Doc} {kvs : List (String × JSON)} (h : Focus P d kvs)
    {b : String} {ms : List (List (String × JSON))}
    (hl : lookupKey b kvs = some (.arr (ms.map JSON.obj)))
    (hne : (ms.flatMap fun m => transformConditionObject (iter m)) ≠ [])
    (hr : migrateConditionAttr iter P d b = some d') :
    ∃ kvs', Focus P d' kvs' ∧
      lookupKey b kvs' =
        some (.arr (ms.flatMap fun m => transformConditionObject (iter m))) ∧
      ∀ k, k ≠ b → lookupKey k kvs' = lookupKey k kvs := by
  unfold migrateConditionAttr at hr
  rw [focus_get h, hl] at hr
  have hr2 : Option.map _ (mapOrPanic
      (fun c => (assertObject c).map fun m => transformConditionObject (iter m))
      (ms.map JSON.obj)) = some d' := hr
  rw [mapOrPanic_map_obj] at hr2
  have hlen : (ms.map fun m => transformConditionObject (iter m)).flatten.length > 0 :=
    List.length_pos.mpr hne
  have hr3 : some (d.set (P ++ [b])
      (.arr (ms.map fun m => transformConditionObject (iter m)).flatten)) = some d' :=
    (congrArg some (if_pos hlen)).symm.trans hr2
  cases hr3
  exact ⟨_, focus_set h b _, lookupKey_assignKey_self _ _ _,
    fun k hk => lookupKey_assignKey_ne hk _ _⟩

/-- The steps of `transformZeroTrustAccessPolicyStateJSON`, when it returns. -/
theorem policy_chain (iter : List (String × JSON) → List (String × JSON)) {json r : Doc}
    {instancePath : List String}
    (hr : transformZeroTrustAccessPolicyStateJSON iter json instancePath = some r) :
    ∃ d1 d2 d3 d4, migrateApprovalGroup (instancePath ++ ["attributes"]) json = some d1 ∧
      migrateConditionAttr iter (instancePath ++ ["attributes"]) d1 "include" = some d2 ∧
      migrateConditionAttr iter (instancePath ++ ["attributes"]) d2 "exclude" = some d3 ∧
      migrateConditionAttr iter (instancePath ++ ["attributes"]) d3 "require" = some d4 ∧
      r = defaultSessionDuration (instancePath ++ ["attributes"])
        (deleteUnsupported (instancePath ++ ["attributes"]) d4) := by
  simp only [transformZeroTrustAccessPolicyStateJSON, List.foldlM_cons, List.foldlM_nil,
    Option.bind_eq_bind, Option.pure_def, bind, pure] at hr
  cases e1 : migrateApprovalGroup (instancePath ++ ["attributes"]) json with
  | none => simp [e1] at hr
  | some d1 =>
    rw [e1] at hr
    simp only [Option.some_bind] at hr
    cases e2 : migrateConditionAttr iter (instancePath ++ ["attributes"]) d1 "include" with
    | none => simp [e2] at hr
    | some d2 =>
      rw [e2] at hr
      simp only [Option.some_bind] at hr
      cases e3 : migrateConditionAttr iter (instancePath ++ ["attributes"]) d2 "exclude" with
      | none => simp [e3] at hr
      | some d3 =>
        rw [e3] at hr
        simp only [Option.some_bind] at hr
        cases e4 : migrateConditionAttr iter (instancePath ++ ["attributes"]) d3 "require" with
        | none => simp [e4] at hr
        | some d4 =>
          rw [e4] at hr
          simp only [Option.some_bind, Option.map_some', Option.some.injEq] at hr
          exact ⟨d1, d2, d3, d4, rfl, e2, e3, e4, hr.symm⟩

/-- The rewriter returns exactly when the elements of the arrays it reads are objects. -/
theorem policy_returns_iff (iter : List (String × JSON) → List (String × JSON)) {json : Doc}
    {instancePath : List String} {kvs : List (String × JSON)}
    (h : Focus (instancePath ++ ["attributes"]) json kvs) :
    (∃ r, transformZeroTrustAccessPolicyStateJSON iter json instancePath = some r) ↔
      ∀ b ∈ ["include", "exclude", "require", "approval_group"], ∀ xs,
        lookupKey b kvs = some (.arr xs) → ∀ c ∈ xs, ∃ m, c = .obj m := by
  refine ⟨?_, policy_total iter h⟩
  rintro ⟨r, hr⟩
  obtain ⟨d1, d2, d3, d4, e1, e2, e3, e4, -⟩ := policy_chain iter hr
  obtain ⟨kvs1, hF1, hk1⟩ := migrateApprovalGroup_result h e1
  obtain ⟨kvs2, hF2, hk2⟩ := migrateConditionAttr_result iter hF1 e2
  obtain ⟨kvs3, hF3, hk3⟩ := migrateConditionAttr_result iter hF2 e3
  intro b hb xs hl
  simp only [List.mem_cons, List.mem_singleton, List.not_mem_nil, or_false] at hb
  rcases hb with rfl | rfl | rfl | rfl
  · refine migrateConditionAttr_objects iter hF1 e2 xs ?_
    rw [hk1 _ (by decide) (by decide)]
    exact hl
  · refine migrateConditionAttr_objects iter hF2 e3 xs ?_
    rw [hk2 _ (by decide), hk1 _ (by decide) (by decide)]
    exact hl
  · refine migrateConditionAttr_objects iter hF3 e4 xs ?_
    rw [hk3 _ (by decide), hk2 _ (by decide), hk1 _ (by decide) (by decide)]
    exact hl
  · exact migrateApprovalGroup_objects h e1 xs hl

/-- The condition attribute `a` after the rewriter, when it holds the objects `ms` and their
expansions make a list that is not empty. -/
theorem policy_condition_value (iter : List (String × JSON) → List (String × JSON))
    {json r : Doc} {instancePath : List String} {kvs : List (String × JSON)}
    (h : Focus (instancePath ++ ["attributes"]) json kvs)
    (hr : transformZeroTrustAccessPolicyStateJSON iter json instancePath = some r)
    {a : String} (ha : a ∈ ["include", "exclude", "require"])
    {ms : List (List (String × JSON))}
    (hl : lookupKey a kvs = some (.arr (ms.map JSON.obj)))
    (hne : (ms.flatMap fun m => transformConditionObject (iter m)) ≠ []) :
    r.get (instancePath ++ ["attributes"] ++ [a]) =
      some (.arr (ms.flatMap fun m => transformConditionObject (iter m))) := by
  obtain ⟨d1, d2, d3, d4, e1, e2, e3, e4, rfl⟩ := policy_chain iter hr
  obtain ⟨kvs1, hF1, hk1⟩ := migrateApprovalGroup_result h e1
  have tail : ∀ {kvs4 : List (String × JSON)}, Focus (instancePath ++ ["attributes"]) d4 kvs4 →
      lookupKey a kvs4 = some (.arr (ms.flatMap fun m => transformConditionObject (iter m))) →
      (defaultSessionDuration (instancePath ++ ["attributes"])
        (deleteUnsupported (instancePath ++ ["attributes"]) d4)).get
          (instancePath ++ ["attributes"] ++ [a]) =
        some (.arr (ms.flatMap fun m => transformConditionObject (iter m))) := by
    intro kvs4 hF4 hv
    obtain ⟨kvs5, hF5, hk5, -⟩ := deleteUnsupported_full hF4
    obtain ⟨kvs6, hF6, hk6, -, -⟩ := defaultSessionDuration_full hF5
    have n1 : a ≠ "session_duration" ∧
        a ∉ ["zone_id", "application_id", "precedence", "connection_rules"] := by
      simp only [List.mem_cons, List.mem_singleton, List.not_mem_nil, or_false] at ha
      rcases ha with rfl | rfl | rfl <;> decide
    rw [focus_get hF6, hk6 a n1.1, hk5 a n1.2]
    exact hv
  have n0 : a ≠ "approval_group" ∧ a ≠ "approval_groups" := by
    simp only [List.mem_cons, List.mem_singleton, List.not_mem_nil, or_false] at ha
    rcases ha with rfl | rfl | rfl <;> decide
  have hl1 : lookupKey a kvs1 = some (.arr (ms.map JSON.obj)) := by
    rw [hk1 a n0.1 n0.2]
    exact hl
  simp only [List.mem_cons, List.mem_singleton, List.not_mem_nil, or_false] at ha
  rcases ha with rfl | rfl | rfl
  · obtain ⟨kvs2, hF2, hv2, -⟩ := migrateConditionAttr_value iter hF1 hl1 hne e2
    obtain ⟨kvs3, hF3, hk3⟩ := migrateConditionAttr_result iter hF2 e3
    obtain ⟨kvs4, hF4, hk4⟩ := migrateConditionAttr_result iter hF3 e4
    refine tail hF4 ?_
    rw [hk4 _ (by decide), hk3 _ (by decide)]
    exact hv2
  · obtain ⟨kvs2, hF2, hk2⟩ := migrateConditionAttr_result iter hF1 e2
    obtain ⟨kvs3, hF3, hv3, -⟩ := migrateConditionAttr_value iter hF2
      (by rw [hk2 _ (by decide)]; exact hl1) hne e3
    obtain ⟨kvs4, hF4, hk4⟩ := migrateConditionAttr_result iter hF3 e4
    refine tail hF4 ?_
    rw [hk4 _ (by decide)]
    exact hv3
  · obtain ⟨kvs2, hF2, hk2⟩ := migrateConditionAttr_result iter hF1 e2
    obtain ⟨kvs3, hF3, hk3⟩ := migrateConditionAttr_result iter hF2 e3
    obtain ⟨kvs4, hF4, hv4, -⟩ := migrateConditionAttr_value iter hF3
      (by rw [hk3 _ (by decide), hk2 _ (by decide)]; exact hl1) hne e4
    exact tail hF4 hv4
/-! ## What the load-balancer rewriter leaves alone, and the type of a tiered cache resource -/

theorem lookupKey_emptySliceToMap_keep {k : String} (m : List (String × JSON)) (attr : String)
    (h : lookupKey k m ≠ some (.arr [])) :
    lookupKey k (emptySliceToMap m attr) = lookupKey k m := by
  by_cases hk : k = attr
  · subst hk
    unfold emptySliceToMap
    split
    · next heq => exact absurd heq h
    · rfl
  · exact lookupKey_emptySliceToMap_ne hk m

theorem foldl_deleteEmptySlice_keep {k : String} (names : List String)
    (m : List (String × JSON)) (h : lookupKey k m ≠ some (.arr [])) :
    lookupKey k (names.foldl deleteEmptySlice m) = lookupKey k m := by
  induction names generalizing m with
  | nil => rfl
  | cons n names ih =>
    have e := lookupKey_deleteEmptySlice_keep m n h
    rw [List.foldl_cons, ih _ (by rw [e]; exact h), e]

theorem foldl_emptySliceToMap_keep {k : String} (names : List String)
    (m : List (String × JSON)) (h : lookupKey k m ≠ some (.arr [])) :
    lookupKey k (names.foldl emptySliceToMap m) = lookupKey k m := by
  induction names generalizing m with
  | nil => rfl
  | cons n names ih =>
    have e := lookupKey_emptySliceToMap_keep m n h
    rw [List.foldl_cons, ih _ (by rw [e]; exact h), e]

theorem renameKey_of_none {old : String} (new : String) {m : List (String × JSON)}
    (h : lookupKey old m = none) : renameKey old new m = m := by
  simp only [renameKey, h]

/-- A member that is not one of the four names of the renamings, and that is not an empty array
under one of the seven names of the loops, is left as it is by `transformLoadBalancerState`. -/
theorem transformLoadBalancerState_keep (m : List (String × JSON)) (k : String)
    (hk : k ∉ ["fallback_pool_id", "fallback_pool", "default_pool_ids", "default_pools"])
    (hv : k ∉ ["adaptive_routing", "location_strategy", "random_steering",
        "session_affinity_attributes", "country_pools", "pop_pools", "region_pools"] ∨
      lookupKey k m ≠ some (.arr [])) :
    lookupKey k (transformLoadBalancerState m) = lookupKey k m := by
  simp only [List.mem_cons, List.mem_singleton, List.not_mem_nil, or_false, not_or] at hk
  have e2 : lookupKey k (renameKey "default_pool_ids" "default_pools"
      (renameKey "fallback_pool_id" "fallback_pool" m)) = lookupKey k m := by
    rw [lookupKey_renameKey_ne hk.2.2.1 hk.2.2.2, lookupKey_renameKey_ne hk.1 hk.2.1]
  unfold transformLoadBalancerState
  simp only []
  rcases hv with hv | hv
  · have h1 : k ∉ ["adaptive_routing", "location_strategy", "random_steering",
        "session_affinity_attributes"] := fun h => hv (by
      simp only [List.mem_cons, List.mem_singleton, List.not_mem_nil, or_false] at h ⊢
      tauto)
    have h2 : k ∉ ["country_pools", "pop_pools", "region_pools"] := fun h => hv (by
      simp only [List.mem_cons, List.mem_singleton, List.not_mem_nil, or_false] at h ⊢
      tauto)
    rw [lookupKey_foldl_emptySliceToMap_ne _ h2, lookupKey_foldl_deleteEmptySlice_ne _ h1, e2]
  · have e3 := foldl_deleteEmptySlice_keep (k := k) ["adaptive_routing", "location_strategy",
      "random_steering", "session_affinity_attributes"] _ (by rw [e2]; exact hv)
    rw [foldl_emptySliceToMap_keep _ _ (by rw [e3, e2]; exact hv), e3, e2]

/-- The new name of a renaming is left as it is when the old name is absent. -/
theorem transformLoadBalancerState_new_name (m : List (String × JSON)) (old new : String)
    (hname : (old, new) ∈
      [("fallback_pool_id", "fallback_pool"), ("default_pool_ids", "default_pools")])
    (hv : lookupKey old m = none) :
    lookupKey new (transformLoadBalancerState m) = lookupKey new m := by
  simp only [List.mem_cons, List.mem_singleton, List.not_mem_nil, or_false, Prod.mk.injEq] at hname
  unfold transformLoadBalancerState
  simp only []
  rcases hname with ⟨rfl, rfl⟩ | ⟨rfl, rfl⟩
  · rw [lookupKey_foldl_emptySliceToMap_ne _ (by decide),
      lookupKey_foldl_deleteEmptySlice_ne _ (by decide),
      lookupKey_renameKey_ne (by decide) (by decide), renameKey_of_none _ hv]
  · have h1 : lookupKey "default_pool_ids" (renameKey "fallback_pool_id" "fallback_pool" m) =
        none := by
      rw [lookupKey_renameKey_ne (by decide) (by decide), hv]
    rw [lookupKey_foldl_emptySliceToMap_ne _ (by decide),
      lookupKey_foldl_deleteEmptySlice_ne _ (by decide), renameKey_of_none _ h1,
      lookupKey_renameKey_ne (by decide) (by decide)]

/-- A rewriter that replaces the tree at `P` writes the new tree there and nothing else. -/
theorem Puts.eq_set {P : List String} {d d' : Doc} {x y : JSON} (h : Puts P d d' x y) :
    d' = d.set P y := by
  obtain ⟨j, rfl, -, rfl⟩ := h
  rfl

theorem isGenericInstance_iff (inst : JSON) :
    isGenericInstance inst = true ↔
      getPath ["attributes", "cache_type"] inst = some (.str "generic") := by
  unfold isGenericInstance
  obtain ⟨o, ho⟩ : ∃ o, getPath ["attributes", "cache_type"] inst = o := ⟨_, rfl⟩
  rw [ho]
  cases o with
  | none => simp
  | some v =>
    cases v with
    | str s => simp
    | null => simp
    | bool b => simp
    | num q => simp
    | arr xs => simp
    | obj m => simp

/-- The members of an instance of a tiered cache after its turn. -/
theorem getPath_tieredInstance {inst : JSON} {attributes : List (String × JSON)}
    (h : getPath ["attributes"] inst = some (.obj attributes)) (k : String) :
    getPath ["attributes", k] (withAttributes tieredAttrs inst) =
      lookupKey k (tieredAttrs attributes) := by
  obtain ⟨ikvs, rfl, hl⟩ := obj_of_getPath (by decide) h
  simp only [withAttributes, hl, getPath, lookupKey_assignKey_self, Option.some_bind]
  cases lookupKey k (tieredAttrs attributes) <;> rfl
/-! ## The state file, the configuration block, and the legacy functions -/

/-- C31 (the code at every input): `transformStateJSON` has no failing return.  Whatever the
bytes are, and whatever `gjson`, `sjson` and `pretty` make of them, the error it returns is
`nil`; so `transformStateFile`, once the file is read, hands the bytes it got to
`os.WriteFile`, and returns `nil` when the write succeeds.  Bytes that are not a JSON text are
written back, not reported. -/
theorem transformStateJSON_never_fails (lib : TextLibrary) (data : List Char)
    (write : List Char → Option String) :
    (transformStateJSONBytes lib data).2 = none ∧
    (transformStateFile lib (.ok data) write).2 = some (transformStateJSONBytes lib data).1 ∧
    transformStateFile lib (.ok data) (fun _ => none) =
      (none, some (transformStateJSONBytes lib data).1) ∧
    transformStateJSONBytes lib data =
      (if lib.resourcesExist data then lib.prettyOptions (lib.rewriteResources data) else data,
        none) := by
  have e : transformStateJSONBytes lib data =
      (if lib.resourcesExist data then lib.prettyOptions (lib.rewriteResources data) else data,
        none) := by
    unfold transformStateJSONBytes
    cases lib.resourcesExist data <;> rfl
  refine ⟨by rw [e], ?_, ?_, e⟩
  · simp only [transformStateFile, e]
    cases write (if lib.resourcesExist data = true then
      lib.prettyOptions (lib.rewriteResources data) else data) <;> rfl
  · simp only [transformStateFile, e]

/-- C32: `transformAccessPolicyBlock` changes only the expression of the attributes `include`,
`exclude` and `require`.  The items of the body after the call stand one to one, in order, for
the items before it, and each is the item it was or an attribute of one of the three names with
the name and the comments it had; every attribute of another name has the expression it had; an
absent `include`, `exclude` or `require` is still absent; one whose text
`transformConditionString` returns unchanged keeps its tokens; and one whose text changes holds
the one token with the new text. -/
theorem accessPolicyBlock_frame (body : List BodyItem) :
    List.Forall₂ (SameButExpr ["include", "exclude", "require"]) body
        (transformAccessPolicyBlock body) ∧
    (∀ k, k ∉ ["include", "exclude", "require"] →
      getAttribute k (transformAccessPolicyBlock body) = getAttribute k body) ∧
    (∀ a ∈ ["include", "exclude", "require"],
      (getAttribute a body = none → getAttribute a (transformAccessPolicyBlock body) = none) ∧
      ∀ tokens, getAttribute a body = some tokens →
        (transformConditionString (tokens.flatMap fun t => t.bytes) =
            (tokens.flatMap fun t => t.bytes) →
          getAttribute a (transformAccessPolicyBlock body) = some tokens) ∧
        (transformConditionString (tokens.flatMap fun t => t.bytes) ≠
            (tokens.flatMap fun t => t.bytes) →
          getAttribute a (transformAccessPolicyBlock body) =
            some [⟨true, transformConditionString (tokens.flatMap fun t => t.bytes)⟩])) := by
  obtain ⟨h1, h2, h3⟩ := transformAccessPolicyBlock_spec body
  refine ⟨h1, h2, ?_⟩
  intro a ha
  refine ⟨(h3 a ha).1, ?_⟩
  intro tokens ht
  have hv := (h3 a ha).2 tokens ht
  obtain ⟨g1, g2⟩ := transformConditionListTokens_getD tokens
  exact ⟨fun h => by rw [hv, g1 h], fun h => by rw [hv, g2 h]⟩

/-- C32, at the example body: `name` keeps its expression, `require` is not created, `exclude`,
whose text holds only a flag written `false`, keeps its token, and `include` holds the one
token with the new text. -/
theorem accessPolicyBlock_frame_witness :
    getAttribute "name" (transformAccessPolicyBlock policyBody) =
      getAttribute "name" policyBody ∧
    getAttribute "require" (transformAccessPolicyBlock policyBody) = none ∧
    getAttribute "exclude" (transformAccessPolicyBlock policyBody) =
      some [⟨false, "[\x7b everyone = false \x7d]".toList⟩] ∧
    getAttribute "include" (transformAccessPolicyBlock policyBody) =
      some [⟨true, "[\n    \x7b email = \x7b email = \"a@x.com\" \x7d \x7d\n  ]".toList⟩] := by
  have h := accessPolicyBlock_frame policyBody
  have e : transformConditionString "[\x7b email = [\"a@x.com\"] \x7d]".toList =
      "[\n    \x7b email = \x7b email = \"a@x.com\" \x7d \x7d\n  ]".toList := by decide
  refine ⟨h.2.1 "name" (by decide), (h.2.2 "require" (by decide)).1 rfl,
    ((h.2.2 "exclude" (by decide)).2 _ rfl).1 (by decide), ?_⟩
  have h4 := ((h.2.2 "include" (by decide)).2
    [⟨false, "[\x7b".toList⟩, ⟨false, " email = [\"a@x.com\"] \x7d]".toList⟩] rfl).2 (by decide)
  rw [h4]
  exact congrArg (fun s => some [Token.mk true s]) e

/-- C33: the map version `transformLoadBalancerState` agrees with
`transformLoadBalancerStateJSON`: for every attributes object, on an instance that holds it the
JSON version leaves at `attributes` the object that the map version makes of it, and it is the
document with that object written there. -/
theorem loadBalancer_legacy_agrees (json : Doc) (instancePath : List String)
    (attributes : List (String × JSON))
    (hattrs : json.get (instancePath ++ ["attributes"]) = some (.obj attributes)) :
    (transformLoadBalancerStateJSON json instancePath).get (instancePath ++ ["attributes"]) =
      some (.obj (transformLoadBalancerState attributes)) ∧
    transformLoadBalancerStateJSON json instancePath =
      json.set (instancePath ++ ["attributes"]) (.obj (transformLoadBalancerState attributes)) :=
  ⟨(transformLoadBalancerStateJSON_puts hattrs).get,
    (transformLoadBalancerStateJSON_puts hattrs).eq_set⟩

/-- C33, at the example load balancer. -/
theorem loadBalancer_legacy_agrees_witness :
    (transformLoadBalancerStateJSON loadBalancerState firstInstance).get
        (firstInstance ++ ["attributes"]) =
      some (.obj (transformLoadBalancerState loadBalancerAttributes)) ∧
    transformLoadBalancerStateJSON loadBalancerState firstInstance =
      loadBalancerState.set (firstInstance ++ ["attributes"])
        (.obj (transformLoadBalancerState loadBalancerAttributes)) :=
  loadBalancer_legacy_agrees loadBalancerState firstInstance loadBalancerAttributes rfl

/-- C34 (the code at the failing input): for the attributes with `load_shedding = [50]` and an
origin whose header is `[{header: "Host", values: "example.com"}]`, the map version
`transformLoadBalancerPoolState` leaves both arrays as they are, while
`transformLoadBalancerPoolStateJSON` writes `50` and `{host: "example.com"}`: the two do not
leave the same attributes. -/
theorem pool_legacy_diverges :
    lookupKey "load_shedding" (transformLoadBalancerPoolState irregularPoolAttributes) =
      some (.arr [.num 50]) ∧
    (transformLoadBalancerPoolStateJSON irregularPoolState firstInstance).get
        (firstInstance ++ ["attributes", "load_shedding"]) = some (.num 50) ∧
    getPath ["origins", "0", "header"]
        (.obj (transformLoadBalancerPoolState irregularPoolAttributes)) =
      some (.arr [.obj [("header", .str "Host"), ("values", .str "example.com")]]) ∧
    (transformLoadBalancerPoolStateJSON irregularPoolState firstInstance).get
        (firstInstance ++ ["attributes", "origins", "0", "header"]) =
      some (.obj [("host", .str "example.com")]) ∧
    (transformLoadBalancerPoolStateJSON irregularPoolState firstInstance).get
        (firstInstance ++ ["attributes"]) ≠
      some (.obj (transformLoadBalancerPoolState irregularPoolAttributes)) := by
  refine ⟨rfl, rfl, rfl, rfl, ?_⟩
  intro h
  have h2 := congrArg (fun o => o.bind (getPath ["load_shedding"])) h
  have h3 : some (JSON.num 50) = some (JSON.arr [.num 50]) := h2
  cases h3

/-- C35: for every condition object and any two orders in which its attribute map may be
iterated, the two results of `transformConditionObject` are permutations of one another: they
have the same length and hold the same condition objects. -/
theorem transformConditionObject_any_order (condition order1 order2 : List (String × JSON))
    (h1 : order1.Perm condition) (h2 : order2.Perm condition) :
    (transformConditionObject order1).Perm (transformConditionObject order2) ∧
    (transformConditionObject order1).length = (transformConditionObject order2).length ∧
    ∀ o, o ∈ transformConditionObject order1 ↔ o ∈ transformConditionObject order2 := by
  have hp : (transformConditionObject order1).Perm (transformConditionObject order2) :=
    List.Perm.flatMap_right _ (h1.trans h2.symm)
  exact ⟨hp, hp.length_eq, fun o => hp.mem_iff⟩

/-- C35, at the map `{everyone: true, email: ["a@example.com"]}` iterated in its two orders. -/
theorem transformConditionObject_any_order_witness :
    (transformConditionObject
        [("everyone", .bool true), ("email", .arr [.str "a@example.com"])]).Perm
      (transformConditionObject
        [("email", .arr [.str "a@example.com"]), ("everyone", .bool true)]) ∧
    (transformConditionObject
        [("everyone", .bool true), ("email", .arr [.str "a@example.com"])]).length =
      (transformConditionObject
        [("email", .arr [.str "a@example.com"]), ("everyone", .bool true)]).length :=
  ⟨(transformConditionObject_any_order
      [("everyone", .bool true), ("email", .arr [.str "a@example.com"])]
      [("everyone", .bool true), ("email", .arr [.str "a@example.com"])]
      [("email", .arr [.str "a@example.com"]), ("everyone", .bool true)]
      (List.Perm.refl _) (List.Perm.swap _ _ _)).1,
   (transformConditionObject_any_order
      [("everyone", .bool true), ("email", .arr [.str "a@example.com"])]
      [("everyone", .bool true), ("email", .arr [.str "a@example.com"])]
      [("email", .arr [.str "a@example.com"]), ("everyone", .bool true)]
      (List.Perm.refl _) (List.Perm.swap _ _ _)).2.1⟩

/-- C36 (the code at the failing inputs): on an instance whose `include` is `[1]`, and on one
whose `approval_group` is `[null]`, `transformZeroTrustAccessPolicyStateJSON` does not return:
the assertion that the element is a map fails, whatever the iteration order of maps is. -/
theorem policy_panics_on_non_object (iter : List (String × JSON) → List (String × JSON)) :
    transformZeroTrustAccessPolicyStateJSON iter numberIncludeState firstInstance = none ∧
    transformZeroTrustAccessPolicyStateJSON iter nullApprovalState firstInstance = none := by
  constructor
  · cases h : transformZeroTrustAccessPolicyStateJSON iter numberIncludeState firstInstance with
    | none => rfl
    | some r =>
      have hf : Focus (firstInstance ++ ["attributes"]) numberIncludeState
          [("include", .arr [.num 1])] := (focus_iff_get _ _ _).mpr rfl
      obtain ⟨m, hm⟩ := (policy_returns_iff iter hf).mp ⟨r, h⟩ "include" (by decide)
        [.num 1] rfl (.num 1) (List.mem_singleton.mpr rfl)
      cases hm
  · cases h : transformZeroTrustAccessPolicyStateJSON iter nullApprovalState firstInstance with
    | none => rfl
    | some r =>
      have hf : Focus (firstInstance ++ ["attributes"]) nullApprovalState
          [("approval_group", .arr [.null])] := (focus_iff_get _ _ _).mpr rfl
      obtain ⟨m, hm⟩ := (policy_returns_iff iter hf).mp ⟨r, h⟩ "approval_group" (by decide)
        [.null] rfl .null (List.mem_singleton.mpr rfl)
      cases hm

/-- C37: `transformLoadBalancerState`, and `transformLoadBalancerStateJSON` on an instance that
holds the attributes, change nothing except the renaming of `fallback_pool_id` and
`default_pool_ids`, the deletion of an empty array under one of the four single-object names
and the replacement of an empty array under one of the three map names.  The JSON version
returns the document with the new attributes object written at `attributes`; every member
whose name is none of the four names of the renamings, and that is not an empty array under one
of the seven names, keeps its presence and value; in particular a non-empty array under a
single-object name is left as that array; and the new name of a renaming keeps its presence and
value when the old name is absent. -/
theorem loadBalancer_frame (json : Doc) (instancePath : List String)
    (attributes : List (String × JSON))
    (hattrs : json.get (instancePath ++ ["attributes"]) = some (.obj attributes)) :
    transformLoadBalancerStateJSON json instancePath =
      json.set (instancePath ++ ["attributes"]) (.obj (transformLoadBalancerState attributes)) ∧
    (∀ k, k ∉ ["fallback_pool_id", "fallback_pool", "default_pool_ids", "default_pools"] →
      (k ∉ ["adaptive_routing", "location_strategy", "random_steering",
          "session_affinity_attributes", "country_pools", "pop_pools", "region_pools"] ∨
        lookupKey k attributes ≠ some (.arr [])) →
      lookupKey k (transformLoadBalancerState attributes) = lookupKey k attributes ∧
      (transformLoadBalancerStateJSON json instancePath).get
          (instancePath ++ ["attributes"] ++ [k]) = lookupKey k attributes) ∧
    (∀ k ∈ ["adaptive_routing", "location_strategy", "random_steering",
        "session_affinity_attributes"], ∀ x xs,
      lookupKey k attributes = some (.arr (x :: xs)) →
      lookupKey k (transformLoadBalancerState attributes) = some (.arr (x :: xs)) ∧
      (transformLoadBalancerStateJSON json instancePath).get
          (instancePath ++ ["attributes"] ++ [k]) = some (.arr (x :: xs))) ∧
    (∀ old new, (old, new) ∈
        [("fallback_pool_id", "fallback_pool"), ("default_pool_ids", "default_pools")] →
      lookupKey old attributes = none →
      lookupKey new (transformLoadBalancerState attributes) = lookupKey new attributes ∧
      (transformLoadBalancerStateJSON json instancePath).get
          (instancePath ++ ["attributes"] ++ [new]) = lookupKey new attributes) := by
  have hf := transformLoadBalancerStateJSON_focus ((focus_iff_get _ _ _).mpr hattrs)
  have keep := transformLoadBalancerState_keep attributes
  refine ⟨(transformLoadBalancerStateJSON_puts hattrs).eq_set, ?_, ?_, ?_⟩
  · intro k hk hv
    rw [focus_get hf]
    exact ⟨keep k hk hv, keep k hk hv⟩
  · intro k hk x xs hx
    have hne : k ∉ ["fallback_pool_id", "fallback_pool", "default_pool_ids",
        "default_pools"] := by
      simp only [List.mem_cons, List.mem_singleton, List.not_mem_nil, or_false] at hk
      rcases hk with rfl | rfl | rfl | rfl <;> decide
    have e := keep k hne (Or.inr (by rw [hx]; intro h; cases h))
    rw [focus_get hf, e]
    exact ⟨hx, hx⟩
  · intro old new hname hv
    rw [focus_get hf]
    exact ⟨transformLoadBalancerState_new_name attributes old new hname hv,
      transformLoadBalancerState_new_name attributes old new hname hv⟩

/-- C37, at the example load balancer: `name` and the non-empty `region_pools` are left as they
are, and so is a non-empty `adaptive_routing` array. -/
theorem loadBalancer_frame_witness :
    (lookupKey "name" (transformLoadBalancerState loadBalancerAttributes) =
        some (.str "lb.example.com") ∧
      (transformLoadBalancerStateJSON loadBalancerState firstInstance).get
        (firstInstance ++ ["attributes"] ++ ["region_pools"]) =
        some (.arr [.obj [("region", .str "WNAM")]])) ∧
    lookupKey "adaptive_routing"
        (transformLoadBalancerState
          [("adaptive_routing", .arr [.obj [("failover", .bool true)]])]) =
      some (.arr [.obj [("failover", .bool true)]]) :=
  ⟨⟨((loadBalancer_frame loadBalancerState firstInstance loadBalancerAttributes rfl).2.1
        "name" (by decide) (Or.inl (by decide))).1,
     ((loadBalancer_frame loadBalancerState firstInstance loadBalancerAttributes rfl).2.1
        "region_pools" (by decide) (Or.inr (fun h => by
          have h2 : some (JSON.arr [.obj [("region", .str "WNAM")]]) = some (JSON.arr []) := h
          cases h2))).2⟩,
   ((loadBalancer_frame
      (some (.obj [("attributes",
        .obj [("adaptive_routing", .arr [.obj [("failover", .bool true)]])])]))
      [] [("adaptive_routing", .arr [.obj [("failover", .bool true)]])] rfl).2.2.1
      "adaptive_routing" (by decide) (.obj [("failover", .bool true)]) [] rfl).1⟩

/-- C38: for an `include`, `exclude` or `require` array that holds the condition objects
`c1..cm`, when the concatenation of their expansions by `transformConditionObject` (each map
taken in its iteration order), in the order of `c1..cm`, is not empty: whenever
`transformZeroTrustAccessPolicyStateJSON` returns, the attribute holds exactly that
concatenation; and the rewriter returns when the elements of the other arrays it reads are
objects. -/
theorem policy_conditions_concatenated (iter : List (String × JSON) → List (String × JSON))
    (json : Doc) (instancePath : List String) (attributes : List (String × JSON))
    (a : String) (conditions : List (List (String × JSON)))
    (hattrs : json.get (instancePath ++ ["attributes"]) = some (.obj attributes))
    (ha : a ∈ ["include", "exclude", "require"])
    (hconditions : lookupKey a attributes = some (.arr (conditions.map JSON.obj)))
    (hne : (conditions.flatMap fun c => transformConditionObject (iter c)) ≠ []) :
    ((∀ b ∈ ["include", "exclude", "require", "approval_group"], ∀ xs,
        lookupKey b attributes = some (.arr xs) → ∀ c ∈ xs, ∃ m, c = .obj m) →
      ∃ r, transformZeroTrustAccessPolicyStateJSON iter json instancePath = some r) ∧
    ∀ r, transformZeroTrustAccessPolicyStateJSON iter json instancePath = some r →
      r.get (instancePath ++ ["attributes"] ++ [a]) =
        some (.arr (conditions.flatMap fun c => transformConditionObject (iter c))) := by
  have h0 := (focus_iff_get _ _ _).mpr hattrs
  exact ⟨fun hobj => policy_total iter h0 hobj,
    fun r hr => policy_condition_value iter h0 hr ha hconditions hne⟩

/-- C38, at the `include` of the example policy, whose one condition holds two addresses. -/
theorem policy_conditions_concatenated_witness :
    ∃ r, transformZeroTrustAccessPolicyStateJSON id policyState firstInstance = some r ∧
      r.get (firstInstance ++ ["attributes"] ++ ["include"]) =
        some (.arr [.obj [("email", .obj [("email", .str "a@example.com")])],
          .obj [("email", .obj [("email", .str "b@example.com")])]]) := by
  have h := policy_conditions_concatenated id policyState firstInstance policyAttributes
    "include" [[("email", .arr [.str "a@example.com", .str "b@example.com"])]] rfl
    (by decide) rfl (fun e => by
      have e2 : ([.obj [("email", .obj [("email", .str "a@example.com")])],
          .obj [("email", .obj [("email", .str "b@example.com")])]] : List JSON) = [] := e
      cases e2)
  obtain ⟨r, hr⟩ := h.1 policyAttributes_objects
  exact ⟨r, hr, h.2 r hr⟩

/-- C39: for a resource of type `cloudflare_tiered_cache` (element `i` of `resources`) with the
instances `instances`: after `transformStateJSON` the type of the resource is
`cloudflare_argo_tiered_caching` if and only if one of its instances had
`cache_type = "generic"`, and it is `cloudflare_tiered_cache` otherwise; and every instance
(member names of its attributes distinct) that had `cache_type` `generic`, `smart` or `off` has
no `cache_type` and holds `value` `on`, `on` or `off`, whatever the type of the resource has
become. -/
theorem tieredCache_siblings (data : JSON) (resources : List JSON) (i : Nat)
    (resource : JSON) (instances : List JSON)
    (hresources : getPath ["resources"] data = some (.arr resources))
    (hresource : resources[i]? = some resource)
    (htype : getPath ["type"] resource = some (.str "cloudflare_tiered_cache"))
    (hinstances : getPath ["instances"] resource = some (.arr instances)) :
    ((transformStateJSON data).get ["resources", formatIndex i, "type"] =
        some (.str "cloudflare_argo_tiered_caching") ↔
      ∃ inst ∈ instances,
        getPath ["attributes", "cache_type"] inst = some (.str "generic")) ∧
    ((¬ ∃ inst ∈ instances,
        getPath ["attributes", "cache_type"] inst = some (.str "generic")) →
      (transformStateJSON data).get ["resources", formatIndex i, "type"] =
        some (.str "cloudflare_tiered_cache")) ∧
    ∀ (j : Nat) (inst : JSON) (attributes : List (String × JSON)) (s v : String),
      instances[j]? = some inst →
      getPath ["attributes"] inst = some (.obj attributes) →
      (attributes.map Prod.fst).Nodup →
      (s, v) ∈ [("generic", "on"), ("smart", "on"), ("off", "off")] →
      lookupKey "cache_type" attributes = some (.str s) →
      (transformStateJSON data).get
          ["resources", formatIndex i, "instances", formatIndex j, "attributes",
            "cache_type"] = none ∧
      (transformStateJSON data).get
          ["resources", formatIndex i, "instances", formatIndex j, "attributes", "value"] =
        some (.str v) := by
  obtain ⟨top, rfl, hrs⟩ := obj_of_getPath (by decide) hresources
  obtain ⟨rkvs, rfl, hty⟩ := obj_of_getPath (by decide) htype
  rw [getPath_single_obj] at hinstances
  have hres : resourceAfter (.obj rkvs) =
      .obj (assignKey "instances" (.arr (instances.map (withAttributes tieredAttrs)))
        (if instances.any isGenericInstance then
          assignKey "type" (.str "cloudflare_argo_tiered_caching") rkvs else rkvs)) := by
    rw [resourceAfter_obj rkvs instances _ hinstances hty, if_neg (by decide),
      if_neg (by decide), if_pos rfl]
  have key : ∀ Q, (transformStateJSON (.obj top)).get ("resources" :: formatIndex i :: Q) =
      getPath Q (resourceAfter (.obj rkvs)) := by
    intro Q
    rw [transformStateJSON_eq]
    simp only [Doc.get, Option.some_bind]
    exact getPath_stateAfter hrs hresource Q
  have hany : instances.any isGenericInstance = true ↔ ∃ inst ∈ instances,
      getPath ["attributes", "cache_type"] inst = some (.str "generic") := by
    rw [List.any_eq_true]
    constructor
    · rintro ⟨x, hx, h⟩
      exact ⟨x, hx, (isGenericInstance_iff x).mp h⟩
    · rintro ⟨x, hx, h⟩
      exact ⟨x, hx, (isGenericInstance_iff x).mpr h⟩
  have hafter : (transformStateJSON (.obj top)).get ["resources", formatIndex i, "type"] =
      some (.str (if instances.any isGenericInstance = true then
        "cloudflare_argo_tiered_caching" else "cloudflare_tiered_cache")) := by
    rw [key ["type"], hres, getPath_single_obj, lookupKey_assignKey_ne (by decide)]
    by_cases h : instances.any isGenericInstance = true
    · rw [if_pos h, if_pos h, lookupKey_assignKey_self]
    · rw [if_neg h, if_neg h, hty]
  refine ⟨?_, ?_, ?_⟩
  · rw [hafter, ← hany]
    by_cases h : instances.any isGenericInstance = true
    · rw [if_pos h]
      exact ⟨fun _ => h, fun _ => rfl⟩
    · rw [if_neg h]
      refine ⟨fun e => ?_, fun e => absurd e h⟩
      simp only [Option.some.injEq, JSON.str.injEq] at e
      exact absurd e (by decide)
  · intro hno
    rw [hafter, if_neg (fun h => hno (hany.mp h))]
  · intro j inst attributes s v hinst hattrs hkeys hsv hs
    obtain ⟨a, b⟩ := lookupKey_tieredAttrs attributes hkeys s v hs hsv
    have step : ∀ k, (transformStateJSON (.obj top)).get
        ["resources", formatIndex i, "instances", formatIndex j, "attributes", k] =
        lookupKey k (tieredAttrs attributes) := by
      intro k
      rw [key ["instances", formatIndex j, "attributes", k], hres, getPath_instances,
        List.getElem?_map, hinst]
      exact getPath_tieredInstance hattrs k
    rw [step, step]
    exact ⟨a, b⟩

/-- C39, at the example tiered cache: the second instance had `cache_type = "generic"`, so the
resource is relabelled, and the first instance, which had `cache_type = "smart"`, has no
`cache_type` and holds `value = "on"`. -/
theorem tieredCache_siblings_witness :
    (transformStateJSON tieredCacheDocument).get ["resources", formatIndex 0, "type"] =
      some (.str "cloudflare_argo_tiered_caching") ∧
    (transformStateJSON tieredCacheDocument).get
        ["resources", formatIndex 0, "instances", formatIndex 0, "attributes", "cache_type"] =
      none ∧
    (transformStateJSON tieredCacheDocument).get
        ["resources", formatIndex 0, "instances", formatIndex 0, "attributes", "value"] =
      some (.str "on") := by
  have h := tieredCache_siblings tieredCacheDocument
    [.obj [("type", .str "cloudflare_tiered_cache"),
      ("instances", .arr [
        .obj [("schema_version", .num 0),
          ("attributes", .obj [("cache_type", .str "smart"), ("zone_id", .str "z1")])],
        .obj [("schema_version", .num 0),
          ("attributes", .obj [("cache_type", .str "generic"), ("zone_id", .str "z2")])]])]]
    0
    (.obj [("type", .str "cloudflare_tiered_cache"),
      ("instances", .arr [
        .obj [("schema_version", .num 0),
          ("attributes", .obj [("cache_type", .str "smart"), ("zone_id", .str "z1")])],
        .obj [("schema_version", .num 0),
          ("attributes", .obj [("cache_type", .str "generic"), ("zone_id", .str "z2")])]])])
    [.obj [("schema_version", .num 0),
        ("attributes", .obj [("cache_type", .str "smart"), ("zone_id", .str "z1")])],
      .obj [("schema_version", .num 0),
        ("attributes", .obj [("cache_type", .str "generic"), ("zone_id", .str "z2")])]]
    rfl rfl rfl rfl
  exact ⟨h.1.mpr ⟨_, List.mem_cons_of_mem _ (List.mem_cons_self _ _), rfl⟩,
    h.2.2 0 _ [("cache_type", .str "smart"), ("zone_id", .str "z1")] "smart" "on" rfl rfl
      (by decide) (by decide) rfl⟩

/-- C40: the positional scan of `transformConditionString` finds a known sub-attribute name
wherever it stands in the text.  On `[{ gsuite = { email = ["a@g.com"],
identity_provider_id = "p" } }]`, where `email` is a field of the `gsuite` object, the output
is the list of the one top-level object `{ email = { email = "a@g.com" } }`, and `gsuite` does
not occur in it. -/
theorem transformConditionString_nested_email :
    transformConditionString
        "[\x7b gsuite = \x7b email = [\"a@g.com\"], identity_provider_id = \"p\" \x7d \x7d]".toList =
      "[\n    \x7b email = \x7b email = \"a@g.com\" \x7d \x7d\n  ]".toList ∧
    ¬ ("gsuite".toList <:+: transformConditionString
        "[\x7b gsuite = \x7b email = [\"a@g.com\"], identity_provider_id = \"p\" \x7d \x7d]".toList) := by
  have e : transformConditionString
      "[\x7b gsuite = \x7b email = [\"a@g.com\"], identity_provider_id = \"p\" \x7d \x7d]".toList =
      "[\n    \x7b email = \x7b email = \"a@g.com\" \x7d \x7d\n  ]".toList := by decide
  refine ⟨e, ?_⟩
  rw [e]
  decide
/-! ## Numbers as `gjson` reads them: where the two trees agree -/

theorem stored_num (q : ℚ) : stored (.num q) = (float64 q).map JSON.num := by
  rw [stored]

theorem stored_arr (xs : List JSON) : stored (.arr xs) = (storedList xs).map JSON.arr := by
  rw [stored]

theorem stored_obj (kvs : List (String × JSON)) :
    stored (.obj kvs) = (storedMembers kvs).map JSON.obj := by
  rw [stored]

theorem storedList_cons (x : JSON) (xs : List JSON) :
    storedList (x :: xs) = (stored x).bind fun y => (storedList xs).map fun ys => y :: ys := by
  rw [storedList]

theorem storedMembers_cons (k : String) (v : JSON) (kvs : List (String × JSON)) :
    storedMembers ((k, v) :: kvs) =
      (stored v).bind fun w => (storedMembers kvs).map fun ws => (k, w) :: ws := by
  rw [storedMembers]

theorem stored_arr_iff (xs : List JSON) :
    stored (.arr xs) = some (.arr xs) ↔ storedList xs = some xs := by
  rw [stored_arr]
  cases storedList xs <;> simp

theorem stored_obj_iff (kvs : List (String × JSON)) :
    stored (.obj kvs) = some (.obj kvs) ↔ storedMembers kvs = some kvs := by
  rw [stored_obj]
  cases storedMembers kvs <;> simp

theorem storedList_iff (xs : List JSON) :
    storedList xs = some xs ↔ ∀ x ∈ xs, stored x = some x := by
  induction xs with
  | nil => simp [storedList]
  | cons x xs ih =>
    rw [storedList_cons]
    cases hx : stored x with
    | none => simp [hx]
    | some y =>
      cases hxs : storedList xs with
      | none =>
        simp only [Option.some_bind, Option.map_none', List.mem_cons, forall_eq_or_imp,
          false_iff, not_and, reduceCtorEq]
        intro _ h
        rw [hxs] at ih
        exact absurd (ih.2 h) (by simp)
      | some ys =>
        rw [hxs] at ih
        simp only [Option.some_bind, Option.map_some', Option.some.injEq, List.cons.injEq,
          List.mem_cons, forall_eq_or_imp]
        constructor
        · rintro ⟨rfl, rfl⟩
          exact ⟨hx, ih.1 rfl⟩
        · rintro ⟨h1, h2⟩
          exact ⟨Option.some.inj (hx.symm.trans h1), Option.some.inj (ih.2 h2)⟩

theorem storedMembers_iff (kvs : List (String × JSON)) :
    storedMembers kvs = some kvs ↔ ∀ kv ∈ kvs, stored kv.2 = some kv.2 := by
  induction kvs with
  | nil => simp [storedMembers]
  | cons kv kvs ih =>
    obtain ⟨k, v⟩ := kv
    rw [storedMembers_cons]
    cases hx : stored v with
    | none => simp [hx]
    | some y =>
      cases hxs : storedMembers kvs with
      | none =>
        simp only [Option.some_bind, Option.map_none', List.mem_cons, forall_eq_or_imp,
          false_iff, not_and, reduceCtorEq]
        intro _ h
        rw [hxs] at ih
        exact absurd (ih.2 h) (by simp)
      | some ys =>
        rw [hxs] at ih
        simp only [Option.some_bind, Option.map_some', Option.some.injEq, List.cons.injEq,
          Prod.mk.injEq, true_and, List.mem_cons, forall_eq_or_imp]
        constructor
        · rintro ⟨rfl, rfl⟩
          exact ⟨hx, ih.1 rfl⟩
        · rintro ⟨h1, h2⟩
          exact ⟨Option.some.inj (hx.symm.trans h1), Option.some.inj (ih.2 h2)⟩

theorem mem_of_lookupKey {k : String} {v : JSON} :
    ∀ {kvs : List (String × JSON)}, lookupKey k kvs = some v → (k, v) ∈ kvs := by
  intro kvs
  induction kvs with
  | nil => intro h; simp [lookupKey] at h
  | cons kv kvs ih =>
    obtain ⟨k2, v2⟩ := kv
    intro h
    simp only [lookupKey] at h
    split at h
    · rename_i hk
      cases h
      subst hk
      exact List.mem_cons_self _ _
    · exact List.mem_cons_of_mem _ (ih h)

theorem stored_lookupKey {kvs : List (String × JSON)} (h : stored (.obj kvs) = some (.obj kvs))
    {k : String} {v : JSON} (hv : lookupKey k kvs = some v) : stored v = some v :=
  (storedMembers_iff kvs).1 ((stored_obj_iff kvs).1 h) (k, v) (mem_of_lookupKey hv)

theorem stored_mem {xs : List JSON} (h : stored (.arr xs) = some (.arr xs)) {x : JSON}
    (hx : x ∈ xs) : stored x = some x :=
  (storedList_iff xs).1 ((stored_arr_iff xs).1 h) x hx

/-- Every part of a tree that is written as it is read is written as it is read. -/
theorem stored_getPath : ∀ (p : List String) {j v : JSON}, stored j = some j →
    getPath p j = some v → stored v = some v := by
  intro p
  induction p with
  | nil =>
    intro j v h hv
    simp only [getPath, Option.some.injEq] at hv
    subst hv
    exact h
  | cons k ks ih =>
    intro j v h hv
    cases j with
    | obj kvs =>
      simp only [getPath] at hv
      cases hl : lookupKey k kvs with
      | none => simp [hl] at hv
      | some c =>
        rw [hl] at hv
        exact ih (stored_lookupKey h hl) hv
    | arr xs =>
      simp only [getPath] at hv
      cases hi : parseIndex k with
      | none => simp [hi] at hv
      | some i =>
        rw [hi] at hv
        simp only [Option.some_bind] at hv
        cases hx : xs[i]? with
        | none => simp [hx] at hv
        | some c =>
          rw [hx] at hv
          exact ih (stored_mem h (List.mem_iff_getElem?.2 ⟨i, hx⟩)) hv
    | null => simp [getPath] at hv
    | bool b => simp [getPath] at hv
    | num q => simp [getPath] at hv
    | str s => simp [getPath] at hv

theorem setValue_eq {x : JSON} (h : stored x = some x) (d : Doc) (p : List String) :
    d.setValue p x = d.set p x := by
  simp only [Doc.setValue, h]

theorem stored_host {values : JSON} (h : stored values = some values) :
    stored (.obj [("host", values)]) = some (.obj [("host", values)]) := by
  rw [stored_obj_iff, storedMembers_iff]
  intro kv hkv
  simp only [List.mem_singleton] at hkv
  subst hkv
  exact h

theorem stored_hostValues {h values : JSON} (hs : stored h = some h)
    (hv : hostValues h = some values) : stored values = some values := by
  unfold hostValues at hv
  split at hv
  · split at hv
    · exact stored_getPath _ hs hv
    · cases hv
  · cases hv

/-! ### The pool rewriter -/

theorem unwrapSingleton64_eq (attrPath : List String) (attr : String) (json : Doc)
    (h : ∀ v, json.get (attrPath ++ [attr]) = some v → stored v = some v) :
    unwrapSingleton64 attrPath attr json = unwrapSingleton attrPath attr json := by
  unfold unwrapSingleton64 unwrapSingleton
  split
  · rfl
  · rename_i first rest hg
    exact setValue_eq (stored_mem (h _ hg) (List.mem_cons_self _ _)) _ _
  · rfl

theorem rewriteOriginHeader64_eq (attrPath : List String) (json : Doc) (idx : Nat)
    (origin : JSON) (h : stored origin = some origin) :
    rewriteOriginHeader64 attrPath json idx origin =
      rewriteOriginHeader attrPath json idx origin := by
  unfold rewriteOriginHeader64 rewriteOriginHeader
  cases hh : getPath ["header"] origin with
  | none => rfl
  | some hd =>
    have hs := stored_getPath _ h hh
    cases hd with
    | arr xs =>
      cases xs with
      | nil => rfl
      | cons firstHeader rest =>
        have hf := stored_mem hs (List.mem_cons_self firstHeader rest)
        simp only
        cases hv : hostValues firstHeader with
        | none => rfl
        | some values => exact setValue_eq (stored_host (stored_hostValues hf hv)) _ _
    | obj header =>
      simp only
      cases lookupKey "host" header with
      | some _ => rfl
      | none =>
        simp only
        cases hv : hostValues (.obj header) with
        | none => rfl
        | some values => exact setValue_eq (stored_host (stored_hostValues hs hv)) _ _
    | null => rfl
    | bool b => rfl
    | num q => rfl
    | str s => rfl

theorem forEachOrigin64_eq (attrPath : List String) :
    ∀ (origins : List JSON) (idx : Nat) (json : Doc),
      (∀ o ∈ origins, stored o = some o) →
      forEachOrigin64 attrPath idx origins json = forEachOrigin attrPath idx origins json := by
  intro origins
  induction origins with
  | nil => intro idx json _; rfl
  | cons o os ih =>
    intro idx json h
    simp only [forEachOrigin64, forEachOrigin]
    rw [rewriteOriginHeader64_eq _ _ _ _ (h o (List.mem_cons_self _ _))]
    exact ih _ _ fun x hx => h x (List.mem_cons_of_mem _ hx)

/-- On a pool whose attributes `load_shedding`, `origin_steering` and `origins` hold float64
numbers only, the rewriter on the tree of the text is the rewriter on the tree as `gjson` reads
it. -/
theorem transformLoadBalancerPoolStateJSON64_eq {json : Doc} {instancePath : List String}
    {attributes : List (String × JSON)}
    (hattrs : json.get (instancePath ++ ["attributes"]) = some (.obj attributes))
    (hnumbers : ∀ k ∈ ["load_shedding", "origin_steering", "origins"], ∀ x,
      lookupKey k attributes = some x → stored x = some x) :
    transformLoadBalancerPoolStateJSON64 json instancePath =
      transformLoadBalancerPoolStateJSON json instancePath := by
  have h0 := (focus_iff_get _ _ _).mpr hattrs
  have h1 := unwrapSingleton_focus h0 "load_shedding"
  have h2 := unwrapSingleton_focus h1 "origin_steering"
  have e1 : unwrapSingleton64 (instancePath ++ ["attributes"]) "load_shedding" json =
      unwrapSingleton (instancePath ++ ["attributes"]) "load_shedding" json := by
    apply unwrapSingleton64_eq
    intro v hv
    rw [focus_get h0] at hv
    exact hnumbers _ (by decide) v hv
  have e2 : unwrapSingleton64 (instancePath ++ ["attributes"]) "origin_steering"
        (unwrapSingleton (instancePath ++ ["attributes"]) "load_shedding" json) =
      unwrapSingleton (instancePath ++ ["attributes"]) "origin_steering"
        (unwrapSingleton (instancePath ++ ["attributes"]) "load_shedding" json) := by
    apply unwrapSingleton64_eq
    intro v hv
    rw [focus_get h1, lookupKey_unwrappedSingleton_ne (by decide)] at hv
    exact hnumbers _ (by decide) v hv
  unfold transformLoadBalancerPoolStateJSON64 transformLoadBalancerPoolStateJSON
  simp only [e1, e2]
  cases hg : Doc.get (unwrapSingleton (instancePath ++ ["attributes"]) "origin_steering"
      (unwrapSingleton (instancePath ++ ["attributes"]) "load_shedding" json))
      (instancePath ++ ["attributes"] ++ ["origins"]) with
  | none => rfl
  | some os =>
    cases os with
    | arr origins =>
      simp only
      apply forEachOrigin64_eq
      rw [focus_get h2, lookupKey_unwrappedSingleton_ne (by decide),
        lookupKey_unwrappedSingleton_ne (by decide)] at hg
      exact fun o ho => stored_mem (hnumbers _ (by decide) _ hg) ho
    | null => rfl
    | bool b => rfl
    | num q => rfl
    | str s => rfl
    | obj m => rfl

/-! ### The load-balancer rewriter -/

theorem renameAttr64_eq (attrPath : List String) (old new : String) (json : Doc)
    (h : ∀ v, json.get (attrPath ++ [old]) = some v → stored v = some v) :
    renameAttr64 attrPath old new json = renameAttr attrPath old new json := by
  unfold renameAttr64 renameAttr
  cases hg : json.get (attrPath ++ [old]) with
  | none => rfl
  | some v =>
    simp only
    rw [setValue_eq (h v hg)]

/-- On a load balancer whose two renamed attributes hold float64 numbers only, the rewriter on
the tree of the text is the rewriter on the tree as `gjson` reads it. -/
theorem transformLoadBalancerStateJSON64_eq {json : Doc} {instancePath : List String}
    {attributes : List (String × JSON)}
    (hattrs : json.get (instancePath ++ ["attributes"]) = some (.obj attributes))
    (hnumbers : ∀ k ∈ ["fallback_pool_id", "default_pool_ids"], ∀ x,
      lookupKey k attributes = some x → stored x = some x) :
    transformLoadBalancerStateJSON64 json instancePath =
      transformLoadBalancerStateJSON json instancePath := by
  have h0 := (focus_iff_get _ _ _).mpr hattrs
  have h1 := renameAttr_focus h0 "fallback_pool_id" "fallback_pool"
  have e1 : renameAttr64 (instancePath ++ ["attributes"]) "fallback_pool_id" "fallback_pool"
        json =
      renameAttr (instancePath ++ ["attributes"]) "fallback_pool_id" "fallback_pool" json := by
    apply renameAttr64_eq
    intro v hv
    rw [focus_get h0] at hv
    exact hnumbers _ (by decide) v hv
  have e2 : renameAttr64 (instancePath ++ ["attributes"]) "default_pool_ids" "default_pools"
        (renameAttr (instancePath ++ ["attributes"]) "fallback_pool_id" "fallback_pool" json) =
      renameAttr (instancePath ++ ["attributes"]) "default_pool_ids" "default_pools"
        (renameAttr (instancePath ++ ["attributes"]) "fallback_pool_id" "fallback_pool"
          json) := by
    apply renameAttr64_eq
    intro v hv
    rw [focus_get h1, lookupKey_renameKey_ne (by decide) (by decide)] at hv
    exact hnumbers _ (by decide) v hv
  unfold transformLoadBalancerStateJSON64 transformLoadBalancerStateJSON
  simp only [e1, e2]
/-! ### The access-policy rewriter -/

theorem stored_str (s : String) : stored (.str s) = some (.str s) := by
  rw [stored]

theorem stored_members {kvs : List (String × JSON)}
    (h : ∀ kv ∈ kvs, stored kv.2 = some kv.2) : stored (.obj kvs) = some (.obj kvs) :=
  (stored_obj_iff kvs).2 ((storedMembers_iff kvs).2 h)

theorem stored_elements {xs : List JSON} (h : ∀ x ∈ xs, stored x = some x) :
    stored (.arr xs) = some (.arr xs) :=
  (stored_arr_iff xs).2 ((storedList_iff xs).2 h)

theorem stored_single {k : String} {v : JSON} (h : stored v = some v) :
    stored (.obj [(k, v)]) = some (.obj [(k, v)]) := by
  apply stored_members
  intro kv hkv
  simp only [List.mem_singleton] at hkv
  subst hkv
  exact h

theorem stored_expandList (attr nested : String) (value : JSON) :
    ∀ o ∈ expandList attr nested value, stored o = some o := by
  intro o ho
  cases value with
  | arr xs =>
    simp only [expandList, List.mem_filterMap] at ho
    obtain ⟨x, -, hx⟩ := ho
    cases x with
    | str s =>
      simp only [Option.some.injEq] at hx
      subst hx
      exact stored_single (stored_single (stored_str s))
    | null => cases hx
    | bool b => cases hx
    | num q => cases hx
    | arr ys => cases hx
    | obj m => cases hx
  | null => simp [expandList] at ho
  | bool b => simp [expandList] at ho
  | num q => simp [expandList] at ho
  | str s => simp [expandList] at ho
  | obj m => simp [expandList] at ho

theorem stored_copyString (key : String) (m : List (String × JSON)) :
    ∀ kv ∈ copyString key m, stored kv.2 = some kv.2 := by
  intro kv hkv
  unfold copyString at hkv
  split at hkv
  · simp only [List.mem_singleton] at hkv
    subst hkv
    exact stored_str _
  · simp at hkv

theorem stored_copyFirst (field target : String) (m : List (String × JSON)) :
    ∀ kv ∈ copyFirst field target m, stored kv.2 = some kv.2 := by
  intro kv hkv
  unfold copyFirst at hkv
  split at hkv
  · simp only [List.mem_singleton] at hkv
    subst hkv
    exact stored_str _
  · simp at hkv

theorem stored_expandProvider (typeKey : String)
    (build : List (String × JSON) → List (String × JSON))
    (hb : ∀ m, ∀ kv ∈ build m, stored kv.2 = some kv.2) (value : JSON) :
    ∀ o ∈ expandProvider typeKey build value, stored o = some o := by
  intro o ho
  unfold expandProvider at ho
  split at ho
  · simp only [List.mem_singleton] at ho
    subst ho
    exact stored_single (stored_members (hb _))
  · simp at ho

theorem stored_flag (attrName : String) (value : JSON) :
    ∀ o ∈ (match value with
      | .bool true => [JSON.obj [(attrName, .obj [])]]
      | _ => []), stored o = some o := by
  intro o ho
  split at ho
  · simp only [List.mem_singleton] at ho
    subst ho
    exact stored_single (stored_members (by simp))
  · simp at ho

theorem stored_scalar (attrName : String) (value : JSON) :
    ∀ o ∈ (match value with
      | .str s => [JSON.obj [(attrName, .obj [(attrName, .str s)])]]
      | _ => []), stored o = some o := by
  intro o ho
  split at ho
  · simp only [List.mem_singleton] at ho
    subst ho
    exact stored_single (stored_single (stored_str _))
  · simp at ho

theorem stored_passed (attrName : String) (value : JSON) (h : stored value = some value) :
    ∀ o ∈ (match value with
      | .obj objVal => [JSON.obj [(attrName, .obj objVal)]]
      | _ => []), stored o = some o := by
  intro o ho
  split at ho
  · simp only [List.mem_singleton] at ho
    subst ho
    exact stored_single h
  · simp at ho

/-- The objects made for one attribute of a condition hold float64 numbers only when the value
of the attribute does. -/
theorem stored_transformAttr (attrName : String) (value : JSON)
    (h : stored value = some value) : ∀ o ∈ transformAttr attrName value, stored o = some o := by
  have hcat : ∀ {a b : List (String × JSON)}, (∀ kv ∈ a, stored kv.2 = some kv.2) →
      (∀ kv ∈ b, stored kv.2 = some kv.2) → ∀ kv ∈ a ++ b, stored kv.2 = some kv.2 := by
    intro a b ha hb kv hkv
    rcases List.mem_append.1 hkv with h1 | h1
    · exact ha kv h1
    · exact hb kv h1
  unfold transformAttr
  split
  · exact stored_flag _ value
  · exact stored_flag _ value
  · exact stored_flag _ value
  · exact stored_expandList _ _ value
  · exact stored_expandList _ _ value
  · exact stored_expandList _ _ value
  · exact stored_expandList _ _ value
  · exact stored_expandList _ _ value
  · exact stored_expandList _ _ value
  · exact stored_expandList _ _ value
  · exact stored_expandList _ _ value
  · exact stored_expandList _ _ value
  · exact stored_expandList _ _ value
  · exact stored_scalar _ value
  · exact stored_scalar _ value
  · exact stored_expandProvider _ _
      (fun m => hcat (hcat (stored_copyString _ m) (stored_copyString _ m))
        (stored_copyFirst _ _ m)) value
  · exact stored_expandProvider _ _
      (fun m => hcat (stored_copyString _ m) (stored_copyFirst _ _ m)) value
  · exact stored_expandProvider _ _
      (fun m => hcat (stored_copyString _ m) (stored_copyFirst _ _ m)) value
  · exact stored_expandProvider _ _
      (fun m => hcat (stored_copyString _ m) (stored_copyFirst _ _ m)) value
  · exact stored_passed _ value h
  · exact stored_passed _ value h
  · exact stored_passed _ value h
  · intro o ho
    simp at ho

theorem stored_transformConditionObject (m : List (String × JSON))
    (h : ∀ kv ∈ m, stored kv.2 = some kv.2) :
    ∀ o ∈ transformConditionObject m, stored o = some o := by
  intro o ho
  simp only [transformConditionObject, List.mem_flatMap] at ho
  obtain ⟨kv, hkv, ho⟩ := ho
  exact stored_transformAttr kv.1 kv.2 (h kv hkv) o ho

theorem mapOrPanic_mem {α β : Type} (f : α → Option β) :
    ∀ (xs : List α) (ys : List β), mapOrPanic f xs = some ys →
      ∀ y ∈ ys, ∃ x ∈ xs, f x = some y := by
  intro xs
  induction xs with
  | nil =>
    intro ys h y hy
    simp only [mapOrPanic, Option.some.injEq] at h
    subst h
    simp at hy
  | cons x xs ih =>
    intro ys h y hy
    simp only [mapOrPanic] at h
    cases hx : f x with
    | none => simp [hx] at h
    | some y0 =>
      rw [hx] at h
      simp only [Option.some_bind] at h
      cases hxs : mapOrPanic f xs with
      | none => simp [hxs] at h
      | some ys0 =>
        rw [hxs] at h
        simp only [Option.map_some', Option.some.injEq] at h
        subst h
        rcases List.mem_cons.1 hy with rfl | hy
        · exact ⟨x, List.mem_cons_self _ _, hx⟩
        · obtain ⟨x1, hx1, hf⟩ := ih ys0 hxs y hy
          exact ⟨x1, List.mem_cons_of_mem _ hx1, hf⟩

theorem migrateApprovalGroup64_eq (attrPath : List String) (json : Doc)
    (h : ∀ v, json.get (attrPath ++ ["approval_group"]) = some v → stored v = some v) :
    migrateApprovalGroup64 attrPath json = migrateApprovalGroup attrPath json := by
  unfold migrateApprovalGroup64 migrateApprovalGroup
  cases hg : json.get (attrPath ++ ["approval_group"]) with
  | none => rfl
  | some v =>
    cases v with
    | arr groups =>
      simp only
      split
      · cases hm : mapOrPanic convertApprovalGroup groups with
        | none => rfl
        | some gs =>
          have e := mapOrPanic_convertApprovalGroup hm
          subst e
          simp only [Option.map_some']
          rw [setValue_eq (h _ hg)]
      · rfl
    | null => rfl
    | bool b => rfl
    | num q => rfl
    | str s => rfl
    | obj m => rfl

theorem migrateConditionAttr64_eq (iter : List (String × JSON) → List (String × JSON))
    (hiter : ∀ m, ∀ kv ∈ iter m, kv ∈ m) (attrPath : List String) (json : Doc)
    (attrName : String)
    (h : ∀ v, json.get (attrPath ++ [attrName]) = some v → stored v = some v) :
    migrateConditionAttr64 iter attrPath json attrName =
      migrateConditionAttr iter attrPath json attrName := by
  unfold migrateConditionAttr64 migrateConditionAttr
  cases hg : json.get (attrPath ++ [attrName]) with
  | none => rfl
  | some v =>
    cases v with
    | arr conditions =>
      simp only
      cases hm : mapOrPanic
          (fun c => (assertObject c).map fun m => transformConditionObject (iter m))
          conditions with
      | none => rfl
      | some parts =>
        simp only [Option.map_some']
        split
        · have hs : stored (.arr parts.flatten) = some (.arr parts.flatten) := by
            apply stored_elements
            intro o ho
            obtain ⟨part, hpart, hop⟩ := List.mem_flatten.1 ho
            obtain ⟨c, hc, hf⟩ := mapOrPanic_mem _ conditions parts hm part hpart
            cases c with
            | obj m =>
              simp only [assertObject, Option.map_some', Option.some.injEq] at hf
              subst hf
              have hcs := stored_mem (h _ hg) hc
              have hms := (storedMembers_iff m).1 ((stored_obj_iff m).1 hcs)
              exact stored_transformConditionObject (iter m)
                (fun kv hkv => hms kv (hiter m kv hkv)) o hop
            | null => simp [assertObject] at hf
            | bool b => simp [assertObject] at hf
            | num q => simp [assertObject] at hf
            | str s => simp [assertObject] at hf
            | arr ys => simp [assertObject] at hf
          rw [setValue_eq hs]
        · rfl
    | null => rfl
    | bool b => rfl
    | num q => rfl
    | str s => rfl
    | obj m => rfl

/-- On a policy whose attributes `approval_group`, `include`, `exclude` and `require` hold
float64 numbers only, the rewriter on the tree of the text is the rewriter on the tree as
`gjson` reads it. -/
theorem transformZeroTrustAccessPolicyStateJSON64_eq
    (iter : List (String × JSON) → List (String × JSON))
    (hiter : ∀ m, ∀ kv ∈ iter m, kv ∈ m) {json : Doc} {instancePath : List String}
    {attributes : List (String × JSON)}
    (hattrs : json.get (instancePath ++ ["attributes"]) = some (.obj attributes))
    (hnumbers : ∀ k ∈ ["approval_group", "include", "exclude", "require"], ∀ x,
      lookupKey k attributes = some x → stored x = some x) :
    transformZeroTrustAccessPolicyStateJSON64 iter json instancePath =
      transformZeroTrustAccessPolicyStateJSON iter json instancePath := by
  have h0 := (focus_iff_get _ _ _).mpr hattrs
  have e1 : migrateApprovalGroup64 (instancePath ++ ["attributes"]) json =
      migrateApprovalGroup (instancePath ++ ["attributes"]) json := by
    apply migrateApprovalGroup64_eq
    intro v hv
    rw [focus_get h0] at hv
    exact hnumbers _ (by decide) v hv
  simp only [transformZeroTrustAccessPolicyStateJSON64, transformZeroTrustAccessPolicyStateJSON,
    List.foldlM_cons, List.foldlM_nil, Option.bind_eq_bind, Option.pure_def, bind, pure, e1]
  cases h1 : migrateApprovalGroup (instancePath ++ ["attributes"]) json with
  | none => rfl
  | some d1 =>
    obtain ⟨kvs1, hF1, hk1⟩ := migrateApprovalGroup_result h0 h1
    have e2 : migrateConditionAttr64 iter (instancePath ++ ["attributes"]) d1 "include" =
        migrateConditionAttr iter (instancePath ++ ["attributes"]) d1 "include" := by
      apply migrateConditionAttr64_eq iter hiter
      intro v hv
      rw [focus_get hF1, hk1 _ (by decide) (by decide)] at hv
      exact hnumbers _ (by decide) v hv
    simp only [Option.some_bind, e2]
    cases h2 : migrateConditionAttr iter (instancePath ++ ["attributes"]) d1 "include" with
    | none => rfl
    | some d2 =>
      obtain ⟨kvs2, hF2, hk2⟩ := migrateConditionAttr_result iter hF1 h2
      have e3 : migrateConditionAttr64 iter (instancePath ++ ["attributes"]) d2 "exclude" =
          migrateConditionAttr iter (instancePath ++ ["attributes"]) d2 "exclude" := by
        apply migrateConditionAttr64_eq iter hiter
        intro v hv
        rw [focus_get hF2, hk2 _ (by decide), hk1 _ (by decide) (by decide)] at hv
        exact hnumbers _ (by decide) v hv
      simp only [Option.some_bind, e3]
      cases h3 : migrateConditionAttr iter (instancePath ++ ["attributes"]) d2 "exclude" with
      | none => rfl
      | some d3 =>
        obtain ⟨kvs3, hF3, hk3⟩ := migrateConditionAttr_result iter hF2 h3
        have e4 : migrateConditionAttr64 iter (instancePath ++ ["attributes"]) d3 "require" =
            migrateConditionAttr iter (instancePath ++ ["attributes"]) d3 "require" := by
          apply migrateConditionAttr64_eq iter hiter
          intro v hv
          rw [focus_get hF3, hk3 _ (by decide), hk2 _ (by decide),
            hk1 _ (by decide) (by decide)] at hv
          exact hnumbers _ (by decide) v hv
        simp only [Option.some_bind, e4]
/-! ### What the rewriters on the tree of the text leave in the attributes object -/

theorem setValue_of_stored {x w : JSON} (h : stored x = some w) (d : Doc) (p : List String) :
    d.setValue p x = d.set p w := by
  simp only [Doc.setValue, h]

theorem renameAttr64_focus {P : List String} {d : Doc} {kvs : List (String × JSON)}
    (h : Focus P d kvs) (old new : String) (hne : new ≠ old)
    (hrange : ∀ v, lookupKey old kvs = some v → ∃ w, stored v = some w) :
    ∃ kvs', Focus P (renameAttr64 P old new d) kvs' ∧
      (∀ k, k ≠ old → k ≠ new → lookupKey k kvs' = lookupKey k kvs) ∧
      ((kvs.map Prod.fst).Nodup → (kvs'.map Prod.fst).Nodup) ∧
      (∀ v w, lookupKey old kvs = some v → stored v = some w → (kvs.map Prod.fst).Nodup →
        lookupKey new kvs' = some w ∧ lookupKey old kvs' = none) := by
  unfold renameAttr64
  rw [focus_get h]
  cases hl : lookupKey old kvs with
  | none => exact ⟨kvs, h, fun _ _ _ => rfl, fun hn => hn, fun v w hv => by simp at hv⟩
  | some v =>
    obtain ⟨w, hw⟩ := hrange v hl
    simp only [setValue_of_stored hw]
    refine ⟨_, focus_delete (focus_set h new w) old, ?_, ?_, ?_⟩
    · intro k h1 h2
      rw [lookupKey_eraseKey_ne h1, lookupKey_assignKey_ne h2]
    · intro hn
      exact nodup_eraseKey _ _ (nodup_assignKey _ _ _ hn)
    · intro v2 w2 hv2 hw2 hn
      simp only [Option.some.injEq] at hv2
      subst hv2
      rw [hw] at hw2
      simp only [Option.some.injEq] at hw2
      subst hw2
      exact ⟨by rw [lookupKey_eraseKey_ne hne, lookupKey_assignKey_self],
        lookupKey_eraseKey_self _ _ (nodup_assignKey _ _ _ hn)⟩

/-- The two renamings of `transformLoadBalancerStateJSON` on the tree of the text: the new name
holds the value as it is written, the old name is absent. -/
theorem transformLoadBalancerStateJSON64_rename {json : Doc} {instancePath : List String}
    {attributes : List (String × JSON)}
    (h0 : Focus (instancePath ++ ["attributes"]) json attributes)
    (hkeys : (attributes.map Prod.fst).Nodup)
    (hrange : ∀ k ∈ ["fallback_pool_id", "default_pool_ids"], ∀ x,
      lookupKey k attributes = some x → ∃ y, stored x = some y)
    (old new : String) (v w : JSON)
    (hname : (old, new) ∈
      [("fallback_pool_id", "fallback_pool"), ("default_pool_ids", "default_pools")])
    (hv : lookupKey old attributes = some v) (hw : stored v = some w) :
    (transformLoadBalancerStateJSON64 json instancePath).get
        (instancePath ++ ["attributes"] ++ [new]) = some w ∧
      (transformLoadBalancerStateJSON64 json instancePath).get
        (instancePath ++ ["attributes"] ++ [old]) = none := by
  obtain ⟨k1, hF1, keep1, nd1, r1⟩ := renameAttr64_focus h0 "fallback_pool_id" "fallback_pool"
    (by decide) (hrange _ (by decide))
  obtain ⟨k2, hF2, keep2, nd2, r2⟩ := renameAttr64_focus hF1 "default_pool_ids"
    "default_pools" (by decide) (by
      intro x hx
      rw [keep1 _ (by decide) (by decide)] at hx
      exact hrange _ (by decide) x hx)
  have hF : Focus (instancePath ++ ["attributes"])
      (transformLoadBalancerStateJSON64 json instancePath)
      (["country_pools", "pop_pools", "region_pools"].foldl emptySliceToMap
        (["adaptive_routing", "location_strategy", "random_steering",
          "session_affinity_attributes"].foldl deleteEmptySlice k2)) :=
    foldl_emptyArrayToMap_focus _ (foldl_deleteEmptyArray_focus _ hF2)
  rw [focus_get hF, focus_get hF]
  simp only [List.mem_cons, List.mem_singleton, List.not_mem_nil, or_false, Prod.mk.injEq]
    at hname
  rcases hname with ⟨rfl, rfl⟩ | ⟨rfl, rfl⟩
  · obtain ⟨a, b⟩ := r1 v w hv hw hkeys
    constructor
    · rw [lookupKey_foldl_emptySliceToMap_ne _ (by decide),
        lookupKey_foldl_deleteEmptySlice_ne _ (by decide), keep2 _ (by decide) (by decide), a]
    · rw [lookupKey_foldl_emptySliceToMap_ne _ (by decide),
        lookupKey_foldl_deleteEmptySlice_ne _ (by decide), keep2 _ (by decide) (by decide), b]
  · have hv1 : lookupKey "default_pool_ids" k1 = some v := by
      rw [keep1 _ (by decide) (by decide), hv]
    obtain ⟨a, b⟩ := r2 v w hv1 hw (nd1 hkeys)
    constructor
    · rw [lookupKey_foldl_emptySliceToMap_ne _ (by decide),
        lookupKey_foldl_deleteEmptySlice_ne _ (by decide), a]
    · rw [lookupKey_foldl_emptySliceToMap_ne _ (by decide),
        lookupKey_foldl_deleteEmptySlice_ne _ (by decide), b]

theorem unwrapSingleton64_focus {P : List String} {d : Doc} {kvs : List (String × JSON)}
    (h : Focus P d kvs) (attr : String)
    (hrange : ∀ first rest, lookupKey attr kvs = some (.arr (first :: rest)) →
      ∃ w, stored first = some w) :
    ∃ kvs', Focus P (unwrapSingleton64 P attr d) kvs' ∧
      (∀ k, k ≠ attr → lookupKey k kvs' = lookupKey k kvs) ∧
      (∀ first rest w, lookupKey attr kvs = some (.arr (first :: rest)) →
        stored first = some w → lookupKey attr kvs' = some w) := by
  unfold unwrapSingleton64
  rw [focus_get h]
  cases hl : lookupKey attr kvs with
  | none => exact ⟨kvs, h, fun _ _ => rfl, fun first rest w hf => by simp at hf⟩
  | some x =>
    cases x with
    | arr xs =>
      cases xs with
      | nil =>
        exact ⟨_, focus_delete h attr, fun k hk => lookupKey_eraseKey_ne hk _,
          fun first rest w hf => by simp at hf⟩
      | cons first rest =>
        obtain ⟨w, hw⟩ := hrange first rest hl
        simp only [setValue_of_stored hw]
        refine ⟨_, focus_set h attr w, fun k hk => lookupKey_assignKey_ne hk _ _, ?_⟩
        intro f2 r2 w2 hf hw2
        simp only [Option.some.injEq, JSON.arr.injEq, List.cons.injEq] at hf
        obtain ⟨rfl, -⟩ := hf
        rw [hw] at hw2
        simp only [Option.some.injEq] at hw2
        subst hw2
        exact lookupKey_assignKey_self _ _ _
    | null => exact ⟨kvs, h, fun _ _ => rfl, fun first rest w hf => by simp at hf⟩
    | bool b => exact ⟨kvs, h, fun _ _ => rfl, fun first rest w hf => by simp at hf⟩
    | num q => exact ⟨kvs, h, fun _ _ => rfl, fun first rest w hf => by simp at hf⟩
    | str s => exact ⟨kvs, h, fun _ _ => rfl, fun first rest w hf => by simp at hf⟩
    | obj m => exact ⟨kvs, h, fun _ _ => rfl, fun first rest w hf => by simp at hf⟩

/-- Steps 1 and 2 of `transformLoadBalancerPoolStateJSON` on the tree of the text: the key holds
element 0 of the array as it is written. -/
theorem transformLoadBalancerPoolStateJSON64_first {json : Doc} {instancePath : List String}
    {attributes : List (String × JSON)}
    (h0 : Focus (instancePath ++ ["attributes"]) json attributes)
    (hrange : ∀ a ∈ ["load_shedding", "origin_steering"], ∀ x rest,
      lookupKey a attributes = some (.arr (x :: rest)) → ∃ y, stored x = some y)
    (horigins : ∀ x, lookupKey "origins" attributes = some x → stored x = some x)
    (attr : String) (first w : JSON) (rest : List JSON)
    (hattr : attr ∈ ["load_shedding", "origin_steering"])
    (hv : lookupKey attr attributes = some (.arr (first :: rest)))
    (hw : stored first = some w) :
    (transformLoadBalancerPoolStateJSON64 json instancePath).get
        (instancePath ++ ["attributes"] ++ [attr]) = some w := by
  obtain ⟨k1, hF1, keep1, r1⟩ := unwrapSingleton64_focus h0 "load_shedding"
    (hrange _ (by decide))
  obtain ⟨k2, hF2, keep2, r2⟩ := unwrapSingleton64_focus hF1 "origin_steering" (by
    intro x rest hx
    rw [keep1 _ (by decide)] at hx
    exact hrange _ (by decide) x rest hx)
  have hk2 : lookupKey attr k2 = some w := by
    simp only [List.mem_cons, List.mem_singleton, List.not_mem_nil, or_false] at hattr
    rcases hattr with rfl | rfl
    · rw [keep2 _ (by decide)]
      exact r1 first rest w hv hw
    · refine r2 first rest w ?_ hw
      rw [keep1 _ (by decide)]
      exact hv
  have ho : lookupKey "origins" k2 = lookupKey "origins" attributes := by
    rw [keep2 _ (by decide), keep1 _ (by decide)]
  have hne : attr ≠ "origins" := by
    simp only [List.mem_cons, List.mem_singleton, List.not_mem_nil, or_false] at hattr
    rcases hattr with rfl | rfl <;> decide
  unfold transformLoadBalancerPoolStateJSON64
  simp only []
  rw [focus_get hF2, ho]
  cases hl : lookupKey "origins" attributes with
  | none =>
    simp only []
    rw [focus_get hF2, hk2]
  | some os =>
    cases os with
    | arr origins =>
      simp only []
      rw [forEachOrigin64_eq _ origins 0 _ fun o hm => stored_mem (horigins _ hl) hm]
      obtain ⟨k3, hF3, -, keep3, -⟩ := forEachOrigin_focus origins [] _ k2 hF2
        (by rw [ho, hl]; rfl)
      exact (focus_get hF3 attr).trans ((keep3 _ hne).trans hk2)
    | null => simp only []; rw [focus_get hF2, hk2]
    | bool b => simp only []; rw [focus_get hF2, hk2]
    | num q => simp only []; rw [focus_get hF2, hk2]
    | str s => simp only []; rw [focus_get hF2, hk2]
    | obj m => simp only []; rw [focus_get hF2, hk2]

theorem storedList_getElem : ∀ {xs ys : List JSON}, storedList xs = some ys →
    ys.length = xs.length ∧
      ∀ (i : Nat) (x : JSON), xs[i]? = some x → ∃ y, ys[i]? = some y ∧ stored x = some y := by
  intro xs
  induction xs with
  | nil =>
    intro ys h
    simp only [storedList, Option.some.injEq] at h
    subst h
    exact ⟨rfl, fun i x hx => by simp at hx⟩
  | cons x xs ih =>
    intro ys h
    rw [storedList_cons] at h
    cases hx : stored x with
    | none => simp [hx] at h
    | some y =>
      cases hxs : storedList xs with
      | none => simp [hx, hxs] at h
      | some ys0 =>
        simp only [hx, hxs, Option.some_bind, Option.map_some', Option.some.injEq] at h
        subst h
        obtain ⟨hlen, hget⟩ := ih hxs
        refine ⟨by simp [hlen], ?_⟩
        intro i x1 hi
        cases i with
        | zero =>
          simp only [List.getElem?_cons_zero, Option.some.injEq] at hi
          subst hi
          exact ⟨y, by simp, hx⟩
        | succ i =>
          simp only [List.getElem?_cons_succ] at hi
          obtain ⟨y1, hy1, hs1⟩ := hget i x1 hi
          exact ⟨y1, by simpa using hy1, hs1⟩

theorem storedMembers_lookupKey : ∀ {m m' : List (String × JSON)}, storedMembers m = some m' →
    m'.map Prod.fst = m.map Prod.fst ∧
      ∀ k v, lookupKey k m = some v → ∃ v', lookupKey k m' = some v' ∧ stored v = some v' := by
  intro m
  induction m with
  | nil =>
    intro m' h
    simp only [storedMembers, Option.some.injEq] at h
    subst h
    exact ⟨rfl, fun k v hv => by simp [lookupKey] at hv⟩
  | cons kv m ih =>
    obtain ⟨k0, v0⟩ := kv
    intro m' h
    rw [storedMembers_cons] at h
    cases hx : stored v0 with
    | none => simp [hx] at h
    | some w0 =>
      cases hxs : storedMembers m with
      | none => simp [hx, hxs] at h
      | some ws =>
        simp only [hx, hxs, Option.some_bind, Option.map_some', Option.some.injEq] at h
        subst h
        obtain ⟨hkeys, hget⟩ := ih hxs
        refine ⟨by simp [hkeys], ?_⟩
        intro k v hv
        simp only [lookupKey] at hv ⊢
        by_cases hk : k0 = k
        · simp only [hk, if_true, Option.some.injEq] at hv ⊢
          subst hv
          exact ⟨w0, rfl, hx⟩
        · simp only [hk, if_false] at hv ⊢
          exact hget k v hv

theorem stored_obj_some {m : List (String × JSON)} {y : JSON} (h : stored (.obj m) = some y) :
    ∃ m', y = .obj m' ∧ storedMembers m = some m' := by
  rw [stored_obj] at h
  cases hm : storedMembers m with
  | none => simp [hm] at h
  | some m' =>
    simp only [hm, Option.map_some', Option.some.injEq] at h
    exact ⟨m', h.symm, rfl⟩

/-- What the groups of `approval_groups` hold, as they are written: group `i` is an object with
the member names of the group read, every member with its value as it is written, and a number
in `approvals_needed` is the float64 read for it. -/
theorem storedList_groups {gs ws : List JSON} (h : storedList gs = some ws) :
    ws.length = gs.length ∧
    ∀ (i : Nat) (m : List (String × JSON)), gs[i]? = some (.obj m) →
      ∃ m', ws[i]? = some (.obj m') ∧
      m'.map Prod.fst = m.map Prod.fst ∧
      (∀ k v, lookupKey k m = some v → ∃ v', lookupKey k m' = some v' ∧ stored v = some v') ∧
      ∀ q, lookupKey "approvals_needed" m = some (.num q) →
        ∃ r, float64 q = some r ∧ lookupKey "approvals_needed" m' = some (.num r) := by
  obtain ⟨hlen, hget⟩ := storedList_getElem h
  refine ⟨hlen, ?_⟩
  intro i m hi
  obtain ⟨y, hy, hs⟩ := hget i _ hi
  obtain ⟨m', rfl, hm⟩ := stored_obj_some hs
  obtain ⟨hkeys, hlook⟩ := storedMembers_lookupKey hm
  refine ⟨m', hy, hkeys, hlook, ?_⟩
  intro q hq
  obtain ⟨v', hv', hsv⟩ := hlook _ _ hq
  rw [stored_num] at hsv
  cases hf : float64 q with
  | none => simp [hf] at hsv
  | some r =>
    simp only [hf, Option.map_some', Option.some.injEq] at hsv
    subst hsv
    exact ⟨r, rfl, hv'⟩

theorem migrateApprovalGroup64_some {P : List String} {d : Doc}
    (h : ∃ d', migrateApprovalGroup P d = some d') :
    ∃ d', migrateApprovalGroup64 P d = some d' := by
  obtain ⟨d', hd⟩ := h
  unfold migrateApprovalGroup at hd
  unfold migrateApprovalGroup64
  cases hg : d.get (P ++ ["approval_group"]) with
  | none => exact ⟨_, rfl⟩
  | some x =>
    rw [hg] at hd
    cases x with
    | arr gs =>
      simp only at hd ⊢
      by_cases hlen : gs.length > 0
      · simp only [hlen, if_true] at hd ⊢
        cases hm : mapOrPanic convertApprovalGroup gs with
        | none => simp [hm] at hd
        | some gs2 => exact ⟨_, rfl⟩
      · simp only [hlen, if_false]
        exact ⟨_, rfl⟩
    | null => exact ⟨_, rfl⟩
    | bool b => exact ⟨_, rfl⟩
    | num q => exact ⟨_, rfl⟩
    | str s => exact ⟨_, rfl⟩
    | obj m => exact ⟨_, rfl⟩

theorem migrateApprovalGroup64_full {P : List String} {d d' : Doc}
    {kvs : List (String × JSON)} (h : Focus P d kvs)
    (hrange : ∀ gs, lookupKey "approval_group" kvs = some (.arr gs) →
      ∃ gs', storedList gs = some gs')
    (hr : migrateApprovalGroup64 P d = some d') :
    ∃ kvs', Focus P d' kvs' ∧
      (∀ k, k ≠ "approval_group" → k ≠ "approval_groups" →
        lookupKey k kvs' = lookupKey k kvs) ∧
      ((kvs.map Prod.fst).Nodup → (kvs'.map Prod.fst).Nodup) ∧
      (∀ gs gs', lookupKey "approval_group" kvs = some (.arr gs) → storedList gs = some gs' →
        ((kvs.map Prod.fst).Nodup → lookupKey "approval_group" kvs' = none) ∧
        (gs ≠ [] → lookupKey "approval_groups" kvs' = some (.arr gs')) ∧
        (gs = [] → lookupKey "approval_groups" kvs' = lookupKey "approval_groups" kvs)) := by
  unfold migrateApprovalGroup64 at hr
  rw [focus_get h] at hr
  obtain ⟨o, hl⟩ : ∃ o, lookupKey "approval_group" kvs = o := ⟨_, rfl⟩
  have same : (∀ gs, o ≠ some (.arr gs)) → some d = some d' →
      ∃ kvs', Focus P d' kvs' ∧
      (∀ k, k ≠ "approval_group" → k ≠ "approval_groups" →
        lookupKey k kvs' = lookupKey k kvs) ∧
      ((kvs.map Prod.fst).Nodup → (kvs'.map Prod.fst).Nodup) ∧
      (∀ gs gs', lookupKey "approval_group" kvs = some (.arr gs) → storedList gs = some gs' →
        ((kvs.map Prod.fst).Nodup → lookupKey "approval_group" kvs' = none) ∧
        (gs ≠ [] → lookupKey "approval_groups" kvs' = some (.arr gs')) ∧
        (gs = [] → lookupKey "approval_groups" kvs' = lookupKey "approval_groups" kvs)) := by
    intro hne hd
    cases hd
    exact ⟨kvs, h, fun _ _ _ => rfl, fun hn => hn,
      fun gs gs' hgs => absurd (hl.symm.trans hgs) (hne gs)⟩
  rw [hl] at hr
  cases o with
  | none => exact same (fun gs => by simp) hr
  | some x =>
    cases x with
    | arr gs =>
      obtain ⟨gs', hgs'⟩ := hrange gs hl
      by_cases hlen : gs.length > 0
      · cases hm : mapOrPanic convertApprovalGroup gs with
        | none => simp [hlen, hm] at hr
        | some gs2 =>
          have hgs2 := mapOrPanic_convertApprovalGroup hm
          subst hgs2
          have hst : stored (.arr gs2) = some (.arr gs') := by
            rw [stored_arr, hgs']
            rfl
          simp only [hlen, if_true, hm, Option.map_some', Option.some.injEq,
            setValue_of_stored hst] at hr
          subst hr
          refine ⟨_, focus_delete (focus_set h "approval_groups" (.arr gs')) "approval_group",
            ?_, ?_, ?_⟩
          · intro k h1 h2
            rw [lookupKey_eraseKey_ne h1, lookupKey_assignKey_ne h2]
          · intro hn
            exact nodup_eraseKey _ _ (nodup_assignKey _ _ _ hn)
          · intro gs3 gs4 hgs3 hgs4
            rw [hl] at hgs3
            simp only [Option.some.injEq, JSON.arr.injEq] at hgs3
            subst hgs3
            rw [hgs'] at hgs4
            simp only [Option.some.injEq] at hgs4
            subst hgs4
            refine ⟨fun hn => lookupKey_eraseKey_self _ _ (nodup_assignKey _ _ _ hn), ?_, ?_⟩
            · intro _
              rw [lookupKey_eraseKey_ne (by decide), lookupKey_assignKey_self]
            · intro he
              rw [he] at hlen
              simp at hlen
      · simp only [hlen, if_false, Option.map_some', Option.some.injEq] at hr
        subst hr
        refine ⟨_, focus_delete h "approval_group", ?_, ?_, ?_⟩
        · intro k h1 _
          rw [lookupKey_eraseKey_ne h1]
        · intro hn
          exact nodup_eraseKey _ _ hn
        · intro gs3 gs4 hgs3 _
          rw [hl] at hgs3
          simp only [Option.some.injEq, JSON.arr.injEq] at hgs3
          subst hgs3
          refine ⟨fun hn => lookupKey_eraseKey_self _ _ hn, ?_, ?_⟩
          · intro hne
            cases gs with
            | nil => exact absurd rfl hne
            | cons g gs => simp at hlen
          · intro _
            rw [lookupKey_eraseKey_ne (by decide)]
    | null => exact same (fun gs => by simp) hr
    | bool b => exact same (fun gs => by simp) hr
    | num q => exact same (fun gs => by simp) hr
    | str s => exact same (fun gs => by simp) hr
    | obj m => exact same (fun gs => by simp) hr

/-- What `transformZeroTrustAccessPolicyStateJSON` leaves of the approval groups on the tree of
the text, on a policy whose condition arrays hold float64 numbers only. -/
theorem policy64_approval (iter : List (String × JSON) → List (String × JSON))
    (hiter : ∀ m, ∀ kv ∈ iter m, kv ∈ m) {json : Doc} {instancePath : List String}
    {kvs : List (String × JSON)}
    (h : Focus (instancePath ++ ["attributes"]) json kvs)
    (hrange : ∀ gs, lookupKey "approval_group" kvs = some (.arr gs) →
      ∃ gs', storedList gs = some gs')
    (hconds : ∀ k ∈ ["include", "exclude", "require"], ∀ x,
      lookupKey k kvs = some x → stored x = some x) :
    ((∀ b ∈ ["include", "exclude", "require", "approval_group"], ∀ xs,
        lookupKey b kvs = some (.arr xs) → ∀ c ∈ xs, ∃ m, c = .obj m) →
      ∃ r, transformZeroTrustAccessPolicyStateJSON64 iter json instancePath = some r) ∧
    ∀ r, transformZeroTrustAccessPolicyStateJSON64 iter json instancePath = some r →
      ∃ kvs', Focus (instancePath ++ ["attributes"]) r kvs' ∧
        ∀ gs gs', lookupKey "approval_group" kvs = some (.arr gs) → storedList gs = some gs' →
          ((kvs.map Prod.fst).Nodup → lookupKey "approval_group" kvs' = none) ∧
          (gs ≠ [] → lookupKey "approval_groups" kvs' = some (.arr gs')) ∧
          (gs = [] → lookupKey "approval_groups" kvs' = lookupKey "approval_groups" kvs) := by
  have step : ∀ {d1 : Doc} {kvs1 : List (String × JSON)} (b : String),
      Focus (instancePath ++ ["attributes"]) d1 kvs1 → b ∈ ["include", "exclude", "require"] →
      lookupKey b kvs1 = lookupKey b kvs →
      migrateConditionAttr64 iter (instancePath ++ ["attributes"]) d1 b =
        migrateConditionAttr iter (instancePath ++ ["attributes"]) d1 b := by
    intro d1 kvs1 b hF hb hsame
    apply migrateConditionAttr64_eq iter hiter
    intro v hv
    rw [focus_get hF, hsame] at hv
    exact hconds b hb v hv
  constructor
  · intro hobj
    obtain ⟨d0, kvs0, e0, -, -⟩ := migrateApprovalGroup_focus h (hobj "approval_group"
      (by decide))
    obtain ⟨d1, e1⟩ := migrateApprovalGroup64_some ⟨d0, e0⟩
    obtain ⟨kvs1, hF1, hk1, -, -⟩ := migrateApprovalGroup64_full h hrange e1
    obtain ⟨d2, kvs2, e2, hF2, hk2⟩ := migrateConditionAttr_focus iter hF1 "include" (by
      rw [hk1 _ (by decide) (by decide)]
      exact hobj "include" (by decide))
    obtain ⟨d3, kvs3, e3, hF3, hk3⟩ := migrateConditionAttr_focus iter hF2 "exclude" (by
      rw [hk2 _ (by decide), hk1 _ (by decide) (by decide)]
      exact hobj "exclude" (by decide))
    obtain ⟨d4, kvs4, e4, hF4, hk4⟩ := migrateConditionAttr_focus iter hF3 "require" (by
      rw [hk3 _ (by decide), hk2 _ (by decide), hk1 _ (by decide) (by decide)]
      exact hobj "require" (by decide))
    have s2 := step "include" hF1 (by decide) (hk1 _ (by decide) (by decide))
    have s3 := step "exclude" hF2 (by decide)
      ((hk2 _ (by decide)).trans (hk1 _ (by decide) (by decide)))
    have s4 := step "require" hF3 (by decide)
      ((hk3 _ (by decide)).trans ((hk2 _ (by decide)).trans (hk1 _ (by decide) (by decide))))
    refine ⟨defaultSessionDuration (instancePath ++ ["attributes"])
      (deleteUnsupported (instancePath ++ ["attributes"]) d4), ?_⟩
    simp only [transformZeroTrustAccessPolicyStateJSON64, e1, Option.some_bind,
      List.foldlM_cons, List.foldlM_nil, s2, e2, s3, e3, s4, e4, Option.bind_eq_bind,
      Option.pure_def, Option.map_some', bind, pure]
  · intro r hr
    simp only [transformZeroTrustAccessPolicyStateJSON64, List.foldlM_cons, List.foldlM_nil,
      Option.bind_eq_bind, Option.pure_def, bind, pure] at hr
    cases e1 : migrateApprovalGroup64 (instancePath ++ ["attributes"]) json with
    | none => simp [e1] at hr
    | some d1 =>
      obtain ⟨kvs1, hF1, hk1, hn1, ha1⟩ := migrateApprovalGroup64_full h hrange e1
      rw [e1] at hr
      simp only [Option.some_bind] at hr
      rw [step "include" hF1 (by decide) (hk1 _ (by decide) (by decide))] at hr
      cases e2 : migrateConditionAttr iter (instancePath ++ ["attributes"]) d1 "include" with
      | none => simp [e2] at hr
      | some d2 =>
        obtain ⟨kvs2, hF2, hk2, hn2⟩ := migrateConditionAttr_full iter hF1 e2
        rw [e2] at hr
        simp only [Option.some_bind] at hr
        rw [step "exclude" hF2 (by decide)
          ((hk2 _ (by decide)).trans (hk1 _ (by decide) (by decide)))] at hr
        cases e3 : migrateConditionAttr iter (instancePath ++ ["attributes"]) d2 "exclude" with
        | none => simp [e3] at hr
        | some d3 =>
          obtain ⟨kvs3, hF3, hk3, hn3⟩ := migrateConditionAttr_full iter hF2 e3
          rw [e3] at hr
          simp only [Option.some_bind] at hr
          rw [step "require" hF3 (by decide)
            ((hk3 _ (by decide)).trans ((hk2 _ (by decide)).trans
              (hk1 _ (by decide) (by decide))))] at hr
          cases e4 : migrateConditionAttr iter (instancePath ++ ["attributes"]) d3
              "require" with
          | none => simp [e4] at hr
          | some d4 =>
            obtain ⟨kvs4, hF4, hk4, hn4⟩ := migrateConditionAttr_full iter hF3 e4
            rw [e4] at hr
            simp only [Option.some_bind, Option.map_some', Option.some.injEq] at hr
            subst hr
            obtain ⟨kvs5, hF5, hk5, hn5⟩ := deleteUnsupported_full hF4
            obtain ⟨kvs6, hF6, hk6, -, -⟩ := defaultSessionDuration_full hF5
            refine ⟨kvs6, hF6, ?_⟩
            intro gs gs' hgs hgs'
            obtain ⟨a1, a2, a3⟩ := ha1 gs gs' hgs hgs'
            have f : ∀ k, k ∈ ["approval_group", "approval_groups"] →
                lookupKey k kvs6 = lookupKey k kvs1 := by
              intro k hk
              simp only [List.mem_cons, List.mem_singleton, List.not_mem_nil, or_false] at hk
              rcases hk with rfl | rfl
              · rw [hk6 _ (by decide), hk5 _ (by decide), hk4 _ (by decide),
                  hk3 _ (by decide), hk2 _ (by decide)]
              · rw [hk6 _ (by decide), hk5 _ (by decide), hk4 _ (by decide),
                  hk3 _ (by decide), hk2 _ (by decide)]
            refine ⟨fun hn => ?_, fun hne => ?_, fun he => ?_⟩
            · rw [f _ (by decide)]
              exact a1 hn
            · rw [f _ (by decide)]
              exact a2 hne
            · rw [f _ (by decide)]
              exact a3 he
theorem roundHalfEven_one (n : Nat) : roundHalfEven n 1 = n := by
  simp [roundHalfEven, Nat.mod_one]

theorem bitLength_spec : ∀ (fuel n : Nat), n ≤ fuel →
    n < 2 ^ bitLength fuel n ∧ (0 < n → 2 ^ (bitLength fuel n - 1) ≤ n) := by
  intro fuel
  induction fuel with
  | zero =>
    intro n h
    have : n = 0 := by omega
    subst this
    simp [bitLength]
  | succ fuel ih =>
    intro n h
    by_cases hn : n = 0
    · subst hn
      simp [bitLength]
    · have h2 : n / 2 ≤ fuel := by omega
      obtain ⟨a, b⟩ := ih (n / 2) h2
      simp only [bitLength, hn, if_false, Nat.add_sub_cancel]
      constructor
      · rw [pow_succ]
        omega
      · intro _
        by_cases h0 : n / 2 = 0
        · have hb : bitLength fuel (n / 2) = 0 := by
            rw [h0]
            cases fuel <;> simp [bitLength]
          rw [hb]
          simp
          omega
        · have hb := b (by omega)
          have hpos : 0 < bitLength fuel (n / 2) := by
            by_contra hc
            have hz : bitLength fuel (n / 2) = 0 := by omega
            rw [hz] at a
            simp at a
            exact h0 a
          obtain ⟨c, hc⟩ : ∃ c, bitLength fuel (n / 2) = c + 1 := ⟨_, (Nat.succ_pred_eq_of_pos hpos).symm⟩
          rw [hc] at hb ⊢
          simp only [Nat.add_sub_cancel] at hb
          rw [pow_succ]
          omega

theorem bitLength_le_of_lt {n y : Nat} (h : n < 2 ^ y) : bitLength n n ≤ y := by
  by_cases hn : n = 0
  · subst hn
    simp [bitLength]
  · have hb := (bitLength_spec n n (le_refl _)).2 (by omega)
    by_contra hc
    have h1 : y ≤ bitLength n n - 1 := by omega
    have h2 : 2 ^ y ≤ 2 ^ (bitLength n n - 1) := Nat.pow_le_pow_right (by decide) h1
    omega

theorem bitLength_pos {n : Nat} (hn : 0 < n) : 0 < bitLength n n := by
  by_contra hc
  have hz : bitLength n n = 0 := by omega
  have := (bitLength_spec n n (le_refl _)).1
  rw [hz] at this
  simp at this
  omega

/-- Every integer of magnitude below `2 ^ 53` is a float64 value. -/
theorem float64_intCast (n : Int) (h : n.natAbs < 2 ^ 53) : float64 (n : ℚ) = some (n : ℚ) := by
  by_cases hn : n = 0
  · subst hn
    simp [float64]
  · have hN : 0 < n.natAbs := Int.natAbs_pos.2 hn
    have hL := bitLength_le_of_lt h
    have hLpos := bitLength_pos hN
    have hspec := bitLength_spec n.natAbs n.natAbs (le_refl _)
    have hb1 : bitLength 1 1 = 1 := by decide
    have he : binaryExponent n.natAbs 1 = (bitLength n.natAbs n.natAbs : Int) - 1 := by
      have h0 : (0 : Int) ≤ (bitLength n.natAbs n.natAbs : Int) - 1 := by omega
      have ht : ((bitLength n.natAbs n.natAbs : Int) - 1).toNat =
          bitLength n.natAbs n.natAbs - 1 := by omega
      simp only [binaryExponent, hb1, Nat.cast_one, h0, if_true, ht, mul_one]
      rw [if_pos (hspec.2 hN)]
    have hnum : ((n : ℚ)).num = n := Rat.num_intCast n
    have hden : ((n : ℚ)).den = 1 := Rat.den_intCast n
    have hs : max (binaryExponent n.natAbs 1) (-1022) - 52 =
        (bitLength n.natAbs n.natAbs : Int) - 53 := by
      rw [he]
      omega
    unfold float64
    simp only [hnum, hden, hn, if_false, hs, one_mul]
    by_cases h53 : bitLength n.natAbs n.natAbs = 53
    · simp only [h53, Nat.cast_ofNat, sub_self, le_refl, if_true, Int.toNat_zero, pow_zero,
        roundHalfEven_one, mul_one, add_zero, Int.sign_mul_natAbs]
      rw [if_neg (by decide)]
    · have hlt : bitLength n.natAbs n.natAbs < 53 := by omega
      have hneg : ¬ (0 : Int) ≤ (bitLength n.natAbs n.natAbs : Int) - 53 := by omega
      simp only [hneg, if_false, roundHalfEven_one]
      obtain ⟨k, hk⟩ : ∃ k, (-((bitLength n.natAbs n.natAbs : Int) - 53)).toNat = k := ⟨_, rfl⟩
      have hk2 : bitLength n.natAbs n.natAbs + k = 53 := by omega
      rw [hk]
      have hm : n.natAbs * 2 ^ k < 2 ^ 53 := by
        rw [← hk2, pow_add]
        exact Nat.mul_lt_mul_of_pos_right hspec.1 (Nat.pow_pos (by decide))
      have hbl := bitLength_le_of_lt hm
      have hc : ¬ (1024 : Int) < (bitLength (n.natAbs * 2 ^ k) (n.natAbs * 2 ^ k) : Int) +
          ((bitLength n.natAbs n.natAbs : Int) - 53) := by omega
      rw [if_neg hc]
      congr 1
      rw [Nat.cast_mul, ← mul_assoc, Int.sign_mul_natAbs, Rat.mkRat_eq_div]
      push_cast
      field_simp
/-! ## Claims on the values that pass through `Value()` -/

/-- C18 (counterexample): a load balancer whose `fallback_pool_id` is the number
`9007199254740993`: after `transformLoadBalancerStateJSON`, on the tree of the text,
`fallback_pool` holds `9007199254740992`, the float64 that `gjson` reads, and not the value that
`fallback_pool_id` had. -/
theorem loadBalancer_rename_rounds :
    largeNumberLoadBalancer.get (firstInstance ++ ["attributes"] ++ ["fallback_pool_id"]) =
      some (.num 9007199254740993) ∧
    (transformLoadBalancerStateJSON64 largeNumberLoadBalancer firstInstance).get
        (firstInstance ++ ["attributes"] ++ ["fallback_pool"]) =
      some (.num 9007199254740992) ∧
    (transformLoadBalancerStateJSON64 largeNumberLoadBalancer firstInstance).get
        (firstInstance ++ ["attributes"] ++ ["fallback_pool"]) ≠
      some (.num 9007199254740993) := by
  have e : (transformLoadBalancerStateJSON64 largeNumberLoadBalancer firstInstance).get
      (firstInstance ++ ["attributes"] ++ ["fallback_pool"]) =
      some (.num 9007199254740992) := rfl
  refine ⟨rfl, e, ?_⟩
  rw [e]
  intro h
  have h2 := JSON.num.inj (Option.some.inj h)
  norm_num at h2

/-- C18 (amended): for a load-balancer attributes object (member names distinct) that has the
key `fallback_pool_id` (respectively `default_pool_ids`) with value `v`, when no number of the
two values to rename is outside the range of float64: after `transformLoadBalancerStateJSON`,
on the tree of the text, the key `fallback_pool` (respectively `default_pools`) holds `w`, the
value `v` with every number replaced by the float64 nearest to it, and the old key is absent;
so the new key holds `v` itself when every number of `v` is a float64 value.  The function
`transformLoadBalancerState`, which moves the Go value on the map, leaves `v` itself under the
new key and removes the old key. -/
theorem loadBalancer_rename (json : Doc) (instancePath : List String)
    (attributes : List (String × JSON)) (old new : String) (v w : JSON)
    (hattrs : json.get (instancePath ++ ["attributes"]) = some (.obj attributes))
    (hkeys : (attributes.map Prod.fst).Nodup)
    (hrange : ∀ k ∈ ["fallback_pool_id", "default_pool_ids"], ∀ x,
      lookupKey k attributes = some x → ∃ y, stored x = some y)
    (hname : (old, new) ∈
      [("fallback_pool_id", "fallback_pool"), ("default_pool_ids", "default_pools")])
    (hv : lookupKey old attributes = some v) (hw : stored v = some w) :
    ((transformLoadBalancerStateJSON64 json instancePath).get
        (instancePath ++ ["attributes"] ++ [new]) = some w ∧
      (transformLoadBalancerStateJSON64 json instancePath).get
        (instancePath ++ ["attributes"] ++ [old]) = none) ∧
    (stored v = some v →
      (transformLoadBalancerStateJSON64 json instancePath).get
        (instancePath ++ ["attributes"] ++ [new]) = some v) ∧
    (lookupKey new (transformLoadBalancerState attributes) = some v ∧
      lookupKey old (transformLoadBalancerState attributes) = none) := by
  have hr := transformLoadBalancerStateJSON64_rename ((focus_iff_get _ _ _).mpr hattrs) hkeys
    hrange old new v w hname hv hw
  refine ⟨hr, ?_, transformLoadBalancerState_rename attributes hkeys old new v hname hv⟩
  intro hfix
  rw [hfix] at hw
  cases hw
  exact hr.1

/-- C18 (amended), at the example load balancer, for both names, and at the load balancer whose
`fallback_pool_id` is `9007199254740993`. -/
theorem loadBalancer_rename_witness :
    ((transformLoadBalancerStateJSON64 loadBalancerState firstInstance).get
        (firstInstance ++ ["attributes"] ++ ["fallback_pool"]) = some (.str "pool-1") ∧
      (transformLoadBalancerStateJSON64 loadBalancerState firstInstance).get
        (firstInstance ++ ["attributes"] ++ ["fallback_pool_id"]) = none) ∧
    ((transformLoadBalancerStateJSON64 loadBalancerState firstInstance).get
        (firstInstance ++ ["attributes"] ++ ["default_pools"]) =
          some (.arr [.str "pool-1", .str "pool-2"]) ∧
      (transformLoadBalancerStateJSON64 loadBalancerState firstInstance).get
        (firstInstance ++ ["attributes"] ++ ["default_pool_ids"]) = none) ∧
    ((transformLoadBalancerStateJSON64 largeNumberLoadBalancer firstInstance).get
        (firstInstance ++ ["attributes"] ++ ["fallback_pool"]) =
          some (.num 9007199254740992) ∧
      lookupKey "fallback_pool"
          (transformLoadBalancerState [("fallback_pool_id", .num 9007199254740993)]) =
        some (.num 9007199254740993)) :=
  have hrange : ∀ k ∈ ["fallback_pool_id", "default_pool_ids"], ∀ x,
      lookupKey k loadBalancerAttributes = some x → ∃ y, stored x = some y := by
    intro k hk x hx
    simp only [List.mem_cons, List.mem_singleton, List.not_mem_nil, or_false] at hk
    rcases hk with rfl | rfl
    · obtain rfl : JSON.str "pool-1" = x := Option.some.inj hx
      exact ⟨_, rfl⟩
    · obtain rfl : JSON.arr [.str "pool-1", .str "pool-2"] = x := Option.some.inj hx
      exact ⟨_, rfl⟩
  have hlarge : ∀ k ∈ ["fallback_pool_id", "default_pool_ids"], ∀ x,
      lookupKey k [("fallback_pool_id", JSON.num 9007199254740993)] = some x →
        ∃ y, stored x = some y := by
    intro k hk x hx
    simp only [List.mem_cons, List.mem_singleton, List.not_mem_nil, or_false] at hk
    rcases hk with rfl | rfl
    · obtain rfl : JSON.num 9007199254740993 = x := Option.some.inj hx
      exact ⟨_, rfl⟩
    · cases hx
  have h3 := loadBalancer_rename largeNumberLoadBalancer firstInstance
    [("fallback_pool_id", .num 9007199254740993)] "fallback_pool_id" "fallback_pool"
    (.num 9007199254740993) (.num 9007199254740992) rfl (by decide) hlarge (by decide) rfl rfl
  have h1 := loadBalancer_rename loadBalancerState firstInstance loadBalancerAttributes
    "fallback_pool_id" "fallback_pool" (.str "pool-1") (.str "pool-1") rfl (by decide)
    hrange (by decide) rfl rfl
  ⟨⟨h1.2.1 rfl, h1.1.2⟩,
   (loadBalancer_rename loadBalancerState firstInstance loadBalancerAttributes
      "default_pool_ids" "default_pools" (.arr [.str "pool-1", .str "pool-2"])
      (.arr [.str "pool-1", .str "pool-2"]) rfl (by decide) hrange (by decide) rfl rfl).1,
   h3.1.1, h3.2.2.1⟩

/-- C23 (counterexample): a pool whose `load_shedding` holds the one object
`{default_percent: 9007199254740993}`: after `transformLoadBalancerPoolStateJSON`, on the tree
of the text, the key holds `{default_percent: 9007199254740992}`, which is not the first
element of the array. -/
theorem pool_singleton_first_rounds :
    largeNumberPool.get (firstInstance ++ ["attributes"] ++ ["load_shedding"]) =
      some (.arr [.obj [("default_percent", .num 9007199254740993)]]) ∧
    (transformLoadBalancerPoolStateJSON64 largeNumberPool firstInstance).get
        (firstInstance ++ ["attributes"] ++ ["load_shedding"]) =
      some (.obj [("default_percent", .num 9007199254740992)]) ∧
    (transformLoadBalancerPoolStateJSON64 largeNumberPool firstInstance).get
        (firstInstance ++ ["attributes"] ++ ["load_shedding"]) ≠
      some (.obj [("default_percent", .num 9007199254740993)]) := by
  have e : (transformLoadBalancerPoolStateJSON64 largeNumberPool firstInstance).get
      (firstInstance ++ ["attributes"] ++ ["load_shedding"]) =
      some (.obj [("default_percent", .num 9007199254740992)]) := rfl
  refine ⟨rfl, e, ?_⟩
  rw [e]
  intro h
  have h2 := JSON.num.inj (Prod.mk.inj (List.cons.inj (JSON.obj.inj (Option.some.inj h))).1).2
  norm_num at h2

/-- C23 (amended): for a pool instance whose attributes object holds a non-empty array in
`load_shedding` (respectively `origin_steering`), when no number of the first elements of the
two arrays is outside the range of float64 and `origins` holds float64 numbers only: after
`transformLoadBalancerPoolStateJSON`, on the tree of the text, that key holds `w`, the first
element of the array with every number replaced by the float64 nearest to it; so it holds the
first element itself when every number of the first element is a float64 value. -/
theorem pool_singleton_first (json : Doc) (instancePath : List String)
    (attributes : List (String × JSON)) (attr : String) (first w : JSON) (rest : List JSON)
    (hattrs : json.get (instancePath ++ ["attributes"]) = some (.obj attributes))
    (hattr : attr ∈ ["load_shedding", "origin_steering"])
    (hv : lookupKey attr attributes = some (.arr (first :: rest)))
    (hrange : ∀ a ∈ ["load_shedding", "origin_steering"], ∀ x xs,
      lookupKey a attributes = some (.arr (x :: xs)) → ∃ y, stored x = some y)
    (horigins : ∀ x, lookupKey "origins" attributes = some x → stored x = some x)
    (hw : stored first = some w) :
    (transformLoadBalancerPoolStateJSON64 json instancePath).get
        (instancePath ++ ["attributes"] ++ [attr]) = some w ∧
    (stored first = some first →
      (transformLoadBalancerPoolStateJSON64 json instancePath).get
        (instancePath ++ ["attributes"] ++ [attr]) = some first) := by
  have hr := transformLoadBalancerPoolStateJSON64_first ((focus_iff_get _ _ _).mpr hattrs)
    hrange horigins attr first w rest hattr hv hw
  refine ⟨hr, ?_⟩
  intro hfix
  rw [hfix] at hw
  cases hw
  exact hr

/-- C23 (amended), at the example pool with one-element arrays, for both attributes, and at the
pool whose `load_shedding` holds `{default_percent: 9007199254740993}`. -/
theorem pool_singleton_first_witness :
    (transformLoadBalancerPoolStateJSON64 steeredPoolState firstInstance).get
        (firstInstance ++ ["attributes"] ++ ["load_shedding"]) =
      some (.obj [("default_percent", .num 50)]) ∧
    (transformLoadBalancerPoolStateJSON64 steeredPoolState firstInstance).get
        (firstInstance ++ ["attributes"] ++ ["origin_steering"]) =
      some (.obj [("policy", .str "random")]) ∧
    (transformLoadBalancerPoolStateJSON64 largeNumberPool firstInstance).get
        (firstInstance ++ ["attributes"] ++ ["load_shedding"]) =
      some (.obj [("default_percent", .num 9007199254740992)]) :=
  have hrange : ∀ a ∈ ["load_shedding", "origin_steering"], ∀ x xs,
      lookupKey a steeredPoolAttributes = some (.arr (x :: xs)) → ∃ y, stored x = some y := by
    intro a ha x xs hx
    simp only [List.mem_cons, List.mem_singleton, List.not_mem_nil, or_false] at ha
    rcases ha with rfl | rfl
    · obtain ⟨rfl, -⟩ := List.cons.inj (JSON.arr.inj (Option.some.inj hx))
      exact ⟨_, rfl⟩
    · obtain ⟨rfl, -⟩ := List.cons.inj (JSON.arr.inj (Option.some.inj hx))
      exact ⟨_, rfl⟩
  have horigins : ∀ x, lookupKey "origins" steeredPoolAttributes = some x →
      stored x = some x := by
    intro x hx
    obtain rfl : JSON.arr [.obj hostOrigin] = x := Option.some.inj hx
    rfl
  have hlarge : ∀ a ∈ ["load_shedding", "origin_steering"], ∀ x xs,
      lookupKey a [("load_shedding",
        JSON.arr [.obj [("default_percent", .num 9007199254740993)]])] =
          some (.arr (x :: xs)) → ∃ y, stored x = some y := by
    intro a ha x xs hx
    simp only [List.mem_cons, List.mem_singleton, List.not_mem_nil, or_false] at ha
    rcases ha with rfl | rfl
    · obtain ⟨rfl, -⟩ := List.cons.inj (JSON.arr.inj (Option.some.inj hx))
      exact ⟨_, rfl⟩
    · cases hx
  ⟨(pool_singleton_first steeredPoolState firstInstance steeredPoolAttributes "load_shedding"
      (.obj [("default_percent", .num 50)]) (.obj [("default_percent", .num 50)]) [] rfl
      (by decide) rfl hrange horigins rfl).2 rfl,
   (pool_singleton_first steeredPoolState firstInstance steeredPoolAttributes "origin_steering"
      (.obj [("policy", .str "random")]) (.obj [("policy", .str "random")]) [] rfl
      (by decide) rfl hrange horigins rfl).1,
   (pool_singleton_first largeNumberPool firstInstance
      [("load_shedding", .arr [.obj [("default_percent", .num 9007199254740993)]])]
      "load_shedding" (.obj [("default_percent", .num 9007199254740993)])
      (.obj [("default_percent", .num 9007199254740992)]) [] rfl (by decide) rfl hlarge
      (fun x hx => by cases hx) rfl).1⟩

/-- C29 (counterexample): a policy whose approval group needs `9007199254740993` approvals:
after `transformZeroTrustAccessPolicyStateJSON`, on the tree of the text, the group of
`approval_groups` needs `9007199254740992` approvals, which is not the number it had. -/
theorem policy_approval_groups_rounds :
    largeNumberPolicy.get
        (firstInstance ++ ["attributes"] ++ ["approval_group", "0", "approvals_needed"]) =
      some (.num 9007199254740993) ∧
    ∃ r, transformZeroTrustAccessPolicyStateJSON64 id largeNumberPolicy firstInstance =
        some r ∧
      r.get (firstInstance ++ ["attributes"] ++ ["approval_groups", "0", "approvals_needed"]) =
        some (.num 9007199254740992) ∧
      r.get (firstInstance ++ ["attributes"] ++ ["approval_groups", "0", "approvals_needed"]) ≠
        some (.num 9007199254740993) := by
  refine ⟨rfl, _, rfl, rfl, ?_⟩
  intro h
  have h1 : some (JSON.num 9007199254740992) = some (JSON.num 9007199254740993) := h
  have h2 := JSON.num.inj (Option.some.inj h1)
  norm_num at h2

/-- C29 (amended): for an instance whose `approval_group` is an array `gs`, when no number of
`gs` is outside the range of float64 (`ws` is `gs` with every number replaced by the float64
nearest to it), the condition arrays hold float64 numbers only and a condition map is iterated
over its own entries: on the tree of the text, `transformZeroTrustAccessPolicyStateJSON`
returns when the elements of `gs` and of the condition arrays are objects, and whenever it
returns: when `gs` is not empty the key `approval_groups` holds the list `ws`; the key
`approval_group` is absent (member names distinct); and when `gs` is empty `approval_groups`
is what it was, so it is not created.  The list `ws` has the length of `gs`; its group `i` has
the member names of group `i` of `gs`, every member with its value as float64 reads it, and a
number `q` in `approvals_needed` is there the float64 nearest to `q`.  Every integer of
magnitude below `2 ^ 53` is the float64 nearest to it, so such a number of approvals is kept;
and when every number of `gs` is a float64 value and `gs` is not empty, `approval_groups` holds
the list `gs` itself. -/
theorem policy_approval_groups (iter : List (String × JSON) → List (String × JSON))
    (json : Doc) (instancePath : List String) (attributes : List (String × JSON))
    (gs ws : List JSON)
    (hiter : ∀ m, ∀ kv ∈ iter m, kv ∈ m)
    (hattrs : json.get (instancePath ++ ["attributes"]) = some (.obj attributes))
    (hgroup : lookupKey "approval_group" attributes = some (.arr gs))
    (hws : storedList gs = some ws)
    (hconds : ∀ k ∈ ["include", "exclude", "require"], ∀ x,
      lookupKey k attributes = some x → stored x = some x) :
    ((∀ b ∈ ["include", "exclude", "require", "approval_group"], ∀ xs,
        lookupKey b attributes = some (.arr xs) → ∀ c ∈ xs, ∃ m, c = .obj m) →
      ∃ r, transformZeroTrustAccessPolicyStateJSON64 iter json instancePath = some r) ∧
    (∀ r, transformZeroTrustAccessPolicyStateJSON64 iter json instancePath = some r →
      (gs ≠ [] →
        r.get (instancePath ++ ["attributes"] ++ ["approval_groups"]) = some (.arr ws)) ∧
      ((attributes.map Prod.fst).Nodup →
        r.get (instancePath ++ ["attributes"] ++ ["approval_group"]) = none) ∧
      (gs = [] →
        r.get (instancePath ++ ["attributes"] ++ ["approval_groups"]) =
          lookupKey "approval_groups" attributes)) ∧
    (ws.length = gs.length ∧
      ∀ (i : Nat) (m : List (String × JSON)), gs[i]? = some (.obj m) →
        ∃ mw, ws[i]? = some (.obj mw) ∧ mw.map Prod.fst = m.map Prod.fst ∧
          (∀ k v, lookupKey k m = some v →
            ∃ vw, lookupKey k mw = some vw ∧ stored v = some vw) ∧
          ∀ q, lookupKey "approvals_needed" m = some (.num q) →
            ∃ r, float64 q = some r ∧ lookupKey "approvals_needed" mw = some (.num r)) ∧
    (∀ n : Int, n.natAbs < 2 ^ 53 → float64 (n : ℚ) = some (n : ℚ)) ∧
    ((∀ g ∈ gs, stored g = some g) → gs ≠ [] →
      ∀ r, transformZeroTrustAccessPolicyStateJSON64 iter json instancePath = some r →
        r.get (instancePath ++ ["attributes"] ++ ["approval_groups"]) = some (.arr gs)) := by
  have h0 := (focus_iff_get _ _ _).mpr hattrs
  have hrange : ∀ gs0, lookupKey "approval_group" attributes = some (.arr gs0) →
      ∃ ws0, storedList gs0 = some ws0 := by
    intro gs0 h
    rw [hgroup] at h
    simp only [Option.some.injEq, JSON.arr.injEq] at h
    subst h
    exact ⟨ws, hws⟩
  obtain ⟨htotal, hres⟩ := policy64_approval iter hiter h0 hrange hconds
  refine ⟨htotal, ?_, storedList_groups hws, float64_intCast, ?_⟩
  · intro r hr
    obtain ⟨kvs1, hF, ha⟩ := hres r hr
    obtain ⟨a1, a2, a3⟩ := ha gs ws hgroup hws
    rw [focus_get hF, focus_get hF]
    exact ⟨a2, a1, a3⟩
  · intro hfix hne r hr
    obtain ⟨kvs1, hF, ha⟩ := hres r hr
    rw [focus_get hF]
    exact (ha gs gs hgroup ((storedList_iff gs).2 hfix)).2.1 hne

/-- C29 (amended), at the example policy, whose one approval group needs two approvals, at a
policy whose `approval_group` is the empty array, and at the policy whose group needs
`9007199254740993` approvals. -/
theorem policy_approval_groups_witness :
    (∃ r, transformZeroTrustAccessPolicyStateJSON64 id policyState firstInstance = some r ∧
      r.get (firstInstance ++ ["attributes"] ++ ["approval_groups"]) =
        some (.arr [.obj [("approvals_needed", .num 2),
          ("email_addresses", .arr [.str "a@example.com"])]]) ∧
      r.get (firstInstance ++ ["attributes"] ++ ["approval_group"]) = none) ∧
    (∀ r, transformZeroTrustAccessPolicyStateJSON64 id
        (some (.obj [("resources", .arr [.obj [("instances", .arr [.obj [("attributes",
          .obj [("approval_group", .arr [])])]])]])])) firstInstance = some r →
      r.get (firstInstance ++ ["attributes"] ++ ["approval_group"]) = none ∧
      r.get (firstInstance ++ ["attributes"] ++ ["approval_groups"]) = none) ∧
    (∀ r, transformZeroTrustAccessPolicyStateJSON64 id largeNumberPolicy firstInstance =
        some r →
      r.get (firstInstance ++ ["attributes"] ++ ["approval_groups"]) =
        some (.arr [.obj [("approvals_needed", .num 9007199254740992),
          ("email_addresses", .arr [.str "a@example.com"])]])) ∧
    (∃ r, float64 2 = some r ∧
      lookupKey "approvals_needed" [("approvals_needed", JSON.num 2),
        ("email_addresses", .arr [.str "a@example.com"])] = some (.num r)) ∧
    float64 ((2 : Int) : ℚ) = some ((2 : Int) : ℚ) := by
  have hconds : ∀ k ∈ ["include", "exclude", "require"], ∀ x,
      lookupKey k policyAttributes = some x → stored x = some x := by
    intro k hk x hx
    simp only [List.mem_cons, List.mem_singleton, List.not_mem_nil, or_false] at hk
    rcases hk with rfl | rfl | rfl
    · obtain rfl : JSON.arr [.obj [("email", .arr [.str "a@example.com",
        .str "b@example.com"])]] = x := Option.some.inj hx
      rfl
    · cases hx
    · cases hx
  have h := policy_approval_groups id policyState firstInstance policyAttributes
    [.obj [("approvals_needed", .num 2), ("email_addresses", .arr [.str "a@example.com"])]]
    [.obj [("approvals_needed", .num 2), ("email_addresses", .arr [.str "a@example.com"])]]
    (fun _ _ hkv => hkv) rfl rfl rfl hconds
  have h2 := policy_approval_groups id
    (some (.obj [("resources", .arr [.obj [("instances", .arr [.obj [("attributes",
      .obj [("approval_group", .arr [])])]])]])])) firstInstance
    [("approval_group", .arr [])] [] [] (fun _ _ hkv => hkv) rfl rfl rfl
    (fun k _ x hx => by
      simp only [lookupKey] at hx
      split at hx
      · cases hx
        rfl
      · cases hx)
  have h3 := policy_approval_groups id largeNumberPolicy firstInstance
    [("approval_group", .arr [.obj [("approvals_needed", .num 9007199254740993),
      ("email_addresses", .arr [.str "a@example.com"])]])]
    [.obj [("approvals_needed", .num 9007199254740993),
      ("email_addresses", .arr [.str "a@example.com"])]]
    [.obj [("approvals_needed", .num 9007199254740992),
      ("email_addresses", .arr [.str "a@example.com"])]]
    (fun _ _ hkv => hkv) rfl rfl rfl
    (fun k hk x hx => by
      simp only [List.mem_cons, List.mem_singleton, List.not_mem_nil, or_false] at hk
      rcases hk with rfl | rfl | rfl <;> cases hx)
  obtain ⟨r, hr⟩ := h.1 policyAttributes_objects
  obtain ⟨mw, hmw, -, -, hq⟩ := h.2.2.1.2 0 _ rfl
  obtain ⟨q, hq1, hq2⟩ := hq 2 rfl
  have hmw2 := Option.some.inj hmw
  have hmw3 := JSON.obj.inj hmw2
  subst hmw3
  have hfix : ∀ g ∈ [JSON.obj [("approvals_needed", .num 2),
      ("email_addresses", .arr [.str "a@example.com"])]], stored g = some g := by
    intro g hg
    simp only [List.mem_singleton] at hg
    subst hg
    rfl
  exact ⟨⟨r, hr, h.2.2.2.2 hfix (by simp) r hr, (h.2.1 r hr).2.1 (by decide)⟩,
    fun r2 hr2 => ⟨(h2.2.1 r2 hr2).2.1 (by decide), (h2.2.1 r2 hr2).2.2 rfl⟩,
    fun r3 hr3 => (h3.2.1 r3 hr3).1 (by simp),
    ⟨q, hq1, hq2⟩, h.2.2.2.1 2 (by decide)⟩

end Migrate
